import Mathlib

/-! ## qframe: grouping hash table and aggregation

A shallow embedding of `internal/grouper/grouper.go` (the open-addressed
grouping table behind `GroupBy` and `Distinct`) and of `grouper.go`
(`Grouper.Aggregate`), followed by theorems about them.

Conventions of the embedding

* Row positions (`uint32`) and slice lengths are natural numbers; every
  conversion to a fixed-width integer that the source performs is written
  out with an explicit `% 2 ^ w`.
* A Go slice whose `nil`-ness the source tests is an `Option (List _)`; other
  slices and maps are lists, `nil` being the empty list.
* A function whose Go original can panic (index out of range) or loop
  forever returns `Option`; `none` stands for "no result".  Probe loops carry
  a fuel argument equal to the table length: a linear probe that has not
  stopped after that many steps has revisited a slot and never stops.
* The `float64` load factor only ever holds quotients of a 32-bit count by a
  power of two (and halves of them), which `float64` represents exactly; it
  is kept as an exact fraction.
-/

set_option autoImplicit false

namespace column

/-- Modelled from the spec: the result type of `compare(i,j)`, declared in
`internal/column`, which is not among the source files; the spec lists the
three orderings `Less`, `Equal`, `Greater`. -/
inductive CompareResult
  | Less
  | Equal
  | Greater
  deriving DecidableEq, Repr

/-- Modelled from the spec: the `Comparable` capability of a column
(`internal/column`, not among the source files): `compare(i,j)` and
`hash(i, seed)`.  The hash seed and result are `uint64` values. -/
structure Comparable where
  Compare : Nat → Nat → CompareResult
  Hash : Nat → Nat → Nat

end column

namespace integer

/-- Modelled from the spec: `integer.Pow2` (`internal/math/integer`, not among
the source files) yields the power of two with the given exponent; the spec
calls the table capacity a power of two sized from this exponent. -/
def Pow2 (exp : Nat) : Nat := 2 ^ exp

/-- Modelled from the spec: `integer.Max` (`internal/math/integer`, not among
the source files), the larger of two integers (`max(8, ...)` in the spec). -/
def Max (a b : Nat) : Nat := if a < b then b else a

end integer

namespace bits

/-- Number of binary digits of `x`, counting at most `fuel` of them. -/
def lenBits : Nat → Nat → Nat
  | 0, _ => 0
  | fuel + 1, x => if x = 0 then 0 else lenBits fuel (x / 2) + 1

/-- Go's `bits.Len64`: the number of bits needed to represent the `uint64`
value `x`, zero for `x = 0`. -/
def Len64 (x : Nat) : Nat := lenBits 64 x

end bits

/-- A `float64` value kept as the exact fraction `num / den`. -/
structure float64 where
  num : Nat
  den : Nat
  deriving DecidableEq, Repr

namespace float64

/-- The zero value of a `float64`. -/
def zero : float64 := ⟨0, 1⟩

/-- Conversion `float64(n)` of an integer. -/
def ofNat (n : Nat) : float64 := ⟨n, 1⟩

/-- Division of two `float64` values. -/
def div (a b : float64) : float64 := ⟨a.num * b.den, a.den * b.num⟩

/-- Strict comparison `a > b`, by cross multiplication. -/
def gt (a b : float64) : Bool := decide (b.num * a.den < a.num * b.den)

/-- The rational number a `float64` stands for. -/
def toRat (a : float64) : ℚ := (a.num : ℚ) / (a.den : ℚ)

end float64

namespace grouper

open column

/-- An entry in the hash table.  `ix` is the member slice (`nil` until the
group has a second member). -/
structure tableEntry where
  ix : Option (List Nat)
  hash : Nat
  firstPos : Nat
  occupied : Bool
  deriving DecidableEq, Repr

/-- The zero value of `tableEntry`, as produced by `make`. -/
def tableEntry.zero : tableEntry := ⟨none, 0, 0, false⟩

/-- Diagnostic counters of a grouping run. -/
structure GroupStats where
  RelocationCount : Nat
  RelocationCollisions : Nat
  InsertCollisions : Nat
  GroupCount : Nat
  LoadFactor : float64
  deriving DecidableEq, Repr

/-- The zero value of `GroupStats`. -/
def GroupStats.zero : GroupStats := ⟨0, 0, 0, 0, float64.zero⟩

/-- The grouping hash table. -/
structure table where
  entries : List tableEntry
  comparables : List Comparable
  stats : GroupStats
  loadFactor : float64
  groupCount : Nat
  collectIx : Bool

/-- Constant `growthFactor`. -/
def growthFactor : Nat := 2

/-- Constant `maxLoadFactor = 0.5`. -/
def maxLoadFactor : float64 := ⟨1, 2⟩

/-- The inner loop of `grow` for one entry `e`: starting at `pos`, step
linearly (in `uint32` arithmetic) to the first slot of `newEntries` that is not
occupied and store `e` there; every occupied slot passed adds one to the
relocation collisions.  Returns the new entries and the collision counter. -/
def relocate (bitMask : Nat) (e : tableEntry) :
    Nat → List tableEntry → Nat → Nat → Option (List tableEntry × Nat)
  | 0, _, _, _ => none
  | fuel + 1, newEntries, pos, collisions =>
    match newEntries[pos]? with
    | none => none
    | some slot =>
      if !slot.occupied then
        some (newEntries.set pos e, collisions)
      else
        relocate bitMask e fuel newEntries (((pos + 1) % 2 ^ 32) &&& bitMask) (collisions + 1)

/-- The outer loop of `grow`: every entry of the old table, in slot order, is
reinserted by its cached hash. -/
def relocateAll (bitMask : Nat) :
    List tableEntry → List tableEntry → Nat → Option (List tableEntry × Nat)
  | [], newEntries, collisions => some (newEntries, collisions)
  | e :: rest, newEntries, collisions =>
    match relocate bitMask e newEntries.length newEntries (e.hash &&& bitMask) collisions with
    | none => none
    | some (newEntries1, collisions1) => relocateAll bitMask rest newEntries1 collisions1

/-- Method `table.grow`. -/
def table.grow (t : table) : Option table :=
  let newLen := (growthFactor * t.entries.length) % 2 ^ 32
  let newEntries := List.replicate newLen tableEntry.zero
  let bitMask := (newLen + 2 ^ 32 - 1) % 2 ^ 32
  match relocateAll bitMask t.entries newEntries t.stats.RelocationCollisions with
  | none => none
  | some (newEntries1, collisions) =>
    some { t with
      entries := newEntries1
      stats := { t.stats with
        RelocationCollisions := collisions
        RelocationCount := t.stats.RelocationCount + 1 }
      loadFactor := float64.div t.loadFactor (float64.ofNat growthFactor) }

/-- Method `table.hash`: the hashes of the comparables are chained through the
`uint64` seed and the result is truncated to `uint32`. -/
def hashOf (comparables : List Comparable) (i : Nat) : Nat :=
  (comparables.foldl (fun hashVal c => c.Hash i hashVal % 2 ^ 64) 0) % 2 ^ 32

/-- Method `table.hash`. -/
def table.hash (t : table) (i : Nat) : Nat := hashOf t.comparables i

/-- Function `equals`: do rows `i` and `j` compare `Equal` on every
comparable? -/
def equals : List Comparable → Nat → Nat → Bool
  | [], _, _ => true
  | c :: rest, i, j => if c.Compare i j ≠ CompareResult.Equal then false else equals rest i j

/-- The probe loop of `insertEntry`: starting at `pos`, step linearly to the
first slot that is free or holds the key of row `i`; every other slot passed
adds one to the insert collisions.  Returns the slot found and the collision
counter. -/
def probe (comparables : List Comparable) (entries : List tableEntry) (hashSum i bitMask : Nat) :
    Nat → Nat → Nat → Option (Nat × Nat)
  | 0, _, _ => none
  | fuel + 1, pos, collisions =>
    match entries[pos]? with
    | none => none
    | some e =>
      if !e.occupied || (e.hash == hashSum && equals comparables i e.firstPos) then
        some (pos, collisions)
      else
        probe comparables entries hashSum i bitMask fuel (((pos + 1) % 2 ^ 64) &&& bitMask)
          (collisions + 1)

/-- The "update entry" part of `insertEntry`, applied to the slot `pos` found
by the probe loop. -/
def updateEntry (t : table) (i hashSum pos : Nat) (dstEntry : tableEntry) : table :=
  if !dstEntry.occupied then
    let groupCount := (t.groupCount + 1) % 2 ^ 32
    { t with
      entries := t.entries.set pos
        { dstEntry with hash := hashSum, firstPos := i, occupied := true }
      groupCount := groupCount
      loadFactor := float64.div (float64.ofNat groupCount) (float64.ofNat t.entries.length) }
  else if t.collectIx then
    match dstEntry.ix with
    | none => { t with entries := t.entries.set pos { dstEntry with ix := some [dstEntry.firstPos, i] } }
    | some ix => { t with entries := t.entries.set pos { dstEntry with ix := some (ix ++ [i]) } }
  else t

/-- The part of `insertEntry` after the growth check. -/
def insertNoGrow (t : table) (i : Nat) : Option table :=
  let hashSum := t.hash i
  let bitMask := (t.entries.length + 2 ^ 64 - 1) % 2 ^ 64
  let startPos := hashSum &&& bitMask
  match probe t.comparables t.entries hashSum i bitMask t.entries.length startPos
      t.stats.InsertCollisions with
  | none => none
  | some (pos, collisions) =>
    match t.entries[pos]? with
    | none => none
    | some dstEntry =>
      some (updateEntry { t with stats := { t.stats with InsertCollisions := collisions } }
        i hashSum pos dstEntry)

/-- Method `table.insertEntry`. -/
def table.insertEntry (t : table) (i : Nat) : Option table :=
  match (if t.loadFactor.gt maxLoadFactor then t.grow else some t) with
  | none => none
  | some t1 => insertNoGrow t1 i

/-- Function `newTable`. -/
def newTable (sizeExp : Nat) (comparables : List Comparable) (collectIx : Bool) : table :=
  { entries := List.replicate (integer.Pow2 sizeExp) tableEntry.zero
    comparables := comparables
    stats := GroupStats.zero
    loadFactor := float64.zero
    groupCount := 0
    collectIx := collectIx }

/-- Function `calculateInitialSizeExp`. -/
def calculateInitialSizeExp (ixLen : Nat) : Nat :=
  let fitSize := (ixLen % 2 ^ 64) / 4
  integer.Max (bits.Len64 fitSize) 3

/-- The loop of `groupIndex`: insert the rows of the index one by one. -/
def insertAll : table → List Nat → Option table
  | t, [] => some t
  | t, i :: rest =>
    match t.insertEntry i with
    | none => none
    | some t1 => insertAll t1 rest

/-- Function `groupIndex`. -/
def groupIndex (ix : List Nat) (comparables : List Comparable) (collectIx : Bool) :
    Option (List tableEntry × GroupStats) :=
  let initialSizeExp := calculateInitialSizeExp ix.length
  match insertAll (newTable initialSizeExp comparables collectIx) ix with
  | none => none
  | some t =>
    some (t.entries, { t.stats with LoadFactor := t.loadFactor, GroupCount := t.groupCount })

/-- The result loop of `GroupBy` over the table entries. -/
def collectGroups : List tableEntry → List (List Nat) → List (List Nat)
  | [], result => result
  | e :: rest, result =>
    if e.occupied then
      match e.ix with
      | none => collectGroups rest (result ++ [[e.firstPos]])
      | some ix => collectGroups rest (result ++ [ix])
    else collectGroups rest result

/-- Function `GroupBy`. -/
def GroupBy (ix : List Nat) (comparables : List Comparable) :
    Option (List (List Nat) × GroupStats) :=
  match groupIndex ix comparables true with
  | none => none
  | some (entries, stats) => some (collectGroups entries [], stats)

/-- The result loop of `Distinct` over the table entries. -/
def collectFirst : List tableEntry → List Nat → List Nat
  | [], result => result
  | e :: rest, result =>
    if e.occupied then collectFirst rest (result ++ [e.firstPos]) else collectFirst rest result

/-- Function `Distinct`. -/
def Distinct (ix : List Nat) (comparables : List Comparable) : Option (List Nat) :=
  match groupIndex ix comparables false with
  | none => none
  | some (entries, _) => some (collectFirst entries [])

/-- A comparable over integer data, used for concrete scenarios: rows compare
by value and hash to `31 * seed + |value|`. -/
def intComparable (data : List Int) : Comparable where
  Compare i j :=
    if data.getD i 0 = data.getD j 0 then CompareResult.Equal
    else if data.getD i 0 < data.getD j 0 then CompareResult.Less
    else CompareResult.Greater
  Hash i seed := (31 * seed + (data.getD i 0).natAbs) % 2 ^ 64

/-! ### Notions used to state and prove the properties of the table -/

/-- The occupied entries of a table, in slot order. -/
def occ (entries : List tableEntry) : List tableEntry := entries.filter (fun e => e.occupied)

/-- The rows of the group held by an entry: the member slice, or the first
position alone while the slice is still `nil`. -/
def members (e : tableEntry) : List Nat :=
  match e.ix with
  | none => [e.firstPos]
  | some ix => ix

/-- The groups held by a table, in slot order. -/
def groupsOf (entries : List tableEntry) : List (List Nat) := (occ entries).map members

/-- The exit test of the probe loop of `insertEntry` on a slot. -/
def stopInsert (comparables : List Comparable) (hashSum i : Nat) (e : tableEntry) : Bool :=
  !e.occupied || (e.hash == hashSum && equals comparables i e.firstPos)

/-- The exit test of the probe loop of `grow` on a slot. -/
def stopFree (e : tableEntry) : Bool := !e.occupied

/-- Linear probing in the abstract: the number of steps from `pos` to the first
slot that passes `stop`, stepping by one modulo the table length. -/
def scan (stop : tableEntry → Bool) (entries : List tableEntry) : Nat → Nat → Option Nat
  | 0, _ => none
  | fuel + 1, pos =>
    match entries[pos]? with
    | none => none
    | some e =>
      if stop e then some 0
      else (scan stop entries fuel ((pos + 1) % entries.length)).map (fun d => d + 1)

/-- The probing invariant of the table: from the home slot of every occupied
entry (its hash modulo the table length) up to the slot where it is stored,
every slot is occupied. -/
def Chain (entries : List tableEntry) : Prop :=
  ∀ (q : Nat) (e : tableEntry), entries[q]? = some e → e.occupied = true →
    ∀ d, d < (q + entries.length - e.hash % entries.length) % entries.length →
      ∃ e1, entries[(e.hash % entries.length + d) % entries.length]? = some e1 ∧
        e1.occupied = true

/-- Slots that are not occupied hold the zero value. -/
def FreeZero (entries : List tableEntry) : Prop :=
  ∀ e ∈ entries, e.occupied = false → e = tableEntry.zero

/-- The effect of `insertEntry` (after the growth check) when row `i` starts a
new group: a free slot, `d` probe steps away from the home slot of `i`, receives
the new entry, and every slot passed on the way is occupied by another key. -/
def StepNew (cs : List Comparable) (i : Nat) (t1 t2 : table) : Prop :=
  ∃ (l1 l2 : List tableEntry) (d : Nat),
    t1.entries = l1 ++ tableEntry.zero :: l2 ∧
    t2.entries = l1 ++ ⟨none, hashOf cs i, i, true⟩ :: l2 ∧
    d < t1.entries.length ∧
    l1.length = (hashOf cs i % t1.entries.length + d) % t1.entries.length ∧
    (∀ d1, d1 < d → ∃ e,
      t1.entries[(hashOf cs i % t1.entries.length + d1) % t1.entries.length]? = some e ∧
      e.occupied = true ∧ (e.hash = hashOf cs i → equals cs i e.firstPos = false)) ∧
    t2.groupCount = (t1.groupCount + 1) % 2 ^ 32 ∧
    t2.loadFactor = float64.div (float64.ofNat ((t1.groupCount + 1) % 2 ^ 32))
      (float64.ofNat t1.entries.length) ∧
    t2.stats = { t1.stats with InsertCollisions := t1.stats.InsertCollisions + d }

/-- The effect of `insertEntry` (after the growth check) when row `i` joins an
existing group: the entry found has the hash of `i` and a first position equal
to `i`; its member list is extended when members are collected. -/
def StepOld (cs : List Comparable) (b : Bool) (i : Nat) (t1 t2 : table) : Prop :=
  ∃ (l1 l2 : List tableEntry) (old : tableEntry) (d : Nat),
    t1.entries = l1 ++ old :: l2 ∧
    old.occupied = true ∧ old.hash = hashOf cs i ∧ equals cs i old.firstPos = true ∧
    t2.entries = l1 ++ (if b then { old with ix := some (members old ++ [i]) } else old) :: l2 ∧
    t2.groupCount = t1.groupCount ∧
    t2.loadFactor = t1.loadFactor ∧
    t2.stats = { t1.stats with InsertCollisions := t1.stats.InsertCollisions + d }

/-- The invariant of the table while the rows of an index are inserted; `n` is
the number of rows inserted so far. -/
structure Inv (cs : List Comparable) (b : Bool) (n : Nat) (t : table) : Prop where
  comparables : t.comparables = cs
  collectIx : t.collectIx = b
  len : ∃ k, 3 ≤ k ∧ k ≤ 31 ∧ t.entries.length = 2 ^ k
  count : t.groupCount = (occ t.entries).length
  load : t.loadFactor.num * t.entries.length = t.groupCount * t.loadFactor.den
  den : 0 < t.loadFactor.den
  half : 2 * t.groupCount ≤ t.entries.length + 2
  rows : t.groupCount ≤ n
  chain : Chain t.entries
  freeZero : FreeZero t.entries

/-- A property `Q` of the rows inserted so far and the table is preserved by
one execution of `insertEntry`: the growth check (from `t` to `t1`) followed by
probe and update (from `t1` to `t2`). -/
def Preserved (cs : List Comparable) (b : Bool) (Q : List Nat → table → Prop) : Prop :=
  ∀ (p : List Nat) (i n : Nat) (t t1 t2 : table),
    Inv cs b n t → n = p.length → Q p t →
    (if t.loadFactor.gt maxLoadFactor = true then t.grow = some t1 else t1 = t) →
    Inv cs b n t1 → List.Perm (occ t1.entries) (occ t.entries) →
    insertNoGrow t1 i = some t2 →
    (StepNew cs i t1 t2 ∨ StepOld cs b i t1 t2) → Inv cs b (n + 1) t2 →
    Q (p ++ [i]) t2

/-- The statistics `groupIndex` reports for the final table. -/
def finalStats (t : table) : GroupStats :=
  { t.stats with LoadFactor := t.loadFactor, GroupCount := t.groupCount }

/-- The rows of `ix` that the labelling `lab` (one group label per position of
`ix`) assigns to the group labelled `k`, in the order in which they occur in
`ix`. -/
def assigned (lab ix : List Nat) (k : Nat) : List Nat :=
  ((ix.zip lab).filter (fun p => p.2 == k)).map Prod.fst

/-- The first row of `ix` that the labelling `lab` assigns to the group
labelled `k`. -/
def firstAssigned (lab ix : List Nat) (k : Nat) : Option Nat :=
  ((ix.zip lab).find? (fun p => p.2 == k)).map Prod.fst

/-- The table holds, for some assignment `lab` of the rows inserted so far to
group labels `ids` (one label per occupied entry, in slot order), exactly the
rows assigned to each group, in insertion order. -/
def Labelled (p : List Nat) (t : table) : Prop :=
  ∃ lab ids : List Nat, lab.length = p.length ∧ ids.Nodup ∧
    (∀ k, k ∈ lab ↔ k ∈ ids) ∧ (∀ k ∈ ids, k < p.length) ∧
    List.Forall₂ (fun e k => members e = assigned lab p k) (occ t.entries) ids

/-- The assumptions on the comparables under which grouping is by key:
"compares `Equal` on every comparable" is an equivalence relation on row
positions, and rows that compare `Equal` on every comparable have the same
composite hash. -/
structure KeyLaws (cs : List Comparable) : Prop where
  refl : ∀ a, equals cs a a = true
  symm : ∀ a b, equals cs a b = true → equals cs b a = true
  trans : ∀ a b c, equals cs a b = true → equals cs b c = true → equals cs a c = true
  hash : ∀ a b, equals cs a b = true → hashOf cs a = hashOf cs b

/-- The key invariant of the table: every occupied entry caches the hash of its
first position, all members of an entry are equal to its first position, and
the first positions of different occupied entries are not equal. -/
def Keyed (cs : List Comparable) (_p : List Nat) (t : table) : Prop :=
  (∀ e ∈ occ t.entries, e.hash = hashOf cs e.firstPos) ∧
  (∀ e ∈ occ t.entries, ∀ a ∈ members e, equals cs a e.firstPos = true) ∧
  ((occ t.entries).map (fun e => e.firstPos)).Pairwise (fun a b => equals cs a b = false)

/-- The shape of the member slice of every occupied entry: `nil`, or a list of
at least two rows that starts with the first position. -/
def HeadFirst (_p : List Nat) (t : table) : Prop :=
  ∀ e ∈ occ t.entries, e.ix = none ∨ ∃ x rest, e.ix = some (e.firstPos :: x :: rest)

/-- A list of groups is a grouping of the index `ix` by key: its rows are the
rows of `ix`, no group is empty, the rows of a group are pairwise equal, and
rows of two different groups are never equal. -/
def IsGrouping (cs : List Comparable) (groups : List (List Nat)) (ix : List Nat) : Prop :=
  List.Perm groups.flatten ix ∧
  (∀ g ∈ groups, g ≠ []) ∧
  (∀ g ∈ groups, ∀ a ∈ g, ∀ b ∈ g, equals cs a b = true) ∧
  groups.Pairwise (fun g h => ∀ a ∈ g, ∀ b ∈ h, equals cs a b = false)

/-- An entry without its member slice. -/
def strip (e : tableEntry) : tableEntry := { e with ix := none }

/-- A table without member slices and with member collection switched off:
the table `Distinct` works on, seen from the table `GroupBy` works on. -/
def stripTable (t : table) : table :=
  { t with entries := t.entries.map strip, collectIx := false }

/-- One representative row per distinct key of `ix`, in first-seen order, by
direct comparison of every row with the representatives found so far. -/
def distinctKeys (cs : List Comparable) (ix : List Nat) : List Nat :=
  ix.foldl (fun reps r => if reps.any (fun k => equals cs r k) then reps else reps ++ [r]) []

/-- The number of distinct keys occurring among the rows of `ix`. -/
def distinctKeyCount (cs : List Comparable) (ix : List Nat) : Nat := (distinctKeys cs ix).length

/-- The least power of two greater than or equal to `x`, searched upwards from
the power of two `p` in at most `fuel` doublings. -/
def nextPow2From : Nat → Nat → Nat → Nat
  | 0, p, _ => p
  | fuel + 1, p, x => if x ≤ p then p else nextPow2From fuel (2 * p) x

/-- The least power of two greater than or equal to `x` (`nextPow2` of the
spec). -/
def nextPow2 (x : Nat) : Nat := nextPow2From x 1 x

/-- The initial capacity of the grouping table for a row index of length
`ixLen`: the length of the entries of the table that `groupIndex` creates. -/
def initialCapacity (ixLen : Nat) : Nat :=
  (newTable (calculateInitialSizeExp ixLen) [] true).entries.length

/-- Function `groupIndex` on a table pre-sized to `2 ^ sizeExp` entries: the
initial size exponent is given instead of computed from the length of the
index. -/
def groupIndexSized (sizeExp : Nat) (ix : List Nat) (comparables : List Comparable)
    (collectIx : Bool) : Option (List tableEntry × GroupStats) :=
  match insertAll (newTable sizeExp comparables collectIx) ix with
  | none => none
  | some t =>
    some (t.entries, { t.stats with LoadFactor := t.loadFactor, GroupCount := t.groupCount })

/-- Function `GroupBy` on a table pre-sized to `2 ^ sizeExp` entries. -/
def GroupBySized (sizeExp : Nat) (ix : List Nat) (comparables : List Comparable) :
    Option (List (List Nat) × GroupStats) :=
  match groupIndexSized sizeExp ix comparables true with
  | none => none
  | some (entries, stats) => some (collectGroups entries [], stats)

/-- Every group of the table lists the rows inserted so far that are equal to
its first position, in insertion order. -/
def FilterForm (cs : List Comparable) (p : List Nat) (t : table) : Prop :=
  ∀ e ∈ occ t.entries, members e = p.filter (fun a => equals cs a e.firstPos)

/-- No entry of the table has a member slice. -/
def NoIx (_p : List Nat) (t : table) : Prop := ∀ e ∈ t.entries, e.ix = none

/-- A growth event has occurred. -/
def Grown (_p : List Nat) (t : table) : Prop := 0 < t.stats.RelocationCount

/-- The effect of `insertEntry` (after the growth check) on the entries,
whatever the size of the table: a free slot receives a new entry for row `i`,
or an occupied entry is kept, with its member list extended by `i` when members
are collected. -/
def WeakStep (b : Bool) (i : Nat) (t1 t2 : table) : Prop :=
  (∃ (l1 l2 : List tableEntry) (h : Nat),
    t1.entries = l1 ++ tableEntry.zero :: l2 ∧
    t2.entries = l1 ++ ⟨none, h, i, true⟩ :: l2) ∨
  (∃ (l1 l2 : List tableEntry) (old : tableEntry),
    t1.entries = l1 ++ old :: l2 ∧ old.occupied = true ∧
    t2.entries = l1 ++ (if b then { old with ix := some (members old ++ [i]) } else old) :: l2)

/-- A property `Q` of the rows inserted so far and the table is preserved by
every execution of `insertEntry` that returns, whatever the size of the table:
the growth check (from `t` to `t1`, the occupied entries being rearranged)
followed by probe and update (from `t1` to `t2`). -/
def WeakPreserved (b : Bool) (Q : List Nat → table → Prop) : Prop :=
  ∀ (p : List Nat) (i : Nat) (t t1 t2 : table),
    FreeZero t.entries → Q p t → List.Perm (occ t1.entries) (occ t.entries) →
    FreeZero t1.entries → WeakStep b i t1 t2 → Q (p ++ [i]) t2

/-- A comparable over a column whose value at row `i` is `i` itself, used for
the scenario of an index with pairwise different keys: rows compare by
position and hash to `31 * seed + i`. -/
def rowComparable : Comparable where
  Compare i j :=
    if i = j then CompareResult.Equal
    else if i < j then CompareResult.Less
    else CompareResult.Greater
  Hash i seed := (31 * seed + i) % 2 ^ 64

/-- The row index `0, 1, ..., 2 ^ 30 + 1` of `2 ^ 30 + 2` rows. -/
def overflowIndex : List Nat := List.range (2 ^ 30 + 2)

/-- A comparable over a column whose value at row `i` is `i % (2 ^ 30 + 1)`,
used for the scenario of an index whose row `2 ^ 30 + 1` repeats the key of row
`0`: rows compare by value and hash to `31 * seed + value`. -/
def cyclicComparable : Comparable where
  Compare i j :=
    if i % (2 ^ 30 + 1) = j % (2 ^ 30 + 1) then CompareResult.Equal
    else if i % (2 ^ 30 + 1) < j % (2 ^ 30 + 1) then CompareResult.Less
    else CompareResult.Greater
  Hash i seed := (31 * seed + i % (2 ^ 30 + 1)) % 2 ^ 64

/-- The rows of `overflowIndex` in the order `0, 2 ^ 30 + 1, 1, 2, ..., 2 ^ 30`:
the last row is moved to the second place. -/
def permutedIndex : List Nat := 0 :: (2 ^ 30 + 1) :: List.range' 1 (2 ^ 30)

end grouper

/-! ### Types around `Grouper.Aggregate` -/

namespace column

/-- Modelled from the spec: a value stored in a column; a column is a
homogeneous typed array over {Int, Float, Bool, String, Enum}, strings and
enums being nullable.  A float is kept as its bit pattern. -/
inductive Value
  | int (v : Int)
  | float (bits : Nat)
  | bool (v : Bool)
  | string (v : Option String)
  | enum (v : Option Nat)
  deriving DecidableEq, Repr

/-- Modelled from the spec: the `Column` capability set (`internal/column` and
the typed column packages are not among the source files), reduced to its
backing storage. -/
structure Column where
  data : List Value
  deriving DecidableEq, Repr

/-- The values of `data` at the positions listed in `index`, in that order;
no result when a position is out of range. -/
def subsetData (data : List Value) : List Nat → Option (List Value)
  | [] => some []
  | i :: rest =>
    match data[i]?, subsetData data rest with
    | some v, some vs => some (v :: vs)
    | _, _ => none

/-- Modelled from the spec: `subset(index) → Column`, a new column containing
only the positions named by `index`, in that order.  A position outside the
column has no value to copy (the Go implementations index a slice), so the
result is `none` then. -/
def Column.Subset (c : Column) (index : List Nat) : Option Column :=
  match subsetData c.data index with
  | some vs => some ⟨vs⟩
  | none => none

end column

namespace icolumn

/-- Modelled from the spec: `icolumn.New` (not among the source files) builds
an integer column from a slice of integers. -/
def New (data : List Int) : column.Column := ⟨data.map column.Value.int⟩

end icolumn

namespace index

/-- Modelled from the spec: `ascending(n)`, the identity index `[0..n)`
(`internal/index` is not among the source files). -/
def NewAscending (n : Nat) : List Nat := List.range n

end index

namespace types

/-- Modelled from the spec: the function identifier of an aggregation spec
(`types.SliceFuncOrBuiltInId`, an `interface{}` in the source): the name of a
built-in function, or a user-supplied function, identified by a tag. -/
inductive SliceFuncOrBuiltInId
  | builtIn (id : String)
  | sliceFunc (tag : Nat)
  deriving DecidableEq, Repr

end types

namespace qerrors

/-- Modelled from the spec: the errors of the taxonomy that `Aggregate` can
return (`qerrors` and the helper `unknownCol` are not among the source
files).  `unknownColumn source name` is
`qerrors.New(source, unknownCol(name))`; `aggregateNameConflict source name` is
`qerrors.New(source, "cannot aggregate on column that is part of group by or is
already an aggregate: %s", name)`; `propagate source err` is
`qerrors.Propagate(source, err)`; `other` is any other error value. -/
inductive Error
  | unknownColumn (source : String) (name : String)
  | aggregateNameConflict (source : String) (name : String)
  | propagate (source : String) (err : Error)
  | other (msg : String)
  deriving DecidableEq, Repr

end qerrors

namespace qframe

open qerrors types

/-- Modelled from the spec: a column of a frame with its name and ordinal
position (`namedColumn` is declared in a file that is not among the sources). -/
structure namedColumn where
  Column : column.Column
  name : String
  pos : Nat
  deriving DecidableEq, Repr

/-- A Go `map[string]namedColumn`, as an association list with one pair per
key. -/
abbrev ColumnMap := List (String × namedColumn)

/-- Map lookup `m[key]` with the "comma ok" result. -/
def ColumnMap.get (m : ColumnMap) (key : String) : Option namedColumn :=
  match m with
  | [] => none
  | (k, v) :: rest => if k = key then some v else ColumnMap.get rest key

/-- Map assignment `m[key] = v`. -/
def ColumnMap.set (m : ColumnMap) (key : String) (v : namedColumn) : ColumnMap :=
  match m with
  | [] => [(key, v)]
  | (k, w) :: rest => if k = key then (key, v) :: rest else (k, w) :: ColumnMap.set rest key v

/-- Modelled from the spec: the frame, a named ordered collection of columns
sharing one row index, carrying its error (`QFrame` is declared in a file that
is not among the sources).  Slices and maps that the source leaves `nil` are
empty. -/
structure QFrame where
  columns : List namedColumn
  columnsByName : ColumnMap
  index : List Nat
  Err : Option Error
  deriving DecidableEq, Repr

/-- The composite literal `QFrame{Err: err}`. -/
def QFrame.withErr (err : Error) : QFrame :=
  { columns := [], columnsByName := [], index := [], Err := some err }

/-- Grouper contains groups of rows produced by the `QFrame.GroupBy`
function. -/
structure Grouper where
  indices : List (List Nat)
  groupedColumns : List String
  columns : List namedColumn
  columnsByName : ColumnMap
  Err : Option Error
  Stats : grouper.GroupStats

/-- Aggregation represents a function to apply to a column. -/
structure Aggregation where
  Fn : SliceFuncOrBuiltInId
  Column : String
  As : String
  deriving DecidableEq, Repr

/-- The first loop of `Aggregate`: `firstElementIx[i] = ix[0]` for every group;
no result when a group is empty (index out of range). -/
def firstElements : List (List Nat) → Option (List Nat)
  | [] => some []
  | ix :: rest =>
    match ix[0]?, firstElements rest with
    | some first, some firsts => some (first :: firsts)
    | _, _ => none

/-- The loop of `Aggregate` over the group-by columns, from position `i` on:
each named column is looked up, repositioned to `i` and subset to the first row
of every group.  No result when the name is not in the map (method call on a
`nil` column) or the subset fails. -/
def groupedLoop (g : Grouper) (firstElementIx : List Nat) :
    Nat → List String → ColumnMap → List namedColumn → Option (ColumnMap × List namedColumn)
  | _, [], newColumnsByName, newColumns => some (newColumnsByName, newColumns)
  | i, colName :: rest, newColumnsByName, newColumns =>
    match g.columnsByName.get colName with
    | none => none
    | some col =>
      match col.Column.Subset firstElementIx with
      | none => none
      | some sub =>
        let col1 : namedColumn := { col with pos := i, Column := sub }
        groupedLoop g firstElementIx (i + 1) rest (newColumnsByName.set colName col1)
          (newColumns ++ [col1])

/-- The loop of `Aggregate` over the aggregation specs.  `reduce` stands for
the method `col.Aggregate(indices, fn)` of the column implementations, which
are not among the source files. -/
def aggLoop (reduce : column.Column → List (List Nat) → SliceFuncOrBuiltInId →
      Except Error column.Column) (g : Grouper) :
    List Aggregation → ColumnMap → List namedColumn → Except Error (ColumnMap × List namedColumn)
  | [], newColumnsByName, newColumns => Except.ok (newColumnsByName, newColumns)
  | agg :: rest, newColumnsByName, newColumns =>
    match g.columnsByName.get agg.Column with
    | none => Except.error (Error.unknownColumn "Aggregate" agg.Column)
    | some col =>
      let newColumnName := if agg.As ≠ "" then agg.As else agg.Column
      let col1 : namedColumn := { col with name := newColumnName }
      match newColumnsByName.get newColumnName with
      | some _ => Except.error (Error.aggregateNameConflict "Aggregate" newColumnName)
      | none =>
        if agg.Fn = SliceFuncOrBuiltInId.builtIn "count" then
          let counts : List Int := g.indices.map (fun ix => (ix.length : Int))
          let col2 : namedColumn := { col1 with Column := icolumn.New counts }
          aggLoop reduce g rest (newColumnsByName.set newColumnName col2) (newColumns ++ [col2])
        else
          match reduce col1.Column g.indices agg.Fn with
          | Except.error err => Except.error (Error.propagate "Aggregate" err)
          | Except.ok c =>
            let col2 : namedColumn := { col1 with Column := c }
            aggLoop reduce g rest (newColumnsByName.set newColumnName col2) (newColumns ++ [col2])

/-- Method `Grouper.Aggregate`: applies the given aggregations to all row
groups in the Grouper.  `none` stands for a run-time panic. -/
def Grouper.Aggregate (reduce : column.Column → List (List Nat) → SliceFuncOrBuiltInId →
      Except Error column.Column) (g : Grouper) (aggs : List Aggregation) : Option QFrame :=
  match g.Err with
  | some err => some (QFrame.withErr err)
  | none =>
    match firstElements g.indices with
    | none => none
    | some firstElementIx =>
      match groupedLoop g firstElementIx 0 g.groupedColumns [] [] with
      | none => none
      | some (newColumnsByName, newColumns) =>
        match aggLoop reduce g aggs newColumnsByName newColumns with
        | Except.error err => some (QFrame.withErr err)
        | Except.ok (newColumnsByName1, newColumns1) =>
          some { columns := newColumns1
                 columnsByName := newColumnsByName1
                 index := index.NewAscending (g.indices.length % 2 ^ 32)
                 Err := none }

/-! ### Notions used to state the properties of `Aggregate` -/

/-- The destination name of a spec: `As`, or `Column` when `As` is empty. -/
def Aggregation.destName (agg : Aggregation) : String :=
  if agg.As ≠ "" then agg.As else agg.Column

/-- The `counts` slice that `Aggregate` builds for "count": the size of every
group. -/
def groupSizes (indices : List (List Nat)) : List Int :=
  indices.map (fun ix => (ix.length : Int))

/-- What `QFrame.GroupBy` guarantees about the Grouper it builds: no group is
empty, there are fewer than `2 ^ 32` groups (row positions are `uint32`), every
group-by name is a column of the frame, and every row position of a group is a
position of that column. -/
def Grouper.WellFormed (g : Grouper) : Prop :=
  (∀ ix ∈ g.indices, ix ≠ []) ∧
  g.indices.length < 2 ^ 32 ∧
  ∀ name ∈ g.groupedColumns, ∃ col, g.columnsByName.get name = some col ∧
    ∀ ix ∈ g.indices, ∀ r ∈ ix, r < col.Column.data.length

/-- A spec is rejected by the validation of `Aggregate` when its source column
is not in the frame or its destination name is already taken, by a group-by
column or by one of the specs `before` it. -/
def Aggregation.Invalid (g : Grouper) (before : List Aggregation) (agg : Aggregation) : Prop :=
  g.columnsByName.get agg.Column = none ∨
  agg.destName ∈ g.groupedColumns ∨
  ∃ a ∈ before, a.destName = agg.destName

/-- A reduction used in concrete scenarios: the value of the column at the first
row of every group. -/
def reduceFirst (c : column.Column) (indices : List (List Nat)) (_fn : SliceFuncOrBuiltInId) :
    Except Error column.Column :=
  match firstElements indices with
  | none => Except.error (Error.other "empty group")
  | some firstElementIx =>
    match c.Subset firstElementIx with
    | none => Except.error (Error.other "row out of range")
    | some sub => Except.ok sub

/-- A reduction that always fails. -/
def reduceFail (_c : column.Column) (_indices : List (List Nat)) (_fn : SliceFuncOrBuiltInId) :
    Except Error column.Column := Except.error (Error.other "unknown aggregation function")

/-- The frame `scenarioGrouper` yields for the specs "count of `A` as `n`" and
"first of `A` as `f`". -/
def scenarioResult : QFrame :=
  { columns := [⟨icolumn.New [1, 2, 3], "A", 0⟩, ⟨icolumn.New [2, 1, 1], "n", 0⟩,
      ⟨icolumn.New [1, 2, 3], "f", 0⟩]
    columnsByName := [("A", ⟨icolumn.New [1, 2, 3], "A", 0⟩),
      ("n", ⟨icolumn.New [2, 1, 1], "n", 0⟩), ("f", ⟨icolumn.New [1, 2, 3], "f", 0⟩)]
    index := [0, 1, 2]
    Err := none }

/-- The specs "count of `A` as `n`" and "first of `A` as `f`". -/
def scenarioSpecs : List Aggregation :=
  [⟨SliceFuncOrBuiltInId.builtIn "count", "A", "n"⟩, ⟨SliceFuncOrBuiltInId.sliceFunc 0, "A", "f"⟩]

/-- The Grouper of the scenario of the spec: column `A = [1,2,3,1]` grouped by
`A` into the groups `[0,3]`, `[1]`, `[2]`. -/
def scenarioGrouper : Grouper :=
  { indices := [[0, 3], [1], [2]]
    groupedColumns := ["A"]
    columns := [⟨icolumn.New [1, 2, 3, 1], "A", 0⟩]
    columnsByName := [("A", ⟨icolumn.New [1, 2, 3, 1], "A", 0⟩)]
    Err := none
    Stats := grouper.GroupStats.zero }

/-- Modelled from the spec: `withIndex` (declared in a file that is not among
the sources) gives the frame with the same columns viewed through the row index
`ix`: each group frame holds the full column set subset to the group's
index. -/
def QFrame.withIndex (qf : QFrame) (ix : List Nat) : QFrame :=
  { columns := qf.columns, columnsByName := qf.columnsByName, index := ix, Err := none }

/-- Method `Grouper.QFrames`: a slice of frames, one per group, and an error.
The `nil` slice returned with an error is the empty list. -/
def Grouper.QFrames (g : Grouper) : List QFrame × Option Error :=
  match g.Err with
  | some err => ([], some err)
  | none =>
    let baseFrame : QFrame :=
      { columns := g.columns, columnsByName := g.columnsByName, index := [], Err := none }
    (g.indices.map (fun ix => baseFrame.withIndex ix), none)

/-- The Grouper of the scenario, carrying an error from an earlier step. -/
def failedGrouper : Grouper :=
  { scenarioGrouper with Err := some (Error.unknownColumn "GroupBy" "Z") }

end qframe

/-! ### Boolean columns: comparison and filtering -/

namespace filter

/-- Modelled from the spec: the comparators `{eq, neq, lt, lte, gt, gte}`
(`filter.Comparator` is a string type declared in a package that is not among
the source files); `other` stands for any other string. -/
inductive Comparator
  | Eq
  | Neq
  | Lt
  | Lte
  | Gt
  | Gte
  | other (name : String)
  deriving DecidableEq, Repr

end filter

namespace bseries

open column

/-- The boolean `Comparable`; the struct is declared in a file that is not
among the sources, with the fields that `Compare` uses. -/
structure Comparable where
  data : List Bool
  ltValue : CompareResult
  gtValue : CompareResult

/-- Method `Comparable.Compare`; no result when `i` or `j` is out of range. -/
def Comparable.Compare (c : Comparable) (i j : Nat) : Option CompareResult :=
  match c.data[i]?, c.data[j]? with
  | some x, some y =>
    if x = y then some CompareResult.Equal
    else if x then some c.gtValue
    else some c.ltValue
  | _, _ => none

/-- The errors of `Series.Filter`: the one it builds with `fmt.Errorf("invalid
comparison operator for bool, %v", c)`, and any error of a filter function. -/
inductive FilterError
  | invalidComparisonOperator (c : filter.Comparator)
  | other (msg : String)
  deriving DecidableEq, Repr

/-- A filter function of the table of `Series.Filter`,
`func(index.Int, []bool, interface{}, index.Bool) error`: from the row index,
the data, the comparatee and the mask on entry to the mask on exit and the
error. -/
abbrev FilterFunc :=
  List Nat → List Bool → column.Value → List Bool → List Bool × Option FilterError

/-- Lookup `table[c]` in a Go map keyed by comparator, with the "comma ok"
result. -/
def tableGet {α : Type} (table : List (filter.Comparator × α)) (c : filter.Comparator) :
    Option α :=
  match table with
  | [] => none
  | (k, f) :: rest => if k = c then some f else tableGet rest c

/-- Package variable `filterFuncs` of `bseries`, as initialised in the source:
the empty map. -/
def filterFuncs : List (filter.Comparator × FilterFunc) := []

/-- The boolean series. -/
structure Series where
  data : List Bool

/-- Method `Series.Filter`, over the package variable `filterFuncs` given as
`table`: the mask on exit and the error returned. -/
def Series.Filter (table : List (filter.Comparator × FilterFunc)) (s : Series)
    (index : List Nat) (c : filter.Comparator) (comparatee : column.Value)
    (bIndex : List Bool) : List Bool × Option FilterError :=
  match tableGet table c with
  | none => (bIndex, some (FilterError.invalidComparisonOperator c))
  | some compFunc => compFunc index s.data comparatee bIndex

/-- A filter function used in concrete scenarios: sets the mask bit of every
row of the index whose value is the boolean comparatee. -/
def eqFilter : FilterFunc := fun index data comparatee bIndex =>
  match comparatee with
  | column.Value.bool v =>
    ((List.range bIndex.length).map
      (fun k => bIndex.getD k false || (data.getD (index.getD k 0) false == v)), none)
  | _ => (bIndex, some (FilterError.other "invalid comparison type"))

end bseries

namespace bcolumn

/-- Package variable `filterFuncs` of `bcolumn`: the constant-operand filters
of boolean columns.  The functions `eq` and `neq` are declared in a file that
is not among the sources and are parameters. -/
def filterFuncs {α : Type} (eq neq : α) : List (filter.Comparator × α) :=
  [(filter.Comparator.Eq, eq), (filter.Comparator.Neq, neq)]

/-- Package variable `filterFuncs2` of `bcolumn`: the column-to-column filters
of boolean columns, `eq2` and `neq2` being parameters. -/
def filterFuncs2 {α : Type} (eq2 neq2 : α) : List (filter.Comparator × α) :=
  [(filter.Comparator.Eq, eq2), (filter.Comparator.Neq, neq2)]

end bcolumn

/-! ### JSON records -/

namespace io

/-- A Go `interface{}` value found in a JSON record, by dynamic type; `other`
stands for a value of any other type. -/
inductive Value
  | int (v : Int)
  | float64 (bits : Nat)
  | bool (v : Bool)
  | string (v : String)
  | null
  | other (typeName : String)
  deriving DecidableEq, Repr

/-- A record `map[string]interface{}`, as an association list. -/
abbrev Record := List (String × Value)

/-- Map lookup `record[colName]` with the "comma ok" result. -/
def Record.get (record : Record) (colName : String) : Option Value :=
  match record with
  | [] => none
  | (k, v) :: rest => if k = colName then some v else Record.get rest colName

/-- Type `JSONRecords`. -/
abbrev JSONRecords := List Record

/-- The errors that the functions of `json.go` build with `qerrors.New`:
`missingValue` when the key is absent from a record (worded "missing value" in
`fillInts` and `fillFloats`, "wrong type" in `fillBools` and `fillStrings`),
`wrongType` when the type assertion fails, `unknownType` for the default case
of `jsonRecordsToData`. -/
inductive Error
  | missingValue (source colName : String) (row : Nat)
  | wrongType (source colName : String) (row : Nat)
  | unknownType (source : String) (value : Value)
  deriving DecidableEq, Repr

/-- A column of the result `map[string]interface{}`: `[]int`, `[]float64`,
`[]bool` or `[]*string`. -/
inductive Column
  | ints (col : List Int)
  | floats (col : List Nat)
  | bools (col : List Bool)
  | strings (col : List (Option String))
  deriving DecidableEq, Repr

/-- The result map, as an association list with one pair per key. -/
abbrev Data := List (String × Column)

/-- Map lookup in the result. -/
def Data.get (m : Data) (key : String) : Option Column :=
  match m with
  | [] => none
  | (k, v) :: rest => if k = key then some v else Data.get rest key

/-- Map assignment `result[colName] = col`. -/
def Data.set (m : Data) (key : String) (v : Column) : Data :=
  match m with
  | [] => [(key, v)]
  | (k, w) :: rest => if k = key then (key, v) :: rest else (k, w) :: Data.set rest key v

/-- The loop shared by `fillInts`, `fillFloats`, `fillBools` and `fillStrings`,
from row `i` on, with `todo` rows of `col` left: the value of `colName` in
`records[i]` is converted by the type assertion `convert` and stored in
`col[i]`.  Returns the column and the error; no result stands for an index out
of range. -/
def fillFrom {α : Type} (convert : Value → Option α) (source : String)
    (records : JSONRecords) (colName : String) :
    Nat → Nat → List α → Option (List α × Option Error)
  | 0, _, col => some (col, none)
  | todo + 1, i, col =>
    match records[i]? with
    | none => none
    | some record =>
      match record.get colName with
      | none => some (col, some (Error.missingValue source colName i))
      | some value =>
        match convert value with
        | none => some (col, some (Error.wrongType source colName i))
        | some v => fillFrom convert source records colName todo (i + 1) (col.set i v)

/-- The type assertion `value.(int)`. -/
def asInt : Value → Option Int
  | Value.int v => some v
  | _ => none

/-- The type assertion `value.(float64)`. -/
def asFloat : Value → Option Nat
  | Value.float64 bits => some bits
  | _ => none

/-- The type assertion `value.(bool)`. -/
def asBool : Value → Option Bool
  | Value.bool v => some v
  | _ => none

/-- The type switch of `fillStrings`: a string gives a pointer to it, `nil`
gives the `nil` pointer. -/
def asString : Value → Option (Option String)
  | Value.string v => some (some v)
  | Value.null => some none
  | _ => none

/-- Function `fillInts`. -/
def fillInts (col : List Int) (records : JSONRecords) (colName : String) :
    Option (List Int × Option Error) :=
  fillFrom asInt "fillInts" records colName col.length 0 col

/-- Function `fillFloats`. -/
def fillFloats (col : List Nat) (records : JSONRecords) (colName : String) :
    Option (List Nat × Option Error) :=
  fillFrom asFloat "fillFloats" records colName col.length 0 col

/-- Function `fillBools`. -/
def fillBools (col : List Bool) (records : JSONRecords) (colName : String) :
    Option (List Bool × Option Error) :=
  fillFrom asBool "fillBools" records colName col.length 0 col

/-- Function `fillStrings`. -/
def fillStrings (col : List (Option String)) (records : JSONRecords) (colName : String) :
    Option (List (Option String) × Option Error) :=
  fillFrom asString "fillStrings" records colName col.length 0 col

/-- One column of `jsonRecordsToData`: allocate with `make`, fill, and wrap;
`zero` is the zero value of the element type. -/
def fillColumn {α : Type} (fill : List α → JSONRecords → String → Option (List α × Option Error))
    (zero : α) (wrap : List α → Column) (records : JSONRecords) (colName : String) :
    Option (Except Error Column) :=
  match fill (List.replicate records.length zero) records colName with
  | none => none
  | some (_, some err) => some (Except.error err)
  | some (col, none) => some (Except.ok (wrap col))

/-- The loop of `jsonRecordsToData` over the keys and values of the first
record, in the order in which the map iteration yields them. -/
def columnsLoop (records : JSONRecords) :
    List (String × Value) → Data → Option (Option Data × Option Error)
  | [], result => some (some result, none)
  | (colName, value) :: rest, result =>
    let filled : Option (Except Error Column) :=
      match value with
      | Value.int _ => fillColumn fillInts 0 Column.ints records colName
      | Value.float64 _ => fillColumn fillFloats 0 Column.floats records colName
      | Value.bool _ => fillColumn fillBools false Column.bools records colName
      | Value.null => fillColumn fillStrings none Column.strings records colName
      | Value.string _ => fillColumn fillStrings none Column.strings records colName
      | Value.other _ => some (Except.error (Error.unknownType "jsonRecordsToData" value))
    match filled with
    | none => none
    | some (Except.error err) => some (none, some err)
    | some (Except.ok col) => columnsLoop records rest (Data.set result colName col)

/-- Function `jsonRecordsToData`: the mapping (or `nil`) and the error.  The
pairs of the first record are visited in list order, which stands for the
iteration order of the Go map; no result stands for a run-time panic. -/
def jsonRecordsToData (records : JSONRecords) : Option (Option Data × Option Error) :=
  match records with
  | [] => some (some [], none)
  | r0 :: _ => columnsLoop records r0 []

/-- The type of a value as `jsonRecordsToData` tells types apart: `nil` and
string are one type. -/
def typeTag : Value → Nat
  | Value.int _ => 0
  | Value.float64 _ => 1
  | Value.bool _ => 2
  | Value.string _ => 3
  | Value.null => 3
  | Value.other _ => 4

/-- Element `i` of a result column, as a record value (a `nil` pointer is
`null`). -/
def Column.at (c : Column) (i : Nat) : Option Value :=
  match c with
  | Column.ints col => (col[i]?).map Value.int
  | Column.floats col => (col[i]?).map Value.float64
  | Column.bools col => (col[i]?).map Value.bool
  | Column.strings col =>
    (col[i]?).map (fun s => match s with
      | some v => Value.string v
      | none => Value.null)

/-- The length of a result column. -/
def Column.length : Column → Nat
  | Column.ints col => col.length
  | Column.floats col => col.length
  | Column.bools col => col.length
  | Column.strings col => col.length

end io

/-! ## Properties -/

namespace grouper

open column

/-! ### Bit masks -/

theorem mask64_eq (k : Nat) (hk : k ≤ 32) : (2 ^ k + 2 ^ 64 - 1) % 2 ^ 64 = 2 ^ k - 1 := by
  have h1 : 0 < 2 ^ k := Nat.two_pow_pos k
  have h2 : 2 ^ k ≤ 2 ^ 32 := Nat.pow_le_pow_right (by decide) hk
  have h3 : (2 : Nat) ^ 32 < 2 ^ 64 := by decide
  have : 2 ^ k + 2 ^ 64 - 1 = (2 ^ k - 1) + 2 ^ 64 := by omega
  rw [this, Nat.add_mod_right, Nat.mod_eq_of_lt (by omega)]

theorem mask32_eq (k : Nat) (hk : k < 32) : (2 ^ k + 2 ^ 32 - 1) % 2 ^ 32 = 2 ^ k - 1 := by
  have h1 : 0 < 2 ^ k := Nat.two_pow_pos k
  have h2 : 2 ^ k < 2 ^ 32 := Nat.pow_lt_pow_right (by decide) hk
  have : 2 ^ k + 2 ^ 32 - 1 = (2 ^ k - 1) + 2 ^ 32 := by omega
  rw [this, Nat.add_mod_right, Nat.mod_eq_of_lt (by omega)]

theorem step64_eq (k pos : Nat) (hk : k ≤ 32) (hpos : pos < 2 ^ k) :
    ((pos + 1) % 2 ^ 64) &&& (2 ^ k - 1) = (pos + 1) % 2 ^ k := by
  have h2 : 2 ^ k ≤ 2 ^ 32 := Nat.pow_le_pow_right (by decide) hk
  have h3 : (2 : Nat) ^ 32 < 2 ^ 64 := by decide
  rw [Nat.mod_eq_of_lt (by omega), Nat.and_pow_two_sub_one_eq_mod]

theorem step32_eq (k pos : Nat) (hk : k < 32) (hpos : pos < 2 ^ k) :
    ((pos + 1) % 2 ^ 32) &&& (2 ^ k - 1) = (pos + 1) % 2 ^ k := by
  have h2 : 2 ^ k < 2 ^ 32 := Nat.pow_lt_pow_right (by decide) hk
  rw [Nat.mod_eq_of_lt (by omega), Nat.and_pow_two_sub_one_eq_mod]

/-! ### Linear probing -/

theorem scan_spec (stop : tableEntry → Bool) (entries : List tableEntry) :
    ∀ (fuel pos d : Nat), scan stop entries fuel pos = some d →
      d < fuel ∧
      (∃ e, entries[(pos + d) % entries.length]? = some e ∧ stop e = true) ∧
      ∀ d1, d1 < d → ∃ e, entries[(pos + d1) % entries.length]? = some e ∧ stop e = false := by
  intro fuel
  induction fuel with
  | zero => intro pos d h; simp [scan] at h
  | succ fuel ih =>
    intro pos d h
    unfold scan at h
    cases hp : entries[pos]? with
    | none => simp [hp] at h
    | some e =>
      have hlt : pos < entries.length := by
        rcases List.getElem?_eq_some_iff.1 hp with ⟨hl, _⟩
        exact hl
      simp only [hp] at h
      by_cases hs : stop e = true
      · simp only [hs, if_true, Option.some.injEq] at h
        subst h
        refine ⟨Nat.succ_pos _, ⟨e, ?_, hs⟩, ?_⟩
        · simpa [Nat.mod_eq_of_lt hlt] using hp
        · intro d1 hd1; omega
      · have hs1 : stop e = false := by simpa using hs
        simp only [hs1] at h
        cases hr : scan stop entries fuel ((pos + 1) % entries.length) with
        | none => simp [hr] at h
        | some d0 =>
          simp only [hr, Option.map_some', Bool.false_eq_true, if_false, Option.some.injEq] at h
          subst h
          rcases ih _ _ hr with ⟨h1, h2, h3⟩
          refine ⟨by omega, ?_, ?_⟩
          · rcases h2 with ⟨e2, he2, hs2⟩
            refine ⟨e2, ?_, hs2⟩
            rw [Nat.mod_add_mod] at he2
            rw [← he2]; congr 2; omega
          · intro d1 hd1
            cases d1 with
            | zero =>
              refine ⟨e, ?_, by simpa using hs⟩
              simpa [Nat.mod_eq_of_lt hlt] using hp
            | succ d1 =>
              rcases h3 d1 (by omega) with ⟨e3, he3, hs3⟩
              refine ⟨e3, ?_, hs3⟩
              rw [Nat.mod_add_mod] at he3
              rw [← he3]; congr 2; omega

theorem scan_none (stop : tableEntry → Bool) (entries : List tableEntry) :
    ∀ (fuel pos : Nat), pos < entries.length → scan stop entries fuel pos = none →
      ∀ d1, d1 < fuel → ∃ e, entries[(pos + d1) % entries.length]? = some e ∧ stop e = false := by
  intro fuel
  induction fuel with
  | zero => intro pos _ _ d1 hd1; omega
  | succ fuel ih =>
    intro pos hlt h d1 hd1
    unfold scan at h
    have hp : entries[pos]? = some (entries[pos]) := List.getElem?_eq_getElem hlt
    simp only [hp] at h
    by_cases hs : stop entries[pos] = true
    · simp [hs] at h
    · have hs1 : stop entries[pos] = false := by simpa using hs
      simp only [hs1] at h
      have hr : scan stop entries fuel ((pos + 1) % entries.length) = none := by
        cases hr : scan stop entries fuel ((pos + 1) % entries.length) with
        | none => rfl
        | some d0 => simp [hr] at h
      have hlt2 : (pos + 1) % entries.length < entries.length := Nat.mod_lt _ (by omega)
      cases d1 with
      | zero =>
        refine ⟨entries[pos], ?_, by simpa using hs⟩
        simp [Nat.mod_eq_of_lt hlt]
      | succ d1 =>
        rcases ih _ hlt2 hr d1 (by omega) with ⟨e3, he3, hs3⟩
        refine ⟨e3, ?_, hs3⟩
        rw [Nat.mod_add_mod] at he3
        rw [← he3]; congr 2; omega

theorem scan_isSome (stop : tableEntry → Bool) (entries : List tableEntry) (pos q : Nat)
    (e : tableEntry) (hpos : pos < entries.length) (hq : entries[q]? = some e)
    (hs : stop e = true) : ∃ d, scan stop entries entries.length pos = some d := by
  cases h : scan stop entries entries.length pos with
  | some d => exact ⟨d, rfl⟩
  | none =>
    exfalso
    have hql : q < entries.length := (List.getElem?_eq_some_iff.1 hq).1
    have hd : (q + entries.length - pos) % entries.length < entries.length :=
      Nat.mod_lt _ (by omega)
    rcases scan_none stop entries _ pos hpos h _ hd with ⟨e1, he1, hs1⟩
    have : (pos + (q + entries.length - pos) % entries.length) % entries.length = q := by
      rw [Nat.add_mod_mod]
      have : pos + (q + entries.length - pos) = q + entries.length := by omega
      rw [this, Nat.add_mod_right, Nat.mod_eq_of_lt hql]
    rw [this, hq] at he1
    cases he1
    rw [hs] at hs1
    cases hs1

theorem probe_eq_scan (cs : List Comparable) (entries : List tableEntry) (h i k : Nat)
    (hk : k ≤ 32) (hlen : entries.length = 2 ^ k) :
    ∀ (fuel pos c : Nat), pos < entries.length →
      probe cs entries h i (2 ^ k - 1) fuel pos c =
        (scan (stopInsert cs h i) entries fuel pos).map
          (fun d => ((pos + d) % entries.length, c + d)) := by
  intro fuel
  induction fuel with
  | zero => intro pos c _; simp [probe, scan]
  | succ fuel ih =>
    intro pos c hpos
    unfold probe scan
    have hp : entries[pos]? = some (entries[pos]) := List.getElem?_eq_getElem hpos
    simp only [hp]
    by_cases hs : stopInsert cs h i entries[pos] = true
    · have hs2 := hs
      unfold stopInsert at hs2
      simp only [hs2, hs, if_true, Option.map_some', Nat.add_zero, Nat.mod_eq_of_lt hpos]
    · have hs1 : stopInsert cs h i entries[pos] = false := by simpa using hs
      have hs2 := hs1
      unfold stopInsert at hs2
      simp only [hs2, hs1, Bool.false_eq_true, if_false]
      have hpos2 : pos < 2 ^ k := by omega
      have hm : (pos + 1) % 2 ^ k = (pos + 1) % entries.length := by rw [hlen]
      rw [step64_eq k pos hk hpos2, hm, ih _ _ (Nat.mod_lt _ (by omega)), Option.map_map]
      congr 1
      funext d
      simp only [Function.comp, Nat.mod_add_mod]
      rw [show pos + 1 + d = pos + (d + 1) by omega, show c + 1 + d = c + (d + 1) by omega]

theorem relocate_eq_scan (e : tableEntry) (k : Nat) (hk : k < 32) :
    ∀ (fuel : Nat) (entries : List tableEntry) (pos c : Nat), entries.length = 2 ^ k →
      pos < entries.length →
      relocate (2 ^ k - 1) e fuel entries pos c =
        (scan stopFree entries fuel pos).map
          (fun d => (entries.set ((pos + d) % entries.length) e, c + d)) := by
  intro fuel
  induction fuel with
  | zero => intro entries pos c _ _; simp [relocate, scan]
  | succ fuel ih =>
    intro entries pos c hlen hpos
    unfold relocate scan
    have hp : entries[pos]? = some (entries[pos]) := List.getElem?_eq_getElem hpos
    simp only [hp]
    by_cases hs : stopFree entries[pos] = true
    · have hs2 := hs
      unfold stopFree at hs2
      simp only [hs2, hs, if_true, Option.map_some', Nat.add_zero, Nat.mod_eq_of_lt hpos]
    · have hs1 : stopFree entries[pos] = false := by simpa using hs
      have hs2 := hs1
      unfold stopFree at hs2
      simp only [hs2, hs1, Bool.false_eq_true, if_false]
      have hpos2 : pos < 2 ^ k := by omega
      have hm : (pos + 1) % 2 ^ k = (pos + 1) % entries.length := by rw [hlen]
      rw [step32_eq k pos hk hpos2, hm, ih _ _ _ hlen (Nat.mod_lt _ (by omega)),
        Option.map_map]
      congr 1
      funext d
      simp only [Function.comp, Nat.mod_add_mod]
      rw [show pos + 1 + d = pos + (d + 1) by omega, show c + 1 + d = c + (d + 1) by omega]

/-! ### Lists of entries -/

theorem getElem?_split {α : Type} (l : List α) :
    ∀ (q : Nat) (e : α), l[q]? = some e →
      ∃ l1 l2, l = l1 ++ e :: l2 ∧ l1.length = q ∧ ∀ e1, l.set q e1 = l1 ++ e1 :: l2 := by
  induction l with
  | nil => intro q e h; simp at h
  | cons a l ih =>
    intro q e h
    cases q with
    | zero =>
      simp at h
      subst h
      exact ⟨[], l, rfl, rfl, fun _ => rfl⟩
    | succ q =>
      simp at h
      rcases ih q e h with ⟨l1, l2, h1, h2, h3⟩
      refine ⟨a :: l1, l2, by simp [h1], by simp [h2], ?_⟩
      intro e1
      simp [h3 e1]

theorem occ_append (l1 l2 : List tableEntry) : occ (l1 ++ l2) = occ l1 ++ occ l2 := by
  simp [occ]

theorem occ_cons_free (e : tableEntry) (l : List tableEntry) (h : e.occupied = false) :
    occ (e :: l) = occ l := by
  simp [occ, h]

theorem occ_cons_occupied (e : tableEntry) (l : List tableEntry) (h : e.occupied = true) :
    occ (e :: l) = e :: occ l := by
  simp [occ, h]

theorem occ_replicate_zero (n : Nat) : occ (List.replicate n tableEntry.zero) = [] := by
  simp [occ, List.filter_eq_nil_iff, tableEntry.zero]

theorem mem_occ {e : tableEntry} {l : List tableEntry} :
    e ∈ occ l ↔ e ∈ l ∧ e.occupied = true := by
  simp [occ]

theorem exists_free_of_occ_lt (l : List tableEntry) (h : (occ l).length < l.length) :
    ∃ (q : Nat) (e : tableEntry), l[q]? = some e ∧ e.occupied = false := by
  have h1 : ∃ x ∈ l, ¬ ((fun e : tableEntry => e.occupied) x = true) :=
    List.length_filter_lt_length_iff_exists.1 h
  rcases h1 with ⟨e, he, hne⟩
  rcases List.getElem?_of_mem he with ⟨q, hq⟩
  exact ⟨q, e, hq, by simpa using hne⟩

/-! ### Storing an entry in a slot -/

theorem getElem?_set_occupied (entries : List tableEntry) (q j : Nat) (e e1 : tableEntry)
    (he : e.occupied = true) (h : entries[j]? = some e1) (h1 : e1.occupied = true) :
    ∃ e2, (entries.set q e)[j]? = some e2 ∧ e2.occupied = true := by
  have hj : j < entries.length := (List.getElem?_eq_some_iff.1 h).1
  rw [List.getElem?_set]
  by_cases hq : q = j
  · subst hq
    simp [hj, he]
  · simp [hq, h, h1]

theorem Chain_set_free (entries : List tableEntry) (q : Nat) (e f : tableEntry)
    (hc : Chain entries) (hf : entries[q]? = some f) (he : e.occupied = true)
    (hpath : ∀ d, d < (q + entries.length - e.hash % entries.length) % entries.length →
      ∃ e1, entries[(e.hash % entries.length + d) % entries.length]? = some e1 ∧
        e1.occupied = true) :
    Chain (entries.set q e) := by
  intro j e1 hj h1 d hd
  rw [List.length_set] at hd ⊢
  rw [List.getElem?_set] at hj
  by_cases hq : q = j
  · subst hq
    have hql : q < entries.length := (List.getElem?_eq_some_iff.1 hf).1
    simp only [if_true, hql] at hj
    cases hj
    rcases hpath d hd with ⟨e2, h2, h3⟩
    exact getElem?_set_occupied entries q _ e e2 he h2 h3
  · simp only [hq, if_false] at hj
    rcases hc j e1 hj h1 d hd with ⟨e2, h2, h3⟩
    exact getElem?_set_occupied entries q _ e e2 he h2 h3

theorem Chain_set_same (entries : List tableEntry) (q : Nat) (e f : tableEntry)
    (hc : Chain entries) (hf : entries[q]? = some f) (hocc : f.occupied = true)
    (he : e.occupied = true) (hh : e.hash = f.hash) :
    Chain (entries.set q e) := by
  intro j e1 hj h1 d hd
  rw [List.length_set] at hd ⊢
  rw [List.getElem?_set] at hj
  by_cases hq : q = j
  · subst hq
    have hql : q < entries.length := (List.getElem?_eq_some_iff.1 hf).1
    simp only [if_true, hql] at hj
    cases hj
    rw [hh] at hd ⊢
    rcases hc q f hf hocc d hd with ⟨e2, h2, h3⟩
    exact getElem?_set_occupied entries q _ e e2 he h2 h3
  · simp only [hq, if_false] at hj
    rcases hc j e1 hj h1 d hd with ⟨e2, h2, h3⟩
    exact getElem?_set_occupied entries q _ e e2 he h2 h3

theorem FreeZero_set (entries : List tableEntry) (q : Nat) (e : tableEntry)
    (hz : FreeZero entries) (he : e.occupied = false → e = tableEntry.zero) :
    FreeZero (entries.set q e) := by
  intro e1 h1 h2
  rcases List.mem_or_eq_of_mem_set h1 with h | h
  · exact hz e1 h h2
  · subst h; exact he h2

theorem FreeZero_replicate (n : Nat) : FreeZero (List.replicate n tableEntry.zero) := by
  intro e he _
  exact (List.mem_replicate.1 he).2

theorem Chain_replicate (n : Nat) : Chain (List.replicate n tableEntry.zero) := by
  intro q e hq he
  rcases List.mem_replicate.1 (List.getElem?_mem hq) with ⟨_, h⟩
  subst h
  simp [tableEntry.zero] at he

theorem set_self_of_getElem? (entries : List tableEntry) (q : Nat) (f : tableEntry)
    (hf : entries[q]? = some f) : entries.set q f = entries := by
  rcases getElem?_split entries q f hf with ⟨l1, l2, h1, _, h3⟩
  rw [h3 f, ← h1]

/-- Storing `e` in a free slot adds it to the occupied entries when `e` is
occupied, and leaves them as they were otherwise. -/
theorem occ_set_free (entries : List tableEntry) (q : Nat) (e f : tableEntry)
    (hf : entries[q]? = some f) (hfree : f.occupied = false) :
    List.Perm (occ (entries.set q e)) (occ [e] ++ occ entries) := by
  rcases getElem?_split entries q f hf with ⟨l1, l2, h1, _, h3⟩
  rw [h3 e, h1]
  simp only [occ_append, occ_cons_free f l2 hfree]
  have : occ (e :: l2) = occ [e] ++ occ l2 := by
    rw [show e :: l2 = [e] ++ l2 from rfl, occ_append]
  rw [this, ← List.append_assoc, ← List.append_assoc]
  exact List.Perm.append_right _ List.perm_append_comm

/-! ### Growth -/

theorem dist_mod (L s d : Nat) (hs : s < L) (hd : d < L) : ((s + d) % L + L - s) % L = d := by
  by_cases h : s + d < L
  · rw [Nat.mod_eq_of_lt h]
    have : s + d + L - s = d + L := by omega
    rw [this, Nat.add_mod_right, Nat.mod_eq_of_lt hd]
  · have h1 : (s + d) % L = s + d - L := by
      rw [Nat.mod_eq_sub_mod (by omega), Nat.mod_eq_of_lt (by omega)]
    rw [h1]
    have : s + d - L + L - s = d := by omega
    rw [this, Nat.mod_eq_of_lt hd]

theorem length_occ_singleton_le (e : tableEntry) : (occ [e]).length ≤ 1 := by
  unfold occ
  exact (List.length_filter_le _ _)

theorem relocate_spec (e : tableEntry) (k : Nat) (hk : k < 32) (entries : List tableEntry)
    (c : Nat) (hlen : entries.length = 2 ^ k) (hc : Chain entries) (hz : FreeZero entries)
    (he : e.occupied = false → e = tableEntry.zero)
    (hfree : (occ entries).length < entries.length) :
    ∃ E1 c1, relocate (2 ^ k - 1) e entries.length entries (e.hash &&& (2 ^ k - 1)) c
        = some (E1, c1) ∧
      E1.length = 2 ^ k ∧ Chain E1 ∧ FreeZero E1 ∧
      List.Perm (occ E1) (occ [e] ++ occ entries) := by
  have hL : 0 < entries.length := by rw [hlen]; exact Nat.two_pow_pos k
  have hstart : e.hash &&& (2 ^ k - 1) = e.hash % entries.length := by
    rw [Nat.and_pow_two_sub_one_eq_mod, hlen]
  have hslt : e.hash % entries.length < entries.length := Nat.mod_lt _ hL
  rw [hstart, relocate_eq_scan e k hk _ entries _ c hlen hslt]
  rcases exists_free_of_occ_lt entries hfree with ⟨q0, f0, hq0, hf0⟩
  rcases scan_isSome stopFree entries _ q0 f0 hslt hq0 (by simp [stopFree, hf0]) with ⟨d, hd⟩
  rcases scan_spec stopFree entries _ _ d hd with ⟨hdl, ⟨f, hf, hsf⟩, hpath⟩
  have hfree1 : f.occupied = false := by simpa [stopFree] using hsf
  rw [hd]
  refine ⟨_, _, rfl, ?_, ?_, ?_, ?_⟩
  · rw [List.length_set, hlen]
  · by_cases heo : e.occupied = true
    · apply Chain_set_free entries _ e f hc hf heo
      intro d1 hd1
      rw [dist_mod _ _ _ hslt hdl] at hd1
      rcases hpath d1 hd1 with ⟨e1, h1, h2⟩
      exact ⟨e1, h1, by simpa [stopFree] using h2⟩
    · have heo1 : e.occupied = false := by simpa using heo
      have h1 : e = f := by
        rw [he heo1, hz f (List.getElem?_mem hf) hfree1]
      subst h1
      rw [set_self_of_getElem? entries _ e hf]
      exact hc
  · exact FreeZero_set entries _ e hz he
  · exact occ_set_free entries _ e f hf hfree1

theorem relocateAll_spec (k : Nat) (hk : k < 32) :
    ∀ (rest entries : List tableEntry) (c : Nat), entries.length = 2 ^ k → Chain entries →
      FreeZero entries → FreeZero rest → (occ entries).length + rest.length < 2 ^ k →
      ∃ E1 c1, relocateAll (2 ^ k - 1) rest entries c = some (E1, c1) ∧
        E1.length = 2 ^ k ∧ Chain E1 ∧ FreeZero E1 ∧
        List.Perm (occ E1) (occ rest ++ occ entries) := by
  intro rest
  induction rest with
  | nil =>
    intro entries c hlen hc hz _ _
    exact ⟨entries, c, rfl, hlen, hc, hz, by simp [occ]⟩
  | cons e rest ih =>
    intro entries c hlen hc hz hzr hcount
    have he : e.occupied = false → e = tableEntry.zero := hzr e (List.mem_cons_self _ _)
    have hfree : (occ entries).length < entries.length := by
      rw [hlen]; simp only [List.length_cons] at hcount; omega
    rcases relocate_spec e k hk entries c hlen hc hz he hfree with
      ⟨E1, c1, h1, hlen1, hc1, hz1, hp1⟩
    have hcount1 : (occ E1).length + rest.length < 2 ^ k := by
      have := hp1.length_eq
      have h2 := length_occ_singleton_le e
      simp only [List.length_append, List.length_cons] at this hcount
      omega
    rcases ih E1 c1 hlen1 hc1 hz1 (fun x hx => hzr x (List.mem_cons_of_mem _ hx)) hcount1 with
      ⟨E2, c2, h2, hlen2, hc2, hz2, hp2⟩
    refine ⟨E2, c2, ?_, hlen2, hc2, hz2, ?_⟩
    · unfold relocateAll
      rw [h1]
      exact h2
    · have h3 : occ (e :: rest) = occ [e] ++ occ rest := by
        rw [show e :: rest = [e] ++ rest from rfl, occ_append]
      rw [h3]
      refine hp2.trans ((List.Perm.append_left _ hp1).trans ?_)
      rw [← List.append_assoc]
      exact List.Perm.append_right _ List.perm_append_comm

theorem grow_spec (t : table) (k : Nat) (hk : k < 31) (hlen : t.entries.length = 2 ^ k)
    (hz : FreeZero t.entries) :
    ∃ E1 c1, t.grow = some { t with
        entries := E1
        stats := { t.stats with
          RelocationCollisions := c1
          RelocationCount := t.stats.RelocationCount + 1 }
        loadFactor := float64.div t.loadFactor (float64.ofNat growthFactor) } ∧
      E1.length = 2 ^ (k + 1) ∧ Chain E1 ∧ FreeZero E1 ∧
      List.Perm (occ E1) (occ t.entries) := by
  have hnew : (growthFactor * t.entries.length) % 2 ^ 32 = 2 ^ (k + 1) := by
    have h1 : 2 ^ (k + 1) < 2 ^ 32 := Nat.pow_lt_pow_right (by decide) (by omega)
    rw [hlen, growthFactor, ← Nat.pow_succ', Nat.mod_eq_of_lt h1]
  have hcount : (occ (List.replicate (2 ^ (k + 1)) tableEntry.zero)).length
      + t.entries.length < 2 ^ (k + 1) := by
    rw [occ_replicate_zero, hlen, Nat.pow_succ]
    have := Nat.two_pow_pos k
    simp only [List.length_nil]
    omega
  rcases relocateAll_spec (k + 1) (by omega) t.entries
      (List.replicate (2 ^ (k + 1)) tableEntry.zero) t.stats.RelocationCollisions
      (by simp) (Chain_replicate _) (FreeZero_replicate _) hz hcount with
    ⟨E1, c1, h1, hlen1, hc1, hz1, hp1⟩
  refine ⟨E1, c1, ?_, hlen1, hc1, hz1, ?_⟩
  · unfold table.grow
    simp only [hnew, mask32_eq (k + 1) (by omega), h1]
  · simpa [occ_replicate_zero] using hp1

/-! ### Insertion after the growth check -/

theorem insertNoGrow_spec (cs : List Comparable) (b : Bool) (t1 : table) (i k : Nat)
    (hcs : t1.comparables = cs) (hb : t1.collectIx = b) (hk : k ≤ 31)
    (hlen : t1.entries.length = 2 ^ k) (hc : Chain t1.entries) (hz : FreeZero t1.entries)
    (hfree : (occ t1.entries).length < t1.entries.length) :
    ∃ t2, insertNoGrow t1 i = some t2 ∧ (StepNew cs i t1 t2 ∨ StepOld cs b i t1 t2) ∧
      t2.comparables = cs ∧ t2.collectIx = b ∧ t2.entries.length = t1.entries.length ∧
      Chain t2.entries ∧ FreeZero t2.entries := by
  have hL : 0 < t1.entries.length := by rw [hlen]; exact Nat.two_pow_pos k
  have hstart : hashOf cs i &&& (2 ^ k - 1) = hashOf cs i % t1.entries.length := by
    rw [Nat.and_pow_two_sub_one_eq_mod, hlen]
  have hslt : hashOf cs i % t1.entries.length < t1.entries.length := Nat.mod_lt _ hL
  rcases exists_free_of_occ_lt t1.entries hfree with ⟨q0, f0, hq0, hf0⟩
  rcases scan_isSome (stopInsert cs (hashOf cs i) i) t1.entries _ q0 f0 hslt hq0
      (by simp [stopInsert, hf0]) with ⟨d, hd⟩
  rcases scan_spec _ t1.entries _ _ d hd with ⟨hdl, ⟨e, he, hse⟩, hpath⟩
  rcases getElem?_split t1.entries _ e he with ⟨l1, l2, hsplit, hl1, hset⟩
  have hprobe : probe t1.comparables t1.entries (t1.hash i) i
      ((t1.entries.length + 2 ^ 64 - 1) % 2 ^ 64) t1.entries.length
      (t1.hash i &&& ((t1.entries.length + 2 ^ 64 - 1) % 2 ^ 64)) t1.stats.InsertCollisions
      = some ((hashOf cs i % t1.entries.length + d) % t1.entries.length,
          t1.stats.InsertCollisions + d) := by
    have h1 : t1.hash i = hashOf cs i := by rw [table.hash, hcs]
    rw [h1, hcs]
    have hm : (t1.entries.length + 2 ^ 64 - 1) % 2 ^ 64 = 2 ^ k - 1 := by
      rw [hlen]; exact mask64_eq k (by omega)
    rw [hm, hstart, probe_eq_scan cs t1.entries _ i k (by omega) hlen _ _ _ hslt, hd]
    rfl
  have hpath1 : ∀ d1, d1 < d → ∃ e1,
      t1.entries[(hashOf cs i % t1.entries.length + d1) % t1.entries.length]? = some e1 ∧
      e1.occupied = true ∧ (e1.hash = hashOf cs i → equals cs i e1.firstPos = false) := by
    intro d1 hd1
    rcases hpath d1 hd1 with ⟨e1, h1, h2⟩
    refine ⟨e1, h1, ?_⟩
    simp only [stopInsert, Bool.or_eq_false_iff, Bool.not_eq_false', Bool.and_eq_false_iff,
      beq_eq_false_iff_ne] at h2
    refine ⟨h2.1, fun hh => ?_⟩
    rcases h2.2 with h3 | h3
    · exact absurd hh h3
    · exact h3
  unfold insertNoGrow
  simp only [hprobe, he]
  by_cases hocc : e.occupied = true
  · -- the row joins an existing group
    have hmatch : e.hash = hashOf cs i ∧ equals cs i e.firstPos = true := by
      simpa [stopInsert, hocc] using hse
    cases hbb : b with
    | false =>
      have hb1 : t1.collectIx = false := by rw [hb, hbb]
      refine ⟨_, rfl, Or.inr ⟨l1, l2, e, d, hsplit, hocc, hmatch.1, hmatch.2, ?_, ?_, ?_, ?_⟩,
        ?_, ?_, ?_, ?_, ?_⟩ <;>
        simp [updateEntry, hocc, hb1, hcs, hsplit, hc, hz, hbb]
      · rw [← hsplit]; exact hc
      · rw [← hsplit]; exact hz
    | true =>
      have hb1 : t1.collectIx = true := by rw [hb, hbb]
      have hupd : (updateEntry { t1 with stats :=
            { t1.stats with InsertCollisions := t1.stats.InsertCollisions + d } } i
            (t1.hash i) ((hashOf cs i % t1.entries.length + d) % t1.entries.length) e)
          = { t1 with
              stats := { t1.stats with InsertCollisions := t1.stats.InsertCollisions + d }
              entries := t1.entries.set
                ((hashOf cs i % t1.entries.length + d) % t1.entries.length)
                { e with ix := some (members e ++ [i]) } } := by
        unfold updateEntry
        simp only [hocc, hb1, Bool.not_true, Bool.false_eq_true, if_false, if_true]
        cases hix : e.ix with
        | none => simp [members, hix]
        | some ix => simp [members, hix]
      rw [hupd]
      refine ⟨_, rfl, Or.inr ⟨l1, l2, e, d, hsplit, hocc, hmatch.1, hmatch.2, ?_, rfl, rfl, rfl⟩,
        hcs, hb1, ?_, ?_, ?_⟩
      · simp only [↓reduceIte]; exact hset _
      · simp
      · exact Chain_set_same t1.entries _ _ e hc he hocc hocc rfl
      · exact FreeZero_set t1.entries _ _ hz (by simp [hocc])
  · -- the row starts a new group
    have hocc1 : e.occupied = false := by simpa using hocc
    have hezero : e = tableEntry.zero := hz e (List.getElem?_mem he) hocc1
    have h1 : t1.hash i = hashOf cs i := by rw [table.hash, hcs]
    have hupd : (updateEntry { t1 with stats :=
          { t1.stats with InsertCollisions := t1.stats.InsertCollisions + d } } i
          (t1.hash i) ((hashOf cs i % t1.entries.length + d) % t1.entries.length) e)
        = { t1 with
            stats := { t1.stats with InsertCollisions := t1.stats.InsertCollisions + d }
            entries := t1.entries.set
              ((hashOf cs i % t1.entries.length + d) % t1.entries.length)
              ⟨none, hashOf cs i, i, true⟩
            groupCount := (t1.groupCount + 1) % 2 ^ 32
            loadFactor := float64.div (float64.ofNat ((t1.groupCount + 1) % 2 ^ 32))
              (float64.ofNat t1.entries.length) } := by
      unfold updateEntry
      simp [hocc1, h1, hezero, tableEntry.zero]
    rw [hupd]
    refine ⟨_, rfl, Or.inl ⟨l1, l2, d, ?_, ?_, hdl, hl1, hpath1, rfl, rfl, rfl⟩,
      hcs, hb, ?_, ?_, ?_⟩
    · rw [← hezero]; exact hsplit
    · exact hset _
    · simp
    · apply Chain_set_free t1.entries _ _ e hc he rfl
      intro d1 hd1
      simp only at hd1
      rw [dist_mod _ _ _ hslt hdl] at hd1
      rcases hpath1 d1 hd1 with ⟨e1, h2, h3, _⟩
      exact ⟨e1, h2, h3⟩
    · exact FreeZero_set t1.entries _ _ hz (by simp)

/-! ### The growth check and one full insertion -/

theorem gt_half_iff (num den L gc : Nat) (h : num * L = gc * den) (hd : 0 < den)
    (hL : 0 < L) : (1 * den < num * 2) ↔ (L < 2 * gc) := by
  constructor
  · intro h1
    by_contra h2
    have h3 : 2 * gc ≤ L := by omega
    have h4 : 2 * gc * den ≤ L * den := Nat.mul_le_mul_right _ h3
    have h5 : 1 * den * L < num * 2 * L := Nat.mul_lt_mul_of_pos_right h1 hL
    nlinarith
  · intro h1
    by_contra h2
    have h3 : num * 2 ≤ den := by omega
    have h4 : num * 2 * L ≤ den * L := Nat.mul_le_mul_right _ h3
    have h5 : L * den < 2 * gc * den := Nat.mul_lt_mul_of_pos_right h1 hd
    nlinarith

theorem pow_two_lt_imp (k m : Nat) (h : 2 ^ k < 2 ^ m) : k < m := by
  by_contra hc
  have : 2 ^ m ≤ 2 ^ k := Nat.pow_le_pow_right (by decide) (by omega)
  omega

theorem growCheck_spec (cs : List Comparable) (b : Bool) (n : Nat) (t : table)
    (hinv : Inv cs b n t) (hn : n < 2 ^ 30) :
    ∃ t1, (if t.loadFactor.gt maxLoadFactor = true then t.grow = some t1 else t1 = t) ∧
      Inv cs b n t1 ∧ 2 * t1.groupCount ≤ t1.entries.length ∧
      List.Perm (occ t1.entries) (occ t.entries) ∧ t1.groupCount = t.groupCount := by
  rcases hinv.len with ⟨k, hk3, hk31, hlen⟩
  have hL : 0 < t.entries.length := by rw [hlen]; exact Nat.two_pow_pos k
  have hgt : (t.loadFactor.gt maxLoadFactor = true) ↔ t.entries.length < 2 * t.groupCount := by
    rw [float64.gt, maxLoadFactor, decide_eq_true_iff]
    exact gt_half_iff _ _ _ _ hinv.load hinv.den hL
  by_cases hg : t.loadFactor.gt maxLoadFactor = true
  · have h1 : t.entries.length < 2 * t.groupCount := hgt.1 hg
    have h2 : 2 ^ k < 2 ^ 31 := by
      have := hinv.rows
      have h30 : (2 : Nat) ^ 31 = 2 * 2 ^ 30 := by decide
      omega
    have hk : k < 31 := pow_two_lt_imp k 31 h2
    rcases grow_spec t k hk hlen hinv.freeZero with ⟨E1, c1, hgrow, hlen1, hc1, hz1, hp1⟩
    refine ⟨{ t with
        entries := E1
        stats := { t.stats with
          RelocationCollisions := c1
          RelocationCount := t.stats.RelocationCount + 1 }
        loadFactor := float64.div t.loadFactor (float64.ofNat growthFactor) },
      ?_, ?_, ?_, ?_, ?_⟩
    · simp only [hg, if_true]; exact hgrow
    · refine ⟨hinv.comparables, hinv.collectIx, ⟨k + 1, by omega, by omega, hlen1⟩, ?_, ?_, ?_,
        ?_, hinv.rows, hc1, hz1⟩
      · show t.groupCount = (occ E1).length
        rw [hp1.length_eq]; exact hinv.count
      · show (float64.div t.loadFactor (float64.ofNat growthFactor)).num * E1.length
          = t.groupCount * (float64.div t.loadFactor (float64.ofNat growthFactor)).den
        have := hinv.load
        simp only [float64.div, float64.ofNat, growthFactor, hlen1, Nat.pow_succ]
        rw [hlen] at this
        nlinarith
      · show 0 < (float64.div t.loadFactor (float64.ofNat growthFactor)).den
        have := hinv.den
        simp only [float64.div, float64.ofNat, growthFactor]
        omega
      · show 2 * t.groupCount ≤ E1.length + 2
        have := hinv.half
        have h8 : 2 ^ 3 ≤ 2 ^ k := Nat.pow_le_pow_right (by decide) hk3
        rw [hlen1, Nat.pow_succ]
        omega
    · show 2 * t.groupCount ≤ E1.length
      have := hinv.half
      have h8 : 2 ^ 3 ≤ 2 ^ k := Nat.pow_le_pow_right (by decide) hk3
      rw [hlen1, Nat.pow_succ]
      omega
    · exact hp1
    · rfl
  · refine ⟨t, ?_, hinv, ?_, List.Perm.refl _, rfl⟩
    · simp only [hg]; simp
    · have : ¬ t.entries.length < 2 * t.groupCount := fun h => hg (hgt.2 h)
      omega

theorem insertEntry_spec (cs : List Comparable) (b : Bool) (n : Nat) (t : table) (i : Nat)
    (hinv : Inv cs b n t) (hn : n < 2 ^ 30) :
    ∃ t1 t2, (if t.loadFactor.gt maxLoadFactor = true then t.grow = some t1 else t1 = t) ∧
      insertNoGrow t1 i = some t2 ∧ t.insertEntry i = some t2 ∧
      Inv cs b n t1 ∧ List.Perm (occ t1.entries) (occ t.entries) ∧
      (StepNew cs i t1 t2 ∨ StepOld cs b i t1 t2) ∧ Inv cs b (n + 1) t2 := by
  rcases growCheck_spec cs b n t hinv hn with ⟨t1, hgrow, hinv1, hhalf, hperm, hgc⟩
  rcases hinv1.len with ⟨k, hk3, hk31, hlen⟩
  have h8 : 2 ^ 3 ≤ 2 ^ k := Nat.pow_le_pow_right (by decide) hk3
  have hfree : (occ t1.entries).length < t1.entries.length := by
    rw [← hinv1.count]; omega
  rcases insertNoGrow_spec cs b t1 i k hinv1.comparables hinv1.collectIx hk31 hlen
      hinv1.chain hinv1.freeZero hfree with ⟨t2, hins, hstep, hcs2, hb2, hlen2, hc2, hz2⟩
  have hrows := hinv1.rows
  refine ⟨t1, t2, hgrow, hins, ?_, hinv1, hperm, hstep, ?_⟩
  · unfold table.insertEntry
    by_cases hg : t.loadFactor.gt maxLoadFactor = true
    · simp only [hg, if_true] at hgrow ⊢
      simp only [hgrow, hins]
    · simp only [hg] at hgrow ⊢
      simp only [Bool.false_eq_true, if_false] at hgrow ⊢
      subst hgrow
      exact hins
  · rcases hstep with ⟨l1, l2, d, he1, he2, _, _, _, hgc2, hlf2, _⟩ |
      ⟨l1, l2, old, d, he1, hocc, _, _, he2, hgc2, hlf2, _⟩
    · have hmod : (t1.groupCount + 1) % 2 ^ 32 = t1.groupCount + 1 := by
        apply Nat.mod_eq_of_lt
        have : (2 : Nat) ^ 30 < 2 ^ 32 := by decide
        omega
      rw [hmod] at hgc2 hlf2
      refine ⟨hcs2, hb2, ⟨k, hk3, hk31, by rw [hlen2, hlen]⟩, ?_, ?_, ?_, ?_, ?_, hc2, hz2⟩
      · rw [hgc2, hinv1.count, he1, he2]
        simp [occ, tableEntry.zero]
        omega
      · rw [hlf2, hgc2, hlen2]
        simp only [float64.div, float64.ofNat]
        ring
      · rw [hlf2]
        simp only [float64.div, float64.ofNat]
        omega
      · rw [hgc2, hlen2]; omega
      · rw [hgc2]; omega
    · refine ⟨hcs2, hb2, ⟨k, hk3, hk31, by rw [hlen2, hlen]⟩, ?_, ?_, ?_, ?_, ?_, hc2, hz2⟩
      · rw [hgc2, hinv1.count, he1, he2]
        cases b <;> simp [occ, hocc]
      · rw [hlf2, hgc2, hlen2]; exact hinv1.load
      · rw [hlf2]; exact hinv1.den
      · rw [hgc2, hlen2]; omega
      · rw [hgc2]; omega

/-! ### The initial table and the insertion loop -/

theorem lenBits_le : ∀ (fuel x m : Nat), x < 2 ^ m → bits.lenBits fuel x ≤ m := by
  intro fuel
  induction fuel with
  | zero => intro x m _; simp [bits.lenBits]
  | succ fuel ih =>
    intro x m hx
    unfold bits.lenBits
    by_cases h0 : x = 0
    · simp [h0]
    · simp only [h0, if_false]
      cases m with
      | zero => simp at hx; exact absurd hx h0
      | succ m =>
        have : x / 2 < 2 ^ m := by
          rw [Nat.pow_succ] at hx
          omega
        have := ih (x / 2) m this
        omega

theorem calculateInitialSizeExp_bounds (n : Nat) (hn : n ≤ 2 ^ 30) :
    3 ≤ calculateInitialSizeExp n ∧ calculateInitialSizeExp n ≤ 29 := by
  unfold calculateInitialSizeExp integer.Max bits.Len64
  have h1 : n % 2 ^ 64 / 4 < 2 ^ 29 := by
    have : (2 : Nat) ^ 30 < 2 ^ 64 := by decide
    rw [Nat.mod_eq_of_lt (by omega)]
    have : (2 : Nat) ^ 30 = 4 * 2 ^ 28 := by decide
    have : (2 : Nat) ^ 29 = 2 * 2 ^ 28 := by decide
    omega
  have h2 := lenBits_le 64 _ 29 h1
  simp only
  split <;> omega

theorem newTable_inv (cs : List Comparable) (b : Bool) (n : Nat) (hn : n ≤ 2 ^ 30) :
    Inv cs b 0 (newTable (calculateInitialSizeExp n) cs b) := by
  rcases calculateInitialSizeExp_bounds n hn with ⟨h3, h29⟩
  refine ⟨rfl, rfl, ⟨calculateInitialSizeExp n, h3, by omega, ?_⟩, ?_, ?_, ?_, ?_, ?_, ?_, ?_⟩
  · simp [newTable, integer.Pow2]
  · simp [newTable, occ_replicate_zero]
  · simp [newTable, float64.zero]
  · simp [newTable, float64.zero]
  · simp [newTable]
  · simp [newTable]
  · exact Chain_replicate _
  · exact FreeZero_replicate _

/-- Induction over the insertion loop: the loop returns a table, and every
property `Q` of the rows inserted so far and the table that holds at the start
and is kept by one insertion (growth check, then probe and update) holds at
the end. -/
theorem insertAll_invariant (cs : List Comparable) (b : Bool)
    (Q : List Nat → table → Prop)
    (hstep : ∀ (p : List Nat) (i n : Nat) (t t1 t2 : table),
      Inv cs b n t → n = p.length → Q p t →
      (if t.loadFactor.gt maxLoadFactor = true then t.grow = some t1 else t1 = t) →
      Inv cs b n t1 → List.Perm (occ t1.entries) (occ t.entries) →
      insertNoGrow t1 i = some t2 →
      (StepNew cs i t1 t2 ∨ StepOld cs b i t1 t2) → Inv cs b (n + 1) t2 →
      Q (p ++ [i]) t2) :
    ∀ (rest p : List Nat) (n : Nat) (t : table), Inv cs b n t → n = p.length →
      n + rest.length ≤ 2 ^ 30 → Q p t →
      ∃ t3, insertAll t rest = some t3 ∧ Inv cs b (n + rest.length) t3 ∧ Q (p ++ rest) t3 := by
  intro rest
  induction rest with
  | nil =>
    intro p n t hinv _ _ hq
    exact ⟨t, rfl, by simpa using hinv, by simpa using hq⟩
  | cons i rest ih =>
    intro p n t hinv hp hn hq
    simp only [List.length_cons] at hn
    rcases insertEntry_spec cs b n t i hinv (by omega) with
      ⟨t1, t2, hgrow, hins, hie, hinv1, hperm, hst, hinv2⟩
    have hq2 := hstep p i n t t1 t2 hinv hp hq hgrow hinv1 hperm hins hst hinv2
    rcases ih (p ++ [i]) (n + 1) t2 hinv2 (by simp [hp]) (by omega) hq2 with
      ⟨t3, h3, hinv3, hq3⟩
    refine ⟨t3, ?_, ?_, ?_⟩
    · unfold insertAll
      rw [hie]
      exact h3
    · have : n + (i :: rest).length = n + 1 + rest.length := by
        simp only [List.length_cons]; omega
      rw [this]; exact hinv3
    · simpa using hq3

theorem collectGroups_eq (entries : List tableEntry) :
    ∀ result, collectGroups entries result = result ++ groupsOf entries := by
  induction entries with
  | nil => intro result; simp [collectGroups, groupsOf, occ]
  | cons e rest ih =>
    intro result
    unfold collectGroups
    by_cases ho : e.occupied = true
    · cases hix : e.ix with
      | none =>
        simp only [ho, if_true]
        rw [ih]
        simp [groupsOf, occ, ho, members, hix]
      | some l =>
        simp only [ho, if_true]
        rw [ih]
        simp [groupsOf, occ, ho, members, hix]
    · have ho1 : e.occupied = false := by simpa using ho
      simp only [ho1, Bool.false_eq_true, if_false]
      rw [ih]
      simp [groupsOf, occ, ho1]

theorem collectFirst_eq (entries : List tableEntry) :
    ∀ result, collectFirst entries result
      = result ++ (occ entries).map (fun e => e.firstPos) := by
  induction entries with
  | nil => intro result; simp [collectFirst, occ]
  | cons e rest ih =>
    intro result
    unfold collectFirst
    by_cases ho : e.occupied = true
    · simp only [ho, if_true]
      rw [ih]
      simp [occ, ho]
    · have ho1 : e.occupied = false := by simpa using ho
      simp only [ho1, Bool.false_eq_true, if_false]
      rw [ih]
      simp [occ, ho1]

/-- The final statistics reported by `groupIndex` for a table. -/
theorem groupIndex_run (cs : List Comparable) (b : Bool) (ix : List Nat)
    (hn : ix.length ≤ 2 ^ 30) (Q : List Nat → table → Prop)
    (h0 : Q [] (newTable (calculateInitialSizeExp ix.length) cs b))
    (hstep : ∀ (p : List Nat) (i n : Nat) (t t1 t2 : table),
      Inv cs b n t → n = p.length → Q p t →
      (if t.loadFactor.gt maxLoadFactor = true then t.grow = some t1 else t1 = t) →
      Inv cs b n t1 → List.Perm (occ t1.entries) (occ t.entries) →
      insertNoGrow t1 i = some t2 →
      (StepNew cs i t1 t2 ∨ StepOld cs b i t1 t2) → Inv cs b (n + 1) t2 →
      Q (p ++ [i]) t2) :
    ∃ t, insertAll (newTable (calculateInitialSizeExp ix.length) cs b) ix = some t ∧
      groupIndex ix cs b
        = some (t.entries, { t.stats with LoadFactor := t.loadFactor, GroupCount := t.groupCount }) ∧
      Inv cs b ix.length t ∧ Q ix t := by
  rcases insertAll_invariant cs b Q hstep ix [] 0 _ (newTable_inv cs b ix.length hn) rfl
      (by omega) h0 with ⟨t, h1, h2, h3⟩
  refine ⟨t, h1, ?_, by simpa using h2, by simpa using h3⟩
  unfold groupIndex
  simp only [h1]

/-! ### Running `GroupBy` and `Distinct` -/

theorem GroupBy_run (cs : List Comparable) (ix : List Nat) (hn : ix.length ≤ 2 ^ 30)
    (Q : List Nat → table → Prop)
    (h0 : Q [] (newTable (calculateInitialSizeExp ix.length) cs true))
    (hstep : Preserved cs true Q) :
    ∃ t, insertAll (newTable (calculateInitialSizeExp ix.length) cs true) ix = some t ∧
      GroupBy ix cs = some (groupsOf t.entries, finalStats t) ∧
      Inv cs true ix.length t ∧ Q ix t := by
  rcases groupIndex_run cs true ix hn Q h0 hstep with ⟨t, h1, h2, h3, h4⟩
  refine ⟨t, h1, ?_, h3, h4⟩
  unfold GroupBy
  simp only [h2, collectGroups_eq, List.nil_append, finalStats]

theorem Distinct_run (cs : List Comparable) (ix : List Nat) (hn : ix.length ≤ 2 ^ 30)
    (Q : List Nat → table → Prop)
    (h0 : Q [] (newTable (calculateInitialSizeExp ix.length) cs false))
    (hstep : Preserved cs false Q) :
    ∃ t, insertAll (newTable (calculateInitialSizeExp ix.length) cs false) ix = some t ∧
      Distinct ix cs = some ((occ t.entries).map (fun e => e.firstPos)) ∧
      Inv cs false ix.length t ∧ Q ix t := by
  rcases groupIndex_run cs false ix hn Q h0 hstep with ⟨t, h1, h2, h3, h4⟩
  refine ⟨t, h1, ?_, h3, h4⟩
  unfold Distinct
  simp only [h2, collectFirst_eq, List.nil_append]

theorem Preserved.and (cs : List Comparable) (b : Bool) (Q1 Q2 : List Nat → table → Prop)
    (h1 : Preserved cs b Q1) (h2 : Preserved cs b Q2) :
    Preserved cs b (fun p t => Q1 p t ∧ Q2 p t) := by
  intro p i n t t1 t2 hinv hp hq hg hinv1 hperm hins hst hinv2
  exact ⟨h1 p i n t t1 t2 hinv hp hq.1 hg hinv1 hperm hins hst hinv2,
    h2 p i n t t1 t2 hinv hp hq.2 hg hinv1 hperm hins hst hinv2⟩

/-! ### Groups of a table -/

theorem groupsOf_append (l1 l2 : List tableEntry) :
    groupsOf (l1 ++ l2) = groupsOf l1 ++ groupsOf l2 := by
  simp [groupsOf, occ_append]

theorem groupsOf_cons_occupied (e : tableEntry) (l : List tableEntry) (h : e.occupied = true) :
    groupsOf (e :: l) = members e :: groupsOf l := by
  simp [groupsOf, occ_cons_occupied e l h]

theorem groupsOf_cons_free (e : tableEntry) (l : List tableEntry) (h : e.occupied = false) :
    groupsOf (e :: l) = groupsOf l := by
  simp [groupsOf, occ_cons_free e l h]

theorem groupsOf_replicate_zero (n : Nat) :
    groupsOf (List.replicate n tableEntry.zero) = [] := by
  simp [groupsOf, occ_replicate_zero]

theorem groupsOf_perm (l1 l2 : List tableEntry) (h : List.Perm (occ l1) (occ l2)) :
    List.Perm (groupsOf l1) (groupsOf l2) := h.map _

/-- The rows held by the table are the rows inserted so far, in some order. -/
theorem flatten_groups_preserved (cs : List Comparable) :
    Preserved cs true (fun p t => List.Perm (groupsOf t.entries).flatten p) := by
  intro p i n t t1 t2 _ _ hq _ _ hperm _ hst _
  have h1 : List.Perm (groupsOf t1.entries).flatten p :=
    (groupsOf_perm _ _ hperm).flatten.trans hq
  rcases hst with ⟨l1, l2, d, he1, he2, _⟩ | ⟨l1, l2, old, d, he1, hocc, _, _, he2, _⟩
  · rw [he1, groupsOf_append, groupsOf_cons_free _ _ (by simp [tableEntry.zero])] at h1
    rw [he2, groupsOf_append, groupsOf_cons_occupied _ _ (by simp)]
    simp only [List.flatten_append, List.flatten_cons, members] at h1 ⊢
    have h2 : List.Perm ((groupsOf l1).flatten ++ ([i] ++ (groupsOf l2).flatten))
        (((groupsOf l1).flatten ++ (groupsOf l2).flatten) ++ [i]) := by
      rw [List.append_assoc]
      exact List.Perm.append_left _ List.perm_append_comm
    exact h2.trans (List.Perm.append_right _ h1)
  · rw [he1, groupsOf_append, groupsOf_cons_occupied _ _ hocc] at h1
    rw [he2, groupsOf_append, groupsOf_cons_occupied _ _ (by simp [hocc])]
    simp only [List.flatten_append, List.flatten_cons, members, if_true] at h1 ⊢
    have h2 : List.Perm ((groupsOf l1).flatten ++ ((members old ++ [i])
          ++ (groupsOf l2).flatten))
        (((groupsOf l1).flatten ++ (members old ++ (groupsOf l2).flatten)) ++ [i]) := by
      rw [List.append_assoc, List.append_assoc, List.append_assoc]
      exact List.Perm.append_left _ (List.Perm.append_left _ List.perm_append_comm)
    exact h2.trans (List.Perm.append_right _ h1)

/-! ### C2: the groups partition the index -/

/-- In the range in which the table length computed by `grow` cannot wrap,
the property of C2 holds: for every row index `ix` (of at most `2 ^ 30` rows, the range in which
the `uint32` table length computed by `grow` cannot wrap) and every list of
comparables, with no assumption on `Hash` or `Compare`, `GroupBy` returns, the
concatenation of its groups is a permutation of `ix`, and the group sizes sum
to `len(ix)`. -/
theorem GroupBy_groups_partition_index (ix : List Nat) (comparables : List Comparable)
    (hlen : ix.length ≤ 2 ^ 30) :
    ∃ groups stats, GroupBy ix comparables = some (groups, stats) ∧
      List.Perm groups.flatten ix ∧ (groups.map List.length).sum = ix.length := by
  rcases GroupBy_run comparables ix hlen _ (by
      show List.Perm (groupsOf (newTable _ comparables true).entries).flatten []
      simp [newTable, groupsOf_replicate_zero])
    (flatten_groups_preserved comparables) with ⟨t, _, h2, _, h4⟩
  refine ⟨_, _, h2, h4, ?_⟩
  rw [← List.length_flatten]
  exact h4.length_eq

theorem GroupBy_groups_partition_index_witness :
    [0, 1, 2, 3].length ≤ 2 ^ 30 ∧
    ∃ groups stats, GroupBy [0, 1, 2, 3] [intComparable [1, 2, 3, 1]] = some (groups, stats) ∧
      List.Perm groups.flatten [0, 1, 2, 3] ∧ (groups.map List.length).sum = [0, 1, 2, 3].length :=
  ⟨by decide, GroupBy_groups_partition_index _ _ (by decide)⟩

/-! ### Rows assigned to a group label -/

theorem assigned_append (lab p : List Nat) (k0 i k : Nat) (hlen : lab.length = p.length) :
    assigned (lab ++ [k0]) (p ++ [i]) k
      = assigned lab p k ++ (if k0 = k then [i] else []) := by
  unfold assigned
  rw [List.zip_append hlen.symm]
  by_cases h : k0 = k <;> simp [h]

theorem assigned_eq_nil (lab p : List Nat) (k : Nat) (h : k ∉ lab) : assigned lab p k = [] := by
  unfold assigned
  rw [List.map_eq_nil_iff, List.filter_eq_nil_iff]
  intro a ha hk
  have h1 : a.2 ∈ lab := (List.of_mem_zip ha).2
  have h2 : a.2 = k := by simpa using hk
  exact h (h2 ▸ h1)

theorem assigned_sublist (lab p : List Nat) (k : Nat) (hlen : lab.length = p.length) :
    List.Sublist (assigned lab p k) p := by
  unfold assigned
  have h1 : List.Sublist (((p.zip lab).filter (fun q => q.2 == k)).map Prod.fst)
      ((p.zip lab).map Prod.fst) := (List.filter_sublist _).map _
  rwa [List.map_fst_zip _ _ (by omega)] at h1

theorem head?_filter_eq_find? {α : Type} (f : α → Bool) (l : List α) :
    (l.filter f).head? = l.find? f := by
  induction l with
  | nil => rfl
  | cons a l ih =>
    by_cases h : f a = true
    · simp [List.filter, List.find?, h]
    · have h1 : f a = false := by simpa using h
      simp [List.filter, List.find?, h1, ih]

theorem head?_assigned (lab p : List Nat) (k : Nat) :
    (assigned lab p k).head? = firstAssigned lab p k := by
  unfold assigned firstAssigned
  rw [List.head?_map, head?_filter_eq_find?]

theorem firstAssigned_isSome (lab p : List Nat) (k : Nat) (hlen : lab.length = p.length)
    (hk : k ∈ lab) : (firstAssigned lab p k).isSome = true := by
  unfold firstAssigned
  rw [Option.isSome_map', List.find?_isSome]
  rcases List.getElem_of_mem hk with ⟨j, hj, hjk⟩
  have hjp : j < p.length := by omega
  refine ⟨(p[j], k), ?_, by simp⟩
  rw [List.mem_iff_getElem]
  refine ⟨j, by simp [hlen]; omega, ?_⟩
  simp [hjk]

theorem forall₂_split_left {α β : Type} (R : α → β → Prop) :
    ∀ (l1 l2 : List α) (ids : List β), List.Forall₂ R (l1 ++ l2) ids →
      ∃ ids1 ids2, ids = ids1 ++ ids2 ∧ List.Forall₂ R l1 ids1 ∧ List.Forall₂ R l2 ids2 := by
  intro l1
  induction l1 with
  | nil => intro l2 ids h; exact ⟨[], ids, rfl, List.Forall₂.nil, h⟩
  | cons a l1 ih =>
    intro l2 ids h
    cases h with
    | cons hab hrest =>
      rcases ih _ _ hrest with ⟨ids1, ids2, h1, h2, h3⟩
      exact ⟨_ :: ids1, ids2, by simp [h1], List.Forall₂.cons hab h2, h3⟩

theorem forall₂_join {α β : Type} (R : α → β → Prop) :
    ∀ (l1 l2 : List α) (ids1 ids2 : List β), List.Forall₂ R l1 ids1 → List.Forall₂ R l2 ids2 →
      List.Forall₂ R (l1 ++ l2) (ids1 ++ ids2) := by
  intro l1 l2 ids1 ids2 h1 h2
  induction h1 with
  | nil => exact h2
  | cons hab _ ih => exact List.Forall₂.cons hab ih

theorem forall₂_assigned_extend (lab p : List Nat) (k0 i : Nat) (hlen : lab.length = p.length) :
    ∀ (l : List tableEntry) (ids : List Nat),
      List.Forall₂ (fun e k => members e = assigned lab p k) l ids → k0 ∉ ids →
      List.Forall₂ (fun e k => members e = assigned (lab ++ [k0]) (p ++ [i]) k) l ids := by
  intro l ids h
  induction h with
  | nil => intro _; exact List.Forall₂.nil
  | cons hab _ ih =>
    intro hk
    rw [List.mem_cons, not_or] at hk
    refine List.Forall₂.cons ?_ (ih hk.2)
    rw [assigned_append _ _ _ _ _ hlen, if_neg hk.1, List.append_nil]
    exact hab

theorem forall₂_map_members (lab p : List Nat) :
    ∀ (l : List tableEntry) (ids : List Nat),
      List.Forall₂ (fun e k => members e = assigned lab p k) l ids →
      l.map members = ids.map (assigned lab p) := by
  intro l ids h
  induction h with
  | nil => rfl
  | cons hab _ ih => simp [hab, ih]

theorem labelled_preserved (cs : List Comparable) : Preserved cs true Labelled := by
  intro p i n t t1 t2 _ _ hq _ _ hperm _ hst _
  rcases hq with ⟨lab, ids0, hlen, hnd0, hmem0, hlt0, hf0⟩
  rcases List.perm_comp_forall₂ hperm hf0 with ⟨ids, hf, hpi⟩
  have hnd : ids.Nodup := hpi.nodup_iff.2 hnd0
  have hmem : ∀ k, k ∈ lab ↔ k ∈ ids := fun k => (hmem0 k).trans hpi.mem_iff.symm
  have hlt : ∀ k ∈ ids, k < p.length := fun k hk => hlt0 k (hpi.mem_iff.1 hk)
  rcases hst with ⟨l1, l2, d, he1, he2, _⟩ | ⟨l1, l2, old, d, he1, hocc, _, _, he2, _⟩
  · -- a new group, labelled with the position of its first row
    rw [he1, occ_append, occ_cons_free _ _ (by simp [tableEntry.zero])] at hf
    rcases forall₂_split_left _ _ _ _ hf with ⟨ids1, ids2, hids, hf1, hf2⟩
    have hfresh : p.length ∉ ids := fun h => Nat.lt_irrefl _ (hlt _ h)
    have hfresh1 : p.length ∉ ids1 := fun h => hfresh (by rw [hids]; simp [h])
    have hfresh2 : p.length ∉ ids2 := fun h => hfresh (by rw [hids]; simp [h])
    refine ⟨lab ++ [p.length], ids1 ++ p.length :: ids2, by simp [hlen], ?_, ?_, ?_, ?_⟩
    · rw [hids] at hnd
      rw [List.nodup_append] at hnd ⊢
      refine ⟨hnd.1, List.nodup_cons.2 ⟨hfresh2, hnd.2.1⟩, ?_⟩
      intro a h1 h2
      rcases List.mem_cons.1 h2 with h3 | h3
      · exact hfresh1 (h3 ▸ h1)
      · exact hnd.2.2 h1 h3
    · intro k
      have := hmem k
      rw [hids] at this
      simp only [List.mem_append, List.mem_cons, List.mem_singleton, List.not_mem_nil,
        or_false] at this ⊢
      tauto
    · intro k hk
      have h1 : k ∈ ids ∨ k = p.length := by
        rw [hids]
        simp only [List.mem_append, List.mem_cons] at hk ⊢
        tauto
      simp only [List.length_append, List.length_singleton]
      rcases h1 with h1 | h1
      · have := hlt k h1; omega
      · omega
    · rw [he2, occ_append, occ_cons_occupied _ _ (by simp)]
      refine forall₂_join _ _ _ _ _ (forall₂_assigned_extend lab p _ i hlen _ _ hf1 hfresh1)
        (List.Forall₂.cons ?_ (forall₂_assigned_extend lab p _ i hlen _ _ hf2 hfresh2))
      rw [assigned_append _ _ _ _ _ hlen, if_pos rfl,
        assigned_eq_nil lab p _ (fun h => hfresh ((hmem _).1 h))]
      rfl
  · -- the row joins the group of the entry found
    rw [he1, occ_append, occ_cons_occupied _ _ hocc] at hf
    rcases forall₂_split_left _ _ _ _ hf with ⟨ids1, ids2', hids, hf1, hf2'⟩
    cases hf2' with
    | cons hold hf2 =>
      rename_i k ids2
      rw [hids] at hnd
      have hk1 : k ∉ ids1 := by
        intro h
        exact (List.nodup_append.1 hnd).2.2 h (List.mem_cons_self _ _)
      have hk2 : k ∉ ids2 := (List.nodup_cons.1 (List.nodup_append.1 hnd).2.1).1
      refine ⟨lab ++ [k], ids, by simp [hlen], by rw [hids]; exact hnd, ?_, ?_, ?_⟩
      · intro j
        have := hmem j
        have hk : k ∈ ids := by rw [hids]; simp
        simp only [List.mem_append, List.mem_singleton]
        constructor
        · rintro (h | h)
          · exact this.1 h
          · exact h ▸ hk
        · intro h; exact Or.inl (this.2 h)
      · intro j hj
        have := hlt j hj
        simp only [List.length_append, List.length_singleton]
        omega
      · rw [he2, occ_append, occ_cons_occupied _ _ (by simp [hocc]), hids]
        refine forall₂_join _ _ _ _ _ (forall₂_assigned_extend lab p _ i hlen _ _ hf1 hk1)
          (List.Forall₂.cons ?_ (forall₂_assigned_extend lab p _ i hlen _ _ hf2 hk2))
        rw [assigned_append _ _ _ _ _ hlen, if_pos rfl, ← hold]
        simp [members]

/-! ### The key invariant -/

theorem add_dist_mod (L s q : Nat) (hs : s < L) (hq : q < L) :
    (s + (q + L - s) % L) % L = q := by
  rw [Nat.add_mod_mod]
  have : s + (q + L - s) = q + L := by omega
  rw [this, Nat.add_mod_right, Nat.mod_eq_of_lt hq]

/-- A row that ends its probe in a free slot is equal to no key of the table. -/
theorem new_key_fresh (cs : List Comparable) (hk : KeyLaws cs) (E l1 l2 : List tableEntry)
    (i d : Nat) (hL : 0 < E.length) (hE : E = l1 ++ tableEntry.zero :: l2)
    (hl1 : l1.length = (hashOf cs i % E.length + d) % E.length)
    (hpath : ∀ d1, d1 < d → ∃ e,
      E[(hashOf cs i % E.length + d1) % E.length]? = some e ∧
      e.occupied = true ∧ (e.hash = hashOf cs i → equals cs i e.firstPos = false))
    (hchain : Chain E) (hK1 : ∀ e ∈ occ E, e.hash = hashOf cs e.firstPos) :
    ∀ e ∈ occ E, equals cs i e.firstPos = false := by
  intro e he
  by_contra hne
  have heq : equals cs i e.firstPos = true := by simpa using hne
  rcases mem_occ.1 he with ⟨hmem, hocc⟩
  rcases List.getElem?_of_mem hmem with ⟨q, hq⟩
  have hql : q < E.length := (List.getElem?_eq_some_iff.1 hq).1
  have hh : e.hash = hashOf cs i := by rw [hK1 e he, hk.hash i e.firstPos heq]
  have hs : hashOf cs i % E.length < E.length := Nat.mod_lt _ hL
  have hqd := add_dist_mod E.length _ q hs hql
  have hzero : E[(hashOf cs i % E.length + d) % E.length]? = some tableEntry.zero := by
    have hz0 : (l1 ++ tableEntry.zero :: l2)[l1.length]? = some tableEntry.zero := by
      rw [List.getElem?_append_right (Nat.le_refl _)]
      simp
    rw [← hl1]
    conv_lhs => rw [hE]
    exact hz0
  rcases Nat.lt_trichotomy ((q + E.length - hashOf cs i % E.length) % E.length) d with
    hlt | heqd | hgt
  · rcases hpath _ hlt with ⟨e1, h1, _, h3⟩
    rw [hqd, hq] at h1
    cases h1
    rw [h3 hh] at heq
    cases heq
  · rw [← heqd, hqd, hq] at hzero
    cases hzero
    simp [tableEntry.zero] at hocc
  · have := hchain q e hq hocc d (by rw [hh]; exact hgt)
    rcases this with ⟨e1, h1, h2⟩
    rw [hh, hzero] at h1
    cases h1
    simp [tableEntry.zero] at h2

theorem keyed_preserved (cs : List Comparable) (b : Bool) (hk : KeyLaws cs) :
    Preserved cs b (Keyed cs) := by
  intro p i n t t1 t2 _ _ hq _ hinv1 hperm _ hst _
  rcases hq with ⟨hK1, hK2, hK3⟩
  have hsymm : ∀ {x y : Nat}, equals cs x y = false → equals cs y x = false := by
    intro x y h
    by_contra h1
    have h2 : equals cs y x = true := by simpa using h1
    rw [hk.symm y x h2] at h
    cases h
  have hK1' : ∀ e ∈ occ t1.entries, e.hash = hashOf cs e.firstPos :=
    fun e he => hK1 e (hperm.mem_iff.1 he)
  have hK2' : ∀ e ∈ occ t1.entries, ∀ a ∈ members e, equals cs a e.firstPos = true :=
    fun e he => hK2 e (hperm.mem_iff.1 he)
  have hK3' : ((occ t1.entries).map (fun e => e.firstPos)).Pairwise
      (fun a b => equals cs a b = false) :=
    ((hperm.map _).pairwise_iff hsymm).2 hK3
  rcases hinv1.len with ⟨k, _, _, hlen⟩
  have hL : 0 < t1.entries.length := by rw [hlen]; exact Nat.two_pow_pos k
  rcases hst with ⟨l1, l2, d, he1, he2, _, hl1, hpath, _⟩ |
    ⟨l1, l2, old, d, he1, hocc, hhash, heq, he2, _⟩
  · have hfresh := new_key_fresh cs hk t1.entries l1 l2 i d hL he1 hl1 hpath hinv1.chain hK1'
    have hocc1 : occ t1.entries = occ l1 ++ occ l2 := by
      rw [he1, occ_append, occ_cons_free _ _ (by simp [tableEntry.zero])]
    have hocc2 : occ t2.entries = occ l1 ++ ⟨none, hashOf cs i, i, true⟩ :: occ l2 := by
      rw [he2, occ_append, occ_cons_occupied _ _ (by simp)]
    rw [hocc1] at hK1' hK2' hK3' hfresh
    refine ⟨?_, ?_, ?_⟩
    · intro e he
      rw [hocc2] at he
      rcases List.mem_append.1 he with h | h
      · exact hK1' e (List.mem_append_left _ h)
      · rcases List.mem_cons.1 h with h | h
        · subst h; rfl
        · exact hK1' e (List.mem_append_right _ h)
    · intro e he
      rw [hocc2] at he
      rcases List.mem_append.1 he with h | h
      · exact hK2' e (List.mem_append_left _ h)
      · rcases List.mem_cons.1 h with h | h
        · subst h
          intro a ha
          simp only [members, List.mem_singleton] at ha
          subst ha
          exact hk.refl _
        · exact hK2' e (List.mem_append_right _ h)
    · rw [hocc2]
      simp only [List.map_append, List.map_cons, List.pairwise_append, List.pairwise_cons,
        List.mem_map, List.mem_cons] at hK3' ⊢
      refine ⟨hK3'.1, ⟨?_, hK3'.2.1⟩, ?_⟩
      · rintro a ⟨e, he, rfl⟩
        exact hfresh e (List.mem_append_right _ he)
      · rintro a ⟨e, he, rfl⟩ c hc
        rcases hc with hc | ⟨f, hf, rfl⟩
        · subst hc
          exact hsymm (hfresh e (List.mem_append_left _ he))
        · exact hK3'.2.2 _ ⟨e, he, rfl⟩ _ ⟨f, hf, rfl⟩
  · have hocc1 : occ t1.entries = occ l1 ++ old :: occ l2 := by
      rw [he1, occ_append, occ_cons_occupied _ _ hocc]
    have hocc2 : occ t2.entries = occ l1 ++
        (if b then { old with ix := some (members old ++ [i]) } else old) :: occ l2 := by
      rw [he2, occ_append, occ_cons_occupied _ _ (by cases b <;> simp [hocc])]
    have hold : old ∈ occ t1.entries := by rw [hocc1]; simp
    rw [hocc1] at hK1' hK2' hK3'
    refine ⟨?_, ?_, ?_⟩
    · intro e he
      rw [hocc2] at he
      rcases List.mem_append.1 he with h | h
      · exact hK1' e (List.mem_append_left _ h)
      · rcases List.mem_cons.1 h with h | h
        · subst h
          have := hK1' old (by simp)
          cases b <;> simpa using this
        · exact hK1' e (List.mem_append_right _ (List.mem_cons_of_mem _ h))
    · intro e he
      rw [hocc2] at he
      rcases List.mem_append.1 he with h | h
      · exact hK2' e (List.mem_append_left _ h)
      · rcases List.mem_cons.1 h with h | h
        · subst h
          have hm := hK2' old (by simp)
          cases b
          · simpa using hm
          · intro a ha
            simp only [if_true, members, List.mem_append, List.mem_singleton] at ha
            rcases ha with ha | ha
            · exact hm a ha
            · subst ha; exact heq
        · exact hK2' e (List.mem_append_right _ (List.mem_cons_of_mem _ h))
    · have : (occ t2.entries).map (fun e => e.firstPos)
          = (occ l1 ++ old :: occ l2).map (fun e => e.firstPos) := by
        rw [hocc2]
        cases b <;> simp
      rw [this]
      exact hK3'

theorem keyed_init (cs : List Comparable) (b : Bool) (n : Nat) :
    Keyed cs [] (newTable n cs b) := by
  simp [Keyed, newTable, occ_replicate_zero]

/-! ### The member slice starts with the first position -/

theorem headFirst_preserved (cs : List Comparable) (b : Bool) :
    Preserved cs b HeadFirst := by
  intro p i n t t1 t2 _ _ hq _ _ hperm _ hst _
  have hq1 : ∀ e ∈ occ t1.entries, e.ix = none ∨ ∃ x rest, e.ix = some (e.firstPos :: x :: rest) :=
    fun e he => hq e (hperm.mem_iff.1 he)
  rcases hst with ⟨l1, l2, d, he1, he2, _⟩ | ⟨l1, l2, old, d, he1, hocc, _, _, he2, _⟩
  · intro e he
    rw [he2, occ_append, occ_cons_occupied _ _ (by simp)] at he
    rw [he1, occ_append, occ_cons_free _ _ (by simp [tableEntry.zero])] at hq1
    rcases List.mem_append.1 he with h | h
    · exact hq1 e (List.mem_append_left _ h)
    · rcases List.mem_cons.1 h with h | h
      · subst h; exact Or.inl rfl
      · exact hq1 e (List.mem_append_right _ h)
  · intro e he
    rw [he2, occ_append, occ_cons_occupied _ _ (by cases b <;> simp [hocc])] at he
    rw [he1, occ_append, occ_cons_occupied _ _ hocc] at hq1
    rcases List.mem_append.1 he with h | h
    · exact hq1 e (List.mem_append_left _ h)
    · rcases List.mem_cons.1 h with h | h
      · subst h
        have hold := hq1 old (by simp)
        cases b
        · simpa using hold
        · rcases hold with h0 | ⟨x, rest, h0⟩
          · exact Or.inr ⟨i, [], by simp [members, h0]⟩
          · exact Or.inr ⟨x, rest ++ [i], by simp [members, h0]⟩
      · exact hq1 e (List.mem_append_right _ (List.mem_cons_of_mem _ h))

theorem headFirst_init (cs : List Comparable) (b : Bool) (n : Nat) :
    HeadFirst [] (newTable n cs b) := by
  simp [HeadFirst, newTable, occ_replicate_zero]

theorem members_eq_cons (e : tableEntry)
    (h : e.ix = none ∨ ∃ x rest, e.ix = some (e.firstPos :: x :: rest)) :
    ∃ rest, members e = e.firstPos :: rest := by
  rcases h with h | ⟨x, rest, h⟩
  · exact ⟨[], by simp [members, h]⟩
  · exact ⟨x :: rest, by simp [members, h]⟩

/-! ### `GroupBy` groups by key -/

theorem keyed_isGrouping (cs : List Comparable) (hk : KeyLaws cs) (ix : List Nat) (t : table)
    (hperm : List.Perm (groupsOf t.entries).flatten ix) (hkey : Keyed cs ix t)
    (hhead : HeadFirst ix t) : IsGrouping cs (groupsOf t.entries) ix := by
  rcases hkey with ⟨_, hK2, hK3⟩
  refine ⟨hperm, ?_, ?_, ?_⟩
  · intro g hg
    rcases List.mem_map.1 hg with ⟨e, he, rfl⟩
    rcases members_eq_cons e (hhead e he) with ⟨rest, h⟩
    rw [h]; simp
  · intro g hg a ha c hc
    rcases List.mem_map.1 hg with ⟨e, he, rfl⟩
    exact hk.trans _ _ _ (hK2 e he a ha) (hk.symm _ _ (hK2 e he c hc))
  · unfold groupsOf
    rw [List.pairwise_map] at hK3 ⊢
    refine hK3.imp_of_mem ?_
    intro e f he hf hef a ha c hc
    by_contra hne
    have hac : equals cs a c = true := by simpa using hne
    have h1 : equals cs e.firstPos a = true := hk.symm _ _ (hK2 e he a ha)
    have h2 : equals cs e.firstPos f.firstPos = true :=
      hk.trans _ _ _ (hk.trans _ _ _ h1 hac) (hK2 f hf c hc)
    rw [h2] at hef
    cases hef

theorem GroupBy_isGrouping (cs : List Comparable) (hk : KeyLaws cs) (ix : List Nat)
    (hlen : ix.length ≤ 2 ^ 30) :
    ∃ t, insertAll (newTable (calculateInitialSizeExp ix.length) cs true) ix = some t ∧
      GroupBy ix cs = some (groupsOf t.entries, finalStats t) ∧
      Inv cs true ix.length t ∧ IsGrouping cs (groupsOf t.entries) ix := by
  rcases GroupBy_run cs ix hlen
      (fun p t => (List.Perm (groupsOf t.entries).flatten p ∧ Keyed cs p t) ∧ HeadFirst p t)
      ⟨⟨by simp [newTable, groupsOf_replicate_zero], keyed_init cs true _⟩,
        headFirst_init cs true _⟩
      (Preserved.and cs true _ _
        (Preserved.and cs true _ _ (flatten_groups_preserved cs) (keyed_preserved cs true hk))
        (headFirst_preserved cs true)) with
    ⟨t, h1, h2, h3, ⟨h4, h5⟩, h6⟩
  exact ⟨t, h1, h2, h3, keyed_isGrouping cs hk ix t h4 h5 h6⟩

theorem equals_false_symm (cs : List Comparable) (hk : KeyLaws cs) {x y : Nat}
    (h : equals cs x y = false) : equals cs y x = false := by
  by_contra h1
  have h2 : equals cs y x = true := by simpa using h1
  rw [hk.symm y x h2] at h
  cases h

theorem IsGrouping.same_group_iff (cs : List Comparable) (hk : KeyLaws cs)
    (groups : List (List Nat)) (ix : List Nat) (hg : IsGrouping cs groups ix) (a b : Nat)
    (ha : a ∈ ix) (hb : b ∈ ix) :
    (∃ g ∈ groups, a ∈ g ∧ b ∈ g) ↔ equals cs a b = true := by
  rcases hg with ⟨hperm, _, hsame, hdiff⟩
  constructor
  · rintro ⟨g, hgm, hag, hbg⟩
    exact hsame g hgm a hag b hbg
  · intro hab
    rcases List.mem_flatten.1 (hperm.mem_iff.2 ha) with ⟨g, hgm, hag⟩
    rcases List.mem_flatten.1 (hperm.mem_iff.2 hb) with ⟨h, hhm, hbh⟩
    by_cases hgh : g = h
    · subst hgh
      exact ⟨g, hgm, hag, hbh⟩
    · exfalso
      have hsym : Symmetric (fun g h : List Nat => ∀ a ∈ g, ∀ b ∈ h, equals cs a b = false) := by
        intro x y hxy c hc d hd
        exact equals_false_symm cs hk (hxy d hd c hc)
      have := hdiff.forall hsym hgm hhm hgh a hag b hbh
      rw [hab] at this
      cases this

/-! ### C1: same group if and only if same key -/

/-- In the range in which the table length computed by `grow` cannot wrap,
the property of C1 holds: assume that "compares `Equal` on every comparable" is an equivalence
relation on row positions and that rows which compare `Equal` on every
comparable have the same composite hash (`KeyLaws`).  Then for every row index
`ix` (of at most `2 ^ 30` rows) `GroupBy` returns, two rows of `ix` lie in a
common group if and only if they compare `Equal` on every comparable, and rows
of two different groups never compare `Equal` (no key is split over two
groups). -/
theorem GroupBy_same_group_iff_equal (comparables : List Comparable) (hk : KeyLaws comparables)
    (ix : List Nat) (hlen : ix.length ≤ 2 ^ 30) :
    ∃ groups stats, GroupBy ix comparables = some (groups, stats) ∧
      (∀ a ∈ ix, ∀ b ∈ ix,
        ((∃ g ∈ groups, a ∈ g ∧ b ∈ g) ↔ equals comparables a b = true)) ∧
      groups.Pairwise (fun g h => ∀ a ∈ g, ∀ b ∈ h, equals comparables a b = false) := by
  rcases GroupBy_isGrouping comparables hk ix hlen with ⟨t, _, h2, _, hg⟩
  exact ⟨_, _, h2, fun a ha b hb => IsGrouping.same_group_iff comparables hk _ ix hg a b ha hb,
    hg.2.2.2⟩

theorem equals_intComparable (data : List Int) (i j : Nat) :
    equals [intComparable data] i j = decide (data.getD i 0 = data.getD j 0) := by
  simp only [equals, intComparable]
  generalize data.getD i 0 = x
  generalize data.getD j 0 = y
  by_cases h : x = y
  · simp [h]
  · by_cases h1 : x < y <;> simp [h, h1]

theorem intComparable_keyLaws (data : List Int) : KeyLaws [intComparable data] := by
  refine ⟨?_, ?_, ?_, ?_⟩
  · intro a; simp [equals_intComparable]
  · intro a b h
    simp only [equals_intComparable, decide_eq_true_eq] at h ⊢
    exact h.symm
  · intro a b c h1 h2
    simp only [equals_intComparable, decide_eq_true_eq] at h1 h2 ⊢
    exact h1.trans h2
  · intro a b h
    simp only [equals_intComparable, decide_eq_true_eq] at h
    simp only [hashOf, intComparable, List.foldl, h]

theorem GroupBy_same_group_iff_equal_witness :
    KeyLaws [intComparable [1, 2, 3, 1]] ∧ [0, 1, 2, 3].length ≤ 2 ^ 30 ∧
    ∃ groups stats, GroupBy [0, 1, 2, 3] [intComparable [1, 2, 3, 1]] = some (groups, stats) ∧
      (∀ a ∈ [0, 1, 2, 3], ∀ b ∈ [0, 1, 2, 3],
        ((∃ g ∈ groups, a ∈ g ∧ b ∈ g) ↔ equals [intComparable [1, 2, 3, 1]] a b = true)) ∧
      groups.Pairwise
        (fun g h => ∀ a ∈ g, ∀ b ∈ h, equals [intComparable [1, 2, 3, 1]] a b = false) :=
  ⟨intComparable_keyLaws _, by decide,
    GroupBy_same_group_iff_equal _ (intComparable_keyLaws _) _ (by decide)⟩

/-! ### C5: grouping is invariant under permutation of the index -/

theorem IsGrouping.perm_groups (cs : List Comparable) (hk : KeyLaws cs)
    (G G1 : List (List Nat)) (ix : List Nat) (hp : List.Perm G1 G) (h : IsGrouping cs G ix) :
    IsGrouping cs G1 ix := by
  rcases h with ⟨h1, h2, h3, h4⟩
  refine ⟨hp.flatten.trans h1, fun g hg => h2 g (hp.mem_iff.1 hg),
    fun g hg => h3 g (hp.mem_iff.1 hg), ?_⟩
  refine (hp.pairwise_iff ?_).2 h4
  intro x y hxy c hc d hd
  exact equals_false_symm cs hk (hxy d hd c hc)

theorem IsGrouping.head_spec (cs : List Comparable) (g : List Nat)
    (Gs : List (List Nat)) (ix : List Nat) (r : Nat) (h : IsGrouping cs (g :: Gs) ix)
    (hr : r ∈ g) :
    List.Perm g (ix.filter (fun a => equals cs r a)) ∧
      IsGrouping cs Gs (ix.filter (fun a => !equals cs r a)) := by
  rcases h with ⟨h1, h2, h3, h4⟩
  rw [List.pairwise_cons] at h4
  have hin : ∀ a ∈ g, equals cs r a = true := fun a ha => h3 g (List.mem_cons_self _ _) r hr a ha
  have hout : ∀ a ∈ Gs.flatten, equals cs r a = false := by
    intro a ha
    rcases List.mem_flatten.1 ha with ⟨h, hh, hah⟩
    exact h4.1 h hh r hr a hah
  simp only [List.flatten_cons] at h1
  constructor
  · have := h1.filter (fun a => equals cs r a)
    rw [List.filter_append, List.filter_eq_self.2 hin,
      List.filter_eq_nil_iff.2 (fun a ha => by simp [hout a ha]), List.append_nil] at this
    exact this
  · refine ⟨?_, fun x hx => h2 x (List.mem_cons_of_mem _ hx),
      fun x hx => h3 x (List.mem_cons_of_mem _ hx), h4.2⟩
    have := h1.filter (fun a => !equals cs r a)
    rw [List.filter_append, List.filter_eq_nil_iff.2 (fun a ha => by simp [hin a ha]),
      List.filter_eq_self.2 (fun a ha => by simp [hout a ha]), List.nil_append] at this
    exact this

theorem grouping_unique (cs : List Comparable) (hk : KeyLaws cs) :
    ∀ (G G1 : List (List Nat)) (ix ix1 : List Nat), IsGrouping cs G ix →
      IsGrouping cs G1 ix1 → List.Perm ix ix1 →
      List.Perm (G.map Multiset.ofList) (G1.map Multiset.ofList) := by
  intro G
  induction G with
  | nil =>
    intro G1 ix ix1 h h1 hp
    have hix : ix = [] := by
      have := h.1
      simp only [List.flatten_nil] at this
      exact List.perm_nil.1 this.symm
    subst hix
    have hix1 : ix1 = [] := List.perm_nil.1 hp.symm
    subst hix1
    cases G1 with
    | nil => exact List.Perm.refl _
    | cons g1 rest =>
      exfalso
      have hne := h1.2.1 g1 (List.mem_cons_self _ _)
      rcases List.exists_mem_of_ne_nil g1 hne with ⟨a, ha⟩
      have : a ∈ (g1 :: rest).flatten := List.mem_flatten.2 ⟨g1, List.mem_cons_self _ _, ha⟩
      have := h1.1.mem_iff.1 this
      simp at this
  | cons g Gs ih =>
    intro G1 ix ix1 h h1 hp
    rcases List.exists_mem_of_ne_nil g (h.2.1 g (List.mem_cons_self _ _)) with ⟨r, hr⟩
    have hrix : r ∈ ix :=
      h.1.mem_iff.1 (List.mem_flatten.2 ⟨g, List.mem_cons_self _ _, hr⟩)
    rcases List.mem_flatten.1 (h1.1.mem_iff.2 (hp.mem_iff.1 hrix)) with ⟨g1, hg1, hr1⟩
    rcases List.append_of_mem hg1 with ⟨s1, s2, hsplit⟩
    have hpe : List.Perm (g1 :: (s1 ++ s2)) G1 := by
      rw [hsplit]; exact List.perm_middle.symm
    have h1' := IsGrouping.perm_groups cs hk G1 _ ix1 hpe h1
    rcases IsGrouping.head_spec cs g Gs ix r h hr with ⟨hga, hgb⟩
    rcases IsGrouping.head_spec cs g1 _ ix1 r h1' hr1 with ⟨hg1a, hg1b⟩
    have hgg : List.Perm g g1 := hga.trans ((hp.filter _).trans hg1a.symm)
    have hrest := ih (s1 ++ s2) _ _ hgb hg1b (hp.filter _)
    have hhead : Multiset.ofList g = Multiset.ofList g1 := Multiset.coe_eq_coe.2 hgg
    simp only [List.map_cons]
    rw [hhead]
    exact (List.Perm.cons _ hrest).trans (hpe.map Multiset.ofList)

/-- In the range in which the table length computed by `grow` cannot wrap,
the property of C5 holds: for comparables whose equality is an equivalence relation consistent
with their hash (`KeyLaws`), for every row index `ix` (of at most `2 ^ 30` rows)
and every permutation `ix1` of `ix`, `GroupBy` returns on both, and the groups
of `ix1` are the groups of `ix` when each group is read as an unordered
collection of row positions (as a multiset, hence also as a set) and the list of
groups is read as an unordered collection. -/
theorem GroupBy_permutation_invariant (comparables : List Comparable)
    (hk : KeyLaws comparables) (ix ix1 : List Nat) (hperm : List.Perm ix1 ix)
    (hlen : ix.length ≤ 2 ^ 30) :
    ∃ groups stats groups1 stats1,
      GroupBy ix comparables = some (groups, stats) ∧
      GroupBy ix1 comparables = some (groups1, stats1) ∧
      Multiset.ofList (groups1.map Multiset.ofList)
        = Multiset.ofList (groups.map Multiset.ofList) ∧
      Multiset.ofList (groups1.map List.toFinset)
        = Multiset.ofList (groups.map List.toFinset) := by
  rcases GroupBy_isGrouping comparables hk ix hlen with ⟨t, _, h2, _, hg⟩
  rcases GroupBy_isGrouping comparables hk ix1 (by rw [hperm.length_eq]; exact hlen) with
    ⟨t1, _, h2', _, hg1⟩
  have hp := grouping_unique comparables hk _ _ ix1 ix hg1 hg hperm
  refine ⟨_, _, _, _, h2, h2', Multiset.coe_eq_coe.2 hp, ?_⟩
  have hp2 := hp.map Multiset.toFinset
  simp only [List.map_map] at hp2
  exact Multiset.coe_eq_coe.2 hp2

theorem GroupBy_permutation_invariant_witness :
    KeyLaws [intComparable [1, 2, 3, 1]] ∧ List.Perm [3, 1, 0, 2] [0, 1, 2, 3] ∧
    [0, 1, 2, 3].length ≤ 2 ^ 30 ∧
    ∃ groups stats groups1 stats1,
      GroupBy [0, 1, 2, 3] [intComparable [1, 2, 3, 1]] = some (groups, stats) ∧
      GroupBy [3, 1, 0, 2] [intComparable [1, 2, 3, 1]] = some (groups1, stats1) ∧
      Multiset.ofList (groups1.map Multiset.ofList)
        = Multiset.ofList (groups.map Multiset.ofList) ∧
      Multiset.ofList (groups1.map List.toFinset)
        = Multiset.ofList (groups.map List.toFinset) :=
  ⟨intComparable_keyLaws _, by decide, by decide,
    GroupBy_permutation_invariant _ (intComparable_keyLaws _) _ _ (by decide) (by decide)⟩

/-! ### `Distinct` runs the table of `GroupBy` without member slices -/

theorem probe_strip (cs : List Comparable) (entries : List tableEntry) (h i mask : Nat) :
    ∀ (fuel pos c : Nat),
      probe cs (entries.map strip) h i mask fuel pos c = probe cs entries h i mask fuel pos c := by
  intro fuel
  induction fuel with
  | zero => intro pos c; rfl
  | succ fuel ih =>
    intro pos c
    unfold probe
    rw [List.getElem?_map]
    cases entries[pos]? with
    | none => rfl
    | some e => simp only [Option.map_some', strip, ih]

theorem relocate_strip (mask : Nat) (e : tableEntry) :
    ∀ (fuel : Nat) (entries : List tableEntry) (pos c : Nat),
      relocate mask (strip e) fuel (entries.map strip) pos c
        = (relocate mask e fuel entries pos c).map (fun r => (r.1.map strip, r.2)) := by
  intro fuel
  induction fuel with
  | zero => intro entries pos c; rfl
  | succ fuel ih =>
    intro entries pos c
    unfold relocate
    rw [List.getElem?_map]
    cases entries[pos]? with
    | none => rfl
    | some slot =>
      simp only [Option.map_some']
      have hocc : (strip slot).occupied = slot.occupied := rfl
      rw [hocc]
      by_cases hs : slot.occupied = true
      · simp only [hs, Bool.not_true, Bool.false_eq_true, if_false]
        exact ih _ _ _
      · have hs0 : slot.occupied = false := by simpa using hs
        simp only [hs0, Bool.not_false, if_true, Option.map_some', List.map_set]

theorem relocateAll_strip (mask : Nat) :
    ∀ (rest entries : List tableEntry) (c : Nat),
      relocateAll mask (rest.map strip) (entries.map strip) c
        = (relocateAll mask rest entries c).map (fun r => (r.1.map strip, r.2)) := by
  intro rest
  induction rest with
  | nil => intro entries c; rfl
  | cons e rest ih =>
    intro entries c
    simp only [List.map_cons, relocateAll, List.length_map]
    have hh : (strip e).hash = e.hash := rfl
    rw [hh, relocate_strip]
    cases relocate mask e entries.length entries (e.hash &&& mask) c with
    | none => rfl
    | some r => simp only [Option.map_some', ih]

theorem strip_zero : strip tableEntry.zero = tableEntry.zero := rfl

theorem grow_strip (t : table) : (stripTable t).grow = t.grow.map stripTable := by
  unfold table.grow
  simp only [stripTable, List.length_map]
  have h := relocateAll_strip ((growthFactor * t.entries.length % 2 ^ 32 + 2 ^ 32 - 1) % 2 ^ 32)
    t.entries (List.replicate (growthFactor * t.entries.length % 2 ^ 32) tableEntry.zero)
    t.stats.RelocationCollisions
  rw [List.map_replicate, strip_zero] at h
  rw [h]
  cases relocateAll ((growthFactor * t.entries.length % 2 ^ 32 + 2 ^ 32 - 1) % 2 ^ 32)
    t.entries (List.replicate (growthFactor * t.entries.length % 2 ^ 32) tableEntry.zero)
    t.stats.RelocationCollisions with
  | none => rfl
  | some r => rfl

theorem strip_mk_true (e : tableEntry) (l : Option (List Nat)) (ho : e.occupied = true) :
    strip ⟨l, e.hash, e.firstPos, true⟩ = strip e := by
  simp [strip, ho]

theorem updateEntry_strip (t : table) (i h pos : Nat) (e : tableEntry)
    (he : t.entries[pos]? = some e) :
    updateEntry (stripTable t) i h pos (strip e) = stripTable (updateEntry t i h pos e) := by
  have hself : (t.entries.map strip).set pos (strip e) = t.entries.map strip := by
    have : (t.entries.map strip)[pos]? = some (strip e) := by
      rw [List.getElem?_map, he]; rfl
    rcases getElem?_split _ _ _ this with ⟨l1, l2, h1, _, h3⟩
    rw [h3, ← h1]
  by_cases ho : e.occupied = true
  · have ho1 : (strip e).occupied = true := ho
    have hL : updateEntry (stripTable t) i h pos (strip e) = stripTable t := by
      unfold updateEntry
      simp only [ho1, Bool.not_true, Bool.false_eq_true, ↓reduceIte]
      rfl
    rw [hL]
    unfold updateEntry
    simp only [ho, Bool.not_true, Bool.false_eq_true, ↓reduceIte]
    cases hcb : t.collectIx with
    | false => simp only [Bool.false_eq_true, ↓reduceIte]
    | true =>
      simp only [↓reduceIte]
      cases hix : e.ix with
      | none =>
        simp only [stripTable, List.map_set, hcb]
        rw [strip_mk_true e _ ho, hself]
      | some l =>
        simp only [stripTable, List.map_set, hcb]
        rw [strip_mk_true e _ ho, hself]
  · have ho0 : e.occupied = false := by simpa using ho
    have ho1 : (strip e).occupied = false := ho0
    unfold updateEntry
    simp only [ho0, ho1, Bool.not_false, if_true, stripTable, List.map_set, List.length_map]
    rfl

theorem insertNoGrow_strip (t : table) (i : Nat) :
    insertNoGrow (stripTable t) i = (insertNoGrow t i).map stripTable := by
  unfold insertNoGrow
  have hh : (stripTable t).hash i = t.hash i := rfl
  have hl : (stripTable t).entries.length = t.entries.length := by simp [stripTable]
  have hc : (stripTable t).comparables = t.comparables := rfl
  have he : (stripTable t).entries = t.entries.map strip := rfl
  have hs : (stripTable t).stats = t.stats := rfl
  simp only [hh, hl, hc, hs]
  rw [he, probe_strip]
  cases probe t.comparables t.entries (t.hash i) i ((t.entries.length + 2 ^ 64 - 1) % 2 ^ 64)
      t.entries.length (t.hash i &&& (t.entries.length + 2 ^ 64 - 1) % 2 ^ 64)
      t.stats.InsertCollisions with
  | none => rfl
  | some r =>
    simp only [List.getElem?_map]
    cases hget : t.entries[r.1]? with
    | none => rfl
    | some dst =>
      simp only [Option.map_some']
      congr 1
      exact updateEntry_strip
        { t with stats := { t.stats with InsertCollisions := r.2 } } i (t.hash i) r.1 dst hget

theorem insertEntry_strip (t : table) (i : Nat) :
    (stripTable t).insertEntry i = (t.insertEntry i).map stripTable := by
  unfold table.insertEntry
  have hlf : (stripTable t).loadFactor = t.loadFactor := rfl
  rw [hlf, grow_strip]
  by_cases hg : t.loadFactor.gt maxLoadFactor = true
  · simp only [hg, if_true]
    cases t.grow with
    | none => rfl
    | some t1 => simp only [Option.map_some', insertNoGrow_strip]
  · simp only [hg, if_false, Bool.false_eq_true, insertNoGrow_strip]

theorem insertAll_strip : ∀ (ix : List Nat) (t : table),
    insertAll (stripTable t) ix = (insertAll t ix).map stripTable := by
  intro ix
  induction ix with
  | nil => intro t; rfl
  | cons i rest ih =>
    intro t
    unfold insertAll
    rw [insertEntry_strip]
    cases t.insertEntry i with
    | none => rfl
    | some t1 => simp only [Option.map_some', ih]

theorem newTable_strip (n : Nat) (cs : List Comparable) (b : Bool) :
    stripTable (newTable n cs b) = newTable n cs false := by
  simp [stripTable, newTable, strip_zero]

theorem occ_map_strip (entries : List tableEntry) :
    (occ (entries.map strip)).map (fun e => e.firstPos)
      = (occ entries).map (fun e => e.firstPos) := by
  induction entries with
  | nil => rfl
  | cons e rest ih =>
    by_cases ho : e.occupied = true
    · have ho1 : (strip e).occupied = true := ho
      rw [List.map_cons, occ_cons_occupied _ _ ho1, occ_cons_occupied _ _ ho]
      simp only [List.map_cons, ih]
      rfl
    · have ho0 : e.occupied = false := by simpa using ho
      have ho1 : (strip e).occupied = false := ho0
      rw [List.map_cons, occ_cons_free _ _ ho1, occ_cons_free _ _ ho0, ih]

/-- `Distinct` returns the first positions held by the final table of
`GroupBy`, in slot order. -/
theorem Distinct_eq_of_insertAll (cs : List Comparable) (ix : List Nat) (t : table)
    (h : insertAll (newTable (calculateInitialSizeExp ix.length) cs true) ix = some t) :
    Distinct ix cs = some ((occ t.entries).map (fun e => e.firstPos)) := by
  have h1 := insertAll_strip ix (newTable (calculateInitialSizeExp ix.length) cs true)
  rw [newTable_strip, h] at h1
  unfold Distinct groupIndex
  simp only [h1, Option.map_some', collectFirst_eq, List.nil_append]
  rw [show (stripTable t).entries = t.entries.map strip from rfl, occ_map_strip]

/-! ### C3: the number of groups -/

theorem foldl_distinct_spec (cs : List Comparable) (hk : KeyLaws cs) :
    ∀ (ix acc : List Nat), acc.Pairwise (fun a b => equals cs a b = false) →
      (ix.foldl (fun reps r => if reps.any (fun k => equals cs r k) then reps else reps ++ [r])
          acc).Pairwise (fun a b => equals cs a b = false) ∧
      (∀ k ∈ ix.foldl
          (fun reps r => if reps.any (fun k => equals cs r k) then reps else reps ++ [r]) acc,
        k ∈ acc ∨ k ∈ ix) ∧
      (∀ a, a ∈ acc ∨ a ∈ ix → ∃ k ∈ ix.foldl
          (fun reps r => if reps.any (fun k => equals cs r k) then reps else reps ++ [r]) acc,
        equals cs a k = true) := by
  intro ix
  induction ix with
  | nil =>
    intro acc hacc
    refine ⟨hacc, fun k hk1 => Or.inl hk1, ?_⟩
    rintro a (ha | ha)
    · exact ⟨a, ha, hk.refl a⟩
    · simp at ha
  | cons r rest ih =>
    intro acc hacc
    simp only [List.foldl_cons]
    by_cases hany : acc.any (fun k => equals cs r k) = true
    · simp only [hany, if_true]
      rcases ih acc hacc with ⟨h1, h2, h3⟩
      refine ⟨h1, ?_, ?_⟩
      · intro k hk1
        rcases h2 k hk1 with h | h
        · exact Or.inl h
        · exact Or.inr (List.mem_cons_of_mem _ h)
      · rintro a (ha | ha)
        · exact h3 a (Or.inl ha)
        · rcases List.mem_cons.1 ha with ha | ha
          · subst ha
            rcases List.any_eq_true.1 hany with ⟨k0, hk0, hak0⟩
            rcases h3 k0 (Or.inl hk0) with ⟨k, hk1, hk2⟩
            exact ⟨k, hk1, hk.trans _ _ _ hak0 hk2⟩
          · exact h3 a (Or.inr ha)
    · simp only [hany, if_false, Bool.false_eq_true]
      have hnone : ∀ k ∈ acc, equals cs r k = false := by
        intro k hk1
        by_contra hne
        exact hany (List.any_eq_true.2 ⟨k, hk1, by simpa using hne⟩)
      have hacc1 : (acc ++ [r]).Pairwise (fun a b => equals cs a b = false) := by
        rw [List.pairwise_append]
        refine ⟨hacc, List.pairwise_singleton _ _, ?_⟩
        intro a ha c hc
        rw [List.mem_singleton] at hc
        subst hc
        exact equals_false_symm cs hk (hnone a ha)
      rcases ih (acc ++ [r]) hacc1 with ⟨h1, h2, h3⟩
      refine ⟨h1, ?_, ?_⟩
      · intro k hk1
        rcases h2 k hk1 with h | h
        · rcases List.mem_append.1 h with h | h
          · exact Or.inl h
          · rw [List.mem_singleton] at h
            subst h
            exact Or.inr (List.mem_cons_self _ _)
        · exact Or.inr (List.mem_cons_of_mem _ h)
      · rintro a (ha | ha)
        · exact h3 a (Or.inl (List.mem_append_left _ ha))
        · rcases List.mem_cons.1 ha with ha | ha
          · subst ha
            exact h3 a (Or.inl (List.mem_append_right _ (List.mem_singleton_self _)))
          · exact h3 a (Or.inr ha)

theorem distinctKeys_spec (cs : List Comparable) (hk : KeyLaws cs) (ix : List Nat) :
    (distinctKeys cs ix).Pairwise (fun a b => equals cs a b = false) ∧
    (∀ k ∈ distinctKeys cs ix, k ∈ ix) ∧
    (∀ a ∈ ix, ∃ k ∈ distinctKeys cs ix, equals cs a k = true) := by
  rcases foldl_distinct_spec cs hk ix [] List.Pairwise.nil with ⟨h1, h2, h3⟩
  refine ⟨h1, ?_, fun a ha => h3 a (Or.inr ha)⟩
  intro k hk1
  rcases h2 k hk1 with h | h
  · simp at h
  · exact h

/-- Pairwise unequal rows that are each equal to some row of `K` are at most as
many as the rows of `K`. -/
theorem length_le_of_cover (cs : List Comparable) (hk : KeyLaws cs) :
    ∀ (R K : List Nat), R.Pairwise (fun a b => equals cs a b = false) →
      (∀ r ∈ R, ∃ k ∈ K, equals cs r k = true) → R.length ≤ K.length := by
  intro R
  induction R with
  | nil => intro K _ _; simp
  | cons r R ih =>
    intro K hp hc
    rw [List.pairwise_cons] at hp
    rcases hc r (List.mem_cons_self _ _) with ⟨k, hkK, hrk⟩
    have h1 : ∀ r1 ∈ R, ∃ k1 ∈ K.erase k, equals cs r1 k1 = true := by
      intro r1 hr1
      rcases hc r1 (List.mem_cons_of_mem _ hr1) with ⟨k1, hk1, hrk1⟩
      refine ⟨k1, ?_, hrk1⟩
      have hne : k1 ≠ k := by
        intro h
        subst h
        have := hp.1 r1 hr1
        rw [hk.trans _ _ _ hrk (hk.symm _ _ hrk1)] at this
        cases this
      exact (List.mem_erase_of_ne hne).2 hk1
    have h2 := ih (K.erase k) hp.2 h1
    rw [List.length_erase_of_mem hkK] at h2
    have : 0 < K.length := List.length_pos_of_mem hkK
    simp only [List.length_cons]
    omega

theorem GroupBy_keyed (cs : List Comparable) (hk : KeyLaws cs) (ix : List Nat)
    (hlen : ix.length ≤ 2 ^ 30) :
    ∃ t, insertAll (newTable (calculateInitialSizeExp ix.length) cs true) ix = some t ∧
      List.Perm (groupsOf t.entries).flatten ix ∧ Keyed cs ix t ∧ HeadFirst ix t := by
  rcases GroupBy_run cs ix hlen
      (fun p t => (List.Perm (groupsOf t.entries).flatten p ∧ Keyed cs p t) ∧ HeadFirst p t)
      ⟨⟨by simp [newTable, groupsOf_replicate_zero], keyed_init cs true _⟩,
        headFirst_init cs true _⟩
      (Preserved.and cs true _ _
        (Preserved.and cs true _ _ (flatten_groups_preserved cs) (keyed_preserved cs true hk))
        (headFirst_preserved cs true)) with
    ⟨t, h1, _, _, ⟨h4, h5⟩, h6⟩
  exact ⟨t, h1, h4, h5, h6⟩

theorem keyed_count (cs : List Comparable) (hk : KeyLaws cs) (ix : List Nat) (t : table)
    (hperm : List.Perm (groupsOf t.entries).flatten ix) (hkey : Keyed cs ix t)
    (hhead : HeadFirst ix t) : (occ t.entries).length = distinctKeyCount cs ix := by
  rcases hkey with ⟨_, hK2, hK3⟩
  rcases distinctKeys_spec cs hk ix with ⟨hd1, hd2, hd3⟩
  have hlen : (occ t.entries).length = ((occ t.entries).map (fun e => e.firstPos)).length := by
    simp
  rw [hlen, distinctKeyCount]
  apply Nat.le_antisymm
  · apply length_le_of_cover cs hk _ _ hK3
    intro k hkm
    rcases List.mem_map.1 hkm with ⟨e, he, rfl⟩
    apply hd3
    apply hperm.mem_iff.1
    rcases members_eq_cons e (hhead e he) with ⟨rest, hm⟩
    exact List.mem_flatten.2 ⟨members e, List.mem_map.2 ⟨e, he, rfl⟩, by rw [hm]; simp⟩
  · apply length_le_of_cover cs hk _ _ hd1
    intro r hr
    have hrix := hperm.mem_iff.2 (hd2 r hr)
    rcases List.mem_flatten.1 hrix with ⟨g, hg, hrg⟩
    rcases List.mem_map.1 hg with ⟨e, he, rfl⟩
    exact ⟨e.firstPos, List.mem_map.2 ⟨e, he, rfl⟩, hK2 e he r hrg⟩

/-- In the range in which the table length computed by `grow` cannot wrap,
the property of C3 holds: for every row index `ix` (of at most `2 ^ 30` rows) and comparables,
`GroupBy` and `Distinct` return, and the length of `Distinct`, the number of
groups of `GroupBy` and the reported `GroupStats.GroupCount` are equal; when
equality is an equivalence relation consistent with the hash (`KeyLaws`), that
number is the number of distinct keys among the rows of `ix`. -/
theorem GroupBy_Distinct_group_count (ix : List Nat) (comparables : List Comparable)
    (hlen : ix.length ≤ 2 ^ 30) :
    ∃ groups stats d, GroupBy ix comparables = some (groups, stats) ∧
      Distinct ix comparables = some d ∧
      d.length = groups.length ∧ groups.length = stats.GroupCount ∧
      (KeyLaws comparables → stats.GroupCount = distinctKeyCount comparables ix) := by
  rcases GroupBy_run comparables ix hlen (fun _ _ => True) trivial
    (fun _ _ _ _ _ _ _ _ _ _ _ _ _ _ _ => trivial) with ⟨t, h1, h2, hinv, _⟩
  refine ⟨_, _, _, h2, Distinct_eq_of_insertAll comparables ix t h1, ?_, ?_, ?_⟩
  · simp [groupsOf]
  · simp [groupsOf, finalStats, hinv.count]
  · intro hk
    rcases GroupBy_keyed comparables hk ix hlen with ⟨t1, h1', hp, hkey, hhead⟩
    rw [h1] at h1'
    cases h1'
    show t.groupCount = _
    rw [hinv.count]
    exact keyed_count comparables hk ix t hp hkey hhead

theorem GroupBy_Distinct_group_count_witness :
    [0, 1, 2, 3].length ≤ 2 ^ 30 ∧ KeyLaws [intComparable [1, 2, 3, 1]] ∧
    distinctKeyCount [intComparable [1, 2, 3, 1]] [0, 1, 2, 3] = 3 ∧
    ∃ groups stats d, GroupBy [0, 1, 2, 3] [intComparable [1, 2, 3, 1]] = some (groups, stats) ∧
      Distinct [0, 1, 2, 3] [intComparable [1, 2, 3, 1]] = some d ∧
      d.length = groups.length ∧ groups.length = stats.GroupCount ∧
      (KeyLaws [intComparable [1, 2, 3, 1]] →
        stats.GroupCount = distinctKeyCount [intComparable [1, 2, 3, 1]] [0, 1, 2, 3]) :=
  ⟨by decide, intComparable_keyLaws _, by decide,
    GroupBy_Distinct_group_count _ _ (by decide)⟩

end grouper

namespace qframe

open qerrors types

/-! ### The column map -/

theorem ColumnMap.get_set_self (m : ColumnMap) (key : String) (v : namedColumn) :
    (ColumnMap.set m key v).get key = some v := by
  induction m with
  | nil => simp [ColumnMap.set, ColumnMap.get]
  | cons p rest ih =>
    rcases p with ⟨k, w⟩
    by_cases h : k = key
    · simp [ColumnMap.set, ColumnMap.get, h]
    · simp [ColumnMap.set, ColumnMap.get, h, ih]

theorem ColumnMap.get_set_other (m : ColumnMap) (key key1 : String) (v : namedColumn)
    (hne : key1 ≠ key) : (ColumnMap.set m key v).get key1 = m.get key1 := by
  induction m with
  | nil => simp [ColumnMap.set, ColumnMap.get, hne.symm]
  | cons p rest ih =>
    rcases p with ⟨k, w⟩
    by_cases h : k = key
    · subst h
      simp [ColumnMap.set, ColumnMap.get, hne.symm]
    · by_cases h1 : k = key1
      · subst h1
        simp [ColumnMap.set, ColumnMap.get, hne]
      · simp [ColumnMap.set, ColumnMap.get, h, h1, ih]

theorem ColumnMap.get_set_isSome (m : ColumnMap) (key key1 : String) (v : namedColumn) :
    ((ColumnMap.set m key v).get key1).isSome = true ↔
      key1 = key ∨ (m.get key1).isSome = true := by
  by_cases h : key1 = key
  · subst h
    simp [ColumnMap.get_set_self]
  · simp [ColumnMap.get_set_other m key key1 v h, h]

/-! ### First rows and subsets -/

theorem firstElements_spec : ∀ (indices : List (List Nat)) (fe : List Nat),
    firstElements indices = some fe →
      List.Forall₂ (fun ix first => ix.head? = some first) indices fe := by
  intro indices
  induction indices with
  | nil =>
    intro fe h
    simp only [firstElements, Option.some.injEq] at h
    subst h
    exact List.Forall₂.nil
  | cons ix rest ih =>
    intro fe h
    unfold firstElements at h
    cases h0 : ix[0]? with
    | none => simp [h0] at h
    | some first =>
      cases h1 : firstElements rest with
      | none => simp [h0, h1] at h
      | some firsts =>
        simp only [h0, h1, Option.some.injEq] at h
        subst h
        refine List.Forall₂.cons ?_ (ih _ h1)
        cases ix with
        | nil => simp at h0
        | cons a l => simpa using h0

theorem firstElements_isSome : ∀ (indices : List (List Nat)), (∀ ix ∈ indices, ix ≠ []) →
    ∃ fe, firstElements indices = some fe := by
  intro indices
  induction indices with
  | nil => intro _; exact ⟨[], rfl⟩
  | cons ix rest ih =>
    intro h
    rcases ih (fun x hx => h x (List.mem_cons_of_mem _ hx)) with ⟨fe, hfe⟩
    cases ix with
    | nil => exact absurd rfl (h [] (List.mem_cons_self _ _))
    | cons a l => exact ⟨a :: fe, by simp [firstElements, hfe]⟩

theorem subsetData_spec (data : List column.Value) : ∀ (idx : List Nat) (vs : List column.Value),
    column.subsetData data idx = some vs →
      List.Forall₂ (fun i v => data[i]? = some v) idx vs := by
  intro idx
  induction idx with
  | nil =>
    intro vs h
    simp only [column.subsetData, Option.some.injEq] at h
    subst h
    exact List.Forall₂.nil
  | cons i rest ih =>
    intro vs h
    unfold column.subsetData at h
    cases h0 : data[i]? with
    | none => simp [h0] at h
    | some v =>
      cases h1 : column.subsetData data rest with
      | none => simp [h0, h1] at h
      | some vs1 =>
        simp only [h0, h1, Option.some.injEq] at h
        subst h
        exact List.Forall₂.cons h0 (ih _ h1)

theorem subsetData_isSome (data : List column.Value) : ∀ (idx : List Nat),
    (∀ i ∈ idx, i < data.length) → ∃ vs, column.subsetData data idx = some vs := by
  intro idx
  induction idx with
  | nil => intro _; exact ⟨[], rfl⟩
  | cons i rest ih =>
    intro h
    rcases ih (fun x hx => h x (List.mem_cons_of_mem _ hx)) with ⟨vs, hvs⟩
    have hi : i < data.length := h i (List.mem_cons_self _ _)
    exact ⟨data[i] :: vs, by simp [column.subsetData, hvs, List.getElem?_eq_getElem hi]⟩

theorem Subset_spec (c sub : column.Column) (idx : List Nat) (h : c.Subset idx = some sub) :
    List.Forall₂ (fun i v => c.data[i]? = some v) idx sub.data := by
  unfold column.Column.Subset at h
  cases h1 : column.subsetData c.data idx with
  | none => simp [h1] at h
  | some vs =>
    simp only [h1, Option.some.injEq] at h
    subst h
    exact subsetData_spec c.data idx vs h1

theorem Subset_isSome (c : column.Column) (idx : List Nat) (h : ∀ i ∈ idx, i < c.data.length) :
    ∃ sub, c.Subset idx = some sub := by
  rcases subsetData_isSome c.data idx h with ⟨vs, hvs⟩
  exact ⟨⟨vs⟩, by simp [column.Column.Subset, hvs]⟩

/-! ### The loop over the group-by columns -/

theorem groupedLoop_spec (g : Grouper) (fe : List Nat) :
    ∀ (names : List String) (i : Nat) (m : ColumnMap) (cols : List namedColumn)
      (m1 : ColumnMap) (cols1 : List namedColumn),
      groupedLoop g fe i names m cols = some (m1, cols1) →
      ∃ newCols, cols1 = cols ++ newCols ∧ newCols.length = names.length ∧
        (∀ j name, names[j]? = some name → ∃ src sub,
          g.columnsByName.get name = some src ∧ src.Column.Subset fe = some sub ∧
          newCols[j]? = some { src with pos := i + j, Column := sub }) ∧
        (∀ key, (m1.get key).isSome = true ↔ key ∈ names ∨ (m.get key).isSome = true) := by
  intro names
  induction names with
  | nil =>
    intro i m cols m1 cols1 h
    simp only [groupedLoop, Option.some.injEq, Prod.mk.injEq] at h
    rcases h with ⟨rfl, rfl⟩
    exact ⟨[], by simp, rfl, by simp, by simp⟩
  | cons name rest ih =>
    intro i m cols m1 cols1 h
    unfold groupedLoop at h
    cases hsrc : g.columnsByName.get name with
    | none => simp [hsrc] at h
    | some src =>
      cases hsub : src.Column.Subset fe with
      | none => simp [hsrc, hsub] at h
      | some sub =>
        simp only [hsrc, hsub] at h
        rcases ih _ _ _ _ _ h with ⟨newCols, h1, h2, h3, h4⟩
        refine ⟨{ src with pos := i, Column := sub } :: newCols, ?_, ?_, ?_, ?_⟩
        · rw [h1]; simp
        · simp [h2]
        · intro j nm hj
          cases j with
          | zero =>
            simp only [List.getElem?_cons_zero, Option.some.injEq] at hj
            subst hj
            exact ⟨src, sub, hsrc, hsub, by simp⟩
          | succ j =>
            simp only [List.getElem?_cons_succ] at hj
            rcases h3 j nm hj with ⟨s, sb, hs1, hs2, hs3⟩
            refine ⟨s, sb, hs1, hs2, ?_⟩
            have hij : i + 1 + j = i + (j + 1) := by omega
            rw [hij] at hs3
            simpa using hs3
        · intro key
          rw [h4 key, ColumnMap.get_set_isSome]
          simp only [List.mem_cons]
          tauto

theorem groupedLoop_isSome (g : Grouper) (fe : List Nat) :
    ∀ (names : List String) (i : Nat) (m : ColumnMap) (cols : List namedColumn),
      (∀ name ∈ names, ∃ col, g.columnsByName.get name = some col ∧
        ∀ r ∈ fe, r < col.Column.data.length) →
      ∃ r, groupedLoop g fe i names m cols = some r := by
  intro names
  induction names with
  | nil => intro i m cols _; exact ⟨_, rfl⟩
  | cons name rest ih =>
    intro i m cols h
    rcases h name (List.mem_cons_self _ _) with ⟨col, hcol, hr⟩
    rcases Subset_isSome col.Column fe hr with ⟨sub, hsub⟩
    unfold groupedLoop
    simp only [hcol, hsub]
    exact ih _ _ _ (fun n hn => h n (List.mem_cons_of_mem _ hn))

/-! ### The loop over the aggregation specs -/

theorem aggLoop_cons (reduce : column.Column → List (List Nat) → SliceFuncOrBuiltInId →
      Except Error column.Column) (g : Grouper) (agg : Aggregation) (rest : List Aggregation)
    (m : ColumnMap) (cols : List namedColumn) :
    aggLoop reduce g (agg :: rest) m cols =
      match g.columnsByName.get agg.Column with
      | none => Except.error (Error.unknownColumn "Aggregate" agg.Column)
      | some col =>
        match m.get agg.destName with
        | some _ => Except.error (Error.aggregateNameConflict "Aggregate" agg.destName)
        | none =>
          if agg.Fn = SliceFuncOrBuiltInId.builtIn "count" then
            aggLoop reduce g rest
              (m.set agg.destName ⟨icolumn.New (groupSizes g.indices), agg.destName, col.pos⟩)
              (cols ++ [⟨icolumn.New (groupSizes g.indices), agg.destName, col.pos⟩])
          else
            match reduce col.Column g.indices agg.Fn with
            | Except.error err => Except.error (Error.propagate "Aggregate" err)
            | Except.ok c =>
              aggLoop reduce g rest (m.set agg.destName ⟨c, agg.destName, col.pos⟩)
                (cols ++ [⟨c, agg.destName, col.pos⟩]) := by
  rfl

theorem aggLoop_ok_spec (reduce : column.Column → List (List Nat) → SliceFuncOrBuiltInId →
      Except Error column.Column) (g : Grouper) :
    ∀ (aggs : List Aggregation) (m : ColumnMap) (cols : List namedColumn)
      (m1 : ColumnMap) (cols1 : List namedColumn),
      aggLoop reduce g aggs m cols = Except.ok (m1, cols1) →
      ∃ newCols : List namedColumn, cols1 = cols ++ newCols ∧ newCols.length = aggs.length ∧
        (∀ (j : Nat) (agg : Aggregation), aggs[j]? = some agg → ∃ (src col : namedColumn),
          g.columnsByName.get agg.Column = some src ∧ newCols[j]? = some col ∧
          col.name = agg.destName ∧ col.pos = src.pos ∧
          (if agg.Fn = SliceFuncOrBuiltInId.builtIn "count"
            then col.Column = icolumn.New (groupSizes g.indices)
            else reduce src.Column g.indices agg.Fn = Except.ok col.Column)) ∧
        (∀ key, (m1.get key).isSome = true ↔
          (∃ a ∈ aggs, a.destName = key) ∨ (m.get key).isSome = true) := by
  intro aggs
  induction aggs with
  | nil =>
    intro m cols m1 cols1 h
    simp only [aggLoop, Except.ok.injEq, Prod.mk.injEq] at h
    rcases h with ⟨rfl, rfl⟩
    exact ⟨[], by simp, rfl, by simp, by simp⟩
  | cons agg rest ih =>
    intro m cols m1 cols1 h
    rw [aggLoop_cons] at h
    cases hsrc : g.columnsByName.get agg.Column with
    | none => simp [hsrc] at h
    | some src =>
      simp only [hsrc] at h
      cases hdst : m.get agg.destName with
      | some c => simp [hdst] at h
      | none =>
        simp only [hdst] at h
        have key_iff : ∀ (v : namedColumn) (m2 : ColumnMap),
            (∀ key, (m2.get key).isSome = true ↔ (∃ a ∈ rest, a.destName = key) ∨
              ((ColumnMap.set m agg.destName v).get key).isSome = true) →
            ∀ key, (m2.get key).isSome = true ↔
              (∃ a ∈ agg :: rest, a.destName = key) ∨ (m.get key).isSome = true := by
          intro v m2 h4 key
          rw [h4 key, ColumnMap.get_set_isSome]
          simp only [List.mem_cons, exists_eq_or_imp]
          constructor
          · rintro (h | h | h)
            · exact Or.inl (Or.inr h)
            · exact Or.inl (Or.inl h.symm)
            · exact Or.inr h
          · rintro ((h | h) | h)
            · exact Or.inr (Or.inl h.symm)
            · exact Or.inl h
            · exact Or.inr (Or.inr h)
        by_cases hfn : agg.Fn = SliceFuncOrBuiltInId.builtIn "count"
        · simp only [hfn, if_true] at h
          rcases ih _ _ _ _ h with ⟨newCols, h1, h2, h3, h4⟩
          refine ⟨⟨icolumn.New (groupSizes g.indices), agg.destName, src.pos⟩ :: newCols,
            by rw [h1]; simp, by simp [h2], ?_, key_iff _ _ h4⟩
          intro j a hj
          cases j with
          | zero =>
            simp only [List.getElem?_cons_zero, Option.some.injEq] at hj
            subst hj
            exact ⟨src, ⟨icolumn.New (groupSizes g.indices), agg.destName, src.pos⟩, hsrc,
              by simp, rfl, rfl, by simp [hfn]⟩
          | succ j =>
            simp only [List.getElem?_cons_succ] at hj ⊢
            exact h3 j a hj
        · simp only [hfn, if_false] at h
          cases hred : reduce src.Column g.indices agg.Fn with
          | error e => simp [hred] at h
          | ok c =>
            simp only [hred] at h
            rcases ih _ _ _ _ h with ⟨newCols, h1, h2, h3, h4⟩
            refine ⟨⟨c, agg.destName, src.pos⟩ :: newCols,
              by rw [h1]; simp, by simp [h2], ?_, key_iff _ _ h4⟩
            intro j a hj
            cases j with
            | zero =>
              simp only [List.getElem?_cons_zero, Option.some.injEq] at hj
              subst hj
              exact ⟨src, ⟨c, agg.destName, src.pos⟩, hsrc, by simp, rfl, rfl, by simp [hfn, hred]⟩
            | succ j =>
              simp only [List.getElem?_cons_succ] at hj ⊢
              exact h3 j a hj

theorem aggLoop_append (reduce : column.Column → List (List Nat) → SliceFuncOrBuiltInId →
      Except Error column.Column) (g : Grouper) :
    ∀ (pre rest : List Aggregation) (m : ColumnMap) (cols : List namedColumn)
      (m1 : ColumnMap) (cols1 : List namedColumn),
      aggLoop reduce g pre m cols = Except.ok (m1, cols1) →
      aggLoop reduce g (pre ++ rest) m cols = aggLoop reduce g rest m1 cols1 := by
  intro pre
  induction pre with
  | nil =>
    intro rest m cols m1 cols1 h
    simp only [aggLoop, Except.ok.injEq, Prod.mk.injEq] at h
    rcases h with ⟨rfl, rfl⟩
    rfl
  | cons agg pre ih =>
    intro rest m cols m1 cols1 h
    rw [List.cons_append]
    rw [aggLoop_cons] at h ⊢
    cases hsrc : g.columnsByName.get agg.Column with
    | none => simp [hsrc] at h
    | some src =>
      simp only [hsrc] at h ⊢
      cases hdst : m.get agg.destName with
      | some c => simp [hdst] at h
      | none =>
        simp only [hdst] at h ⊢
        by_cases hfn : agg.Fn = SliceFuncOrBuiltInId.builtIn "count"
        · simp only [hfn, if_true] at h ⊢
          exact ih _ _ _ _ _ h
        · simp only [hfn, if_false] at h ⊢
          cases hred : reduce src.Column g.indices agg.Fn with
          | error e => simp [hred] at h
          | ok c =>
            simp only [hred] at h ⊢
            exact ih _ _ _ _ _ h

/-- The validation error of a spec whose source column is unknown or whose
destination name is taken in the map built so far. -/
theorem aggLoop_invalid_head (reduce : column.Column → List (List Nat) → SliceFuncOrBuiltInId →
      Except Error column.Column) (g : Grouper) (agg : Aggregation) (post : List Aggregation)
    (m : ColumnMap) (cols : List namedColumn)
    (h : g.columnsByName.get agg.Column = none ∨ (m.get agg.destName).isSome = true) :
    aggLoop reduce g (agg :: post) m cols = Except.error
      (if g.columnsByName.get agg.Column = none
        then Error.unknownColumn "Aggregate" agg.Column
        else Error.aggregateNameConflict "Aggregate" agg.destName) := by
  rw [aggLoop_cons]
  cases hsrc : g.columnsByName.get agg.Column with
  | none => simp
  | some src =>
    rcases h with h | h
    · rw [hsrc] at h; cases h
    · cases hdst : m.get agg.destName with
      | none => rw [hdst] at h; cases h
      | some c => simp

theorem aggLoop_error_of_invalid (reduce : column.Column → List (List Nat) →
      SliceFuncOrBuiltInId → Except Error column.Column) (g : Grouper) :
    ∀ (pre : List Aggregation) (agg : Aggregation) (post : List Aggregation) (m : ColumnMap)
      (cols : List namedColumn),
      (g.columnsByName.get agg.Column = none ∨ (m.get agg.destName).isSome = true ∨
        ∃ a ∈ pre, a.destName = agg.destName) →
      ∃ e, aggLoop reduce g (pre ++ agg :: post) m cols = Except.error e := by
  intro pre agg post m cols h
  cases hpre : aggLoop reduce g pre m cols with
  | error e =>
    -- an earlier spec already fails
    clear h
    induction pre generalizing m cols with
    | nil => simp [aggLoop] at hpre
    | cons a pre ih =>
      rw [List.cons_append]
      rw [aggLoop_cons] at hpre ⊢
      cases hsrc : g.columnsByName.get a.Column with
      | none => exact ⟨_, rfl⟩
      | some src =>
        simp only [hsrc] at hpre ⊢
        cases hdst : m.get a.destName with
        | some c => exact ⟨_, rfl⟩
        | none =>
          simp only [hdst] at hpre ⊢
          by_cases hfn : a.Fn = SliceFuncOrBuiltInId.builtIn "count"
          · simp only [hfn, if_true] at hpre ⊢
            exact ih _ _ hpre
          · simp only [hfn, if_false] at hpre ⊢
            cases hred : reduce src.Column g.indices a.Fn with
            | error e1 => exact ⟨_, rfl⟩
            | ok c =>
              simp only [hred] at hpre ⊢
              exact ih _ _ hpre
  | ok r =>
    rcases r with ⟨m1, cols1⟩
    rw [aggLoop_append reduce g pre _ m cols m1 cols1 hpre]
    rcases aggLoop_ok_spec reduce g pre m cols m1 cols1 hpre with ⟨_, _, _, _, hkeys⟩
    refine ⟨_, aggLoop_invalid_head reduce g agg post m1 cols1 ?_⟩
    rcases h with h | h | h
    · exact Or.inl h
    · exact Or.inr ((hkeys _).2 (Or.inr h))
    · exact Or.inr ((hkeys _).2 (Or.inl h))

/-! ### The structure of a run of `Aggregate` -/

theorem Aggregate_ok (reduce : column.Column → List (List Nat) → SliceFuncOrBuiltInId →
      Except Error column.Column) (g : Grouper) (aggs : List Aggregation) (qf : QFrame)
    (h : g.Aggregate reduce aggs = some qf) (herr : qf.Err = none) :
    ∃ fe m0 cols0 m1 cols1, g.Err = none ∧ firstElements g.indices = some fe ∧
      groupedLoop g fe 0 g.groupedColumns [] [] = some (m0, cols0) ∧
      aggLoop reduce g aggs m0 cols0 = Except.ok (m1, cols1) ∧
      qf = { columns := cols1, columnsByName := m1,
             index := index.NewAscending (g.indices.length % 2 ^ 32), Err := none } := by
  unfold Grouper.Aggregate at h
  cases hg : g.Err with
  | some e =>
    simp only [hg, Option.some.injEq] at h
    subst h
    simp [QFrame.withErr] at herr
  | none =>
    simp only [hg] at h
    cases hfe : firstElements g.indices with
    | none => simp [hfe] at h
    | some fe =>
      simp only [hfe] at h
      cases hgl : groupedLoop g fe 0 g.groupedColumns [] [] with
      | none => simp [hgl] at h
      | some r =>
        rcases r with ⟨m0, cols0⟩
        simp only [hgl] at h
        cases hal : aggLoop reduce g aggs m0 cols0 with
        | error e =>
          simp only [hal, Option.some.injEq] at h
          subst h
          simp [QFrame.withErr] at herr
        | ok r1 =>
          rcases r1 with ⟨m1, cols1⟩
          simp only [hal, Option.some.injEq] at h
          exact ⟨fe, m0, cols0, m1, cols1, rfl, rfl, hgl, hal, h.symm⟩

theorem forall₂_getElem? {α β : Type} (R : α → β → Prop) :
    ∀ (l1 : List α) (l2 : List β), List.Forall₂ R l1 l2 → ∀ (i : Nat) (a : α),
      l1[i]? = some a → ∃ b, l2[i]? = some b ∧ R a b := by
  intro l1 l2 h
  induction h with
  | nil => intro i a hi; simp at hi
  | cons hab _ ih =>
    intro i a hi
    cases i with
    | zero =>
      simp only [List.getElem?_cons_zero, Option.some.injEq] at hi
      subst hi
      exact ⟨_, by simp, hab⟩
    | succ i =>
      simp only [List.getElem?_cons_succ] at hi ⊢
      exact ih i a hi

theorem forall₂_mem_right {α β : Type} (R : α → β → Prop) :
    ∀ (l1 : List α) (l2 : List β), List.Forall₂ R l1 l2 → ∀ b ∈ l2, ∃ a ∈ l1, R a b := by
  intro l1 l2 h
  induction h with
  | nil => intro b hb; simp at hb
  | cons hab _ ih =>
    intro b hb
    rcases List.mem_cons.1 hb with hb | hb
    · subst hb
      exact ⟨_, List.mem_cons_self _ _, hab⟩
    · rcases ih b hb with ⟨a, ha, hr⟩
      exact ⟨a, List.mem_cons_of_mem _ ha, hr⟩

theorem Aggregate_preamble (g : Grouper) (hwf : g.WellFormed) :
    ∃ fe m0 cols0, firstElements g.indices = some fe ∧
      groupedLoop g fe 0 g.groupedColumns [] [] = some (m0, cols0) := by
  rcases hwf with ⟨hne, _, hcols⟩
  rcases firstElements_isSome g.indices hne with ⟨fe, hfe⟩
  have hfirst := firstElements_spec g.indices fe hfe
  have hrange : ∀ name ∈ g.groupedColumns, ∃ col, g.columnsByName.get name = some col ∧
      ∀ r ∈ fe, r < col.Column.data.length := by
    intro name hname
    rcases hcols name hname with ⟨col, hcol, hr⟩
    refine ⟨col, hcol, ?_⟩
    intro r hrfe
    rcases forall₂_mem_right _ _ _ hfirst r hrfe with ⟨ix, hix, hhead⟩
    exact hr ix hix r (List.mem_of_mem_head? hhead)
  rcases groupedLoop_isSome g fe g.groupedColumns 0 [] [] hrange with ⟨⟨m0, cols0⟩, hgl⟩
  exact ⟨fe, m0, cols0, hfe, hgl⟩

theorem Aggregate_total (reduce : column.Column → List (List Nat) → SliceFuncOrBuiltInId →
      Except Error column.Column) (g : Grouper) (aggs : List Aggregation)
    (hwf : g.WellFormed) : ∃ qf, g.Aggregate reduce aggs = some qf := by
  rcases Aggregate_preamble g hwf with ⟨fe, m0, cols0, hfe, hgl⟩
  unfold Grouper.Aggregate
  cases hg : g.Err with
  | some e => exact ⟨_, rfl⟩
  | none =>
    simp only [hfe, hgl]
    cases aggLoop reduce g aggs m0 cols0 with
    | error e => exact ⟨_, rfl⟩
    | ok r => exact ⟨_, rfl⟩

theorem sum_groupSizes (groups : List (List Nat)) :
    (groupSizes groups).sum = ((groups.flatten.length : Nat) : Int) := by
  induction groups with
  | nil => simp [groupSizes]
  | cons g rest ih =>
    simp only [groupSizes, List.map_cons, List.sum_cons, List.flatten_cons,
      List.length_append, Nat.cast_add] at ih ⊢
    rw [ih]

theorem groupSizes_getElem? (groups : List (List Nat)) (gi : Nat) (grp : List Nat)
    (h : groups[gi]? = some grp) :
    (icolumn.New (groupSizes groups)).data[gi]? = some (column.Value.int grp.length) := by
  simp [icolumn.New, groupSizes, List.getElem?_map, h]

/-! ### C9: one row per group, led by the group-by columns -/

/-- C9: for every Grouper whose groups are non-empty (a well-formed Grouper,
with or without error) and every list of specs, `Aggregate` returns a frame, and
when that frame carries no error (the specs are valid and reduce) its index is
the ascending index `0..numGroups-1` and its leading columns are the group-by
columns in their declared order: column `j` is the column named
`groupedColumns[j]`, repositioned to `j`, with one value per group, row `g`
holding the value of that column at the first member `groups[g][0]`. -/
theorem Aggregate_one_row_per_group (reduce : column.Column → List (List Nat) →
      SliceFuncOrBuiltInId → Except Error column.Column) (g : Grouper)
    (aggs : List Aggregation) (hwf : g.WellFormed) :
    (∃ qf, g.Aggregate reduce aggs = some qf) ∧
    ∀ qf, g.Aggregate reduce aggs = some qf → qf.Err = none →
      qf.index = List.range g.indices.length ∧
      ∀ (j : Nat) (name : String), g.groupedColumns[j]? = some name →
        ∃ (src col : namedColumn), g.columnsByName.get name = some src ∧
          qf.columns[j]? = some col ∧ col.name = src.name ∧ col.pos = j ∧
          col.Column.data.length = g.indices.length ∧
          ∀ (gi : Nat) (grp : List Nat), g.indices[gi]? = some grp →
            ∃ first v, grp.head? = some first ∧ src.Column.data[first]? = some v ∧
              col.Column.data[gi]? = some v := by
  refine ⟨Aggregate_total reduce g aggs hwf, ?_⟩
  intro qf h hqerr
  rcases Aggregate_ok reduce g aggs qf h hqerr with
    ⟨fe, m0, cols0, m1, cols1, _, hfe, hgl, hal, rfl⟩
  rcases groupedLoop_spec g fe _ _ _ _ _ _ hgl with ⟨newCols0, hc0, hl0, hcols, _⟩
  rcases aggLoop_ok_spec reduce g aggs m0 cols0 m1 cols1 hal with ⟨newCols, hc1, _, _, _⟩
  have hfirst := firstElements_spec g.indices fe hfe
  constructor
  · show index.NewAscending (g.indices.length % 2 ^ 32) = List.range g.indices.length
    rw [index.NewAscending, Nat.mod_eq_of_lt hwf.2.1]
  · intro j name hj
    rcases hcols j name hj with ⟨src, sub, hsrc, hsub, hnew⟩
    have hsubspec := Subset_spec src.Column sub fe hsub
    refine ⟨src, { src with pos := 0 + j, Column := sub }, hsrc, ?_, rfl, by simp, ?_, ?_⟩
    · show cols1[j]? = _
      rw [hc1, hc0, List.nil_append]
      have hjl : j < newCols0.length := (List.getElem?_eq_some_iff.1 hnew).1
      rw [List.getElem?_append_left hjl]
      exact hnew
    · show sub.data.length = g.indices.length
      rw [← hsubspec.length_eq, ← hfirst.length_eq]
    · intro gi grp hgi
      rcases forall₂_getElem? _ _ _ hfirst gi grp hgi with ⟨first, hf1, hf2⟩
      rcases forall₂_getElem? _ _ _ hsubspec gi first hf1 with ⟨v, hv1, hv2⟩
      exact ⟨first, v, hf2, hv2, hv1⟩

theorem scenarioGrouper_wellFormed : scenarioGrouper.WellFormed := by
  refine ⟨by decide, by decide, ?_⟩
  intro name hname
  simp only [scenarioGrouper, List.mem_singleton] at hname
  subst hname
  exact ⟨⟨icolumn.New [1, 2, 3, 1], "A", 0⟩, by decide, by decide⟩

theorem Aggregate_one_row_per_group_witness :
    scenarioGrouper.WellFormed ∧
    scenarioGrouper.Aggregate reduceFirst scenarioSpecs = some scenarioResult ∧
    ((∃ qf, scenarioGrouper.Aggregate reduceFirst scenarioSpecs = some qf) ∧
    ∀ qf, scenarioGrouper.Aggregate reduceFirst scenarioSpecs = some qf → qf.Err = none →
      qf.index = List.range scenarioGrouper.indices.length ∧
      ∀ (j : Nat) (name : String), scenarioGrouper.groupedColumns[j]? = some name →
        ∃ (src col : namedColumn), scenarioGrouper.columnsByName.get name = some src ∧
          qf.columns[j]? = some col ∧ col.name = src.name ∧ col.pos = j ∧
          col.Column.data.length = scenarioGrouper.indices.length ∧
          ∀ (gi : Nat) (grp : List Nat), scenarioGrouper.indices[gi]? = some grp →
            ∃ first v, grp.head? = some first ∧ src.Column.data[first]? = some v ∧
              col.Column.data[gi]? = some v) :=
  ⟨scenarioGrouper_wellFormed, by decide,
    Aggregate_one_row_per_group reduceFirst scenarioGrouper _ scenarioGrouper_wellFormed⟩

/-! ### C10: one trailing column per spec -/

/-- The columns of an error-free result: the group-by columns, then one column
per spec. -/
theorem Aggregate_ok_columns (reduce : column.Column → List (List Nat) →
      SliceFuncOrBuiltInId → Except Error column.Column) (g : Grouper)
    (aggs : List Aggregation) (qf : QFrame) (h : g.Aggregate reduce aggs = some qf)
    (herr : qf.Err = none) :
    ∃ cols0 newCols : List namedColumn, qf.columns = cols0 ++ newCols ∧
      cols0.length = g.groupedColumns.length ∧ newCols.length = aggs.length ∧
      ∀ (j : Nat) (agg : Aggregation), aggs[j]? = some agg →
        ∃ (src col : namedColumn), g.columnsByName.get agg.Column = some src ∧
          newCols[j]? = some col ∧ col.name = agg.destName ∧ col.pos = src.pos ∧
          (if agg.Fn = SliceFuncOrBuiltInId.builtIn "count"
            then col.Column = icolumn.New (groupSizes g.indices)
            else reduce src.Column g.indices agg.Fn = Except.ok col.Column) := by
  rcases Aggregate_ok reduce g aggs qf h herr with
    ⟨fe, m0, cols0, m1, cols1, _, hfe, hgl, hal, rfl⟩
  rcases groupedLoop_spec g fe _ _ _ _ _ _ hgl with ⟨newCols0, hc0, hl0, _, _⟩
  rcases aggLoop_ok_spec reduce g aggs m0 cols0 m1 cols1 hal with ⟨newCols, hc1, hl1, hspec, _⟩
  exact ⟨cols0, newCols, hc1, by rw [hc0]; simp [hl0], hl1, hspec⟩

/-- C10: for every successful `Aggregate` call with `k` group-by columns and
specs `s_1..s_m`, the result has exactly `k + m` columns; column `k + j`
belongs to spec `s_j` (it holds the group sizes for "count" and the reduction
of the source column of `s_j` otherwise) and is named `s_j.As` when that is
non-empty and `s_j.Column` otherwise. -/
theorem Aggregate_one_column_per_spec (reduce : column.Column → List (List Nat) →
      SliceFuncOrBuiltInId → Except Error column.Column) (g : Grouper)
    (aggs : List Aggregation) (qf : QFrame) (h : g.Aggregate reduce aggs = some qf)
    (herr : qf.Err = none) :
    qf.columns.length = g.groupedColumns.length + aggs.length ∧
    ∀ (j : Nat) (agg : Aggregation), aggs[j]? = some agg →
      ∃ (src col : namedColumn), g.columnsByName.get agg.Column = some src ∧
        qf.columns[g.groupedColumns.length + j]? = some col ∧
        col.name = (if agg.As ≠ "" then agg.As else agg.Column) ∧
        (if agg.Fn = SliceFuncOrBuiltInId.builtIn "count"
          then col.Column = icolumn.New (groupSizes g.indices)
          else reduce src.Column g.indices agg.Fn = Except.ok col.Column) := by
  rcases Aggregate_ok_columns reduce g aggs qf h herr with
    ⟨cols0, newCols, hc1, hlen0, hl1, hspec⟩
  constructor
  · rw [hc1, List.length_append, hlen0, hl1]
  · intro j agg hj
    rcases hspec j agg hj with ⟨src, col, hsrc, hcol, hname, _, hval⟩
    refine ⟨src, col, hsrc, ?_, hname, hval⟩
    rw [hc1, ← hlen0, List.getElem?_append_right (by omega)]
    simpa using hcol

theorem Aggregate_one_column_per_spec_witness :
    scenarioGrouper.Aggregate reduceFirst scenarioSpecs = some scenarioResult ∧
    scenarioResult.Err = none ∧
    (scenarioResult.columns.length = scenarioGrouper.groupedColumns.length + scenarioSpecs.length ∧
    ∀ (j : Nat) (agg : Aggregation), scenarioSpecs[j]? = some agg →
      ∃ (src col : namedColumn), scenarioGrouper.columnsByName.get agg.Column = some src ∧
        scenarioResult.columns[scenarioGrouper.groupedColumns.length + j]? = some col ∧
        col.name = (if agg.As ≠ "" then agg.As else agg.Column) ∧
        (if agg.Fn = SliceFuncOrBuiltInId.builtIn "count"
          then col.Column = icolumn.New (groupSizes scenarioGrouper.indices)
          else reduceFirst src.Column scenarioGrouper.indices agg.Fn = Except.ok col.Column)) :=
  ⟨by decide, rfl,
    Aggregate_one_column_per_spec reduceFirst scenarioGrouper scenarioSpecs scenarioResult
      (by decide) rfl⟩

/-! ### C7: an invalid spec aborts the whole call -/

theorem Aggregate_eq_of_aggLoop_error (reduce : column.Column → List (List Nat) →
      SliceFuncOrBuiltInId → Except Error column.Column) (g : Grouper)
    (aggs : List Aggregation) (fe : List Nat) (m0 : ColumnMap) (cols0 : List namedColumn)
    (e : Error) (herr : g.Err = none) (hfe : firstElements g.indices = some fe)
    (hgl : groupedLoop g fe 0 g.groupedColumns [] [] = some (m0, cols0))
    (hal : aggLoop reduce g aggs m0 cols0 = Except.error e) :
    g.Aggregate reduce aggs = some (QFrame.withErr e) := by
  unfold Grouper.Aggregate
  simp only [herr, hfe, hgl, hal]

theorem invalid_in_map (g : Grouper) (fe : List Nat) (m0 : ColumnMap)
    (cols0 : List namedColumn) (pre : List Aggregation) (agg : Aggregation)
    (hgl : groupedLoop g fe 0 g.groupedColumns [] [] = some (m0, cols0))
    (hinv : Aggregation.Invalid g pre agg) :
    g.columnsByName.get agg.Column = none ∨ (m0.get agg.destName).isSome = true ∨
      ∃ a ∈ pre, a.destName = agg.destName := by
  rcases groupedLoop_spec g fe _ _ _ _ _ _ hgl with ⟨_, _, _, _, hkeys⟩
  rcases hinv with h | h | h
  · exact Or.inl h
  · exact Or.inr (Or.inl ((hkeys _).2 (Or.inl h)))
  · exact Or.inr (Or.inr h)

/-- C7: for every Grouper without error (well-formed, as `QFrame.GroupBy`
builds it) and every list of specs: if some spec names a source column that is
not in the frame, or its destination name (`As`, or `Column` when `As` is
empty) equals a group-by column name or the destination name of an earlier
spec, then `Aggregate` returns a frame whose `Err` is set and which carries no
columns, no by-name map and no index. -/
theorem Aggregate_invalid_spec_error (reduce : column.Column → List (List Nat) →
      SliceFuncOrBuiltInId → Except Error column.Column) (g : Grouper)
    (pre : List Aggregation) (agg : Aggregation) (post : List Aggregation)
    (herr : g.Err = none) (hwf : g.WellFormed) (hinv : Aggregation.Invalid g pre agg) :
    ∃ e, g.Aggregate reduce (pre ++ agg :: post)
      = some { columns := [], columnsByName := [], index := [], Err := some e } := by
  rcases Aggregate_preamble g hwf with ⟨fe, m0, cols0, hfe, hgl⟩
  rcases aggLoop_error_of_invalid reduce g pre agg post m0 cols0
      (invalid_in_map g fe m0 cols0 pre agg hgl hinv) with ⟨e, he⟩
  exact ⟨e, Aggregate_eq_of_aggLoop_error reduce g _ fe m0 cols0 e herr hfe hgl he⟩

theorem Aggregate_invalid_spec_error_witness :
    scenarioGrouper.Err = none ∧ scenarioGrouper.WellFormed ∧
    Aggregation.Invalid scenarioGrouper scenarioSpecs ⟨SliceFuncOrBuiltInId.builtIn "sum", "A", "n"⟩ ∧
    scenarioGrouper.Aggregate reduceFirst
        (scenarioSpecs ++ [⟨SliceFuncOrBuiltInId.builtIn "sum", "A", "n"⟩])
      = some (QFrame.withErr (Error.aggregateNameConflict "Aggregate" "n")) ∧
    ∃ e, scenarioGrouper.Aggregate reduceFirst
        (scenarioSpecs ++ ⟨SliceFuncOrBuiltInId.builtIn "sum", "A", "n"⟩ :: [])
      = some { columns := [], columnsByName := [], index := [], Err := some e } :=
  ⟨rfl, scenarioGrouper_wellFormed,
    Or.inr (Or.inr ⟨⟨SliceFuncOrBuiltInId.builtIn "count", "A", "n"⟩, by decide, by decide⟩),
    by decide,
    Aggregate_invalid_spec_error reduceFirst scenarioGrouper scenarioSpecs _ [] rfl
      scenarioGrouper_wellFormed
      (Or.inr (Or.inr ⟨⟨SliceFuncOrBuiltInId.builtIn "count", "A", "n"⟩, by decide, by decide⟩))⟩

/-! ### C8: validation is interleaved with reduction -/

/-- C8, as stated, fails: with the specs "sum of `A` as `s`" (valid) and "sum of
`B`" (unknown source column) the reduction of the first spec is invoked before
the second spec is validated: the outcome depends on the reduction, and when
the reduction fails the error returned is the propagated reduction error, not
the unknown-column error. -/
theorem Aggregate_validation_not_before_reduction :
    Aggregation.Invalid scenarioGrouper [⟨SliceFuncOrBuiltInId.builtIn "sum", "A", "s"⟩]
      ⟨SliceFuncOrBuiltInId.builtIn "sum", "B", ""⟩ ∧
    scenarioGrouper.Aggregate reduceFail
        [⟨SliceFuncOrBuiltInId.builtIn "sum", "A", "s"⟩,
         ⟨SliceFuncOrBuiltInId.builtIn "sum", "B", ""⟩]
      = some (QFrame.withErr
          (Error.propagate "Aggregate" (Error.other "unknown aggregation function"))) ∧
    scenarioGrouper.Aggregate reduceFirst
        [⟨SliceFuncOrBuiltInId.builtIn "sum", "A", "s"⟩,
         ⟨SliceFuncOrBuiltInId.builtIn "sum", "B", ""⟩]
      = some (QFrame.withErr (Error.unknownColumn "Aggregate" "B")) :=
  ⟨Or.inl (by decide), by decide, by decide⟩

/-- C8, amended: `Aggregate` validates each spec immediately before reducing
it, in spec order.  If the specs `pre` before an invalid spec `agg` (unknown
source column, or destination name taken by a group-by column or by a spec of
`pre`) are aggregated without error, then whatever specs `post` follow, and
whatever the reduction would do on `agg` and `post`, the call returns the
validation error of `agg`: unknown column when its source is not in the frame,
name conflict otherwise. -/
theorem Aggregate_first_invalid_spec_error (reduce : column.Column → List (List Nat) →
      SliceFuncOrBuiltInId → Except Error column.Column) (g : Grouper)
    (pre : List Aggregation) (agg : Aggregation) (post : List Aggregation) (qf : QFrame)
    (hpre : g.Aggregate reduce pre = some qf) (hok : qf.Err = none)
    (hinv : Aggregation.Invalid g pre agg) :
    g.Aggregate reduce (pre ++ agg :: post) = some (QFrame.withErr
      (if g.columnsByName.get agg.Column = none
        then Error.unknownColumn "Aggregate" agg.Column
        else Error.aggregateNameConflict "Aggregate" agg.destName)) := by
  rcases Aggregate_ok reduce g pre qf hpre hok with
    ⟨fe, m0, cols0, m1, cols1, herr, hfe, hgl, hal, _⟩
  rcases aggLoop_ok_spec reduce g pre m0 cols0 m1 cols1 hal with ⟨_, _, _, _, hkeys⟩
  apply Aggregate_eq_of_aggLoop_error reduce g _ fe m0 cols0 _ herr hfe hgl
  rw [aggLoop_append reduce g pre _ m0 cols0 m1 cols1 hal]
  apply aggLoop_invalid_head
  rcases invalid_in_map g fe m0 cols0 pre agg hgl hinv with h | h | h
  · exact Or.inl h
  · exact Or.inr ((hkeys _).2 (Or.inr h))
  · exact Or.inr ((hkeys _).2 (Or.inl h))

theorem Aggregate_first_invalid_spec_error_witness :
    scenarioGrouper.Aggregate reduceFirst scenarioSpecs = some scenarioResult ∧
    scenarioResult.Err = none ∧
    Aggregation.Invalid scenarioGrouper scenarioSpecs ⟨SliceFuncOrBuiltInId.builtIn "sum", "B", ""⟩ ∧
    scenarioGrouper.Aggregate reduceFirst
        (scenarioSpecs ++ ⟨SliceFuncOrBuiltInId.builtIn "sum", "B", ""⟩ :: scenarioSpecs)
      = some (QFrame.withErr
        (if scenarioGrouper.columnsByName.get
              (Aggregation.mk (SliceFuncOrBuiltInId.builtIn "sum") "B" "").Column = none
          then Error.unknownColumn "Aggregate"
            (Aggregation.mk (SliceFuncOrBuiltInId.builtIn "sum") "B" "").Column
          else Error.aggregateNameConflict "Aggregate"
            (Aggregation.mk (SliceFuncOrBuiltInId.builtIn "sum") "B" "").destName)) :=
  ⟨by decide, rfl, Or.inl (by decide),
    Aggregate_first_invalid_spec_error reduceFirst scenarioGrouper scenarioSpecs _ scenarioSpecs
      scenarioResult (by decide) rfl (Or.inl (by decide))⟩

/-! ### C6: the name-conflict guard also applies to "count" -/

theorem aggLoop_count_single (reduce : column.Column → List (List Nat) →
      SliceFuncOrBuiltInId → Except Error column.Column) (g : Grouper) (agg : Aggregation)
    (m : ColumnMap) (cols : List namedColumn) (src : namedColumn)
    (hfn : agg.Fn = SliceFuncOrBuiltInId.builtIn "count")
    (hsrc : g.columnsByName.get agg.Column = some src) (hdst : m.get agg.destName = none) :
    ∃ r, aggLoop reduce g [agg] m cols = Except.ok r := by
  rw [aggLoop_cons]
  simp only [hsrc, hdst, hfn, if_true]
  exact ⟨_, rfl⟩

/-- C6, as stated for every existing source column, fails: in the scenario
(column `A = [1,2,3,1]`, rows `[0,1,2,3]` grouped by `A` with `GroupBy`),
counting the existing column `A` without a rename is rejected with a name
conflict, and no count column is produced. -/
theorem Aggregate_count_of_grouped_column_rejected :
    (grouper.GroupBy [0, 1, 2, 3] [grouper.intComparable [1, 2, 3, 1]]).map Prod.fst
      = some scenarioGrouper.indices ∧
    scenarioGrouper.Err = none ∧
    scenarioGrouper.columnsByName.get "A" ≠ none ∧
    scenarioGrouper.Aggregate reduceFirst [⟨SliceFuncOrBuiltInId.builtIn "count", "A", ""⟩]
      = some { columns := [], columnsByName := [], index := [],
               Err := some (Error.aggregateNameConflict "Aggregate" "A") } :=
  ⟨by decide, rfl, by decide, by decide⟩

end qframe

namespace qframe

open qerrors types

/-! ### C11: an incoming error is passed through -/

/-- C11: for every Grouper `g` whose `Err` is set and every list of specs,
valid or not, and whatever the reductions would do, `Aggregate` returns the
frame `QFrame{Err: g.Err}`, with exactly that error and no columns, by-name map
or index; and `QFrames` returns no frames together with exactly `g.Err`. -/
theorem Aggregate_QFrames_pass_error (reduce : column.Column → List (List Nat) →
      SliceFuncOrBuiltInId → Except Error column.Column) (g : Grouper)
    (aggs : List Aggregation) (err : Error) (herr : g.Err = some err) :
    g.Aggregate reduce aggs
      = some { columns := [], columnsByName := [], index := [], Err := some err } ∧
    g.QFrames = ([], some err) := by
  constructor
  · unfold Grouper.Aggregate
    rw [herr]
    rfl
  · unfold Grouper.QFrames
    rw [herr]

theorem Aggregate_QFrames_pass_error_witness :
    failedGrouper.Err = some (Error.unknownColumn "GroupBy" "Z") ∧
    (failedGrouper.Aggregate reduceFail [⟨SliceFuncOrBuiltInId.builtIn "sum", "B", ""⟩]
      = some { columns := [], columnsByName := [], index := [],
               Err := some (Error.unknownColumn "GroupBy" "Z") } ∧
    failedGrouper.QFrames = ([], some (Error.unknownColumn "GroupBy" "Z"))) :=
  ⟨rfl, Aggregate_QFrames_pass_error reduceFail failedGrouper _ _ rfl⟩

end qframe

namespace bseries

open column

/-! ### C14: comparison of boolean rows -/

theorem Compare_eq (c : Comparable) (i j : Nat) (x y : Bool) (hi : c.data[i]? = some x)
    (hj : c.data[j]? = some y) :
    c.Compare i j = some (if x = y then CompareResult.Equal
      else if x = true then c.gtValue else c.ltValue) := by
  unfold Comparable.Compare
  rw [hi, hj]
  by_cases h : x = y
  · simp [h]
  · cases x <;> simp [h]

/-- C14: for a boolean Comparable configured with `ltValue = Less` and
`gtValue = Greater` and rows `i`, `j`, `k` of its data, `Compare(i, j)` returns
a result, which is `Equal` iff `data[i] = data[j]`, `Less` iff `data[i]` is
false and `data[j]` is true, and `Greater` iff `data[i]` is true and `data[j]`
is false; `Compare` is reflexive, `Compare(i, j) = Less` iff
`Compare(j, i) = Greater`, and it is transitive (for `Less`, for `Equal` and
for "not `Greater`"), false being ordered before true. -/
theorem Compare_total_order (c : Comparable) (hlt : c.ltValue = CompareResult.Less)
    (hgt : c.gtValue = CompareResult.Greater) (i j k : Nat) (x y z : Bool)
    (hi : c.data[i]? = some x) (hj : c.data[j]? = some y) (hk : c.data[k]? = some z) :
    (∃ r, c.Compare i j = some r) ∧
    (c.Compare i j = some CompareResult.Equal ↔ x = y) ∧
    (c.Compare i j = some CompareResult.Less ↔ (x = false ∧ y = true)) ∧
    (c.Compare i j = some CompareResult.Greater ↔ (x = true ∧ y = false)) ∧
    c.Compare i i = some CompareResult.Equal ∧
    (c.Compare i j = some CompareResult.Less ↔ c.Compare j i = some CompareResult.Greater) ∧
    (c.Compare i j = some CompareResult.Less → c.Compare j k = some CompareResult.Less →
      c.Compare i k = some CompareResult.Less) ∧
    (c.Compare i j = some CompareResult.Equal → c.Compare j k = some CompareResult.Equal →
      c.Compare i k = some CompareResult.Equal) ∧
    (c.Compare i j ≠ some CompareResult.Greater → c.Compare j k ≠ some CompareResult.Greater →
      c.Compare i k ≠ some CompareResult.Greater) := by
  rw [Compare_eq c i j x y hi hj, Compare_eq c i i x x hi hi, Compare_eq c j i y x hj hi,
    Compare_eq c j k y z hj hk, Compare_eq c i k x z hi hk, hlt, hgt]
  cases x <;> cases y <;> cases z <;> simp

theorem Compare_total_order_witness :
    (Comparable.mk [false, true, true] CompareResult.Less CompareResult.Greater).Compare 0 1
      = some CompareResult.Less ∧
    (Comparable.mk [false, true, true] CompareResult.Less CompareResult.Greater).Compare 1 0
      = some CompareResult.Greater ∧
    (Comparable.mk [false, true, true] CompareResult.Less CompareResult.Greater).Compare 1 2
      = some CompareResult.Equal ∧
    ((∃ r, (Comparable.mk [false, true, true] CompareResult.Less CompareResult.Greater).Compare
        0 1 = some r) ∧
    ((Comparable.mk [false, true, true] CompareResult.Less CompareResult.Greater).Compare 0 1
      = some CompareResult.Equal ↔ false = true) ∧
    ((Comparable.mk [false, true, true] CompareResult.Less CompareResult.Greater).Compare 0 1
      = some CompareResult.Less ↔ (false = false ∧ true = true)) ∧
    ((Comparable.mk [false, true, true] CompareResult.Less CompareResult.Greater).Compare 0 1
      = some CompareResult.Greater ↔ (false = true ∧ true = false)) ∧
    (Comparable.mk [false, true, true] CompareResult.Less CompareResult.Greater).Compare 0 0
      = some CompareResult.Equal ∧
    ((Comparable.mk [false, true, true] CompareResult.Less CompareResult.Greater).Compare 0 1
      = some CompareResult.Less ↔
      (Comparable.mk [false, true, true] CompareResult.Less CompareResult.Greater).Compare 1 0
      = some CompareResult.Greater) ∧
    ((Comparable.mk [false, true, true] CompareResult.Less CompareResult.Greater).Compare 0 1
        = some CompareResult.Less →
      (Comparable.mk [false, true, true] CompareResult.Less CompareResult.Greater).Compare 1 2
        = some CompareResult.Less →
      (Comparable.mk [false, true, true] CompareResult.Less CompareResult.Greater).Compare 0 2
        = some CompareResult.Less) ∧
    ((Comparable.mk [false, true, true] CompareResult.Less CompareResult.Greater).Compare 0 1
        = some CompareResult.Equal →
      (Comparable.mk [false, true, true] CompareResult.Less CompareResult.Greater).Compare 1 2
        = some CompareResult.Equal →
      (Comparable.mk [false, true, true] CompareResult.Less CompareResult.Greater).Compare 0 2
        = some CompareResult.Equal) ∧
    ((Comparable.mk [false, true, true] CompareResult.Less CompareResult.Greater).Compare 0 1
        ≠ some CompareResult.Greater →
      (Comparable.mk [false, true, true] CompareResult.Less CompareResult.Greater).Compare 1 2
        ≠ some CompareResult.Greater →
      (Comparable.mk [false, true, true] CompareResult.Less CompareResult.Greater).Compare 0 2
        ≠ some CompareResult.Greater)) :=
  ⟨by decide, by decide, by decide,
    Compare_total_order (Comparable.mk [false, true, true] CompareResult.Less
      CompareResult.Greater) rfl rfl 0 1 2 false true true rfl rfl rfl⟩

/-! ### C15: ordering comparators are not defined for boolean columns -/

/-- C15: the boolean filter tables `filterFuncs` and `filterFuncs2` define
exactly the comparators eq and neq, so lt, lte, gt and gte have no entry in
them; and `Series.Filter`, for every comparator that has no entry in its table
(in particular for every comparator with the table as the source initialises
it), returns the "invalid comparison operator" error and leaves the output
mask exactly as it was on entry. -/
theorem Filter_unsupported_comparator :
    (∀ (α : Type) (eq neq : α), (bcolumn.filterFuncs eq neq).map Prod.fst
        = [filter.Comparator.Eq, filter.Comparator.Neq]) ∧
    (∀ (α : Type) (eq2 neq2 : α), (bcolumn.filterFuncs2 eq2 neq2).map Prod.fst
        = [filter.Comparator.Eq, filter.Comparator.Neq]) ∧
    (∀ (α : Type) (eq neq : α) (c : filter.Comparator),
      c ∈ [filter.Comparator.Lt, filter.Comparator.Lte, filter.Comparator.Gt,
        filter.Comparator.Gte] →
      tableGet (bcolumn.filterFuncs eq neq) c = none ∧
      tableGet (bcolumn.filterFuncs2 eq neq) c = none) ∧
    (∀ (table : List (filter.Comparator × FilterFunc)) (s : Series) (index : List Nat)
      (c : filter.Comparator) (comparatee : column.Value) (bIndex : List Bool),
      tableGet table c = none →
      s.Filter table index c comparatee bIndex
        = (bIndex, some (FilterError.invalidComparisonOperator c))) ∧
    (∀ (s : Series) (index : List Nat) (c : filter.Comparator) (comparatee : column.Value)
      (bIndex : List Bool),
      s.Filter filterFuncs index c comparatee bIndex
        = (bIndex, some (FilterError.invalidComparisonOperator c))) := by
  refine ⟨fun _ _ _ => rfl, fun _ _ _ => rfl, ?_, ?_, ?_⟩
  · intro α eq neq c hc
    simp only [List.mem_cons, List.mem_singleton, List.not_mem_nil, or_false] at hc
    rcases hc with h | h | h | h <;> subst h <;>
      simp [tableGet, bcolumn.filterFuncs, bcolumn.filterFuncs2]
  · intro table s index c comparatee bIndex h
    unfold Series.Filter
    rw [h]
  · intro s index c comparatee bIndex
    rfl

theorem Filter_unsupported_comparator_witness :
    tableGet (bcolumn.filterFuncs eqFilter eqFilter) filter.Comparator.Gt = none ∧
    (Series.mk [true, false, true]).Filter (bcolumn.filterFuncs eqFilter eqFilter) [0, 1, 2]
        filter.Comparator.Eq (column.Value.bool true) [false, false, false]
      = ([true, false, true], none) ∧
    (Series.mk [true, false, true]).Filter (bcolumn.filterFuncs eqFilter eqFilter) [0, 1, 2]
        filter.Comparator.Gt (column.Value.bool true) [false, true, false]
      = ([false, true, false],
          some (FilterError.invalidComparisonOperator filter.Comparator.Gt)) ∧
    (∀ (table : List (filter.Comparator × FilterFunc)) (s : Series) (index : List Nat)
      (c : filter.Comparator) (comparatee : column.Value) (bIndex : List Bool),
      tableGet table c = none →
      s.Filter table index c comparatee bIndex
        = (bIndex, some (FilterError.invalidComparisonOperator c))) :=
  ⟨rfl, rfl, rfl, Filter_unsupported_comparator.2.2.2.1⟩

end bseries

namespace grouper

/-! ### C16: the initial capacity -/

theorem lenBits_gt : ∀ (fuel x : Nat), x < 2 ^ fuel → x < 2 ^ bits.lenBits fuel x := by
  intro fuel
  induction fuel with
  | zero => intro x hx; simpa [bits.lenBits] using hx
  | succ f ih =>
    intro x hx
    unfold bits.lenBits
    by_cases h0 : x = 0
    · simp [h0]
    · rw [if_neg h0]
      have h1 : x / 2 < 2 ^ f := by
        rw [pow_succ] at hx
        omega
      have h2 := ih (x / 2) h1
      rw [pow_succ]
      omega

theorem lenBits_lower : ∀ (fuel x : Nat), x ≠ 0 → 2 ^ (bits.lenBits fuel x - 1) ≤ x := by
  intro fuel
  induction fuel with
  | zero => intro x hx; simp [bits.lenBits]; omega
  | succ f ih =>
    intro x hx
    unfold bits.lenBits
    rw [if_neg hx]
    simp only [Nat.add_sub_cancel]
    by_cases h4 : bits.lenBits f (x / 2) = 0
    · rw [h4]; simp; omega
    · have h2 : x / 2 ≠ 0 := by
        intro h; apply h4; rw [h]; cases f <;> simp [bits.lenBits]
      have h3 := ih (x / 2) h2
      have h5 : bits.lenBits f (x / 2) = (bits.lenBits f (x / 2) - 1) + 1 := by omega
      rw [h5, pow_succ]
      omega

theorem nextPow2From_eq : ∀ (fuel a b y : Nat), a ≤ b → (a = 0 ∨ 2 ^ (a - 1) < y) →
    b - a ≤ fuel → y ≤ 2 ^ b → (b = 0 ∨ 2 ^ (b - 1) < y) →
    nextPow2From fuel (2 ^ a) y = 2 ^ b := by
  intro fuel
  induction fuel with
  | zero =>
    intro a b y hab _ hf _ _
    have : a = b := by omega
    simp [nextPow2From, this]
  | succ f ih =>
    intro a b y hab ha hf hyb hb
    unfold nextPow2From
    by_cases hy : y ≤ 2 ^ a
    · rw [if_pos hy]
      by_cases hab2 : a = b
      · rw [hab2]
      · exfalso
        have h1 : a ≤ b - 1 := by omega
        have h2 : 2 ^ a ≤ 2 ^ (b - 1) := Nat.pow_le_pow_right (by decide) h1
        rcases hb with hb | hb
        · omega
        · omega
    · rw [if_neg hy]
      have hlt : a < b := by
        by_contra hcon
        have : a = b := by omega
        rw [this] at hy
        exact hy hyb
      have h2 : 2 * 2 ^ a = 2 ^ (a + 1) := by rw [pow_succ]; omega
      rw [h2]
      apply ih (a + 1) b y (by omega) _ (by omega) hyb hb
      right
      simp only [Nat.add_sub_cancel]
      omega

theorem nextPow2_eq (y b : Nat) (h1 : y ≤ 2 ^ b) (h2 : b = 0 ∨ 2 ^ (b - 1) < y) :
    nextPow2 y = 2 ^ b := by
  unfold nextPow2
  have hfuel : b ≤ y := by
    rcases h2 with h2 | h2
    · omega
    · have : b - 1 < 2 ^ (b - 1) := Nat.lt_two_pow (b - 1)
      omega
  have := nextPow2From_eq y 0 b y (by omega) (Or.inl rfl) (by omega) h1 h2
  simpa using this

theorem nextPow2_spec (x : Nat) :
    ∃ b, nextPow2 x = 2 ^ b ∧ x ≤ 2 ^ b ∧ ∀ c, x ≤ 2 ^ c → 2 ^ b ≤ 2 ^ c := by
  by_cases hx : x ≤ 1
  · refine ⟨0, nextPow2_eq x 0 (by simpa using hx) (Or.inl rfl), by simpa using hx, ?_⟩
    intro c _
    exact Nat.pow_le_pow_right (by decide) (Nat.zero_le c)
  · have hx1 : x - 1 ≠ 0 := by omega
    have hf : x - 1 < 2 ^ (x - 1) := Nat.lt_two_pow (x - 1)
    have hU := lenBits_gt (x - 1) (x - 1) hf
    have hL := lenBits_lower (x - 1) (x - 1) hx1
    refine ⟨bits.lenBits (x - 1) (x - 1), nextPow2_eq x _ (by omega) (Or.inr (by omega)),
      by omega, ?_⟩
    intro c hc
    apply Nat.pow_le_pow_right (by decide)
    by_contra hcon
    have h1 : c ≤ bits.lenBits (x - 1) (x - 1) - 1 := by omega
    have h2 : 2 ^ c ≤ 2 ^ (bits.lenBits (x - 1) (x - 1) - 1) :=
      Nat.pow_le_pow_right (by decide) h1
    omega

theorem two_pow_Len64 (x : Nat) (hx : x < 2 ^ 64) :
    2 ^ bits.Len64 x = nextPow2 (x + 1) := by
  unfold bits.Len64
  symm
  apply nextPow2_eq
  · have := lenBits_gt 64 x hx
    omega
  · by_cases h0 : x = 0
    · left; rw [h0]; rfl
    · right
      have := lenBits_lower 64 x h0
      omega

theorem initialCapacity_eq_pow (n : Nat) (hn : n < 2 ^ 64) :
    initialCapacity n = 2 ^ integer.Max (bits.Len64 (n / 4)) 3 := by
  have h : n % 2 ^ 64 = n := Nat.mod_eq_of_lt hn
  unfold initialCapacity newTable calculateInitialSizeExp integer.Pow2
  simp only [h, List.length_replicate]

theorem two_pow_Max (L : Nat) : 2 ^ integer.Max L 3 = max 8 (2 ^ L) := by
  unfold integer.Max
  by_cases h : L < 3
  · rw [if_pos h]
    have : 2 ^ L ≤ 2 ^ 3 := Nat.pow_le_pow_right (by decide) (by omega)
    omega
  · rw [if_neg h]
    have : 2 ^ 3 ≤ 2 ^ L := Nat.pow_le_pow_right (by decide) (by omega)
    omega

/-- C16 (counterexample): for a row index of length 32 the grouping table is
created with 16 entries, whereas `max(8, nextPow2(32 / 4))` is 8. -/
theorem initialCapacity_not_nextPow2_quarter :
    initialCapacity 32 = 16 ∧ max 8 (nextPow2 (32 / 4)) = 8 ∧
    initialCapacity 32 ≠ max 8 (nextPow2 (32 / 4)) := by
  decide

/-- C16 (amended): for every row index of length `n` (below `2 ^ 64`), the
initial capacity of the grouping table equals `max(8, nextPow2(n / 4 + 1))`:
the least power of two strictly greater than `n / 4`, and at least 8; here
`nextPow2(x)` is the least power of two greater than or equal to `x`. -/
theorem initialCapacity_eq_nextPow2_succ (n : Nat) (hn : n < 2 ^ 64) :
    initialCapacity n = max 8 (nextPow2 (n / 4 + 1)) ∧
    (∃ b, nextPow2 (n / 4 + 1) = 2 ^ b ∧ n / 4 < 2 ^ b ∧
      ∀ c, n / 4 < 2 ^ c → 2 ^ b ≤ 2 ^ c) ∧
    (∀ x, ∃ b, nextPow2 x = 2 ^ b ∧ x ≤ 2 ^ b ∧ ∀ c, x ≤ 2 ^ c → 2 ^ b ≤ 2 ^ c) := by
  refine ⟨?_, ?_, nextPow2_spec⟩
  · rw [initialCapacity_eq_pow n hn, two_pow_Max, two_pow_Len64]
    have : n / 4 < 2 ^ 64 := by omega
    exact this
  · obtain ⟨b, h1, h2, h3⟩ := nextPow2_spec (n / 4 + 1)
    exact ⟨b, h1, h2, fun c hc => h3 c hc⟩

theorem initialCapacity_eq_nextPow2_succ_witness :
    initialCapacity 32 = 16 ∧ nextPow2 (32 / 4 + 1) = 16 ∧
    (initialCapacity 32 = max 8 (nextPow2 (32 / 4 + 1)) ∧
    (∃ b, nextPow2 (32 / 4 + 1) = 2 ^ b ∧ 32 / 4 < 2 ^ b ∧
      ∀ c, 32 / 4 < 2 ^ c → 2 ^ b ≤ 2 ^ c) ∧
    (∀ x, ∃ b, nextPow2 x = 2 ^ b ∧ x ≤ 2 ^ b ∧ ∀ c, x ≤ 2 ^ c → 2 ^ b ≤ 2 ^ c)) :=
  ⟨by decide, by decide, initialCapacity_eq_nextPow2_succ 32 (by decide)⟩

end grouper

namespace grouper

open column

/-! ### First elements of the groups -/

theorem labelled_init (cs : List Comparable) (b : Bool) (n : Nat) :
    Labelled [] (newTable n cs b) := by
  refine ⟨[], [], rfl, List.nodup_nil, fun k => Iff.rfl, fun k hk => by simp at hk, ?_⟩
  simp [newTable, occ_replicate_zero]

theorem map_head?_members (l : List tableEntry)
    (h : ∀ e ∈ l, e.ix = none ∨ ∃ x rest, e.ix = some (e.firstPos :: x :: rest)) :
    (l.map members).map List.head? = (l.map (fun e => e.firstPos)).map some := by
  induction l with
  | nil => rfl
  | cons e l ih =>
    simp only [List.map_cons]
    rw [ih (fun e1 he1 => h e1 (List.mem_cons_of_mem _ he1))]
    obtain ⟨rest, hr⟩ := members_eq_cons e (h e (List.mem_cons_self _ _))
    rw [hr]
    rfl

end grouper

namespace grouper

open column

/-! ### C19: the statistics agree with the final table -/

theorem Inv.ratio (cs : List Comparable) (b : Bool) (n : Nat) (t : table)
    (h : Inv cs b n t) :
    t.loadFactor.toRat = (t.groupCount : ℚ) / (t.entries.length : ℚ) := by
  obtain ⟨k, _, _, hk⟩ := h.len
  have hL : (t.entries.length : ℚ) ≠ 0 := by
    rw [hk]; positivity
  have hD : (t.loadFactor.den : ℚ) ≠ 0 := by
    have := h.den
    exact_mod_cast (by omega : t.loadFactor.den ≠ 0)
  unfold float64.toRat
  rw [div_eq_div_iff hD hL]
  exact_mod_cast h.load

theorem insertAll_prefix_inv (cs : List Comparable) (b : Bool) (ix p rest : List Nat)
    (hlen : ix.length ≤ 2 ^ 30) (hix : ix = p ++ rest) (Q : List Nat → table → Prop)
    (h0 : Q [] (newTable (calculateInitialSizeExp ix.length) cs b))
    (hstep : Preserved cs b Q) :
    ∃ tp, insertAll (newTable (calculateInitialSizeExp ix.length) cs b) p = some tp ∧
      Inv cs b p.length tp ∧ Q p tp := by
  have hp : p.length ≤ 2 ^ 30 := by
    have := congrArg List.length hix
    simp at this
    omega
  rcases insertAll_invariant cs b Q hstep p [] 0 _ (newTable_inv cs b ix.length hlen) rfl
    (by simpa using hp) h0 with ⟨tp, h1, h2, h3⟩
  exact ⟨tp, h1, by simpa using h2, by simpa using h3⟩

/-- In the range in which the table length computed by `grow` cannot wrap,
the property of C19 holds: for every row index `ix` (of at most `2 ^ 30` rows), comparables and
setting of member collection, `groupIndex` returns the entries of the final
table with statistics in which `GroupCount` is the number of occupied entries,
while the table length is a power of two and `LoadFactor` is exactly
`GroupCount` divided by the table length; the same quotient relation holds at
each row `i` of `ix` for the table before the row is inserted, for the table
after the growth check (where the load factor has been halved if the table
grew) and for the table after the insertion (where it has been recomputed if
`i` started a new group). -/
theorem groupIndex_stats_consistent (ix : List Nat) (comparables : List Comparable)
    (collectIx : Bool) (hlen : ix.length ≤ 2 ^ 30) :
    ∃ (entries : List tableEntry) (stats : GroupStats),
      groupIndex ix comparables collectIx = some (entries, stats) ∧
      (collectIx = true → GroupBy ix comparables = some (groupsOf entries, stats)) ∧
      stats.GroupCount = (occ entries).length ∧
      (∃ k, 3 ≤ k ∧ k ≤ 31 ∧ entries.length = 2 ^ k) ∧
      stats.LoadFactor.toRat = (stats.GroupCount : ℚ) / (entries.length : ℚ) ∧
      ∀ (p : List Nat) (i : Nat) (rest : List Nat), ix = p ++ i :: rest →
        ∃ t t1 t2 : table,
          insertAll (newTable (calculateInitialSizeExp ix.length) comparables collectIx) p
            = some t ∧
          (if t.loadFactor.gt maxLoadFactor = true then t.grow = some t1 else t1 = t) ∧
          t.insertEntry i = some t2 ∧
          t.loadFactor.toRat = (t.groupCount : ℚ) / (t.entries.length : ℚ) ∧
          t1.loadFactor.toRat = (t1.groupCount : ℚ) / (t1.entries.length : ℚ) ∧
          t2.loadFactor.toRat = (t2.groupCount : ℚ) / (t2.entries.length : ℚ) := by
  rcases groupIndex_run comparables collectIx ix hlen (fun _ _ => True) trivial
      (fun _ _ _ _ _ _ _ _ _ _ _ _ _ _ _ => trivial) with ⟨t, h1, h2, hinv, _⟩
  refine ⟨_, _, h2, ?_, hinv.count, hinv.len, Inv.ratio _ _ _ _ hinv, ?_⟩
  · intro hb
    subst hb
    unfold GroupBy
    rw [h2]
    simp [collectGroups_eq]
  · intro p i rest hix
    rcases insertAll_prefix_inv comparables collectIx ix p (i :: rest) hlen hix
        (fun _ _ => True) trivial (fun _ _ _ _ _ _ _ _ _ _ _ _ _ _ _ => trivial)
      with ⟨tp, hp1, hp2, _⟩
    have hpl : p.length < 2 ^ 30 := by
      have := congrArg List.length hix
      simp at this
      omega
    rcases insertEntry_spec comparables collectIx p.length tp i hp2 hpl
      with ⟨t1, t2, hg, _, hins, hinv1, _, _, hinv2⟩
    exact ⟨tp, t1, t2, hp1, hg, hins, Inv.ratio _ _ _ _ hp2, Inv.ratio _ _ _ _ hinv1,
      Inv.ratio _ _ _ _ hinv2⟩

theorem groupIndex_stats_consistent_witness :
    [0, 1, 2, 3, 4, 5].length ≤ 2 ^ 30 ∧
    (groupIndex [0, 1, 2, 3, 4, 5] [intComparable [1, 2, 3, 4, 5, 1]] true).map
        (fun r => (r.1.length, r.2.GroupCount, r.2.LoadFactor, r.2.RelocationCount))
      = some (16, 5, ⟨5, 16⟩, 1) ∧
    ∃ (entries : List tableEntry) (stats : GroupStats),
      groupIndex [0, 1, 2, 3, 4, 5] [intComparable [1, 2, 3, 4, 5, 1]] true
        = some (entries, stats) ∧
      (true = true → GroupBy [0, 1, 2, 3, 4, 5] [intComparable [1, 2, 3, 4, 5, 1]]
        = some (groupsOf entries, stats)) ∧
      stats.GroupCount = (occ entries).length ∧
      (∃ k, 3 ≤ k ∧ k ≤ 31 ∧ entries.length = 2 ^ k) ∧
      stats.LoadFactor.toRat = (stats.GroupCount : ℚ) / (entries.length : ℚ) ∧
      ∀ (p : List Nat) (i : Nat) (rest : List Nat), [0, 1, 2, 3, 4, 5] = p ++ i :: rest →
        ∃ t t1 t2 : table,
          insertAll (newTable (calculateInitialSizeExp [0, 1, 2, 3, 4, 5].length)
            [intComparable [1, 2, 3, 4, 5, 1]] true) p = some t ∧
          (if t.loadFactor.gt maxLoadFactor = true then t.grow = some t1 else t1 = t) ∧
          t.insertEntry i = some t2 ∧
          t.loadFactor.toRat = (t.groupCount : ℚ) / (t.entries.length : ℚ) ∧
          t1.loadFactor.toRat = (t1.groupCount : ℚ) / (t1.entries.length : ℚ) ∧
          t2.loadFactor.toRat = (t2.groupCount : ℚ) / (t2.entries.length : ℚ) :=
  ⟨by decide, by decide, groupIndex_stats_consistent _ _ _ (by decide)⟩

end grouper

namespace grouper

open column

/-! ### Member slices -/

theorem forall₂_imp_mem {α β : Type} (R S : α → β → Prop) (l1 : List α) (l2 : List β)
    (h : List.Forall₂ R l1 l2) (himp : ∀ a b, a ∈ l1 → R a b → S a b) :
    List.Forall₂ S l1 l2 := by
  induction h with
  | nil => exact List.Forall₂.nil
  | cons hab _ ih =>
    exact List.Forall₂.cons (himp _ _ (List.mem_cons_self _ _) hab)
      (ih (fun a b ha hr => himp a b (List.mem_cons_of_mem _ ha) hr))

theorem noIx_preserved (cs : List Comparable) : Preserved cs false NoIx := by
  intro p i n t t1 t2 _ _ hq _ hinv1 hperm _ hst _
  have hq1 : ∀ e ∈ t1.entries, e.ix = none := by
    intro e he
    by_cases ho : e.occupied = true
    · have h1 : e ∈ occ t.entries := hperm.mem_iff.1 (mem_occ.2 ⟨he, ho⟩)
      exact hq e (mem_occ.1 h1).1
    · have h2 := hinv1.freeZero e he (by simpa using ho)
      rw [h2]
      rfl
  rcases hst with ⟨l1, l2, d, he1, he2, _⟩ | ⟨l1, l2, old, d, he1, _, _, _, he2, _⟩
  · intro e he
    rw [he2] at he
    rw [he1] at hq1
    rcases List.mem_append.1 he with h | h
    · exact hq1 e (List.mem_append_left _ h)
    · rcases List.mem_cons.1 h with h | h
      · subst h; rfl
      · exact hq1 e (List.mem_append_right _ (List.mem_cons_of_mem _ h))
  · intro e he
    rw [he2] at he
    simp only [Bool.false_eq_true, if_false] at he
    rw [← he1] at he
    exact hq1 e he

theorem noIx_init (cs : List Comparable) (b : Bool) (n : Nat) :
    NoIx [] (newTable n cs b) := by
  intro e he
  simp only [newTable] at he
  rw [List.eq_of_mem_replicate he]
  rfl

end grouper

namespace grouper

open column

/-! ### C12: the load factor may exceed the maximum without growth -/

theorem insertAll_append : ∀ (p q : List Nat) (t : table),
    insertAll t (p ++ q) = (insertAll t p).bind (fun t1 => insertAll t1 q) := by
  intro p
  induction p with
  | nil => intro q t; rfl
  | cons i p ih =>
    intro q t
    simp only [List.cons_append, insertAll]
    cases h : t.insertEntry i with
    | none => rfl
    | some t1 => exact ih q t1

theorem grow_relocationCount (t t1 : table) (h : t.grow = some t1) :
    t1.stats.RelocationCount = t.stats.RelocationCount + 1 := by
  unfold table.grow at h
  simp only at h
  split at h
  · exact absurd h (by simp)
  · simp only [Option.some.injEq] at h
    rw [← h]

theorem grown_preserved (cs : List Comparable) (b : Bool) : Preserved cs b Grown := by
  intro p i n t t1 t2 _ _ hq hg _ _ _ hst _
  have h1 : 0 < t1.stats.RelocationCount := by
    by_cases hgt : t.loadFactor.gt maxLoadFactor = true
    · rw [if_pos hgt] at hg
      rw [grow_relocationCount t t1 hg]
      omega
    · rw [if_neg hgt] at hg
      rw [hg]
      exact hq
  unfold Grown
  rcases hst with ⟨_, _, _, _, _, _, _, _, _, _, hs⟩ | ⟨_, _, _, _, _, _, _, _, _, _, _, hs⟩
  · rw [hs]; exact h1
  · rw [hs]; exact h1

/-- C12 (counterexample): grouping the five rows `0..4` with pairwise
different keys fills five of the eight slots of the initial table, so the load
factor returned is `5/8`, above `0.5`, yet the relocation count returned is
zero: the table is only checked for growth before a row is inserted, and no row
follows the fifth. -/
theorem GroupBy_load_exceeded_without_growth :
    (GroupBy [0, 1, 2, 3, 4] [intComparable [1, 2, 3, 4, 5]]).map
        (fun r => (r.1, r.2.GroupCount, r.2.LoadFactor, r.2.RelocationCount))
      = some ([[0], [1], [2], [3], [4]], 5, ⟨5, 8⟩, 0) ∧
    (float64.mk 5 8).gt maxLoadFactor = true := by
  decide

end grouper

namespace grouper

open column

/-! ### C13: growth does not change the grouping -/

theorem newTable_inv_sized (cs : List Comparable) (b : Bool) (sizeExp : Nat)
    (h3 : 3 ≤ sizeExp) (h31 : sizeExp ≤ 31) : Inv cs b 0 (newTable sizeExp cs b) := by
  refine ⟨rfl, rfl, ⟨sizeExp, h3, h31, ?_⟩, ?_, ?_, ?_, ?_, ?_, ?_, ?_⟩
  · simp [newTable, integer.Pow2]
  · simp [newTable, occ_replicate_zero]
  · simp [newTable, float64.zero]
  · simp [newTable, float64.zero]
  · simp [newTable]
  · simp [newTable]
  · exact Chain_replicate _
  · exact FreeZero_replicate _

/-- In a table of `2 ^ sizeExp` entries, as long as no more than
`2 ^ (sizeExp - 1)` rows are inserted, the table keeps its length and its
relocation count stays zero. -/
theorem noGrowth_preserved (cs : List Comparable) (b : Bool) (sizeExp : Nat)
    (h3 : 3 ≤ sizeExp) :
    Preserved cs b (fun p t => p.length ≤ 2 ^ (sizeExp - 1) →
      t.entries.length = 2 ^ sizeExp ∧ t.stats.RelocationCount = 0) := by
  intro p i n t t1 t2 hinv hn hq hg _ _ _ hst _ hp
  simp only [List.length_append, List.length_singleton] at hp
  rcases hq (by omega) with ⟨hL, hR⟩
  have hpow : 2 ^ sizeExp = 2 * 2 ^ (sizeExp - 1) := by
    have : sizeExp = (sizeExp - 1) + 1 := by omega
    conv_lhs => rw [this]
    rw [pow_succ]; omega
  have hnot : ¬ (t.loadFactor.gt maxLoadFactor = true) := by
    intro hgt
    simp only [float64.gt, maxLoadFactor, decide_eq_true_eq] at hgt
    have h1 := (gt_half_iff _ _ _ _ hinv.load hinv.den (by rw [hL]; exact Nat.two_pow_pos _)).1 hgt
    have h2 := hinv.rows
    omega
  rw [if_neg hnot] at hg
  subst hg
  rcases hst with ⟨_, _, _, he1, he2, _, _, _, _, _, hs⟩ |
    ⟨_, _, _, _, he1, _, _, _, he2, _, _, hs⟩
  · constructor
    · rw [← hL, he1, he2]; simp
    · rw [hs]; exact hR
  · constructor
    · rw [← hL, he1, he2]; simp
    · rw [hs]; exact hR

theorem filterForm_preserved (cs : List Comparable) (hk : KeyLaws cs) :
    Preserved cs true (fun p t =>
      (List.Perm (groupsOf t.entries).flatten p ∧ Keyed cs p t) ∧ FilterForm cs p t) := by
  intro p i n t t1 t2 hinv hn hq hg hinv1 hperm hins hst hinv2
  have hbase := Preserved.and cs true _ _ (flatten_groups_preserved cs)
    (keyed_preserved cs true hk) p i n t t1 t2 hinv hn hq.1 hg hinv1 hperm hins hst hinv2
  refine ⟨hbase, ?_⟩
  rcases hq with ⟨⟨hP, hK1, hK2, hK3⟩, hF⟩
  have hK1' : ∀ e ∈ occ t1.entries, e.hash = hashOf cs e.firstPos :=
    fun e he => hK1 e (hperm.mem_iff.1 he)
  have hK3' : ((occ t1.entries).map (fun e => e.firstPos)).Pairwise
      (fun a b => equals cs a b = false) :=
    ((hperm.map _).pairwise_iff (fun h => equals_false_symm cs hk h)).2 hK3
  have hF' : ∀ e ∈ occ t1.entries,
      members e = p.filter (fun a => equals cs a e.firstPos) :=
    fun e he => hF e (hperm.mem_iff.1 he)
  have hcover : ∀ a ∈ p, ∃ e ∈ occ t1.entries, equals cs a e.firstPos = true := by
    intro a ha
    have h1 : a ∈ (groupsOf t.entries).flatten := hP.mem_iff.2 ha
    rcases List.mem_flatten.1 h1 with ⟨g, hg1, hag⟩
    rcases List.mem_map.1 hg1 with ⟨e, he, rfl⟩
    exact ⟨e, hperm.mem_iff.2 he, hK2 e he a hag⟩
  have hext : ∀ e ∈ occ t1.entries, equals cs i e.firstPos = false →
      members e = (p ++ [i]).filter (fun a => equals cs a e.firstPos) := by
    intro e he hf
    rw [List.filter_append, hF' e he]
    simp [hf]
  rcases hinv1.len with ⟨k, _, _, hlen⟩
  have hL : 0 < t1.entries.length := by rw [hlen]; exact Nat.two_pow_pos k
  rcases hst with ⟨l1, l2, d, he1, he2, _, hl1, hpath, _⟩ |
    ⟨l1, l2, old, d, he1, hocc, hhash, heq, he2, _⟩
  · have hfresh := new_key_fresh cs hk t1.entries l1 l2 i d hL he1 hl1 hpath hinv1.chain hK1'
    have hocc1 : occ t1.entries = occ l1 ++ occ l2 := by
      rw [he1, occ_append, occ_cons_free _ _ (by simp [tableEntry.zero])]
    have hocc2 : occ t2.entries = occ l1 ++ ⟨none, hashOf cs i, i, true⟩ :: occ l2 := by
      rw [he2, occ_append, occ_cons_occupied _ _ (by simp)]
    have hnone : p.filter (fun a => equals cs a i) = [] := by
      rw [List.filter_eq_nil_iff]
      intro a ha hai
      rcases hcover a ha with ⟨e, he, hae⟩
      have h1 := hfresh e he
      rw [hk.trans i a e.firstPos (hk.symm _ _ hai) hae] at h1
      cases h1
    intro e he
    rw [hocc2] at he
    rcases List.mem_append.1 he with h | h
    · have he1 : e ∈ occ t1.entries := by rw [hocc1]; exact List.mem_append_left _ h
      exact hext e he1 (hfresh e he1)
    · rcases List.mem_cons.1 h with h | h
      · subst h
        simp [members, List.filter_append, hnone, hk.refl]
      · have he1 : e ∈ occ t1.entries := by rw [hocc1]; exact List.mem_append_right _ h
        exact hext e he1 (hfresh e he1)
  · have hocc1 : occ t1.entries = occ l1 ++ old :: occ l2 := by
      rw [he1, occ_append, occ_cons_occupied _ _ hocc]
    have hocc2 : occ t2.entries = occ l1 ++
        { old with ix := some (members old ++ [i]) } :: occ l2 := by
      rw [he2, occ_append, occ_cons_occupied _ _ (by simp [hocc])]
      simp
    rw [hocc1] at hK3'
    simp only [List.map_append, List.map_cons, List.pairwise_append, List.pairwise_cons,
      List.mem_map, List.mem_cons] at hK3'
    have hoth1 : ∀ e ∈ occ l1, equals cs i e.firstPos = false := by
      intro e he
      by_contra hcon
      have ht : equals cs i e.firstPos = true := by simpa using hcon
      have h1 := hK3'.2.2 e.firstPos ⟨e, he, rfl⟩ old.firstPos (Or.inl rfl)
      rw [hk.trans _ _ _ (hk.symm _ _ ht) heq] at h1
      cases h1
    have hoth2 : ∀ e ∈ occ l2, equals cs i e.firstPos = false := by
      intro e he
      by_contra hcon
      have ht : equals cs i e.firstPos = true := by simpa using hcon
      have h1 := hK3'.2.1.1 e.firstPos ⟨e, he, rfl⟩
      rw [hk.trans _ _ _ (hk.symm _ _ heq) ht] at h1
      cases h1
    intro e he
    rw [hocc2] at he
    rcases List.mem_append.1 he with h | h
    · exact hext e (by rw [hocc1]; exact List.mem_append_left _ h) (hoth1 e h)
    · rcases List.mem_cons.1 h with h | h
      · subst h
        have ho := hF' old (by rw [hocc1]; simp)
        simp only [members] at ho ⊢
        rw [List.filter_append, ← ho]
        simp [heq]
      · exact hext e (by rw [hocc1]; exact List.mem_append_right _ (List.mem_cons_of_mem _ h))
          (hoth2 e h)

theorem filterForm_init (cs : List Comparable) (b : Bool) (n : Nat) :
    FilterForm cs [] (newTable n cs b) := by
  simp [FilterForm, newTable, occ_replicate_zero]

theorem filter_mem_filter (cs : List Comparable) (ix : List Nat) (r : Nat) :
    ix.filter (fun a => decide (a ∈ (Multiset.ofList
        (ix.filter (fun a => equals cs a r))))) = ix.filter (fun a => equals cs a r) := by
  apply List.filter_congr
  intro a ha
  simp [List.mem_filter, ha]

/-- Every group of a table in filter form is the list of the rows of the index
equal to one of its rows. -/
theorem filterForm_groups (cs : List Comparable) (ix : List Nat) (t : table)
    (hperm : List.Perm (groupsOf t.entries).flatten ix)
    (hhead : HeadFirst ix t) (hF : FilterForm cs ix t) :
    ∀ g ∈ groupsOf t.entries, ∃ r ∈ ix, g = ix.filter (fun a => equals cs a r) := by
  intro g hg
  rcases List.mem_map.1 hg with ⟨e, he, rfl⟩
  refine ⟨e.firstPos, ?_, hF e he⟩
  apply hperm.mem_iff.1
  rcases members_eq_cons e (hhead e he) with ⟨rest, hr⟩
  exact List.mem_flatten.2 ⟨members e, hg, by rw [hr]; simp⟩

theorem perm_of_filter_groups (cs : List Comparable) (ix : List Nat) (G G1 : List (List Nat))
    (hG : ∀ g ∈ G, ∃ r ∈ ix, g = ix.filter (fun a => equals cs a r))
    (hG1 : ∀ g ∈ G1, ∃ r ∈ ix, g = ix.filter (fun a => equals cs a r))
    (h : List.Perm (G.map Multiset.ofList) (G1.map Multiset.ofList)) : List.Perm G G1 := by
  have hc : ∀ (H : List (List Nat)),
      (∀ g ∈ H, ∃ r ∈ ix, g = ix.filter (fun a => equals cs a r)) →
      (H.map Multiset.ofList).map (fun s => ix.filter (fun a => decide (a ∈ s))) = H := by
    intro H hH
    rw [List.map_map]
    conv_rhs => rw [← List.map_id H]
    apply List.map_congr_left
    intro g hg
    rcases hH g hg with ⟨r, _, rfl⟩
    exact filter_mem_filter cs ix r
  have h2 := h.map (fun s => ix.filter (fun a => decide (a ∈ s)))
  rw [hc G hG, hc G1 hG1] at h2
  exact h2

/-- In the range in which the table length computed by `grow` cannot wrap,
the property of C13 holds: for comparables whose equality is an equivalence relation consistent
with their hash, every row index `ix` and every table size `2 ^ sizeExp`
(`3 ≤ sizeExp ≤ 31`) of at least twice the length of `ix`: `GroupBy` on a table
of the default initial capacity, which may grow, and `GroupBy` on a table
pre-sized to `2 ^ sizeExp` entries both return; the pre-sized run has
relocation count zero (it never grows); both runs return the same group count
and the same number of groups; and the groups of one run are a permutation of
the groups of the other, each group being the list of the rows of `ix` equal to
one of its rows, in the order of `ix`. -/
theorem GroupBy_growth_preserves_groups (comparables : List Comparable)
    (hk : KeyLaws comparables) (ix : List Nat) (sizeExp : Nat) (h3 : 3 ≤ sizeExp)
    (h31 : sizeExp ≤ 31) (hbig : ix.length ≤ 2 ^ (sizeExp - 1)) :
    ∃ (groups : List (List Nat)) (stats : GroupStats) (groupsS : List (List Nat))
      (statsS : GroupStats),
      GroupBy ix comparables = some (groups, stats) ∧
      GroupBySized sizeExp ix comparables = some (groupsS, statsS) ∧
      statsS.RelocationCount = 0 ∧
      stats.GroupCount = statsS.GroupCount ∧
      stats.GroupCount = groups.length ∧
      groups.length = groupsS.length ∧
      List.Perm groups groupsS ∧
      (∀ g ∈ groups, ∃ r ∈ ix, g = ix.filter (fun a => equals comparables a r)) ∧
      (∀ g ∈ groupsS, ∃ r ∈ ix, g = ix.filter (fun a => equals comparables a r)) := by
  have hlen : ix.length ≤ 2 ^ 30 := by
    have : 2 ^ (sizeExp - 1) ≤ 2 ^ 30 := Nat.pow_le_pow_right (by decide) (by omega)
    omega
  -- the run on the default table
  rcases GroupBy_run comparables ix hlen
      (fun p t => ((List.Perm (groupsOf t.entries).flatten p ∧ Keyed comparables p t) ∧
        FilterForm comparables p t) ∧ HeadFirst p t)
      ⟨⟨⟨by simp [newTable, groupsOf_replicate_zero], keyed_init comparables true _⟩,
        filterForm_init comparables true _⟩, headFirst_init comparables true _⟩
      (Preserved.and comparables true _ _ (filterForm_preserved comparables hk)
        (headFirst_preserved comparables true)) with
    ⟨t, _, hrun, hinv, ⟨⟨hP, hK⟩, hF⟩, hH⟩
  -- the run on the pre-sized table
  rcases insertAll_invariant comparables true
      (fun p t => (((List.Perm (groupsOf t.entries).flatten p ∧ Keyed comparables p t) ∧
        FilterForm comparables p t) ∧ HeadFirst p t) ∧
        (p.length ≤ 2 ^ (sizeExp - 1) →
          t.entries.length = 2 ^ sizeExp ∧ t.stats.RelocationCount = 0))
      (Preserved.and comparables true _ _
        (Preserved.and comparables true _ _ (filterForm_preserved comparables hk)
          (headFirst_preserved comparables true))
        (noGrowth_preserved comparables true sizeExp h3))
      ix [] 0 (newTable sizeExp comparables true)
      (newTable_inv_sized comparables true sizeExp h3 h31) rfl (by simpa using hlen)
      ⟨⟨⟨⟨by simp [newTable, groupsOf_replicate_zero], keyed_init comparables true _⟩,
        filterForm_init comparables true _⟩, headFirst_init comparables true _⟩,
        fun _ => ⟨by simp [newTable, integer.Pow2], rfl⟩⟩ with
    ⟨tS, hrunS, hinvS, hQS⟩
  simp only [List.nil_append] at hQS
  rcases hQS with ⟨⟨⟨⟨hPS, hKS⟩, hFS⟩, hHS⟩, hNG⟩
  have hGS : GroupBySized sizeExp ix comparables
      = some (groupsOf tS.entries, finalStats tS) := by
    unfold GroupBySized groupIndexSized
    rw [hrunS]
    simp [collectGroups_eq, finalStats]
  have hg := filterForm_groups comparables ix t hP hH hF
  have hgS := filterForm_groups comparables ix tS hPS hHS hFS
  have hU := grouping_unique comparables hk _ _ ix ix
    (keyed_isGrouping comparables hk ix t hP hK hH)
    (keyed_isGrouping comparables hk ix tS hPS hKS hHS) (List.Perm.refl ix)
  have hperm := perm_of_filter_groups comparables ix _ _ hg hgS hU
  have hc : (finalStats t).GroupCount = (groupsOf t.entries).length := by
    simp [finalStats, groupsOf, hinv.count]
  have hcS : (finalStats tS).GroupCount = (groupsOf tS.entries).length := by
    simp [finalStats, groupsOf, hinvS.count]
  refine ⟨_, _, _, _, hrun, hGS, (hNG hbig).2, ?_, hc, hperm.length_eq, hperm, hg, hgS⟩
  rw [hc, hcS, hperm.length_eq]

theorem GroupBy_growth_preserves_groups_witness :
    3 ≤ 5 ∧ 5 ≤ 31 ∧ [5, 0, 1, 2, 3, 4, 0, 6].length ≤ 2 ^ (5 - 1) ∧
    (GroupBy [5, 0, 1, 2, 3, 4, 0, 6] [intComparable [17, 2, 3, 4, 5, 6, 2]]).map
        (fun r => (r.1, r.2.GroupCount, r.2.RelocationCount))
      = some ([[0, 0], [1, 6], [2], [3], [4], [5]], 6, 1) ∧
    (GroupBySized 5 [5, 0, 1, 2, 3, 4, 0, 6] [intComparable [17, 2, 3, 4, 5, 6, 2]]).map
        (fun r => (r.1, r.2.GroupCount, r.2.RelocationCount))
      = some ([[1, 6], [2], [3], [4], [5], [0, 0]], 6, 0) ∧
    ∃ (groups : List (List Nat)) (stats : GroupStats) (groupsS : List (List Nat))
      (statsS : GroupStats),
      GroupBy [5, 0, 1, 2, 3, 4, 0, 6] [intComparable [17, 2, 3, 4, 5, 6, 2]]
        = some (groups, stats) ∧
      GroupBySized 5 [5, 0, 1, 2, 3, 4, 0, 6] [intComparable [17, 2, 3, 4, 5, 6, 2]]
        = some (groupsS, statsS) ∧
      statsS.RelocationCount = 0 ∧
      stats.GroupCount = statsS.GroupCount ∧
      stats.GroupCount = groups.length ∧
      groups.length = groupsS.length ∧
      List.Perm groups groupsS ∧
      (∀ g ∈ groups, ∃ r ∈ [5, 0, 1, 2, 3, 4, 0, 6],
        g = [5, 0, 1, 2, 3, 4, 0, 6].filter
          (fun a => equals [intComparable [17, 2, 3, 4, 5, 6, 2]] a r)) ∧
      (∀ g ∈ groupsS, ∃ r ∈ [5, 0, 1, 2, 3, 4, 0, 6],
        g = [5, 0, 1, 2, 3, 4, 0, 6].filter
          (fun a => equals [intComparable [17, 2, 3, 4, 5, 6, 2]] a r)) :=
  ⟨by decide, by decide, by decide, by decide, by decide,
    GroupBy_growth_preserves_groups _ (intComparable_keyLaws _) _ 5 (by decide) (by decide)
      (by decide)⟩

end grouper

namespace io

/-! ### C20: records to columns -/

theorem Record.get_isSome_iff_mem (r : Record) (c : String) :
    (r.get c).isSome = true ↔ c ∈ r.map Prod.fst := by
  induction r with
  | nil => simp [Record.get]
  | cons p r ih =>
    obtain ⟨k, v⟩ := p
    unfold Record.get
    by_cases h : k = c
    · simp [h]
    · rw [if_neg h, ih]
      simp only [List.map_cons, List.mem_cons]
      constructor
      · exact Or.inr
      · rintro (h1 | h1)
        · exact absurd h1.symm h
        · exact h1

theorem Record.mem_of_get (r : Record) (c : String) (v : Value) (h : r.get c = some v) :
    (c, v) ∈ r := by
  induction r with
  | nil => simp [Record.get] at h
  | cons p r ih =>
    obtain ⟨k, w⟩ := p
    unfold Record.get at h
    by_cases hk : k = c
    · rw [if_pos hk] at h
      simp only [Option.some.injEq] at h
      rw [hk, h]
      exact List.mem_cons_self _ _
    · rw [if_neg hk] at h
      exact List.mem_cons_of_mem _ (ih h)

theorem Data.get_set_same (m : Data) (c : String) (col : Column) :
    (m.set c col).get c = some col := by
  induction m with
  | nil => simp [Data.set, Data.get]
  | cons p m ih =>
    obtain ⟨k, w⟩ := p
    unfold Data.set
    by_cases h : k = c
    · rw [if_pos h]; simp [Data.get]
    · rw [if_neg h]; unfold Data.get; rw [if_neg h]; exact ih

theorem Data.get_set_ne (m : Data) (c c1 : String) (col : Column) (hne : c1 ≠ c) :
    (m.set c col).get c1 = m.get c1 := by
  induction m with
  | nil =>
    simp only [Data.set, Data.get]
    rw [if_neg (fun h => hne h.symm)]
  | cons p m ih =>
    obtain ⟨k, w⟩ := p
    unfold Data.set
    by_cases h : k = c
    · rw [if_pos h]
      unfold Data.get
      rw [if_neg (fun h1 => hne h1.symm), if_neg (fun h1 => hne (h1.symm.trans h))]
    · rw [if_neg h]
      unfold Data.get
      by_cases h2 : k = c1
      · rw [if_pos h2, if_pos h2]
      · rw [if_neg h2, if_neg h2]; exact ih

theorem Data.keys_set (m : Data) (c : String) (col : Column) :
    ∀ k, k ∈ (m.set c col).map Prod.fst ↔ (k = c ∨ k ∈ m.map Prod.fst) := by
  induction m with
  | nil => intro k; simp [Data.set]
  | cons p m ih =>
    obtain ⟨k0, w⟩ := p
    intro k
    unfold Data.set
    by_cases h : k0 = c
    · rw [if_pos h]
      simp only [List.map_cons, List.mem_cons]
      rw [h]
      tauto
    · rw [if_neg h]
      simp only [List.map_cons, List.mem_cons]
      rw [ih k]
      tauto

theorem Data.nodup_set (m : Data) (c : String) (col : Column)
    (h : (m.map Prod.fst).Nodup) : ((m.set c col).map Prod.fst).Nodup := by
  induction m with
  | nil => simp [Data.set]
  | cons p m ih =>
    obtain ⟨k0, w⟩ := p
    simp only [List.map_cons, List.nodup_cons] at h
    unfold Data.set
    by_cases hk : k0 = c
    · rw [if_pos hk]
      simp only [List.map_cons, List.nodup_cons]
      rw [← hk]
      exact h
    · rw [if_neg hk]
      simp only [List.map_cons, List.nodup_cons]
      refine ⟨?_, ih h.2⟩
      rw [Data.keys_set]
      rintro (h1 | h1)
      · exact hk h1
      · exact h.1 h1

theorem Data.get_key_iff_mem (m : Data) (c : String) :
    (m.get c).isSome = true ↔ c ∈ m.map Prod.fst := by
  induction m with
  | nil => simp [Data.get]
  | cons p m ih =>
    obtain ⟨k, v⟩ := p
    unfold Data.get
    by_cases h : k = c
    · simp [h]
    · rw [if_neg h, ih]
      simp only [List.map_cons, List.mem_cons]
      constructor
      · exact Or.inr
      · rintro (h1 | h1)
        · exact absurd h1.symm h
        · exact h1

theorem fillFrom_spec {α : Type} (convert : Value → Option α) (source : String)
    (records : JSONRecords) (colName : String) :
    ∀ (todo i : Nat) (col : List α), i + todo = records.length →
      col.length = records.length →
      ∃ col1 oerr, fillFrom convert source records colName todo i col = some (col1, oerr) ∧
        ((oerr = none ∧ col1.length = records.length ∧
            (∀ j, j < i → col1[j]? = col[j]?) ∧
            ∀ j, i ≤ j → j < records.length → ∃ r v a, records[j]? = some r ∧
              r.get colName = some v ∧ convert v = some a ∧ col1[j]? = some a) ∨
          ((∃ err, oerr = some err) ∧ ∃ j r, i ≤ j ∧ records[j]? = some r ∧
            (r.get colName = none ∨ ∃ v, r.get colName = some v ∧ convert v = none))) := by
  intro todo
  induction todo with
  | zero =>
    intro i col hi hcol
    refine ⟨col, none, rfl, Or.inl ⟨rfl, hcol, fun _ _ => rfl, ?_⟩⟩
    intro j h1 h2
    omega
  | succ todo ih =>
    intro i col hi hcol
    have hlt : i < records.length := by omega
    have hr : records[i]? = some records[i] := List.getElem?_eq_getElem hlt
    unfold fillFrom
    rw [hr]
    simp only
    cases hg : Record.get records[i] colName with
    | none =>
      exact ⟨col, _, rfl, Or.inr ⟨⟨_, rfl⟩, i, records[i], Nat.le_refl _, hr, Or.inl hg⟩⟩
    | some v =>
      simp only
      cases hc : convert v with
      | none =>
        exact ⟨col, _, rfl, Or.inr ⟨⟨_, rfl⟩, i, records[i], Nat.le_refl _, hr,
          Or.inr ⟨v, hg, hc⟩⟩⟩
      | some a =>
        simp only
        rcases ih (i + 1) (col.set i a) (by omega) (by simpa using hcol) with
          ⟨col1, oerr, h1, h2⟩
        refine ⟨col1, oerr, h1, ?_⟩
        rcases h2 with ⟨ho, hl, hbefore, hafter⟩ | ⟨ho, j, r, hj, hrj, hbad⟩
        · refine Or.inl ⟨ho, hl, ?_, ?_⟩
          · intro j hj
            rw [hbefore j (by omega), List.getElem?_set_ne (by omega)]
          · intro j hj1 hj2
            by_cases hji : j = i
            · subst hji
              refine ⟨records[j], v, a, hr, hg, hc, ?_⟩
              rw [hbefore j (by omega), List.getElem?_set_self (by omega)]
            · exact hafter j (by omega) hj2
        · exact Or.inr ⟨ho, j, r, by omega, hrj, hbad⟩

theorem fillColumn_spec {α : Type} (convert : Value → Option α) (source : String) (zero : α)
    (wrap : List α → Column) (back : α → Value)
    (hback : ∀ v a, convert v = some a → back a = v)
    (hat : ∀ l i, Column.at (wrap l) i = (l[i]?).map back)
    (hlen : ∀ l, Column.length (wrap l) = l.length)
    (records : JSONRecords) (colName : String) :
    (∃ col, fillColumn (fun col recs c => fillFrom convert source recs c col.length 0 col)
          zero wrap records colName = some (Except.ok col) ∧
        col.length = records.length ∧
        ∀ i r, records[i]? = some r → ∃ v, r.get colName = some v ∧
          (convert v).isSome = true ∧ col.at i = some v) ∨
    (∃ err, fillColumn (fun col recs c => fillFrom convert source recs c col.length 0 col)
          zero wrap records colName = some (Except.error err) ∧
        ∃ r ∈ records, r.get colName = none ∨
          ∃ v, r.get colName = some v ∧ convert v = none) := by
  rcases fillFrom_spec convert source records colName records.length 0
      (List.replicate records.length zero) (by simp) (by simp) with ⟨col1, oerr, h1, h2⟩
  unfold fillColumn
  simp only [List.length_replicate]
  rw [h1]
  rcases h2 with ⟨ho, hl, _, hafter⟩ | ⟨⟨err, ho⟩, j, r, _, hrj, hbad⟩
  · subst ho
    refine Or.inl ⟨wrap col1, rfl, by rw [hlen, hl], ?_⟩
    intro i r hr
    have hi : i < records.length := by
      rcases List.getElem?_eq_some_iff.1 hr with ⟨h, _⟩
      exact h
    rcases hafter i (Nat.zero_le _) hi with ⟨r1, v, a, hr1, hg, hc, hcol⟩
    rw [hr] at hr1
    simp only [Option.some.injEq] at hr1
    subst hr1
    refine ⟨v, hg, by simp [hc], ?_⟩
    rw [hat, hcol]
    simp [hback v a hc]
  · subst ho
    exact Or.inr ⟨err, rfl, r, List.getElem?_mem hrj, hbad⟩

theorem asInt_isSome (v : Value) : (asInt v).isSome = true ↔ typeTag v = 0 := by
  cases v <;> simp [asInt, typeTag]

theorem asFloat_isSome (v : Value) : (asFloat v).isSome = true ↔ typeTag v = 1 := by
  cases v <;> simp [asFloat, typeTag]

theorem asBool_isSome (v : Value) : (asBool v).isSome = true ↔ typeTag v = 2 := by
  cases v <;> simp [asBool, typeTag]

theorem asString_isSome (v : Value) : (asString v).isSome = true ↔ typeTag v = 3 := by
  cases v <;> simp [asString, typeTag]

/-- One column in terms of the type of the value of the first record. -/
theorem fillColumn_typed {α : Type} (convert : Value → Option α) (source : String) (zero : α)
    (wrap : List α → Column) (back : α → Value) (tag : Nat)
    (hback : ∀ v a, convert v = some a → back a = v)
    (hat : ∀ l i, Column.at (wrap l) i = (l[i]?).map back)
    (hlen : ∀ l, Column.length (wrap l) = l.length)
    (htag : ∀ v, (convert v).isSome = true ↔ typeTag v = tag)
    (records : JSONRecords) (colName : String) :
    (∃ col, fillColumn (fun col recs c => fillFrom convert source recs c col.length 0 col)
          zero wrap records colName = some (Except.ok col) ∧
        col.length = records.length ∧
        ∀ i r, records[i]? = some r → ∃ v, r.get colName = some v ∧
          typeTag v = tag ∧ col.at i = some v) ∨
    (∃ err, fillColumn (fun col recs c => fillFrom convert source recs c col.length 0 col)
          zero wrap records colName = some (Except.error err) ∧
        ∃ r ∈ records, r.get colName = none ∨
          ∃ v, r.get colName = some v ∧ typeTag v ≠ tag) := by
  rcases fillColumn_spec convert source zero wrap back hback hat hlen records colName with
    ⟨col, h1, h2, h3⟩ | ⟨err, h1, r, hr, hbad⟩
  · refine Or.inl ⟨col, h1, h2, ?_⟩
    intro i r hr
    rcases h3 i r hr with ⟨v, hv, hc, hcol⟩
    exact ⟨v, hv, (htag v).1 hc, hcol⟩
  · refine Or.inr ⟨err, h1, r, hr, ?_⟩
    rcases hbad with h | ⟨v, hv, hc⟩
    · exact Or.inl h
    · refine Or.inr ⟨v, hv, ?_⟩
      intro ht
      have := (htag v).2 ht
      rw [hc] at this
      simp at this

theorem columnsLoop_cons_spec (records : JSONRecords) (colName : String) (value : Value)
    (rest : List (String × Value)) (result : Data) :
    (∃ col, columnsLoop records ((colName, value) :: rest) result
          = columnsLoop records rest (result.set colName col) ∧
        col.length = records.length ∧ typeTag value ≠ 4 ∧
        ∀ i r, records[i]? = some r → ∃ v, r.get colName = some v ∧
          typeTag v = typeTag value ∧ col.at i = some v) ∨
    (∃ err, columnsLoop records ((colName, value) :: rest) result = some (none, some err) ∧
        (typeTag value = 4 ∨ ∃ r ∈ records, r.get colName = none ∨
          ∃ v, r.get colName = some v ∧ typeTag v ≠ typeTag value)) := by
  have hints := fillColumn_typed asInt "fillInts" 0 Column.ints Value.int 0
    (by intro v a h; cases v <;> simp_all [asInt]) (fun _ _ => rfl) (fun _ => rfl)
    asInt_isSome records colName
  have hfloats := fillColumn_typed asFloat "fillFloats" 0 Column.floats Value.float64 1
    (by intro v a h; cases v <;> simp_all [asFloat]) (fun _ _ => rfl) (fun _ => rfl)
    asFloat_isSome records colName
  have hbools := fillColumn_typed asBool "fillBools" false Column.bools Value.bool 2
    (by intro v a h; cases v <;> simp_all [asBool]) (fun _ _ => rfl) (fun _ => rfl)
    asBool_isSome records colName
  have hstrings := fillColumn_typed asString "fillStrings" none Column.strings
    (fun s => match s with
      | some v => Value.string v
      | none => Value.null) 3
    (by intro v a h; cases v <;> simp_all [asString] <;> subst h <;> rfl)
    (fun _ _ => rfl) (fun _ => rfl)
    asString_isSome records colName
  cases value with
  | int x =>
    rcases hints with ⟨col, h1, h2, h3⟩ | ⟨err, h1, hbad⟩
    · refine Or.inl ⟨col, ?_, h2, by simp [typeTag], h3⟩
      conv_lhs => unfold columnsLoop
      simp only
      rw [show fillColumn fillInts 0 Column.ints records colName = some (Except.ok col) from h1]
    · refine Or.inr ⟨err, ?_, Or.inr hbad⟩
      conv_lhs => unfold columnsLoop
      simp only
      rw [show fillColumn fillInts 0 Column.ints records colName = some (Except.error err)
        from h1]
  | float64 x =>
    rcases hfloats with ⟨col, h1, h2, h3⟩ | ⟨err, h1, hbad⟩
    · refine Or.inl ⟨col, ?_, h2, by simp [typeTag], h3⟩
      conv_lhs => unfold columnsLoop
      simp only
      rw [show fillColumn fillFloats 0 Column.floats records colName = some (Except.ok col)
        from h1]
    · refine Or.inr ⟨err, ?_, Or.inr hbad⟩
      conv_lhs => unfold columnsLoop
      simp only
      rw [show fillColumn fillFloats 0 Column.floats records colName
        = some (Except.error err) from h1]
  | bool x =>
    rcases hbools with ⟨col, h1, h2, h3⟩ | ⟨err, h1, hbad⟩
    · refine Or.inl ⟨col, ?_, h2, by simp [typeTag], h3⟩
      conv_lhs => unfold columnsLoop
      simp only
      rw [show fillColumn fillBools false Column.bools records colName = some (Except.ok col)
        from h1]
    · refine Or.inr ⟨err, ?_, Or.inr hbad⟩
      conv_lhs => unfold columnsLoop
      simp only
      rw [show fillColumn fillBools false Column.bools records colName
        = some (Except.error err) from h1]
  | string x =>
    rcases hstrings with ⟨col, h1, h2, h3⟩ | ⟨err, h1, hbad⟩
    · refine Or.inl ⟨col, ?_, h2, by simp [typeTag], h3⟩
      conv_lhs => unfold columnsLoop
      simp only
      rw [show fillColumn fillStrings none Column.strings records colName
        = some (Except.ok col) from h1]
    · refine Or.inr ⟨err, ?_, Or.inr hbad⟩
      conv_lhs => unfold columnsLoop
      simp only
      rw [show fillColumn fillStrings none Column.strings records colName
        = some (Except.error err) from h1]
  | null =>
    rcases hstrings with ⟨col, h1, h2, h3⟩ | ⟨err, h1, hbad⟩
    · refine Or.inl ⟨col, ?_, h2, by simp [typeTag], h3⟩
      conv_lhs => unfold columnsLoop
      simp only
      rw [show fillColumn fillStrings none Column.strings records colName
        = some (Except.ok col) from h1]
    · refine Or.inr ⟨err, ?_, Or.inr hbad⟩
      conv_lhs => unfold columnsLoop
      simp only
      rw [show fillColumn fillStrings none Column.strings records colName
        = some (Except.error err) from h1]
  | other name =>
    refine Or.inr ⟨Error.unknownType "jsonRecordsToData" (Value.other name), ?_, Or.inl rfl⟩
    conv_lhs => unfold columnsLoop

theorem columnsLoop_spec (records : JSONRecords) :
    ∀ (ps : List (String × Value)) (acc : Data),
      (∃ d, columnsLoop records ps acc = some (some d, none) ∧
        (∀ c, c ∈ d.map Prod.fst ↔ (c ∈ acc.map Prod.fst ∨ c ∈ ps.map Prod.fst)) ∧
        ((acc.map Prod.fst).Nodup → (d.map Prod.fst).Nodup) ∧
        (∀ c col, d.get c = some col → acc.get c = some col ∨
          (col.length = records.length ∧
            ∀ i r, records[i]? = some r → ∃ v, r.get c = some v ∧ col.at i = some v)) ∧
        (∀ p ∈ ps, typeTag p.2 ≠ 4 ∧
          ∀ r ∈ records, ∃ v, r.get p.1 = some v ∧ typeTag v = typeTag p.2)) ∨
      (∃ err, columnsLoop records ps acc = some (none, some err) ∧
        ∃ p ∈ ps, typeTag p.2 = 4 ∨ ∃ r ∈ records, r.get p.1 = none ∨
          ∃ v, r.get p.1 = some v ∧ typeTag v ≠ typeTag p.2) := by
  intro ps
  induction ps with
  | nil =>
    intro acc
    refine Or.inl ⟨acc, rfl, by simp, fun h => h, fun c col h => Or.inl h, by simp⟩
  | cons p ps ih =>
    intro acc
    obtain ⟨colName, value⟩ := p
    rcases columnsLoop_cons_spec records colName value ps acc with
      ⟨col, h1, h2, h3, h4⟩ | ⟨err, h1, hbad⟩
    · rw [h1]
      rcases ih (acc.set colName col) with ⟨d, hd1, hd2, hd3, hd4, hd5⟩ | ⟨err, he1, q, hq, hbad⟩
      · refine Or.inl ⟨d, hd1, ?_, ?_, ?_, ?_⟩
        · intro c
          rw [hd2 c, Data.keys_set]
          simp only [List.map_cons, List.mem_cons]
          tauto
        · intro hn
          exact hd3 (Data.nodup_set acc colName col hn)
        · intro c col1 hc
          rcases hd4 c col1 hc with h | h
          · by_cases hcc : c = colName
            · subst hcc
              rw [Data.get_set_same] at h
              simp only [Option.some.injEq] at h
              subst h
              refine Or.inr ⟨h2, ?_⟩
              intro i r hr
              rcases h4 i r hr with ⟨v, hv, _, hcol⟩
              exact ⟨v, hv, hcol⟩
            · rw [Data.get_set_ne _ _ _ _ hcc] at h
              exact Or.inl h
          · exact Or.inr h
        · intro q hq
          rcases List.mem_cons.1 hq with h | h
          · subst h
            refine ⟨h3, ?_⟩
            intro r hr
            rcases List.getElem?_of_mem hr with ⟨i, hi⟩
            rcases h4 i r hi with ⟨v, hv, ht, _⟩
            exact ⟨v, hv, ht⟩
          · exact hd5 q h
      · exact Or.inr ⟨err, he1, q, List.mem_cons_of_mem _ hq, hbad⟩
    · exact Or.inr ⟨err, h1, (colName, value), List.mem_cons_self _ _, hbad⟩

/-- C20: for every list of JSON records, `jsonRecordsToData` returns either a
mapping and no error or an error and no mapping; an empty list yields the
empty mapping without error; when a mapping is returned it has exactly one
column per key of the first record, every column has as many elements as there
are records, and element `i` of column `c` is the value of key `c` in record
`i` (a `nil` pointer for a null); and an error with no mapping is returned
whenever, for some key of the first record, the value in the first record has
a type outside int, float64, bool, string and null, or some record lacks the
key, or some record holds for it a value of another type than the first record
(null and string counting as one type). -/
theorem jsonRecordsToData_all_or_nothing (records : JSONRecords) :
    jsonRecordsToData [] = some (some [], none) ∧
    ((∃ d, jsonRecordsToData records = some (some d, none)) ∨
      (∃ err, jsonRecordsToData records = some (none, some err))) ∧
    (∀ (d : Data) (oerr : Option Error), jsonRecordsToData records = some (some d, oerr) →
      oerr = none ∧ (d.map Prod.fst).Nodup ∧
      (∀ r0, records.head? = some r0 →
        ∀ c, (d.get c).isSome = true ↔ (r0.get c).isSome = true) ∧
      (∀ c col, d.get c = some col → col.length = records.length ∧
        ∀ i r, records[i]? = some r → ∃ v, r.get c = some v ∧ col.at i = some v)) ∧
    (∀ (r0 : Record) (c : String) (v0 : Value), records.head? = some r0 →
      r0.get c = some v0 →
      (typeTag v0 = 4 ∨ ∃ r ∈ records, r.get c = none ∨
        ∃ v, r.get c = some v ∧ typeTag v ≠ typeTag v0) →
      ∃ err, jsonRecordsToData records = some (none, some err)) := by
  refine ⟨rfl, ?_, ?_, ?_⟩
  · cases records with
    | nil => exact Or.inl ⟨[], rfl⟩
    | cons r0 rest =>
      rcases columnsLoop_spec (r0 :: rest) r0 [] with ⟨d, h, _⟩ | ⟨err, h, _⟩
      · exact Or.inl ⟨d, h⟩
      · exact Or.inr ⟨err, h⟩
  · intro d oerr h
    cases records with
    | nil =>
      simp only [jsonRecordsToData, Option.some.injEq, Prod.mk.injEq] at h
      rcases h with ⟨h1, h2⟩
      subst h1 h2
      refine ⟨rfl, by simp, by simp, ?_⟩
      intro c col hc
      simp [Data.get] at hc
    | cons r0 rest =>
      have h0 : jsonRecordsToData (r0 :: rest) = columnsLoop (r0 :: rest) r0 [] := rfl
      rw [h0] at h
      rcases columnsLoop_spec (r0 :: rest) r0 [] with
        ⟨d1, h1, h2, h3, h4, _⟩ | ⟨err, h1, _⟩
      · rw [h1] at h
        simp only [Option.some.injEq, Prod.mk.injEq] at h
        rcases h with ⟨hd, ho⟩
        subst hd ho
        refine ⟨rfl, h3 (by simp), ?_, ?_⟩
        · intro r1 hr1 c
          simp only [List.head?_cons, Option.some.injEq] at hr1
          subst hr1
          rw [Data.get_key_iff_mem, Record.get_isSome_iff_mem, h2 c]
          simp
        · intro c col hc
          rcases h4 c col hc with h | h
          · simp [Data.get] at h
          · exact h
      · rw [h1] at h
        simp at h
  · intro r0 c v0 hr0 hv0 hbad
    cases records with
    | nil => simp at hr0
    | cons r1 rest =>
      simp only [List.head?_cons, Option.some.injEq] at hr0
      subst hr0
      have h0 : jsonRecordsToData (r1 :: rest) = columnsLoop (r1 :: rest) r1 [] := rfl
      rw [h0]
      rcases columnsLoop_spec (r1 :: rest) r1 [] with
        ⟨d1, _, _, _, _, h5⟩ | ⟨err, h1, _⟩
      · exfalso
        rcases h5 (c, v0) (Record.mem_of_get r1 c v0 hv0) with ⟨ht, hall⟩
        rcases hbad with h | ⟨r, hr, h | ⟨v, hv, hne⟩⟩
        · exact ht h
        · rcases hall r hr with ⟨v, hv, _⟩
          simp only at hv
          rw [h] at hv
          cases hv
        · rcases hall r hr with ⟨v1, hv1, ht1⟩
          simp only at hv1 ht1
          rw [hv] at hv1
          simp only [Option.some.injEq] at hv1
          subst hv1
          exact hne ht1
      · exact ⟨err, h1⟩

theorem jsonRecordsToData_all_or_nothing_witness :
    jsonRecordsToData [[("a", Value.int 1), ("b", Value.string "x")],
        [("b", Value.null), ("a", Value.int 2)]]
      = some (some [("a", Column.ints [1, 2]), ("b", Column.strings [some "x", none])], none) ∧
    ((none : Option Error) = none ∧
      (([("a", Column.ints [1, 2]), ("b", Column.strings [some "x", none])] : Data).map Prod.fst).Nodup ∧
      (∀ r0, ([[("a", Value.int 1), ("b", Value.string "x")],
        [("b", Value.null), ("a", Value.int 2)]] : JSONRecords).head? = some r0 →
        ∀ c, (Data.get [("a", Column.ints [1, 2]), ("b", Column.strings [some "x", none])] c).isSome = true
          ↔ (Record.get r0 c).isSome = true) ∧
      (∀ c col, Data.get [("a", Column.ints [1, 2]), ("b", Column.strings [some "x", none])] c = some col →
        col.length = ([[("a", Value.int 1), ("b", Value.string "x")],
        [("b", Value.null), ("a", Value.int 2)]] : JSONRecords).length ∧
        ∀ i r, ([[("a", Value.int 1), ("b", Value.string "x")],
        [("b", Value.null), ("a", Value.int 2)]] : JSONRecords)[i]? = some r →
          ∃ v, Record.get r c = some v ∧ col.at i = some v)) ∧
    jsonRecordsToData [[("a", Value.int 1), ("b", Value.string "x")],
        [("b", Value.bool true), ("a", Value.int 2)]]
      = some (none, some (Error.wrongType "fillStrings" "b" 1)) ∧
    (typeTag (Value.string "x") = 4 ∨
      ∃ r ∈ ([[("a", Value.int 1), ("b", Value.string "x")],
        [("b", Value.bool true), ("a", Value.int 2)]] : JSONRecords), Record.get r "b" = none ∨
        ∃ v, Record.get r "b" = some v ∧ typeTag v ≠ typeTag (Value.string "x")) ∧
    ∃ err, jsonRecordsToData [[("a", Value.int 1), ("b", Value.string "x")],
        [("b", Value.bool true), ("a", Value.int 2)]] = some (none, some err) :=
  ⟨by decide,
    (jsonRecordsToData_all_or_nothing [[("a", Value.int 1), ("b", Value.string "x")],
        [("b", Value.null), ("a", Value.int 2)]]).2.2.1 _ _ (by decide),
    by decide,
    Or.inr ⟨[("b", Value.bool true), ("a", Value.int 2)], by simp,
      Or.inr ⟨Value.bool true, rfl, by decide⟩⟩,
    (jsonRecordsToData_all_or_nothing [[("a", Value.int 1), ("b", Value.string "x")],
        [("b", Value.bool true), ("a", Value.int 2)]]).2.2.2
      [("a", Value.int 1), ("b", Value.string "x")] "b" (Value.string "x") rfl rfl
      (Or.inr ⟨[("b", Value.bool true), ("a", Value.int 2)], by simp,
        Or.inr ⟨Value.bool true, rfl, by decide⟩⟩)⟩

end io

namespace qframe

open qerrors types

/-! ### C24: a "count" spec is validated like any other -/

/-- C24 (counterexample): in the scenario (column `A` grouped by `A`), the
"count" spec with source column `Z`, which is not in the frame, and destination
`A`, a group-by column, is rejected with the unknown-column error, not with the
name-conflict error: the source column is looked up first. -/
theorem Aggregate_count_unknown_column_before_conflict :
    "A" ∈ scenarioGrouper.groupedColumns ∧
    (Aggregation.mk (SliceFuncOrBuiltInId.builtIn "count") "Z" "A").destName = "A" ∧
    scenarioGrouper.columnsByName.get "Z" = none ∧
    scenarioGrouper.Aggregate reduceFirst [⟨SliceFuncOrBuiltInId.builtIn "count", "Z", "A"⟩]
      = some (QFrame.withErr (Error.unknownColumn "Aggregate" "Z")) ∧
    scenarioGrouper.Aggregate reduceFirst [⟨SliceFuncOrBuiltInId.builtIn "count", "Z", "A"⟩]
      ≠ some (QFrame.withErr (Error.aggregateNameConflict "Aggregate" "A")) := by
  decide

/-- C24 (amended): for every Grouper and every "count" spec `agg` that follows
specs `pre` aggregated without error: when the source column of `agg` is not a
column of the frame, `Aggregate` returns the unknown-column error; when it is a
column of the frame and the destination of `agg` (`As`, or `Column` when `As`
is empty) is a group-by column, `Aggregate` returns the name-conflict error; in
particular (on a well-formed Grouper) counting a group-by column without a
rename is rejected with the name-conflict error; and when `agg` passes both
checks the column it produces holds the group sizes, whatever the values of
its source column. -/
theorem Aggregate_count_spec_validated (reduce : column.Column → List (List Nat) →
      SliceFuncOrBuiltInId → Except Error column.Column) (g : Grouper)
    (pre : List Aggregation) (agg : Aggregation) (post : List Aggregation) (qf : QFrame)
    (hpre : g.Aggregate reduce pre = some qf) (hok : qf.Err = none)
    (hfn : agg.Fn = SliceFuncOrBuiltInId.builtIn "count") :
    (g.columnsByName.get agg.Column = none →
      g.Aggregate reduce (pre ++ agg :: post)
        = some (QFrame.withErr (Error.unknownColumn "Aggregate" agg.Column))) ∧
    (g.columnsByName.get agg.Column ≠ none → agg.destName ∈ g.groupedColumns →
      g.Aggregate reduce (pre ++ agg :: post)
        = some (QFrame.withErr (Error.aggregateNameConflict "Aggregate" agg.destName))) ∧
    (g.WellFormed → agg.As = "" → agg.Column ∈ g.groupedColumns →
      g.Aggregate reduce (pre ++ agg :: post)
        = some (QFrame.withErr (Error.aggregateNameConflict "Aggregate" agg.Column))) ∧
    (∀ src, g.columnsByName.get agg.Column = some src → agg.destName ∉ g.groupedColumns →
      (∀ a ∈ pre, a.destName ≠ agg.destName) →
      g.Aggregate reduce (pre ++ [agg])
        = some { columns := qf.columns ++
                   [⟨icolumn.New (groupSizes g.indices), agg.destName, src.pos⟩]
                 columnsByName := qf.columnsByName.set agg.destName
                   ⟨icolumn.New (groupSizes g.indices), agg.destName, src.pos⟩
                 index := qf.index
                 Err := none }) := by
  rcases Aggregate_ok reduce g pre qf hpre hok with
    ⟨fe, m0, cols0, m1, cols1, herr, hfe, hgl, hal, hqf⟩
  rcases aggLoop_ok_spec reduce g pre m0 cols0 m1 cols1 hal with ⟨_, _, _, _, hkeys⟩
  rcases groupedLoop_spec g fe _ _ _ _ _ _ hgl with ⟨_, _, _, _, hkeys0⟩
  have hconf : g.columnsByName.get agg.Column ≠ none → agg.destName ∈ g.groupedColumns →
      g.Aggregate reduce (pre ++ agg :: post)
        = some (QFrame.withErr (Error.aggregateNameConflict "Aggregate" agg.destName)) := by
    intro hsrc hdst
    apply Aggregate_eq_of_aggLoop_error reduce g _ fe m0 cols0 _ herr hfe hgl
    rw [aggLoop_append reduce g pre _ m0 cols0 m1 cols1 hal,
      aggLoop_invalid_head reduce g agg post m1 cols1
        (Or.inr ((hkeys _).2 (Or.inr ((hkeys0 _).2 (Or.inl hdst))))), if_neg hsrc]
  refine ⟨?_, hconf, ?_, ?_⟩
  · intro hsrc
    apply Aggregate_eq_of_aggLoop_error reduce g _ fe m0 cols0 _ herr hfe hgl
    rw [aggLoop_append reduce g pre _ m0 cols0 m1 cols1 hal,
      aggLoop_invalid_head reduce g agg post m1 cols1 (Or.inl hsrc), if_pos hsrc]
  · intro hwf has hcol
    have hd : agg.destName = agg.Column := by simp [Aggregation.destName, has]
    rcases hwf.2.2 agg.Column hcol with ⟨col, hget, _⟩
    have := hconf (by rw [hget]; simp) (by rw [hd]; exact hcol)
    rw [hd] at this
    exact this
  · intro src hsrc hdst hpre2
    have hfree : m1.get agg.destName = none := by
      cases hm : m1.get agg.destName with
      | none => rfl
      | some c =>
        exfalso
        rcases (hkeys agg.destName).1 (by rw [hm]; rfl) with ⟨a, ha, hae⟩ | h
        · exact hpre2 a ha hae
        · rcases (hkeys0 agg.destName).1 h with h1 | h1
          · exact hdst h1
          · simp [ColumnMap.get] at h1
    unfold Grouper.Aggregate
    rw [herr]
    simp only [hfe, hgl]
    rw [aggLoop_append reduce g pre _ m0 cols0 m1 cols1 hal, aggLoop_cons]
    simp only [hsrc, hfree, hfn, if_true, aggLoop]
    rw [hqf]

theorem Aggregate_count_spec_validated_witness :
    scenarioGrouper.Aggregate reduceFirst [] = some
      { columns := [⟨icolumn.New [1, 2, 3], "A", 0⟩]
        columnsByName := [("A", ⟨icolumn.New [1, 2, 3], "A", 0⟩)]
        index := [0, 1, 2]
        Err := none } ∧
    scenarioGrouper.Aggregate reduceFirst [⟨SliceFuncOrBuiltInId.builtIn "count", "Z", ""⟩]
      = some (QFrame.withErr (Error.unknownColumn "Aggregate" "Z")) ∧
    scenarioGrouper.Aggregate reduceFirst [⟨SliceFuncOrBuiltInId.builtIn "count", "A", ""⟩]
      = some (QFrame.withErr (Error.aggregateNameConflict "Aggregate" "A")) ∧
    scenarioGrouper.Aggregate reduceFirst ([] ++ [⟨SliceFuncOrBuiltInId.builtIn "count", "A", "n"⟩])
      = some { columns := [⟨icolumn.New [1, 2, 3], "A", 0⟩] ++
                 [⟨icolumn.New (groupSizes scenarioGrouper.indices), "n", 0⟩]
               columnsByName := ColumnMap.set [("A", ⟨icolumn.New [1, 2, 3], "A", 0⟩)] "n"
                 ⟨icolumn.New (groupSizes scenarioGrouper.indices), "n", 0⟩
               index := [0, 1, 2]
               Err := none } :=
  ⟨by decide,
    (Aggregate_count_spec_validated reduceFirst scenarioGrouper []
      ⟨SliceFuncOrBuiltInId.builtIn "count", "Z", ""⟩ []
      { columns := [⟨icolumn.New [1, 2, 3], "A", 0⟩]
        columnsByName := [("A", ⟨icolumn.New [1, 2, 3], "A", 0⟩)]
        index := [0, 1, 2]
        Err := none } (by decide) rfl rfl).1 (by decide),
    (Aggregate_count_spec_validated reduceFirst scenarioGrouper []
      ⟨SliceFuncOrBuiltInId.builtIn "count", "A", ""⟩ []
      { columns := [⟨icolumn.New [1, 2, 3], "A", 0⟩]
        columnsByName := [("A", ⟨icolumn.New [1, 2, 3], "A", 0⟩)]
        index := [0, 1, 2]
        Err := none } (by decide) rfl rfl).2.2.1
      scenarioGrouper_wellFormed rfl (by decide),
    (Aggregate_count_spec_validated reduceFirst scenarioGrouper []
      ⟨SliceFuncOrBuiltInId.builtIn "count", "A", "n"⟩ []
      { columns := [⟨icolumn.New [1, 2, 3], "A", 0⟩]
        columnsByName := [("A", ⟨icolumn.New [1, 2, 3], "A", 0⟩)]
        index := [0, 1, 2]
        Err := none } (by decide) rfl rfl).2.2.2
      ⟨icolumn.New [1, 2, 3, 1], "A", 0⟩ (by decide) (by decide) (by simp)⟩

end qframe

namespace qframe

open qerrors types

/-! ### C22: the recorded position of the columns of the result -/

/-- The positions recorded in a frame returned by `Aggregate` without error:
the group-by columns come first and record their index in the column list; the
column of spec `j` follows at index `k + j` (`k` group-by columns) and records
the position that its source column has in the frame of the Grouper. -/
theorem Aggregate_recorded_positions (reduce : column.Column → List (List Nat) →
      SliceFuncOrBuiltInId → Except Error column.Column) (g : Grouper)
    (aggs : List Aggregation) (qf : QFrame) (h : g.Aggregate reduce aggs = some qf)
    (herr : qf.Err = none) :
    ∃ cols0 newCols : List namedColumn, qf.columns = cols0 ++ newCols ∧
      cols0.length = g.groupedColumns.length ∧ newCols.length = aggs.length ∧
      (∀ (j : Nat) (col : namedColumn), cols0[j]? = some col →
        qf.columns[j]? = some col ∧ col.pos = j) ∧
      (∀ (j : Nat) (agg : Aggregation), aggs[j]? = some agg →
        ∃ (src col : namedColumn), g.columnsByName.get agg.Column = some src ∧
          qf.columns[g.groupedColumns.length + j]? = some col ∧ col.pos = src.pos) := by
  rcases Aggregate_ok reduce g aggs qf h herr with
    ⟨fe, m0, cols0, m1, cols1, _, _, hgl, hal, hqf⟩
  rcases groupedLoop_spec g fe _ _ _ _ _ _ hgl with ⟨new0, hc0, hl0, hpos0, _⟩
  rcases aggLoop_ok_spec reduce g aggs m0 cols0 m1 cols1 hal with ⟨newCols, hc1, hl1, hpos1, _⟩
  simp only [List.nil_append] at hc0
  subst hc0
  refine ⟨cols0, newCols, by rw [hqf]; exact hc1, hl0, hl1, ?_, ?_⟩
  · intro j col hj
    have hjlt : j < cols0.length := by
      rcases List.getElem?_eq_some_iff.1 hj with ⟨hlt, _⟩
      exact hlt
    constructor
    · rw [hqf]
      show cols1[j]? = some col
      rw [hc1, List.getElem?_append_left hjlt]
      exact hj
    · have hn : j < g.groupedColumns.length := by omega
      rcases hpos0 j _ (List.getElem?_eq_getElem hn) with ⟨src, sub, _, _, hcol⟩
      rw [hj] at hcol
      simp only [Option.some.injEq] at hcol
      rw [hcol]
      simp
  · intro j agg hj
    rcases hpos1 j agg hj with ⟨src, col, hsrc, hcol, _, hp, _⟩
    refine ⟨src, col, hsrc, ?_, hp⟩
    rw [hqf]
    show cols1[g.groupedColumns.length + j]? = some col
    rw [hc1, ← hl0, List.getElem?_append_right (by omega)]
    simpa using hcol

/-- C22 (the code at the failing input): in the scenario (column `A`, at
position 0 of the frame, grouped by `A` into the groups that `GroupBy`
returns), aggregating "count of `A` as `n`" returns without error a frame with
the columns `A` and `n`, whose names are distinct and whose by-name map holds
exactly these two columns; the group-by column `A` records position 0, its
index, but the aggregated column `n`, at index 1, records position 0, the
position of its source column `A`. -/
theorem Aggregate_aggregated_column_keeps_source_pos :
    (grouper.GroupBy [0, 1, 2, 3] [grouper.intComparable [1, 2, 3, 1]]).map Prod.fst
      = some scenarioGrouper.indices ∧
    scenarioGrouper.Aggregate reduceFirst [⟨SliceFuncOrBuiltInId.builtIn "count", "A", "n"⟩]
      = some { columns := [⟨icolumn.New [1, 2, 3], "A", 0⟩, ⟨icolumn.New [2, 1, 1], "n", 0⟩]
               columnsByName := [("A", ⟨icolumn.New [1, 2, 3], "A", 0⟩),
                 ("n", ⟨icolumn.New [2, 1, 1], "n", 0⟩)]
               index := [0, 1, 2]
               Err := none } ∧
    (scenarioGrouper.Aggregate reduceFirst
        [⟨SliceFuncOrBuiltInId.builtIn "count", "A", "n"⟩]).map
          (fun qf => qf.columns.map (fun c => (c.name, c.pos)))
      = some [("A", 0), ("n", 0)] ∧
    (scenarioGrouper.Aggregate reduceFirst
        [⟨SliceFuncOrBuiltInId.builtIn "count", "A", "n"⟩]).map
          (fun qf => (qf.columns[1]?).map (fun c => decide (c.pos = 1)))
      = some (some false) := by
  decide

end qframe

namespace grouper

open column

/-! ### C21: the table is never full when it is probed -/

theorem relocateAll_append (bitMask : Nat) : ∀ (es1 es2 newEntries : List tableEntry) (c : Nat),
    relocateAll bitMask (es1 ++ es2) newEntries c
      = (relocateAll bitMask es1 newEntries c).bind
          (fun r => relocateAll bitMask es2 r.1 r.2) := by
  intro es1
  induction es1 with
  | nil => intro es2 newEntries c; rfl
  | cons e es1 ih =>
    intro es2 newEntries c
    simp only [List.cons_append, relocateAll]
    cases h : relocate bitMask e newEntries.length newEntries (e.hash &&& bitMask) c with
    | none => rfl
    | some r => exact ih es2 r.1 r.2

theorem probe_of_insertNoGrow (t1 t2 : table) (i : Nat) (h : insertNoGrow t1 i = some t2) :
    ∃ pos collisions, probe t1.comparables t1.entries (t1.hash i) i
        ((t1.entries.length + 2 ^ 64 - 1) % 2 ^ 64) t1.entries.length
        (t1.hash i &&& ((t1.entries.length + 2 ^ 64 - 1) % 2 ^ 64)) t1.stats.InsertCollisions
      = some (pos, collisions) := by
  unfold insertNoGrow at h
  simp only at h
  cases hp : probe t1.comparables t1.entries (t1.hash i) i
      ((t1.entries.length + 2 ^ 64 - 1) % 2 ^ 64) t1.entries.length
      (t1.hash i &&& ((t1.entries.length + 2 ^ 64 - 1) % 2 ^ 64)) t1.stats.InsertCollisions with
  | none => rw [hp] at h; simp at h
  | some r => exact ⟨r.1, r.2, rfl⟩

/-- Every reinsertion loop of `grow` on a table of the invariant whose load
factor exceeds the maximum finds a free slot. -/
theorem grow_relocations (cs : List Comparable) (b : Bool) (n : Nat) (t : table)
    (hinv : Inv cs b n t) (hn : n < 2 ^ 30) (hg : t.loadFactor.gt maxLoadFactor = true)
    (es1 : List tableEntry) (e : tableEntry) (es2 : List tableEntry)
    (hes : t.entries = es1 ++ e :: es2) :
    ∃ (ne : List tableEntry) (c : Nat) (ne1 : List tableEntry) (c1 : Nat),
      relocateAll ((growthFactor * t.entries.length % 2 ^ 32 + 2 ^ 32 - 1) % 2 ^ 32) es1
        (List.replicate (growthFactor * t.entries.length % 2 ^ 32) tableEntry.zero)
        t.stats.RelocationCollisions = some (ne, c) ∧
      ne.length = 2 * t.entries.length ∧
      (occ ne).length < t.entries.length ∧
      (∃ (q : Nat) (s : tableEntry), ne[q]? = some s ∧ s.occupied = false) ∧
      relocate ((growthFactor * t.entries.length % 2 ^ 32 + 2 ^ 32 - 1) % 2 ^ 32) e ne.length ne
        (e.hash &&& ((growthFactor * t.entries.length % 2 ^ 32 + 2 ^ 32 - 1) % 2 ^ 32)) c
        = some (ne1, c1) ∧
      relocateAll ((growthFactor * t.entries.length % 2 ^ 32 + 2 ^ 32 - 1) % 2 ^ 32) t.entries
        (List.replicate (growthFactor * t.entries.length % 2 ^ 32) tableEntry.zero)
        t.stats.RelocationCollisions
        = relocateAll ((growthFactor * t.entries.length % 2 ^ 32 + 2 ^ 32 - 1) % 2 ^ 32) es2
            ne1 c1 := by
  rcases hinv.len with ⟨k, hk3, hk31, hlen⟩
  have hL : 0 < t.entries.length := by rw [hlen]; exact Nat.two_pow_pos k
  have hgt : t.entries.length < 2 * t.groupCount := by
    have h1 : (t.loadFactor.gt maxLoadFactor = true) ↔ t.entries.length < 2 * t.groupCount := by
      rw [float64.gt, maxLoadFactor, decide_eq_true_iff]
      exact gt_half_iff _ _ _ _ hinv.load hinv.den hL
    exact h1.1 hg
  have h2 : 2 ^ k < 2 ^ 31 := by
    have := hinv.rows
    have h30 : (2 : Nat) ^ 31 = 2 * 2 ^ 30 := by decide
    omega
  have hk : k < 31 := pow_two_lt_imp k 31 h2
  have hnew : growthFactor * t.entries.length % 2 ^ 32 = 2 ^ (k + 1) := by
    have h32 : (2 : Nat) ^ 32 = 2 * 2 ^ 31 := by decide
    rw [hlen, growthFactor, pow_succ, Nat.mod_eq_of_lt (by omega)]
    omega
  have hmask : (growthFactor * t.entries.length % 2 ^ 32 + 2 ^ 32 - 1) % 2 ^ 32
      = 2 ^ (k + 1) - 1 := by
    rw [hnew]
    exact mask32_eq (k + 1) (by omega)
  rw [hmask, hnew]
  have hz := hinv.freeZero
  have hz1 : FreeZero es1 := by
    intro x hx
    exact hz x (by rw [hes]; exact List.mem_append_left _ hx)
  have hze : e.occupied = false → e = tableEntry.zero := by
    intro ho
    exact hz e (by rw [hes]; simp) ho
  have hlen1 : es1.length < 2 ^ k := by
    have := congrArg List.length hes
    simp only [List.length_append, List.length_cons] at this
    omega
  have hpow : 2 ^ (k + 1) = 2 * 2 ^ k := by rw [pow_succ]; omega
  rcases relocateAll_spec (k + 1) (by omega) es1 (List.replicate (2 ^ (k + 1)) tableEntry.zero)
      t.stats.RelocationCollisions (by simp) (Chain_replicate _) (FreeZero_replicate _) hz1
      (by rw [occ_replicate_zero]; simp only [List.length_nil]; omega)
    with ⟨ne, c, hra, hnel, hnec, hnez, hnep⟩
  have hocc : (occ ne).length < t.entries.length := by
    rw [hnep.length_eq, occ_replicate_zero, hlen]
    simp only [List.append_nil]
    have : (occ es1).length ≤ es1.length := by
      unfold occ
      exact List.length_filter_le _ _
    omega
  have hfree : (occ ne).length < ne.length := by
    rw [hnel, hpow, ← hlen]
    omega
  rcases relocate_spec e (k + 1) (by omega) ne c hnel hnec hnez hze hfree
    with ⟨ne1, c1, hr, _⟩
  refine ⟨ne, c, ne1, c1, hra, by rw [hnel, hpow, hlen], hocc,
    exists_free_of_occ_lt ne hfree, ?_, ?_⟩
  · rw [hnel] at hr
    rw [hnel]
    exact hr
  · conv_lhs => rw [hes]
    rw [relocateAll_append, hra]
    show relocateAll (2 ^ (k + 1) - 1) (e :: es2) ne c = _
    simp only [relocateAll]
    rw [hr]

/-- In the range in which the table length computed by `grow` cannot wrap,
the property of C21 holds: for every row index `ix` (of at most `2 ^ 30` rows), comparables and
setting of member collection, grouping returns, and at every row `i` of `ix`:
the growth check returns a table (growing, if the load factor exceeds the
maximum); at the start of the probe loop of `insertEntry` twice the number of
occupied slots is at most the table length, so the table has a free slot, and
the probe loop returns a slot within as many steps as the table has slots, so
that `insertEntry` returns; and when the table grows, for every entry of the
old table the new table built so far has fewer occupied slots than the old
table has slots, that is less than half of its own, and the reinsertion loop
for the entry returns. -/
theorem insertEntry_terminates_table_never_full (ix : List Nat)
    (comparables : List Comparable) (collectIx : Bool) (hlen : ix.length ≤ 2 ^ 30) :
    (∃ r, groupIndex ix comparables collectIx = some r) ∧
    ∀ (p : List Nat) (i : Nat) (rest : List Nat), ix = p ++ i :: rest →
      ∃ t t1 t2 : table,
        insertAll (newTable (calculateInitialSizeExp ix.length) comparables collectIx) p
          = some t ∧
        (if t.loadFactor.gt maxLoadFactor = true then t.grow = some t1 else t1 = t) ∧
        2 * (occ t1.entries).length ≤ t1.entries.length ∧
        0 < t1.entries.length ∧
        (∃ (q : Nat) (e : tableEntry), t1.entries[q]? = some e ∧ e.occupied = false) ∧
        (∃ pos collisions, probe t1.comparables t1.entries (t1.hash i) i
            ((t1.entries.length + 2 ^ 64 - 1) % 2 ^ 64) t1.entries.length
            (t1.hash i &&& ((t1.entries.length + 2 ^ 64 - 1) % 2 ^ 64))
            t1.stats.InsertCollisions = some (pos, collisions)) ∧
        insertNoGrow t1 i = some t2 ∧
        t.insertEntry i = some t2 ∧
        (t.loadFactor.gt maxLoadFactor = true →
          ∀ (es1 : List tableEntry) (e : tableEntry) (es2 : List tableEntry),
            t.entries = es1 ++ e :: es2 →
            ∃ (ne : List tableEntry) (c : Nat) (ne1 : List tableEntry) (c1 : Nat),
              relocateAll ((growthFactor * t.entries.length % 2 ^ 32 + 2 ^ 32 - 1) % 2 ^ 32)
                es1 (List.replicate (growthFactor * t.entries.length % 2 ^ 32)
                  tableEntry.zero) t.stats.RelocationCollisions = some (ne, c) ∧
              ne.length = 2 * t.entries.length ∧
              (occ ne).length < t.entries.length ∧
              (∃ (q : Nat) (s : tableEntry), ne[q]? = some s ∧ s.occupied = false) ∧
              relocate ((growthFactor * t.entries.length % 2 ^ 32 + 2 ^ 32 - 1) % 2 ^ 32) e
                ne.length ne
                (e.hash &&& ((growthFactor * t.entries.length % 2 ^ 32 + 2 ^ 32 - 1) % 2 ^ 32))
                c = some (ne1, c1) ∧
              relocateAll ((growthFactor * t.entries.length % 2 ^ 32 + 2 ^ 32 - 1) % 2 ^ 32)
                t.entries (List.replicate (growthFactor * t.entries.length % 2 ^ 32)
                  tableEntry.zero) t.stats.RelocationCollisions
                = relocateAll
                    ((growthFactor * t.entries.length % 2 ^ 32 + 2 ^ 32 - 1) % 2 ^ 32) es2
                    ne1 c1) := by
  constructor
  · rcases groupIndex_run comparables collectIx ix hlen (fun _ _ => True) trivial
        (fun _ _ _ _ _ _ _ _ _ _ _ _ _ _ _ => trivial) with ⟨t, _, h2, _, _⟩
    exact ⟨_, h2⟩
  · intro p i rest hix
    rcases insertAll_prefix_inv comparables collectIx ix p (i :: rest) hlen hix
        (fun _ _ => True) trivial (fun _ _ _ _ _ _ _ _ _ _ _ _ _ _ _ => trivial)
      with ⟨t, hp1, hinv, _⟩
    have hpl : p.length < 2 ^ 30 := by
      have := congrArg List.length hix
      simp at this
      omega
    rcases growCheck_spec comparables collectIx p.length t hinv hpl
      with ⟨t1, hg, hinv1, hhalf, _, _⟩
    rcases hinv1.len with ⟨k, hk3, hk31, hlen1⟩
    have hL : 0 < t1.entries.length := by rw [hlen1]; exact Nat.two_pow_pos k
    have hfree : (occ t1.entries).length < t1.entries.length := by
      rw [← hinv1.count]; omega
    rcases insertNoGrow_spec comparables collectIx t1 i k hinv1.comparables hinv1.collectIx
        hk31 hlen1 hinv1.chain hinv1.freeZero hfree with ⟨t2, hins, _⟩
    have hie : t.insertEntry i = some t2 := by
      unfold table.insertEntry
      by_cases hgt : t.loadFactor.gt maxLoadFactor = true
      · rw [if_pos hgt] at hg
        simp only [hgt, if_true, hg]
        exact hins
      · rw [if_neg hgt] at hg
        subst hg
        simp only [hgt]
        exact hins
    refine ⟨t, t1, t2, hp1, hg, by rw [← hinv1.count]; exact hhalf, hL,
      exists_free_of_occ_lt _ hfree, probe_of_insertNoGrow t1 t2 i hins, hins, hie, ?_⟩
    intro hgt es1 e es2 hes
    exact grow_relocations comparables collectIx p.length t hinv hpl hgt es1 e es2 hes

theorem insertEntry_terminates_table_never_full_witness :
    [0, 1, 2, 3, 4, 5].length ≤ 2 ^ 30 ∧
    (groupIndex [0, 1, 2, 3, 4, 5] [intComparable [1, 2, 3, 4, 5, 6]] true).map
        (fun r => (r.1.length, r.2.GroupCount, r.2.RelocationCount))
      = some (16, 6, 1) ∧
    ((∃ r, groupIndex [0, 1, 2, 3, 4, 5] [intComparable [1, 2, 3, 4, 5, 6]] true = some r) ∧
    ∀ (p : List Nat) (i : Nat) (rest : List Nat), [0, 1, 2, 3, 4, 5] = p ++ i :: rest →
      ∃ t t1 t2 : table,
        insertAll (newTable (calculateInitialSizeExp [0, 1, 2, 3, 4, 5].length)
          [intComparable [1, 2, 3, 4, 5, 6]] true) p = some t ∧
        (if t.loadFactor.gt maxLoadFactor = true then t.grow = some t1 else t1 = t) ∧
        2 * (occ t1.entries).length ≤ t1.entries.length ∧
        0 < t1.entries.length ∧
        (∃ (q : Nat) (e : tableEntry), t1.entries[q]? = some e ∧ e.occupied = false) ∧
        (∃ pos collisions, probe t1.comparables t1.entries (t1.hash i) i
            ((t1.entries.length + 2 ^ 64 - 1) % 2 ^ 64) t1.entries.length
            (t1.hash i &&& ((t1.entries.length + 2 ^ 64 - 1) % 2 ^ 64))
            t1.stats.InsertCollisions = some (pos, collisions)) ∧
        insertNoGrow t1 i = some t2 ∧
        t.insertEntry i = some t2 ∧
        (t.loadFactor.gt maxLoadFactor = true →
          ∀ (es1 : List tableEntry) (e : tableEntry) (es2 : List tableEntry),
            t.entries = es1 ++ e :: es2 →
            ∃ (ne : List tableEntry) (c : Nat) (ne1 : List tableEntry) (c1 : Nat),
              relocateAll ((growthFactor * t.entries.length % 2 ^ 32 + 2 ^ 32 - 1) % 2 ^ 32)
                es1 (List.replicate (growthFactor * t.entries.length % 2 ^ 32)
                  tableEntry.zero) t.stats.RelocationCollisions = some (ne, c) ∧
              ne.length = 2 * t.entries.length ∧
              (occ ne).length < t.entries.length ∧
              (∃ (q : Nat) (s : tableEntry), ne[q]? = some s ∧ s.occupied = false) ∧
              relocate ((growthFactor * t.entries.length % 2 ^ 32 + 2 ^ 32 - 1) % 2 ^ 32) e
                ne.length ne
                (e.hash &&& ((growthFactor * t.entries.length % 2 ^ 32 + 2 ^ 32 - 1) % 2 ^ 32))
                c = some (ne1, c1) ∧
              relocateAll ((growthFactor * t.entries.length % 2 ^ 32 + 2 ^ 32 - 1) % 2 ^ 32)
                t.entries (List.replicate (growthFactor * t.entries.length % 2 ^ 32)
                  tableEntry.zero) t.stats.RelocationCollisions
                = relocateAll
                    ((growthFactor * t.entries.length % 2 ^ 32 + 2 ^ 32 - 1) % 2 ^ 32) es2
                    ne1 c1)) :=
  ⟨by decide, by decide, insertEntry_terminates_table_never_full _ _ _ (by decide)⟩

end grouper

namespace grouper

open column

/-! ### Runs of any size: what holds whenever the insertion loop returns -/

theorem relocate_weak (bitMask : Nat) (e : tableEntry) :
    ∀ (fuel : Nat) (entries : List tableEntry) (pos c : Nat) (E1 : List tableEntry) (c1 : Nat),
      relocate bitMask e fuel entries pos c = some (E1, c1) →
      ∃ (q : Nat) (f : tableEntry), entries[q]? = some f ∧ f.occupied = false ∧
        E1 = entries.set q e := by
  intro fuel
  induction fuel with
  | zero => intro entries pos c E1 c1 h; simp [relocate] at h
  | succ fuel ih =>
    intro entries pos c E1 c1 h
    unfold relocate at h
    cases hs : entries[pos]? with
    | none => rw [hs] at h; simp at h
    | some slot =>
      rw [hs] at h
      simp only at h
      by_cases ho : slot.occupied = true
      · simp only [ho, Bool.not_true, Bool.false_eq_true, if_false] at h
        exact ih entries _ _ E1 c1 h
      · have ho1 : slot.occupied = false := by simpa using ho
        simp only [ho1, Bool.not_false, if_true, Option.some.injEq, Prod.mk.injEq] at h
        exact ⟨pos, slot, hs, ho1, h.1.symm⟩

theorem relocateAll_weak (bitMask : Nat) :
    ∀ (rest entries : List tableEntry) (c : Nat) (E1 : List tableEntry) (c1 : Nat),
      relocateAll bitMask rest entries c = some (E1, c1) → FreeZero entries → FreeZero rest →
      FreeZero E1 ∧ List.Perm (occ E1) (occ rest ++ occ entries) := by
  intro rest
  induction rest with
  | nil =>
    intro entries c E1 c1 h hz _
    simp only [relocateAll, Option.some.injEq, Prod.mk.injEq] at h
    rw [← h.1]
    exact ⟨hz, by simp [occ]⟩
  | cons e rest ih =>
    intro entries c E1 c1 h hz hzr
    unfold relocateAll at h
    cases hr : relocate bitMask e entries.length entries (e.hash &&& bitMask) c with
    | none => rw [hr] at h; simp at h
    | some r =>
      obtain ⟨E0, c0⟩ := r
      rw [hr] at h
      simp only at h
      rcases relocate_weak bitMask e _ _ _ _ _ _ hr with ⟨q, f, hq, hf, hE0⟩
      have hze : e.occupied = false → e = tableEntry.zero :=
        fun ho => hzr e (List.mem_cons_self _ _) ho
      have hz0 : FreeZero E0 := by rw [hE0]; exact FreeZero_set entries q e hz hze
      have hp0 : List.Perm (occ E0) (occ [e] ++ occ entries) := by
        rw [hE0]; exact occ_set_free entries q e f hq hf
      rcases ih E0 c0 E1 c1 h hz0 (fun x hx => hzr x (List.mem_cons_of_mem _ hx)) with
        ⟨hz1, hp1⟩
      refine ⟨hz1, hp1.trans ?_⟩
      have h3 : occ (e :: rest) = occ [e] ++ occ rest := by
        rw [show e :: rest = [e] ++ rest from rfl, occ_append]
      rw [h3]
      have h4 : List.Perm (occ rest ++ (occ [e] ++ occ entries))
          ((occ rest ++ occ [e]) ++ occ entries) := by
        rw [List.append_assoc]
      exact (List.Perm.append_left _ hp0).trans
        (h4.trans (List.Perm.append_right _ List.perm_append_comm))

theorem grow_weak (t t1 : table) (h : t.grow = some t1) (hz : FreeZero t.entries) :
    FreeZero t1.entries ∧ List.Perm (occ t1.entries) (occ t.entries) ∧
      t1.collectIx = t.collectIx ∧ t1.comparables = t.comparables := by
  unfold table.grow at h
  simp only at h
  split at h
  · exact absurd h (by simp)
  · rename_i E1 c1 hr
    simp only [Option.some.injEq] at h
    rcases relocateAll_weak _ _ _ _ _ _ hr (FreeZero_replicate _) hz with ⟨hz1, hp1⟩
    rw [← h]
    refine ⟨hz1, ?_, rfl, rfl⟩
    rw [occ_replicate_zero, List.append_nil] at hp1
    exact hp1

theorem insertNoGrow_weak (t1 t2 : table) (i : Nat) (h : insertNoGrow t1 i = some t2)
    (hz : FreeZero t1.entries) :
    WeakStep t1.collectIx i t1 t2 ∧ FreeZero t2.entries ∧ t2.collectIx = t1.collectIx ∧
      t2.comparables = t1.comparables ∧
      t2.stats.RelocationCount = t1.stats.RelocationCount := by
  unfold insertNoGrow at h
  simp only at h
  split at h
  · exact absurd h (by simp)
  · rename_i pos collisions hp
    split at h
    · exact absurd h (by simp)
    · rename_i dst hd
      simp only [Option.some.injEq] at h
      rcases getElem?_split t1.entries pos dst hd with ⟨l1, l2, hsplit, _, hset⟩
      by_cases hocc : dst.occupied = true
      · cases hb : t1.collectIx with
        | false =>
          have h2 : t2 = { t1 with stats := { t1.stats with InsertCollisions := collisions } } := by
            rw [← h]; simp [updateEntry, hocc, hb]
          rw [h2]
          refine ⟨Or.inr ⟨l1, l2, dst, hsplit, hocc, ?_⟩, hz, hb, rfl, rfl⟩
          simp only [Bool.false_eq_true, if_false]
          exact hsplit
        | true =>
          have h2 : t2 = { t1 with
              stats := { t1.stats with InsertCollisions := collisions }
              entries := t1.entries.set pos { dst with ix := some (members dst ++ [i]) } } := by
            rw [← h]
            unfold updateEntry
            simp only [hocc, hb, Bool.not_true, Bool.false_eq_true, if_false, if_true]
            cases hix : dst.ix with
            | none => simp [members, hix]
            | some ix => simp [members, hix]
          rw [h2]
          refine ⟨Or.inr ⟨l1, l2, dst, hsplit, hocc, ?_⟩, ?_, hb, rfl, rfl⟩
          · simp only [if_true]; exact hset _
          · exact FreeZero_set t1.entries _ _ hz (by simp [hocc])
      · have hocc1 : dst.occupied = false := by simpa using hocc
        have hezero : dst = tableEntry.zero := hz dst (List.getElem?_mem hd) hocc1
        have h2 : t2 = { t1 with
            stats := { t1.stats with InsertCollisions := collisions }
            entries := t1.entries.set pos ⟨none, t1.hash i, i, true⟩
            groupCount := (t1.groupCount + 1) % 2 ^ 32
            loadFactor := float64.div (float64.ofNat ((t1.groupCount + 1) % 2 ^ 32))
              (float64.ofNat t1.entries.length) } := by
          rw [← h]
          unfold updateEntry
          simp [hocc1, hezero, tableEntry.zero]
        rw [h2]
        refine ⟨Or.inl ⟨l1, l2, t1.hash i, ?_, hset _⟩, ?_, rfl, rfl, rfl⟩
        · rw [← hezero]; exact hsplit
        · exact FreeZero_set t1.entries _ _ hz (by simp)

theorem insertEntry_weak (t t2 : table) (i : Nat) (h : t.insertEntry i = some t2)
    (hz : FreeZero t.entries) :
    ∃ t1, (if t.loadFactor.gt maxLoadFactor = true then t.grow = some t1 else t1 = t) ∧
      insertNoGrow t1 i = some t2 ∧
      FreeZero t1.entries ∧ List.Perm (occ t1.entries) (occ t.entries) ∧
      WeakStep t.collectIx i t1 t2 ∧ FreeZero t2.entries ∧ t2.collectIx = t.collectIx ∧
      t2.comparables = t.comparables := by
  unfold table.insertEntry at h
  by_cases hg : t.loadFactor.gt maxLoadFactor = true
  · simp only [hg, if_true] at h
    cases hgr : t.grow with
    | none => rw [hgr] at h; simp at h
    | some t1 =>
      rw [hgr] at h
      simp only at h
      rcases grow_weak t t1 hgr hz with ⟨hz1, hp1, hb1, hc1⟩
      rcases insertNoGrow_weak t1 t2 i h hz1 with ⟨hw, hz2, hb2, hc2, _⟩
      refine ⟨t1, by simp [hg], h, hz1, hp1, ?_, hz2, by rw [hb2, hb1], by rw [hc2, hc1]⟩
      rw [← hb1]; exact hw
  · simp only [hg] at h
    simp only [Bool.false_eq_true, if_false] at h
    rcases insertNoGrow_weak t t2 i h hz with ⟨hw, hz2, hb2, hc2, _⟩
    exact ⟨t, by simp [hg], h, hz, List.Perm.refl _, hw, hz2, hb2, hc2⟩

/-- Induction over an insertion loop that returns, for a table of any size:
every property kept by one insertion holds at the end. -/
theorem insertAll_weak (b : Bool) (Q : List Nat → table → Prop) (hstep : WeakPreserved b Q) :
    ∀ (rest p : List Nat) (t t3 : table), FreeZero t.entries → t.collectIx = b → Q p t →
      insertAll t rest = some t3 →
      FreeZero t3.entries ∧ t3.collectIx = b ∧ Q (p ++ rest) t3 := by
  intro rest
  induction rest with
  | nil =>
    intro p t t3 hz hb hq h
    simp only [insertAll, Option.some.injEq] at h
    subst h
    exact ⟨hz, hb, by simpa using hq⟩
  | cons i rest ih =>
    intro p t t3 hz hb hq h
    unfold insertAll at h
    cases hie : t.insertEntry i with
    | none => rw [hie] at h; simp at h
    | some t2 =>
      rw [hie] at h
      simp only at h
      rcases insertEntry_weak t t2 i hie hz with ⟨t1, _, _, hz1, hp1, hw, hz2, hb2, _⟩
      rw [hb] at hw
      have hq2 := hstep p i t t1 t2 hz hq hp1 hz1 hw
      rcases ih (p ++ [i]) t2 t3 hz2 (by rw [hb2, hb]) hq2 h with ⟨h3, h4, h5⟩
      refine ⟨h3, h4, ?_⟩
      simpa using h5

theorem GroupBy_weak_run (cs : List Comparable) (ix : List Nat) (groups : List (List Nat))
    (stats : GroupStats) (h : GroupBy ix cs = some (groups, stats))
    (Q : List Nat → table → Prop)
    (h0 : Q [] (newTable (calculateInitialSizeExp ix.length) cs true))
    (hstep : WeakPreserved true Q) :
    ∃ t, insertAll (newTable (calculateInitialSizeExp ix.length) cs true) ix = some t ∧
      groups = groupsOf t.entries ∧ stats = finalStats t ∧ FreeZero t.entries ∧ Q ix t := by
  unfold GroupBy groupIndex at h
  simp only at h
  cases hr : insertAll (newTable (calculateInitialSizeExp ix.length) cs true) ix with
  | none => rw [hr] at h; simp at h
  | some t =>
    rw [hr] at h
    simp only [Option.some.injEq, Prod.mk.injEq] at h
    rcases insertAll_weak true Q hstep ix [] _ t (by
        simp only [newTable]; exact FreeZero_replicate _) rfl h0 hr with ⟨hz, _, hq⟩
    refine ⟨t, rfl, ?_, ?_, hz, by simpa using hq⟩
    · rw [← h.1, collectGroups_eq]; simp
    · rw [← h.2]; rfl

end grouper

namespace grouper

open column

/-! ### Size-independent invariants -/

theorem flatten_groups_weak :
    WeakPreserved true (fun p t => List.Perm (groupsOf t.entries).flatten p) := by
  intro p i t t1 t2 _ hq hperm _ hst
  have h1 : List.Perm (groupsOf t1.entries).flatten p :=
    (groupsOf_perm _ _ hperm).flatten.trans hq
  rcases hst with ⟨l1, l2, hsh, he1, he2⟩ | ⟨l1, l2, old, he1, hocc, he2⟩
  · rw [he1, groupsOf_append, groupsOf_cons_free _ _ (by simp [tableEntry.zero])] at h1
    rw [he2, groupsOf_append, groupsOf_cons_occupied _ _ (by simp)]
    simp only [List.flatten_append, List.flatten_cons, members] at h1 ⊢
    have h2 : List.Perm ((groupsOf l1).flatten ++ ([i] ++ (groupsOf l2).flatten))
        (((groupsOf l1).flatten ++ (groupsOf l2).flatten) ++ [i]) := by
      rw [List.append_assoc]
      exact List.Perm.append_left _ List.perm_append_comm
    exact h2.trans (List.Perm.append_right _ h1)
  · rw [he1, groupsOf_append, groupsOf_cons_occupied _ _ hocc] at h1
    rw [he2, groupsOf_append, groupsOf_cons_occupied _ _ (by simp [hocc])]
    simp only [List.flatten_append, List.flatten_cons, members, if_true] at h1 ⊢
    have h2 : List.Perm ((groupsOf l1).flatten ++ ((members old ++ [i])
          ++ (groupsOf l2).flatten))
        (((groupsOf l1).flatten ++ (members old ++ (groupsOf l2).flatten)) ++ [i]) := by
      rw [List.append_assoc, List.append_assoc, List.append_assoc]
      exact List.Perm.append_left _ (List.Perm.append_left _ List.perm_append_comm)
    exact h2.trans (List.Perm.append_right _ h1)

theorem labelled_weak : WeakPreserved true Labelled := by
  intro p i t t1 t2 _ hq hperm _ hst
  rcases hq with ⟨lab, ids0, hlen, hnd0, hmem0, hlt0, hf0⟩
  rcases List.perm_comp_forall₂ hperm hf0 with ⟨ids, hf, hpi⟩
  have hnd : ids.Nodup := hpi.nodup_iff.2 hnd0
  have hmem : ∀ k, k ∈ lab ↔ k ∈ ids := fun k => (hmem0 k).trans hpi.mem_iff.symm
  have hlt : ∀ k ∈ ids, k < p.length := fun k hk => hlt0 k (hpi.mem_iff.1 hk)
  rcases hst with ⟨l1, l2, hsh, he1, he2⟩ | ⟨l1, l2, old, he1, hocc, he2⟩
  · -- a new group, labelled with the position of its first row
    rw [he1, occ_append, occ_cons_free _ _ (by simp [tableEntry.zero])] at hf
    rcases forall₂_split_left _ _ _ _ hf with ⟨ids1, ids2, hids, hf1, hf2⟩
    have hfresh : p.length ∉ ids := fun h => Nat.lt_irrefl _ (hlt _ h)
    have hfresh1 : p.length ∉ ids1 := fun h => hfresh (by rw [hids]; simp [h])
    have hfresh2 : p.length ∉ ids2 := fun h => hfresh (by rw [hids]; simp [h])
    refine ⟨lab ++ [p.length], ids1 ++ p.length :: ids2, by simp [hlen], ?_, ?_, ?_, ?_⟩
    · rw [hids] at hnd
      rw [List.nodup_append] at hnd ⊢
      refine ⟨hnd.1, List.nodup_cons.2 ⟨hfresh2, hnd.2.1⟩, ?_⟩
      intro a h1 h2
      rcases List.mem_cons.1 h2 with h3 | h3
      · exact hfresh1 (h3 ▸ h1)
      · exact hnd.2.2 h1 h3
    · intro k
      have := hmem k
      rw [hids] at this
      simp only [List.mem_append, List.mem_cons, List.mem_singleton, List.not_mem_nil,
        or_false] at this ⊢
      tauto
    · intro k hk
      have h1 : k ∈ ids ∨ k = p.length := by
        rw [hids]
        simp only [List.mem_append, List.mem_cons] at hk ⊢
        tauto
      simp only [List.length_append, List.length_singleton]
      rcases h1 with h1 | h1
      · have := hlt k h1; omega
      · omega
    · rw [he2, occ_append, occ_cons_occupied _ _ (by simp)]
      refine forall₂_join _ _ _ _ _ (forall₂_assigned_extend lab p _ i hlen _ _ hf1 hfresh1)
        (List.Forall₂.cons ?_ (forall₂_assigned_extend lab p _ i hlen _ _ hf2 hfresh2))
      rw [assigned_append _ _ _ _ _ hlen, if_pos rfl,
        assigned_eq_nil lab p _ (fun h => hfresh ((hmem _).1 h))]
      rfl
  · -- the row joins the group of the entry found
    rw [he1, occ_append, occ_cons_occupied _ _ hocc] at hf
    rcases forall₂_split_left _ _ _ _ hf with ⟨ids1, ids2', hids, hf1, hf2'⟩
    cases hf2' with
    | cons hold hf2 =>
      rename_i k ids2
      rw [hids] at hnd
      have hk1 : k ∉ ids1 := by
        intro h
        exact (List.nodup_append.1 hnd).2.2 h (List.mem_cons_self _ _)
      have hk2 : k ∉ ids2 := (List.nodup_cons.1 (List.nodup_append.1 hnd).2.1).1
      refine ⟨lab ++ [k], ids, by simp [hlen], by rw [hids]; exact hnd, ?_, ?_, ?_⟩
      · intro j
        have := hmem j
        have hk : k ∈ ids := by rw [hids]; simp
        simp only [List.mem_append, List.mem_singleton]
        constructor
        · rintro (h | h)
          · exact this.1 h
          · exact h ▸ hk
        · intro h; exact Or.inl (this.2 h)
      · intro j hj
        have := hlt j hj
        simp only [List.length_append, List.length_singleton]
        omega
      · rw [he2, occ_append, occ_cons_occupied _ _ (by simp [hocc]), hids]
        refine forall₂_join _ _ _ _ _ (forall₂_assigned_extend lab p _ i hlen _ _ hf1 hk1)
          (List.Forall₂.cons ?_ (forall₂_assigned_extend lab p _ i hlen _ _ hf2 hk2))
        rw [assigned_append _ _ _ _ _ hlen, if_pos rfl, ← hold]
        simp [members]

theorem headFirst_weak (b : Bool) : WeakPreserved b HeadFirst := by
  intro p i t t1 t2 _ hq hperm _ hst
  have hq1 : ∀ e ∈ occ t1.entries, e.ix = none ∨ ∃ x rest, e.ix = some (e.firstPos :: x :: rest) :=
    fun e he => hq e (hperm.mem_iff.1 he)
  rcases hst with ⟨l1, l2, hsh, he1, he2⟩ | ⟨l1, l2, old, he1, hocc, he2⟩
  · intro e he
    rw [he2, occ_append, occ_cons_occupied _ _ (by simp)] at he
    rw [he1, occ_append, occ_cons_free _ _ (by simp [tableEntry.zero])] at hq1
    rcases List.mem_append.1 he with h | h
    · exact hq1 e (List.mem_append_left _ h)
    · rcases List.mem_cons.1 h with h | h
      · subst h; exact Or.inl rfl
      · exact hq1 e (List.mem_append_right _ h)
  · intro e he
    rw [he2, occ_append, occ_cons_occupied _ _ (by cases b <;> simp [hocc])] at he
    rw [he1, occ_append, occ_cons_occupied _ _ hocc] at hq1
    rcases List.mem_append.1 he with h | h
    · exact hq1 e (List.mem_append_left _ h)
    · rcases List.mem_cons.1 h with h | h
      · subst h
        have hold := hq1 old (by simp)
        cases b
        · simpa using hold
        · rcases hold with h0 | ⟨x, rest, h0⟩
          · exact Or.inr ⟨i, [], by simp [members, h0]⟩
          · exact Or.inr ⟨x, rest ++ [i], by simp [members, h0]⟩
      · exact hq1 e (List.mem_append_right _ (List.mem_cons_of_mem _ h))

theorem noIx_weak : WeakPreserved false NoIx := by
  intro p i t t1 t2 _ hq hperm hz1 hst
  have hq1 : ∀ e ∈ t1.entries, e.ix = none := by
    intro e he
    by_cases ho : e.occupied = true
    · have h1 : e ∈ occ t.entries := hperm.mem_iff.1 (mem_occ.2 ⟨he, ho⟩)
      exact hq e (mem_occ.1 h1).1
    · have h2 := hz1 e he (by simpa using ho)
      rw [h2]
      rfl
  rcases hst with ⟨l1, l2, hsh, he1, he2⟩ | ⟨l1, l2, old, he1, _, he2⟩
  · intro e he
    rw [he2] at he
    rw [he1] at hq1
    rcases List.mem_append.1 he with h | h
    · exact hq1 e (List.mem_append_left _ h)
    · rcases List.mem_cons.1 h with h | h
      · subst h; rfl
      · exact hq1 e (List.mem_append_right _ (List.mem_cons_of_mem _ h))
  · intro e he
    rw [he2] at he
    simp only [Bool.false_eq_true, if_false] at he
    rw [← he1] at he
    exact hq1 e he

end grouper

namespace grouper

open column

/-! ### One row beyond `2 ^ 30`: the last insertion that cannot wrap -/

theorem growCheck_spec_le (cs : List Comparable) (b : Bool) (n : Nat) (t : table)
    (hinv : Inv cs b n t) (hn : n ≤ 2 ^ 30) :
    ∃ t1, (if t.loadFactor.gt maxLoadFactor = true then t.grow = some t1 else t1 = t) ∧
      Inv cs b n t1 ∧ 2 * t1.groupCount ≤ t1.entries.length ∧
      List.Perm (occ t1.entries) (occ t.entries) ∧ t1.groupCount = t.groupCount := by
  rcases hinv.len with ⟨k, hk3, hk31, hlen⟩
  have hL : 0 < t.entries.length := by rw [hlen]; exact Nat.two_pow_pos k
  have hgt : (t.loadFactor.gt maxLoadFactor = true) ↔ t.entries.length < 2 * t.groupCount := by
    rw [float64.gt, maxLoadFactor, decide_eq_true_iff]
    exact gt_half_iff _ _ _ _ hinv.load hinv.den hL
  by_cases hg : t.loadFactor.gt maxLoadFactor = true
  · have h1 : t.entries.length < 2 * t.groupCount := hgt.1 hg
    have h2 : 2 ^ k < 2 ^ 31 := by
      have := hinv.rows
      have h30 : (2 : Nat) ^ 31 = 2 * 2 ^ 30 := by decide
      omega
    have hk : k < 31 := pow_two_lt_imp k 31 h2
    rcases grow_spec t k hk hlen hinv.freeZero with ⟨E1, c1, hgrow, hlen1, hc1, hz1, hp1⟩
    refine ⟨{ t with
        entries := E1
        stats := { t.stats with
          RelocationCollisions := c1
          RelocationCount := t.stats.RelocationCount + 1 }
        loadFactor := float64.div t.loadFactor (float64.ofNat growthFactor) },
      ?_, ?_, ?_, ?_, ?_⟩
    · simp only [hg, if_true]; exact hgrow
    · refine ⟨hinv.comparables, hinv.collectIx, ⟨k + 1, by omega, by omega, hlen1⟩, ?_, ?_, ?_,
        ?_, hinv.rows, hc1, hz1⟩
      · show t.groupCount = (occ E1).length
        rw [hp1.length_eq]; exact hinv.count
      · show (float64.div t.loadFactor (float64.ofNat growthFactor)).num * E1.length
          = t.groupCount * (float64.div t.loadFactor (float64.ofNat growthFactor)).den
        have := hinv.load
        simp only [float64.div, float64.ofNat, growthFactor, hlen1, Nat.pow_succ]
        rw [hlen] at this
        nlinarith
      · show 0 < (float64.div t.loadFactor (float64.ofNat growthFactor)).den
        have := hinv.den
        simp only [float64.div, float64.ofNat, growthFactor]
        omega
      · show 2 * t.groupCount ≤ E1.length + 2
        have := hinv.half
        have h8 : 2 ^ 3 ≤ 2 ^ k := Nat.pow_le_pow_right (by decide) hk3
        rw [hlen1, Nat.pow_succ]
        omega
    · show 2 * t.groupCount ≤ E1.length
      have := hinv.half
      have h8 : 2 ^ 3 ≤ 2 ^ k := Nat.pow_le_pow_right (by decide) hk3
      rw [hlen1, Nat.pow_succ]
      omega
    · exact hp1
    · rfl
  · refine ⟨t, ?_, hinv, ?_, List.Perm.refl _, rfl⟩
    · simp only [hg]; simp
    · have : ¬ t.entries.length < 2 * t.groupCount := fun h => hg (hgt.2 h)
      omega

theorem insertEntry_spec_le (cs : List Comparable) (b : Bool) (n : Nat) (t : table) (i : Nat)
    (hinv : Inv cs b n t) (hn : n ≤ 2 ^ 30) :
    ∃ t1 t2, (if t.loadFactor.gt maxLoadFactor = true then t.grow = some t1 else t1 = t) ∧
      insertNoGrow t1 i = some t2 ∧ t.insertEntry i = some t2 ∧
      Inv cs b n t1 ∧ List.Perm (occ t1.entries) (occ t.entries) ∧
      (StepNew cs i t1 t2 ∨ StepOld cs b i t1 t2) ∧ Inv cs b (n + 1) t2 := by
  rcases growCheck_spec_le cs b n t hinv hn with ⟨t1, hgrow, hinv1, hhalf, hperm, hgc⟩
  rcases hinv1.len with ⟨k, hk3, hk31, hlen⟩
  have h8 : 2 ^ 3 ≤ 2 ^ k := Nat.pow_le_pow_right (by decide) hk3
  have hfree : (occ t1.entries).length < t1.entries.length := by
    rw [← hinv1.count]; omega
  rcases insertNoGrow_spec cs b t1 i k hinv1.comparables hinv1.collectIx hk31 hlen
      hinv1.chain hinv1.freeZero hfree with ⟨t2, hins, hstep, hcs2, hb2, hlen2, hc2, hz2⟩
  have hrows := hinv1.rows
  refine ⟨t1, t2, hgrow, hins, ?_, hinv1, hperm, hstep, ?_⟩
  · unfold table.insertEntry
    by_cases hg : t.loadFactor.gt maxLoadFactor = true
    · simp only [hg, if_true] at hgrow ⊢
      simp only [hgrow, hins]
    · simp only [hg] at hgrow ⊢
      simp only [Bool.false_eq_true, if_false] at hgrow ⊢
      subst hgrow
      exact hins
  · rcases hstep with ⟨l1, l2, d, he1, he2, _, _, _, hgc2, hlf2, _⟩ |
      ⟨l1, l2, old, d, he1, hocc, _, _, he2, hgc2, hlf2, _⟩
    · have hmod : (t1.groupCount + 1) % 2 ^ 32 = t1.groupCount + 1 := by
        apply Nat.mod_eq_of_lt
        have : (2 : Nat) ^ 30 < 2 ^ 32 := by decide
        omega
      rw [hmod] at hgc2 hlf2
      refine ⟨hcs2, hb2, ⟨k, hk3, hk31, by rw [hlen2, hlen]⟩, ?_, ?_, ?_, ?_, ?_, hc2, hz2⟩
      · rw [hgc2, hinv1.count, he1, he2]
        simp [occ, tableEntry.zero]
        omega
      · rw [hlf2, hgc2, hlen2]
        simp only [float64.div, float64.ofNat]
        ring
      · rw [hlf2]
        simp only [float64.div, float64.ofNat]
        omega
      · rw [hgc2, hlen2]; omega
      · rw [hgc2]; omega
    · refine ⟨hcs2, hb2, ⟨k, hk3, hk31, by rw [hlen2, hlen]⟩, ?_, ?_, ?_, ?_, ?_, hc2, hz2⟩
      · rw [hgc2, hinv1.count, he1, he2]
        cases b <;> simp [occ, hocc]
      · rw [hlf2, hgc2, hlen2]; exact hinv1.load
      · rw [hlf2]; exact hinv1.den
      · rw [hgc2, hlen2]; omega
      · rw [hgc2]; omega

theorem insertAll_invariant_le (cs : List Comparable) (b : Bool)
    (Q : List Nat → table → Prop)
    (hstep : ∀ (p : List Nat) (i n : Nat) (t t1 t2 : table),
      Inv cs b n t → n = p.length → Q p t →
      (if t.loadFactor.gt maxLoadFactor = true then t.grow = some t1 else t1 = t) →
      Inv cs b n t1 → List.Perm (occ t1.entries) (occ t.entries) →
      insertNoGrow t1 i = some t2 →
      (StepNew cs i t1 t2 ∨ StepOld cs b i t1 t2) → Inv cs b (n + 1) t2 →
      Q (p ++ [i]) t2) :
    ∀ (rest p : List Nat) (n : Nat) (t : table), Inv cs b n t → n = p.length →
      n + rest.length ≤ 2 ^ 30 + 1 → Q p t →
      ∃ t3, insertAll t rest = some t3 ∧ Inv cs b (n + rest.length) t3 ∧ Q (p ++ rest) t3 := by
  intro rest
  induction rest with
  | nil =>
    intro p n t hinv _ _ hq
    exact ⟨t, rfl, by simpa using hinv, by simpa using hq⟩
  | cons i rest ih =>
    intro p n t hinv hp hn hq
    simp only [List.length_cons] at hn
    rcases insertEntry_spec_le cs b n t i hinv (by omega) with
      ⟨t1, t2, hgrow, hins, hie, hinv1, hperm, hst, hinv2⟩
    have hq2 := hstep p i n t t1 t2 hinv hp hq hgrow hinv1 hperm hins hst hinv2
    rcases ih (p ++ [i]) (n + 1) t2 hinv2 (by simp [hp]) (by omega) hq2 with
      ⟨t3, h3, hinv3, hq3⟩
    refine ⟨t3, ?_, ?_, ?_⟩
    · unfold insertAll
      rw [hie]
      exact h3
    · have : n + (i :: rest).length = n + 1 + rest.length := by
        simp only [List.length_cons]; omega
      rw [this]; exact hinv3
    · simpa using hq3

end grouper

namespace grouper

open column

/-! ### The table length wraps in `grow` -/

theorem equals_rowComparable (i j : Nat) :
    equals [rowComparable] i j = decide (i = j) := by
  simp only [equals, rowComparable]
  by_cases h : i = j
  · simp [h]
  · by_cases h1 : i < j <;> simp [h, h1]

theorem rowComparable_keyLaws : KeyLaws [rowComparable] := by
  refine ⟨?_, ?_, ?_, ?_⟩
  · intro a; simp [equals_rowComparable]
  · intro a b h
    simp only [equals_rowComparable, decide_eq_true_eq] at h ⊢
    exact h.symm
  · intro a b c h1 h2
    simp only [equals_rowComparable, decide_eq_true_eq] at h1 h2 ⊢
    exact h1.trans h2
  · intro a b h
    simp only [equals_rowComparable, decide_eq_true_eq] at h
    rw [h]

/-- Growing a table of `2 ^ 31` entries fails: the new length `uint32(2 * 2 ^ 31)`
is zero, and the first reinsertion indexes the empty new table. -/
theorem grow_none_of_length (t : table) (h : t.entries.length = 2 ^ 31) : t.grow = none := by
  have hnew : growthFactor * t.entries.length % 2 ^ 32 = 0 := by
    rw [h]; decide
  unfold table.grow
  simp only [hnew]
  cases hE : t.entries with
  | nil =>
    rw [hE] at h
    exact absurd h (by decide)
  | cons e es =>
    simp [relocateAll, relocate]

/-- A run that inserts `2 ^ 30 + 1` rows with pairwise different keys into a
table created with `2 ^ sizeExp` entries (`3 ≤ sizeExp ≤ 31`) returns a table of
`2 ^ 31` entries whose load factor exceeds the maximum, and inserting any
further row fails in `grow`. -/
theorem insertAll_wrap (cs : List Comparable) (hk : KeyLaws cs) (b : Bool) (sizeExp : Nat)
    (h3 : 3 ≤ sizeExp) (h31 : sizeExp ≤ 31) (p : List Nat)
    (hpw : p.Pairwise (fun a c => equals cs a c = false)) (hplen : p.length = 2 ^ 30 + 1) :
    ∃ t, insertAll (newTable sizeExp cs b) p = some t ∧
      t.entries.length = 2 ^ 31 ∧ (occ t.entries).length = 2 ^ 30 + 1 ∧
      t.loadFactor.gt maxLoadFactor = true ∧ t.grow = none ∧
      ∀ (last : Nat) (rest : List Nat),
        t.insertEntry last = none ∧ insertAll (newTable sizeExp cs b) (p ++ last :: rest) = none := by
  rcases insertAll_invariant_le cs b
      (fun q t => ∀ a ∈ q, ∃ e ∈ occ t.entries, equals cs a e.firstPos = true)
      (by
        intro q i n t t1 t2 _ _ hq _ _ hperm _ hst _ a ha
        have hq1 : ∀ a ∈ q, ∃ e ∈ occ t1.entries, equals cs a e.firstPos = true := by
          intro a ha
          rcases hq a ha with ⟨e, he, hae⟩
          exact ⟨e, hperm.mem_iff.2 he, hae⟩
        rcases hst with ⟨l1, l2, d, he1, he2, _⟩ |
          ⟨l1, l2, old, d, he1, hocc, _, heq, he2, _⟩
        · have hsub : ∀ e ∈ occ t1.entries, e ∈ occ t2.entries := by
            intro e he
            rw [he1, occ_append, occ_cons_free _ _ (by simp [tableEntry.zero])] at he
            rw [he2, occ_append, occ_cons_occupied _ _ (by simp)]
            rcases List.mem_append.1 he with h | h
            · exact List.mem_append_left _ h
            · exact List.mem_append_right _ (List.mem_cons_of_mem _ h)
          rcases List.mem_append.1 ha with h | h
          · rcases hq1 a h with ⟨e, he, hae⟩
            exact ⟨e, hsub e he, hae⟩
          · simp only [List.mem_singleton] at h
            subst h
            refine ⟨⟨none, hashOf cs a, a, true⟩, ?_, hk.refl a⟩
            rw [he2, occ_append, occ_cons_occupied _ _ (by simp)]
            simp
        · have hkeep : ∀ e ∈ occ t1.entries, ∃ e1 ∈ occ t2.entries, e1.firstPos = e.firstPos := by
            intro e he
            rw [he1, occ_append, occ_cons_occupied _ _ hocc] at he
            rw [he2, occ_append, occ_cons_occupied _ _ (by cases b <;> simp [hocc])]
            rcases List.mem_append.1 he with h | h
            · exact ⟨e, List.mem_append_left _ h, rfl⟩
            · rcases List.mem_cons.1 h with h | h
              · subst h
                exact ⟨_, List.mem_append_right _ (List.mem_cons_self _ _), by cases b <;> rfl⟩
              · exact ⟨e, List.mem_append_right _ (List.mem_cons_of_mem _ h), rfl⟩
          rcases List.mem_append.1 ha with h | h
          · rcases hq1 a h with ⟨e, he, hae⟩
            rcases hkeep e he with ⟨e1, he1', hfp⟩
            exact ⟨e1, he1', by rw [hfp]; exact hae⟩
          · simp only [List.mem_singleton] at h
            subst h
            have hold : old ∈ occ t1.entries := by
              rw [he1, occ_append, occ_cons_occupied _ _ hocc]; simp
            rcases hkeep old hold with ⟨e1, he1', hfp⟩
            exact ⟨e1, he1', by rw [hfp]; exact heq⟩)
      p [] 0 (newTable sizeExp cs b) (newTable_inv_sized cs b sizeExp h3 h31) rfl
      (by rw [hplen]; omega) (by intro a ha; simp at ha) with ⟨t, hrun, hinv, hcov⟩
  simp only [List.nil_append, Nat.zero_add] at hinv hcov
  have hcount : p.length ≤ (occ t.entries).length := by
    have h1 := length_le_of_cover cs hk p ((occ t.entries).map (fun e => e.firstPos)) hpw (by
      intro r hr
      rcases hcov r hr with ⟨e, he, hre⟩
      exact ⟨e.firstPos, List.mem_map.2 ⟨e, he, rfl⟩, hre⟩)
    simpa using h1
  have hocc : (occ t.entries).length = 2 ^ 30 + 1 := by
    have h1 := hinv.rows
    have h2 := hinv.count
    omega
  rcases hinv.len with ⟨k, _, hk31, hlen⟩
  have hL : t.entries.length = 2 ^ 31 := by
    have h1 := hinv.half
    have h2 := hinv.count
    have h4 : 2 ^ k ≤ 2 ^ 31 := Nat.pow_le_pow_right (by decide) hk31
    have h5 : (2 : Nat) ^ 31 = 2 * 2 ^ 30 := by decide
    omega
  have hgt : t.loadFactor.gt maxLoadFactor = true := by
    rw [float64.gt, maxLoadFactor, decide_eq_true_iff]
    apply (gt_half_iff _ _ _ _ hinv.load hinv.den (by rw [hL]; exact Nat.two_pow_pos _)).2
    have h2 := hinv.count
    have h5 : (2 : Nat) ^ 31 = 2 * 2 ^ 30 := by decide
    omega
  have hgrow := grow_none_of_length t hL
  refine ⟨t, hrun, hL, hocc, hgt, hgrow, ?_⟩
  intro last rest
  have hie : t.insertEntry last = none := by
    unfold table.insertEntry
    simp only [hgt, if_true, hgrow]
  refine ⟨hie, ?_⟩
  rw [insertAll_append, hrun]
  show insertAll t (last :: rest) = none
  simp only [insertAll, hie]

end grouper

namespace grouper

open column

/-! ### Grouping `2 ^ 30 + 2` rows with pairwise different keys -/

theorem calculateInitialSizeExp_overflow : calculateInitialSizeExp (2 ^ 30 + 2) = 29 := by
  decide

theorem pairwise_rowComparable (p : List Nat) (h : p.Nodup) :
    p.Pairwise (fun a c => equals [rowComparable] a c = false) := by
  refine List.Pairwise.imp ?_ h
  intro a c hac
  rw [equals_rowComparable]
  simpa using hac

/-- Grouping any index of `2 ^ 30 + 2` pairwise different rows by row value
fails: the insertion of the last row grows a table of `2 ^ 31` entries. -/
theorem groupIndex_wrap (b : Bool) (ix : List Nat) (hnd : ix.Nodup)
    (hlen : ix.length = 2 ^ 30 + 2) :
    ∃ (p : List Nat) (last : Nat) (t : table), ix = p ++ [last] ∧
      insertAll (newTable (calculateInitialSizeExp ix.length) [rowComparable] b) p = some t ∧
      t.entries.length = 2 ^ 31 ∧ (occ t.entries).length = 2 ^ 30 + 1 ∧
      t.loadFactor.gt maxLoadFactor = true ∧ t.grow = none ∧ t.insertEntry last = none ∧
      groupIndex ix [rowComparable] b = none := by
  have hne : ix ≠ [] := by
    intro h
    rw [h] at hlen
    exact absurd hlen (by decide)
  have hsplit : ix = ix.dropLast ++ [ix.getLast hne] := (List.dropLast_append_getLast hne).symm
  have hplen : ix.dropLast.length = 2 ^ 30 + 1 := by
    rw [List.length_dropLast, hlen]
    rfl
  have hpnd : ix.dropLast.Nodup := (List.dropLast_sublist ix).nodup hnd
  have hexp : calculateInitialSizeExp ix.length = 29 := by
    rw [hlen]; exact calculateInitialSizeExp_overflow
  rcases insertAll_wrap [rowComparable] rowComparable_keyLaws b 29 (by decide) (by decide)
      ix.dropLast (pairwise_rowComparable _ hpnd) hplen with ⟨t, hrun, hL, hocc, hgt, hgrow, hall⟩
  rcases hall (ix.getLast hne) [] with ⟨hie, hnone⟩
  refine ⟨ix.dropLast, ix.getLast hne, t, hsplit, by rw [hexp]; exact hrun, hL, hocc, hgt,
    hgrow, hie, ?_⟩
  unfold groupIndex
  simp only [hexp]
  rw [← hsplit] at hnone
  rw [hnone]

theorem overflowIndex_length : overflowIndex.length = 2 ^ 30 + 2 := List.length_range _

theorem overflowIndex_nodup : overflowIndex.Nodup := List.nodup_range _

theorem groupIndex_overflowIndex (b : Bool) :
    groupIndex overflowIndex [rowComparable] b = none := by
  rcases groupIndex_wrap b overflowIndex overflowIndex_nodup overflowIndex_length with
    ⟨_, _, _, _, _, _, _, _, _, _, h⟩
  exact h

theorem GroupBy_none_of_groupIndex (ix : List Nat) (cs : List Comparable)
    (h : groupIndex ix cs true = none) : GroupBy ix cs = none := by
  unfold GroupBy
  rw [h]

theorem Distinct_none_of_groupIndex (ix : List Nat) (cs : List Comparable)
    (h : groupIndex ix cs false = none) : Distinct ix cs = none := by
  unfold Distinct
  rw [h]

end grouper

namespace grouper

open column

/-! ### The claims about `GroupBy` at the index of `2 ^ 30 + 2` different rows -/

/-- C1 (the code at the failing input): for the column whose value at row `i`
is `i`, equality is an equivalence relation consistent with the hash and every
row of the index `0, ..., 2 ^ 30 + 1` compares `Equal` with itself, yet
`GroupBy` returns no groups for this index, so that no row is placed in a
group with itself: the last insertion fails in `grow`. -/
theorem GroupBy_overflow_equal_rows_ungrouped :
    KeyLaws [rowComparable] ∧
    overflowIndex.length = 2 ^ 30 + 2 ∧
    (∀ a ∈ overflowIndex, equals [rowComparable] a a = true) ∧
    GroupBy overflowIndex [rowComparable] = none ∧
    ¬ ∃ groups stats, GroupBy overflowIndex [rowComparable] = some (groups, stats) ∧
      ∃ g ∈ groups, 0 ∈ g := by
  have h := GroupBy_none_of_groupIndex _ _ (groupIndex_overflowIndex true)
  refine ⟨rowComparable_keyLaws, overflowIndex_length, ?_, h, ?_⟩
  · intro a _
    exact rowComparable_keyLaws.refl a
  · rintro ⟨groups, stats, hg, _⟩
    rw [h] at hg
    cases hg

/-- C2 (the code at the failing input): `GroupBy` of the index
`0, ..., 2 ^ 30 + 1` by row value returns no groups, so that there are no
groups whose concatenation is a permutation of the index and whose sizes sum to
its length `2 ^ 30 + 2`. -/
theorem GroupBy_overflow_no_partition :
    overflowIndex.length = 2 ^ 30 + 2 ∧
    GroupBy overflowIndex [rowComparable] = none ∧
    ¬ ∃ groups stats, GroupBy overflowIndex [rowComparable] = some (groups, stats) ∧
      List.Perm groups.flatten overflowIndex ∧
      (groups.map List.length).sum = overflowIndex.length := by
  have h := GroupBy_none_of_groupIndex _ _ (groupIndex_overflowIndex true)
  refine ⟨overflowIndex_length, h, ?_⟩
  rintro ⟨groups, stats, hg, _⟩
  rw [h] at hg
  cases hg

/-- C3 (the code at the failing input): for the index `0, ..., 2 ^ 30 + 1`
grouped by row value, neither `Distinct` nor `GroupBy` returns: there is no
list of distinct rows, no list of groups and no `GroupCount` to compare, while
the index has `2 ^ 30 + 2` pairwise different keys. -/
theorem GroupBy_Distinct_overflow_no_counts :
    overflowIndex.Nodup ∧ overflowIndex.length = 2 ^ 30 + 2 ∧
    Distinct overflowIndex [rowComparable] = none ∧
    GroupBy overflowIndex [rowComparable] = none := by
  exact ⟨overflowIndex_nodup, overflowIndex_length,
    Distinct_none_of_groupIndex _ _ (groupIndex_overflowIndex false),
    GroupBy_none_of_groupIndex _ _ (groupIndex_overflowIndex true)⟩

/-- C13 (the code at the failing input): for the index `0, ..., 2 ^ 30 + 1`
grouped by row value, the run on the table of the default initial capacity
(`2 ^ 29` entries) returns neither groups nor a group count: it fails when the
table, grown to `2 ^ 31` entries, has to grow again. -/
theorem GroupBy_overflow_default_run_fails :
    KeyLaws [rowComparable] ∧
    initialCapacity overflowIndex.length = 2 ^ 29 ∧
    GroupBy overflowIndex [rowComparable] = none ∧
    ∃ (p : List Nat) (last : Nat) (t : table), overflowIndex = p ++ [last] ∧
      insertAll (newTable (calculateInitialSizeExp overflowIndex.length) [rowComparable] true) p
        = some t ∧
      t.entries.length = 2 ^ 31 ∧ t.grow = none := by
  rcases groupIndex_wrap true overflowIndex overflowIndex_nodup overflowIndex_length with
    ⟨p, last, t, hsplit, hrun, hL, _, _, hgrow, _, h⟩
  refine ⟨rowComparable_keyLaws, ?_, GroupBy_none_of_groupIndex _ _ h,
    p, last, t, hsplit, hrun, hL, hgrow⟩
  rw [overflowIndex_length]
  show (List.replicate (integer.Pow2 (calculateInitialSizeExp (2 ^ 30 + 2)))
    tableEntry.zero).length = 2 ^ 29
  rw [List.length_replicate, calculateInitialSizeExp_overflow]
  rfl

/-- C19 (the code at the failing input): for the index `0, ..., 2 ^ 30 + 1`
grouped by row value, with or without member collection, grouping returns no
statistics: before the last row the table has `2 ^ 31` entries, `2 ^ 30 + 1` of
them occupied; the length computed for the grown table is `0`, which is not
twice the old length, and `grow` fails before the load factor is halved. -/
theorem groupIndex_overflow_no_stats (collectIx : Bool) :
    groupIndex overflowIndex [rowComparable] collectIx = none ∧
    ∃ (p : List Nat) (last : Nat) (t : table), overflowIndex = p ++ [last] ∧
      insertAll (newTable (calculateInitialSizeExp overflowIndex.length) [rowComparable]
        collectIx) p = some t ∧
      t.entries.length = 2 ^ 31 ∧ (occ t.entries).length = 2 ^ 30 + 1 ∧
      growthFactor * t.entries.length % 2 ^ 32 = 0 ∧
      t.grow = none := by
  rcases groupIndex_wrap collectIx overflowIndex overflowIndex_nodup overflowIndex_length with
    ⟨p, last, t, hsplit, hrun, hL, hocc, _, hgrow, _, h⟩
  refine ⟨h, p, last, t, hsplit, hrun, hL, hocc, ?_, hgrow⟩
  rw [hL]
  decide

/-- C21 (the code at the failing input): for the index `0, ..., 2 ^ 30 + 1`
grouped by row value, with or without member collection, the insertion of the
last row does not return: the table has `2 ^ 31` entries, more than half of
them occupied, so that it must grow; the table allocated by `grow` has length
`0` instead of `2 ^ 32`, and the reinsertion loop for the first entry finds no
slot in it. -/
theorem insertEntry_overflow_grow_fails (collectIx : Bool) :
    ∃ (p : List Nat) (last : Nat) (t : table), overflowIndex = p ++ [last] ∧
      insertAll (newTable (calculateInitialSizeExp overflowIndex.length) [rowComparable]
        collectIx) p = some t ∧
      t.entries.length = 2 ^ 31 ∧
      t.entries.length < 2 * (occ t.entries).length ∧
      t.loadFactor.gt maxLoadFactor = true ∧
      List.replicate (growthFactor * t.entries.length % 2 ^ 32) tableEntry.zero = [] ∧
      (∀ (e : tableEntry) (bitMask pos c : Nat),
        relocate bitMask e ([] : List tableEntry).length [] pos c = none) ∧
      t.grow = none ∧
      t.insertEntry last = none ∧
      groupIndex overflowIndex [rowComparable] collectIx = none := by
  rcases groupIndex_wrap collectIx overflowIndex overflowIndex_nodup overflowIndex_length with
    ⟨p, last, t, hsplit, hrun, hL, hocc, hgt, hgrow, hie, h⟩
  refine ⟨p, last, t, hsplit, hrun, hL, ?_, hgt, ?_, ?_, hgrow, hie, h⟩
  · rw [hL, hocc]
    decide
  · have hnew : growthFactor * t.entries.length % 2 ^ 32 = 0 := by
      rw [hL]; decide
    rw [hnew]
    rfl
  · intro e bitMask pos c
    rfl

end grouper

namespace grouper

open column

/-! ### C4: every group lists its rows in index order, for an index of any length -/

theorem GroupBy_returns_of_length (ix : List Nat) (cs : List Comparable)
    (hlen : ix.length ≤ 2 ^ 30) : ∃ groups stats, GroupBy ix cs = some (groups, stats) := by
  rcases GroupBy_run cs ix hlen (fun _ _ => True) trivial
      (fun _ _ _ _ _ _ _ _ _ _ _ _ _ _ _ => trivial) with ⟨t, _, h2, _, _⟩
  exact ⟨_, _, h2⟩

/-- C4: for every row index `ix` and comparables, whenever `GroupBy` returns,
its groups arise from an assignment `lab` of the positions of `ix` to group
labels: each group is the list of the rows of `ix` assigned to its label, in
the order in which they occur in `ix`; hence each group is a subsequence of
`ix` and its first element is the first row of `ix` assigned to it.  `GroupBy`
does return for every index of at most `2 ^ 30` rows. -/
theorem GroupBy_groups_subsequence_of_index (ix : List Nat) (comparables : List Comparable) :
    (∀ (groups : List (List Nat)) (stats : GroupStats),
      GroupBy ix comparables = some (groups, stats) →
      (∀ g ∈ groups, List.Sublist g ix) ∧
      ∃ lab ids : List Nat, lab.length = ix.length ∧ ids.Nodup ∧ (∀ k, k ∈ lab ↔ k ∈ ids) ∧
        groups = ids.map (assigned lab ix) ∧
        ∀ k ∈ ids, (assigned lab ix k).head? = firstAssigned lab ix k ∧
          (firstAssigned lab ix k).isSome = true) ∧
    (ix.length ≤ 2 ^ 30 → ∃ groups stats, GroupBy ix comparables = some (groups, stats)) := by
  refine ⟨?_, GroupBy_returns_of_length ix comparables⟩
  intro groups stats h
  rcases GroupBy_weak_run comparables ix groups stats h Labelled (labelled_init _ _ _)
      labelled_weak with ⟨t, _, hgr, _, _, lab, ids, hl, hnd, hmem, _, hf⟩
  have hg : groups = ids.map (assigned lab ix) := by
    rw [hgr]; exact forall₂_map_members lab ix _ _ hf
  refine ⟨?_, lab, ids, hl, hnd, hmem, hg, ?_⟩
  · intro g hgm
    rw [hg, List.mem_map] at hgm
    rcases hgm with ⟨k, _, rfl⟩
    exact assigned_sublist lab ix k hl
  · intro k hk
    exact ⟨head?_assigned lab ix k, firstAssigned_isSome lab ix k hl ((hmem k).2 hk)⟩

theorem GroupBy_groups_subsequence_of_index_witness :
    (GroupBy [3, 0, 1, 3, 0] [intComparable [1, 2, 3, 1]]).map Prod.fst
      = some [[3, 0, 3, 0], [1]] ∧
    ∃ (groups : List (List Nat)) (stats : GroupStats),
      GroupBy [3, 0, 1, 3, 0] [intComparable [1, 2, 3, 1]] = some (groups, stats) ∧
      (∀ g ∈ groups, List.Sublist g [3, 0, 1, 3, 0]) ∧
      ∃ lab ids : List Nat, lab.length = [3, 0, 1, 3, 0].length ∧ ids.Nodup ∧
        (∀ k, k ∈ lab ↔ k ∈ ids) ∧
        groups = ids.map (assigned lab [3, 0, 1, 3, 0]) ∧
        ∀ k ∈ ids, (assigned lab [3, 0, 1, 3, 0] k).head? = firstAssigned lab [3, 0, 1, 3, 0] k ∧
          (firstAssigned lab [3, 0, 1, 3, 0] k).isSome = true := by
  refine ⟨by decide, ?_⟩
  have h : (GroupBy [3, 0, 1, 3, 0] [intComparable [1, 2, 3, 1]]).isSome = true := by decide
  obtain ⟨⟨groups, stats⟩, hg⟩ := Option.isSome_iff_exists.1 h
  exact ⟨groups, stats, hg,
    (GroupBy_groups_subsequence_of_index [3, 0, 1, 3, 0] [intComparable [1, 2, 3, 1]]).1
      groups stats hg⟩

/-! ### C18: `Distinct` lists the first elements of the groups, for an index of any length -/

theorem strip_run (cs : List Comparable) (ix : List Nat) :
    insertAll (newTable (calculateInitialSizeExp ix.length) cs false) ix
      = (insertAll (newTable (calculateInitialSizeExp ix.length) cs true) ix).map stripTable := by
  rw [← newTable_strip _ cs true]
  exact insertAll_strip ix _

/-- C18: for every row index `ix` and comparables, whenever `GroupBy` returns,
`Distinct` returns as many rows as `GroupBy` returns groups, and element `k` of
the result of `Distinct` is the first element of group `k` of the result of
`GroupBy`; every group is a subsequence of `ix`, so that its first element is
the row of the group seen first in `ix`.  Whenever `Distinct` returns, so does
`GroupBy`, and both return for every index of at most `2 ^ 30` rows. -/
theorem Distinct_eq_heads_of_groups (ix : List Nat) (comparables : List Comparable) :
    (∀ (groups : List (List Nat)) (stats : GroupStats),
      GroupBy ix comparables = some (groups, stats) →
      ∃ d : List Nat, Distinct ix comparables = some d ∧
        d.length = groups.length ∧
        groups.map List.head? = d.map some ∧
        (∀ k : Nat, (groups[k]?).bind List.head? = d[k]?) ∧
        (∀ g ∈ groups, List.Sublist g ix)) ∧
    (∀ d : List Nat, Distinct ix comparables = some d →
      ∃ groups stats, GroupBy ix comparables = some (groups, stats)) ∧
    (ix.length ≤ 2 ^ 30 → ∃ groups stats, GroupBy ix comparables = some (groups, stats)) := by
  refine ⟨?_, ?_, GroupBy_returns_of_length ix comparables⟩
  · intro groups stats h
    rcases GroupBy_weak_run comparables ix groups stats h
        (fun p t => Labelled p t ∧ HeadFirst p t)
        ⟨labelled_init _ _ _, headFirst_init comparables true _⟩
        (by
          intro p i t t1 t2 hz hq hperm hz1 hst
          exact ⟨labelled_weak p i t t1 t2 hz hq.1 hperm hz1 hst,
            headFirst_weak true p i t t1 t2 hz hq.2 hperm hz1 hst⟩)
      with ⟨t, h1, hgr, _, _, ⟨lab, ids, hl, _, _, _, hf⟩, hh⟩
    have hd := Distinct_eq_of_insertAll comparables ix t h1
    have hmap := map_head?_members (occ t.entries) hh
    subst hgr
    refine ⟨_, hd, by simp [groupsOf], hmap, ?_, ?_⟩
    · intro k
      have h3 := congrArg (fun l => l[k]?) hmap
      simp only [List.getElem?_map] at h3
      unfold groupsOf
      simp only [List.getElem?_map]
      cases h4 : (occ t.entries)[k]? with
      | none => simp
      | some e =>
        rw [h4] at h3
        simpa using h3
    · intro g hgm
      have hg : groupsOf t.entries = ids.map (assigned lab ix) :=
        forall₂_map_members lab ix _ _ hf
      rw [hg, List.mem_map] at hgm
      rcases hgm with ⟨k, _, rfl⟩
      exact assigned_sublist lab ix k hl
  · intro d hd
    unfold Distinct groupIndex at hd
    simp only at hd
    rw [strip_run] at hd
    cases hr : insertAll (newTable (calculateInitialSizeExp ix.length) comparables true) ix with
    | none => rw [hr] at hd; simp at hd
    | some t =>
      refine ⟨collectGroups t.entries [], finalStats t, ?_⟩
      unfold GroupBy groupIndex
      simp only [hr]
      rfl

theorem Distinct_eq_heads_of_groups_witness :
    Distinct [2, 0, 1, 3, 0] [intComparable [1, 2, 3, 1]] = some [0, 1, 2] ∧
    (GroupBy [2, 0, 1, 3, 0] [intComparable [1, 2, 3, 1]]).map Prod.fst
      = some [[0, 3, 0], [1], [2]] ∧
    ∃ (groups : List (List Nat)) (stats : GroupStats),
      GroupBy [2, 0, 1, 3, 0] [intComparable [1, 2, 3, 1]] = some (groups, stats) ∧
      ∃ d : List Nat, Distinct [2, 0, 1, 3, 0] [intComparable [1, 2, 3, 1]] = some d ∧
        d.length = groups.length ∧
        groups.map List.head? = d.map some ∧
        (∀ k : Nat, (groups[k]?).bind List.head? = d[k]?) ∧
        (∀ g ∈ groups, List.Sublist g [2, 0, 1, 3, 0]) := by
  refine ⟨by decide, by decide, ?_⟩
  have h : (GroupBy [2, 0, 1, 3, 0] [intComparable [1, 2, 3, 1]]).isSome = true := by decide
  obtain ⟨⟨groups, stats⟩, hg⟩ := Option.isSome_iff_exists.1 h
  exact ⟨groups, stats, hg,
    (Distinct_eq_heads_of_groups [2, 0, 1, 3, 0] [intComparable [1, 2, 3, 1]]).1
      groups stats hg⟩

end grouper

namespace grouper

open column

/-! ### C17: when an entry has a member slice, for an index of any length -/

theorem Distinct_returns_of_length (ix : List Nat) (cs : List Comparable)
    (hlen : ix.length ≤ 2 ^ 30) : ∃ d, Distinct ix cs = some d := by
  rcases Distinct_run cs ix hlen (fun _ _ => True) trivial
      (fun _ _ _ _ _ _ _ _ _ _ _ _ _ _ _ => trivial) with ⟨t, _, h2, _, _⟩
  exact ⟨_, h2⟩

/-- C17: for every row index `ix` and comparables: whenever `GroupBy` returns,
the rows of `ix` are assigned to the occupied entries of the final table (by a
labelling `lab` of the positions of `ix`), and an occupied entry has no member
slice exactly when exactly one row was assigned to it, that row being its first
position; otherwise its member slice is the list of the rows assigned to it,
has at least two elements and starts with the first position of the entry
followed by the second row assigned.  With member collection off (`Distinct`),
after every prefix of `ix` whose insertion returns, no entry of the table has a
member slice.  `GroupBy` and `Distinct` do return for every index of at most
`2 ^ 30` rows. -/
theorem member_slice_policy (ix : List Nat) (comparables : List Comparable) :
    (∀ (groups : List (List Nat)) (stats : GroupStats),
      GroupBy ix comparables = some (groups, stats) →
      ∃ (t : table) (lab ids : List Nat),
        insertAll (newTable (calculateInitialSizeExp ix.length) comparables true) ix = some t ∧
        groups = groupsOf t.entries ∧
        lab.length = ix.length ∧ ids.Nodup ∧ (∀ k, k ∈ lab ↔ k ∈ ids) ∧
        List.Forall₂ (fun e k =>
            (e.ix = none ↔ (assigned lab ix k).length = 1) ∧
            (e.ix = none → assigned lab ix k = [e.firstPos]) ∧
            (e.ix ≠ none → ∃ x rest, e.ix = some (e.firstPos :: x :: rest) ∧
              assigned lab ix k = e.firstPos :: x :: rest))
          (occ t.entries) ids) ∧
    (∀ (p rest : List Nat) (t : table), ix = p ++ rest →
      insertAll (newTable (calculateInitialSizeExp ix.length) comparables false) p = some t →
      ∀ e ∈ t.entries, e.ix = none) ∧
    (∀ d : List Nat, Distinct ix comparables = some d →
      ∃ t : table,
        insertAll (newTable (calculateInitialSizeExp ix.length) comparables false) ix = some t ∧
        d = (occ t.entries).map (fun e => e.firstPos) ∧
        ∀ e ∈ t.entries, e.ix = none) ∧
    (ix.length ≤ 2 ^ 30 →
      (∃ groups stats, GroupBy ix comparables = some (groups, stats)) ∧
      ∃ d, Distinct ix comparables = some d) := by
  have hpre : ∀ (p : List Nat) (t : table),
      insertAll (newTable (calculateInitialSizeExp ix.length) comparables false) p = some t →
      ∀ e ∈ t.entries, e.ix = none := by
    intro p t hrun
    rcases insertAll_weak false NoIx noIx_weak p [] _ t (by
        simp only [newTable]; exact FreeZero_replicate _) rfl (noIx_init _ _ _) hrun
      with ⟨_, _, hq⟩
    exact hq
  refine ⟨?_, fun p _ t _ hrun => hpre p t hrun, ?_,
    fun hlen => ⟨GroupBy_returns_of_length ix comparables hlen,
      Distinct_returns_of_length ix comparables hlen⟩⟩
  · intro groups stats h
    rcases GroupBy_weak_run comparables ix groups stats h
        (fun p t => Labelled p t ∧ HeadFirst p t)
        ⟨labelled_init _ _ _, headFirst_init comparables true _⟩
        (by
          intro p i t t1 t2 hz hq hperm hz1 hst
          exact ⟨labelled_weak p i t t1 t2 hz hq.1 hperm hz1 hst,
            headFirst_weak true p i t t1 t2 hz hq.2 hperm hz1 hst⟩)
      with ⟨t, h1, hgr, _, _, ⟨lab, ids, hl, hnd, hmem, _, hf⟩, hh⟩
    refine ⟨t, lab, ids, h1, hgr, hl, hnd, hmem, ?_⟩
    apply forall₂_imp_mem _ _ _ _ hf
    intro e k he hm
    rw [← hm]
    rcases hh e he with h0 | ⟨x, rest, h0⟩
    · simp [members, h0]
    · simp [members, h0]
  · intro d hd
    unfold Distinct groupIndex at hd
    simp only at hd
    cases hr : insertAll (newTable (calculateInitialSizeExp ix.length) comparables false) ix with
    | none => rw [hr] at hd; simp at hd
    | some t =>
      rw [hr] at hd
      simp only [Option.some.injEq] at hd
      refine ⟨t, rfl, ?_, hpre ix t hr⟩
      rw [← hd, collectFirst_eq]
      simp

theorem member_slice_policy_witness :
    (groupIndex [2, 0, 1, 3, 0] [intComparable [1, 2, 3, 1]] true).map
        (fun r => (occ r.1).map (fun e => (e.firstPos, e.ix)))
      = some [(0, some [0, 3, 0]), (1, none), (2, none)] ∧
    ∃ (groups : List (List Nat)) (stats : GroupStats),
      GroupBy [2, 0, 1, 3, 0] [intComparable [1, 2, 3, 1]] = some (groups, stats) ∧
      ∃ (t : table) (lab ids : List Nat),
        insertAll (newTable (calculateInitialSizeExp [2, 0, 1, 3, 0].length)
          [intComparable [1, 2, 3, 1]] true) [2, 0, 1, 3, 0] = some t ∧
        groups = groupsOf t.entries ∧
        lab.length = [2, 0, 1, 3, 0].length ∧ ids.Nodup ∧ (∀ k, k ∈ lab ↔ k ∈ ids) ∧
        List.Forall₂ (fun e k =>
            (e.ix = none ↔ (assigned lab [2, 0, 1, 3, 0] k).length = 1) ∧
            (e.ix = none → assigned lab [2, 0, 1, 3, 0] k = [e.firstPos]) ∧
            (e.ix ≠ none → ∃ x rest, e.ix = some (e.firstPos :: x :: rest) ∧
              assigned lab [2, 0, 1, 3, 0] k = e.firstPos :: x :: rest))
          (occ t.entries) ids := by
  refine ⟨by decide, ?_⟩
  have h : (GroupBy [2, 0, 1, 3, 0] [intComparable [1, 2, 3, 1]]).isSome = true := by decide
  obtain ⟨⟨groups, stats⟩, hg⟩ := Option.isSome_iff_exists.1 h
  exact ⟨groups, stats, hg,
    (member_slice_policy [2, 0, 1, 3, 0] [intComparable [1, 2, 3, 1]]).1 groups stats hg⟩

/-! ### C12: growth is triggered by the next insertion -/

theorem insertNoGrow_relocationCount (t1 t2 : table) (i : Nat)
    (h : insertNoGrow t1 i = some t2) :
    t2.stats.RelocationCount = t1.stats.RelocationCount := by
  unfold insertNoGrow at h
  simp only at h
  split at h
  · exact absurd h (by simp)
  · split at h
    · exact absurd h (by simp)
    · simp only [Option.some.injEq] at h
      rw [← h]
      unfold updateEntry
      split
      · rfl
      · split
        · split <;> rfl
        · rfl

theorem insertEntry_relocationCount (t t2 : table) (i : Nat) (h : t.insertEntry i = some t2) :
    t2.stats.RelocationCount
      = t.stats.RelocationCount + (if t.loadFactor.gt maxLoadFactor = true then 1 else 0) := by
  unfold table.insertEntry at h
  by_cases hg : t.loadFactor.gt maxLoadFactor = true
  · simp only [hg, if_true] at h ⊢
    cases hgr : t.grow with
    | none => rw [hgr] at h; simp at h
    | some t1 =>
      rw [hgr] at h
      simp only at h
      rw [insertNoGrow_relocationCount t1 t2 i h, grow_relocationCount t t1 hgr]
  · simp only [hg] at h ⊢
    simp only [Bool.false_eq_true, if_false] at h ⊢
    rw [insertNoGrow_relocationCount t t2 i h]
    rfl

/-- The relocation count of a run that returns has increased exactly when the
load factor exceeded the maximum before some row was inserted. -/
theorem insertAll_relocationCount : ∀ (rest : List Nat) (t t3 : table),
    insertAll t rest = some t3 →
    t.stats.RelocationCount ≤ t3.stats.RelocationCount ∧
    (t.stats.RelocationCount < t3.stats.RelocationCount ↔
      ∃ (p : List Nat) (i : Nat) (r : List Nat) (tp : table), rest = p ++ i :: r ∧
        insertAll t p = some tp ∧ tp.loadFactor.gt maxLoadFactor = true) := by
  intro rest
  induction rest with
  | nil =>
    intro t t3 h
    simp only [insertAll, Option.some.injEq] at h
    subst h
    refine ⟨Nat.le_refl _, ?_⟩
    constructor
    · intro h; exact absurd h (Nat.lt_irrefl _)
    · rintro ⟨p, i, r, tp, hsplit, _⟩
      cases p <;> simp at hsplit
  | cons i rest ih =>
    intro t t3 h
    unfold insertAll at h
    cases hie : t.insertEntry i with
    | none => rw [hie] at h; simp at h
    | some t2 =>
      rw [hie] at h
      simp only at h
      have hrc := insertEntry_relocationCount t t2 i hie
      rcases ih t2 t3 h with ⟨hle, hiff⟩
      by_cases hg : t.loadFactor.gt maxLoadFactor = true
      · rw [if_pos hg] at hrc
        refine ⟨by omega, ?_⟩
        constructor
        · intro _
          exact ⟨[], i, rest, t, rfl, rfl, hg⟩
        · intro _
          omega
      · rw [if_neg hg] at hrc
        refine ⟨by omega, ?_⟩
        constructor
        · intro hlt
          rcases hiff.1 (by omega) with ⟨p, j, r, tp, hsplit, hrun, hgt⟩
          refine ⟨i :: p, j, r, tp, by rw [hsplit]; rfl, ?_, hgt⟩
          simp only [insertAll, hie]
          exact hrun
        · rintro ⟨p, j, r, tp, hsplit, hrun, hgt⟩
          cases p with
          | nil =>
            simp only [insertAll, Option.some.injEq] at hrun
            subst hrun
            exact absurd hgt hg
          | cons a p =>
            simp only [List.cons_append, List.cons.injEq] at hsplit
            rcases hsplit with ⟨ha, hrest⟩
            subst ha
            simp only [insertAll, hie] at hrun
            have := hiff.2 ⟨p, j, r, tp, hrest, hrun, hgt⟩
            omega

/-- C12 (amended): for every row index `ix` and comparables on which `GroupBy`
returns, the relocation count returned is positive if and only if the load
factor of the table exceeds `0.5` after the rows of `ix` before some row `i`
of `ix` have been inserted, that is at a moment when another row is still to
be inserted; a load factor that first exceeds `0.5` with the insertion of the
last row triggers no growth.  `GroupBy` does return for every index of at most
`2 ^ 30` rows. -/
theorem GroupBy_relocation_iff_load_exceeded_before_row (ix : List Nat)
    (comparables : List Comparable) :
    (∀ (groups : List (List Nat)) (stats : GroupStats),
      GroupBy ix comparables = some (groups, stats) →
      (0 < stats.RelocationCount ↔
        ∃ (p : List Nat) (i : Nat) (rest : List Nat) (t : table), ix = p ++ i :: rest ∧
          insertAll (newTable (calculateInitialSizeExp ix.length) comparables true) p = some t ∧
          t.loadFactor.gt maxLoadFactor = true)) ∧
    (ix.length ≤ 2 ^ 30 → ∃ groups stats, GroupBy ix comparables = some (groups, stats)) := by
  refine ⟨?_, GroupBy_returns_of_length ix comparables⟩
  intro groups stats h
  rcases GroupBy_weak_run comparables ix groups stats h (fun _ _ => True) trivial
      (fun _ _ _ _ _ _ _ _ _ _ => trivial) with ⟨t, hrun, _, hst, _, _⟩
  have h2 := (insertAll_relocationCount ix _ t hrun).2
  rw [hst]
  exact h2

theorem GroupBy_relocation_iff_load_exceeded_before_row_witness :
    (GroupBy [0, 1, 2, 3, 4, 5] [intComparable [1, 2, 3, 4, 5, 6]]).map
        (fun r => (r.2.GroupCount, r.2.LoadFactor, r.2.RelocationCount))
      = some (6, ⟨6, 16⟩, 1) ∧
    (insertAll (newTable (calculateInitialSizeExp [0, 1, 2, 3, 4, 5].length)
        [intComparable [1, 2, 3, 4, 5, 6]] true) [0, 1, 2, 3, 4]).map
        (fun t => (t.loadFactor, t.loadFactor.gt maxLoadFactor)) = some (⟨5, 8⟩, true) ∧
    ∃ (groups : List (List Nat)) (stats : GroupStats),
      GroupBy [0, 1, 2, 3, 4, 5] [intComparable [1, 2, 3, 4, 5, 6]] = some (groups, stats) ∧
      (0 < stats.RelocationCount ↔
        ∃ (p : List Nat) (i : Nat) (rest : List Nat) (t : table),
          [0, 1, 2, 3, 4, 5] = p ++ i :: rest ∧
          insertAll (newTable (calculateInitialSizeExp [0, 1, 2, 3, 4, 5].length)
            [intComparable [1, 2, 3, 4, 5, 6]] true) p = some t ∧
          t.loadFactor.gt maxLoadFactor = true) := by
  refine ⟨by decide, by decide, ?_⟩
  have h : (GroupBy [0, 1, 2, 3, 4, 5] [intComparable [1, 2, 3, 4, 5, 6]]).isSome = true := by
    decide
  obtain ⟨⟨groups, stats⟩, hg⟩ := Option.isSome_iff_exists.1 h
  exact ⟨groups, stats, hg,
    (GroupBy_relocation_iff_load_exceeded_before_row [0, 1, 2, 3, 4, 5]
      [intComparable [1, 2, 3, 4, 5, 6]]).1 groups stats hg⟩

end grouper

namespace qframe

open qerrors types

/-! ### C6: "count" yields the group sizes, for an index of any length -/

/-- C6 (amended): for every row index `ix`, whenever `GroupBy` returns groups
for it, the group sizes sum to `len(ix)`; in every error-free result of
`Aggregate` on a Grouper holding these groups, the column of a spec with the
built-in function "count" holds, in row `g`, the number of rows of group `g`;
and for a well-formed Grouper without error a "count" spec on any existing
source column whose destination name is not a group-by column does yield such
a result, whatever the reduction of the column type does.  `GroupBy` does
return for every index of at most `2 ^ 30` rows. -/
theorem Aggregate_count_is_group_size (reduce : column.Column → List (List Nat) →
      SliceFuncOrBuiltInId → Except Error column.Column) (ix : List Nat)
    (comparables : List column.Comparable) (g : Grouper) :
    (∀ (groups : List (List Nat)) (stats : grouper.GroupStats),
      grouper.GroupBy ix comparables = some (groups, stats) →
      (groupSizes groups).sum = (ix.length : Int) ∧
      (g.indices = groups →
        (∀ (aggs : List Aggregation) (qf : QFrame), g.Aggregate reduce aggs = some qf →
          qf.Err = none → ∀ (j : Nat) (agg : Aggregation), aggs[j]? = some agg →
          agg.Fn = SliceFuncOrBuiltInId.builtIn "count" →
          ∃ col : namedColumn, qf.columns[g.groupedColumns.length + j]? = some col ∧
            col.Column = icolumn.New (groupSizes groups) ∧
            ∀ (gi : Nat) (grp : List Nat), groups[gi]? = some grp →
              col.Column.data[gi]? = some (column.Value.int grp.length)) ∧
        (g.WellFormed → g.Err = none → ∀ (agg : Aggregation),
          agg.Fn = SliceFuncOrBuiltInId.builtIn "count" →
          g.columnsByName.get agg.Column ≠ none → agg.destName ∉ g.groupedColumns →
          ∃ qf, g.Aggregate reduce [agg] = some qf ∧ qf.Err = none))) ∧
    (ix.length ≤ 2 ^ 30 →
      ∃ groups stats, grouper.GroupBy ix comparables = some (groups, stats)) := by
  refine ⟨?_, grouper.GroupBy_returns_of_length ix comparables⟩
  intro groups stats hgb
  rcases grouper.GroupBy_weak_run comparables ix groups stats hgb
      (fun p t => List.Perm (grouper.groupsOf t.entries).flatten p) (by
        show List.Perm (grouper.groupsOf (grouper.newTable _ comparables true).entries).flatten []
        simp [grouper.newTable, grouper.groupsOf_replicate_zero])
      grouper.flatten_groups_weak with ⟨t, _, hgr, _, _, h4⟩
  subst hgr
  refine ⟨?_, ?_⟩
  · rw [sum_groupSizes, h4.length_eq]
  · intro hg
    constructor
    · intro aggs qf h hqerr j agg hj hfn
      rcases Aggregate_ok_columns reduce g aggs qf h hqerr with
        ⟨cols0, newCols, hc1, hlen0, _, hspec⟩
      rcases hspec j agg hj with ⟨src, col, _, hcol, _, _, hval⟩
      rw [if_pos hfn, hg] at hval
      have hcol1 : qf.columns[g.groupedColumns.length + j]? = some col := by
        rw [hc1, ← hlen0, List.getElem?_append_right (by omega)]
        simpa using hcol
      refine ⟨col, hcol1, hval, ?_⟩
      intro gi grp hgi
      rw [hval]
      exact groupSizes_getElem? _ gi grp hgi
    · intro hwf herr agg hfn hsrc hdst
      rcases Aggregate_preamble g hwf with ⟨fe, m0, cols0, hfe, hgl⟩
      rcases groupedLoop_spec g fe _ _ _ _ _ _ hgl with ⟨_, _, _, _, hkeys⟩
      have hnone : m0.get agg.destName = none := by
        cases hm : m0.get agg.destName with
        | none => rfl
        | some c =>
          exfalso
          have := (hkeys agg.destName).1 (by rw [hm]; rfl)
          rcases this with h | h
          · exact hdst h
          · simp [ColumnMap.get] at h
      cases hs : g.columnsByName.get agg.Column with
      | none => exact absurd hs hsrc
      | some src =>
        rcases aggLoop_count_single reduce g agg m0 cols0 src hfn hs hnone with ⟨⟨m1, cols1⟩, hr⟩
        refine ⟨{ columns := cols1, columnsByName := m1,
                  index := index.NewAscending (g.indices.length % 2 ^ 32), Err := none }, ?_, rfl⟩
        unfold Grouper.Aggregate
        simp only [herr, hfe, hgl, hr]

theorem Aggregate_count_is_group_size_witness :
    (grouper.GroupBy [0, 1, 2, 3] [grouper.intComparable [1, 2, 3, 1]]).map Prod.fst
      = some [[0, 3], [1], [2]] ∧
    scenarioGrouper.indices = [[0, 3], [1], [2]] ∧
    groupSizes [[0, 3], [1], [2]] = [2, 1, 1] ∧ (groupSizes [[0, 3], [1], [2]]).sum = 4 ∧
    scenarioGrouper.Aggregate reduceFail [⟨SliceFuncOrBuiltInId.builtIn "count", "A", "n"⟩]
      = some { columns := [⟨icolumn.New [1, 2, 3], "A", 0⟩, ⟨icolumn.New [2, 1, 1], "n", 0⟩]
               columnsByName := [("A", ⟨icolumn.New [1, 2, 3], "A", 0⟩),
                 ("n", ⟨icolumn.New [2, 1, 1], "n", 0⟩)]
               index := [0, 1, 2]
               Err := none } ∧
    ∃ (groups : List (List Nat)) (stats : grouper.GroupStats),
      grouper.GroupBy [0, 1, 2, 3] [grouper.intComparable [1, 2, 3, 1]]
        = some (groups, stats) ∧
      (groupSizes groups).sum = (([0, 1, 2, 3] : List Nat).length : Int) ∧
      (scenarioGrouper.indices = groups →
        (∀ (aggs : List Aggregation) (qf : QFrame),
          scenarioGrouper.Aggregate reduceFail aggs = some qf →
          qf.Err = none → ∀ (j : Nat) (agg : Aggregation), aggs[j]? = some agg →
          agg.Fn = SliceFuncOrBuiltInId.builtIn "count" →
          ∃ col : namedColumn,
            qf.columns[scenarioGrouper.groupedColumns.length + j]? = some col ∧
            col.Column = icolumn.New (groupSizes groups) ∧
            ∀ (gi : Nat) (grp : List Nat), groups[gi]? = some grp →
              col.Column.data[gi]? = some (column.Value.int grp.length)) ∧
        (scenarioGrouper.WellFormed → scenarioGrouper.Err = none → ∀ (agg : Aggregation),
          agg.Fn = SliceFuncOrBuiltInId.builtIn "count" →
          scenarioGrouper.columnsByName.get agg.Column ≠ none →
          agg.destName ∉ scenarioGrouper.groupedColumns →
          ∃ qf, scenarioGrouper.Aggregate reduceFail [agg] = some qf ∧ qf.Err = none)) := by
  refine ⟨by decide, rfl, by decide, by decide, by decide, ?_⟩
  have h : (grouper.GroupBy [0, 1, 2, 3] [grouper.intComparable [1, 2, 3, 1]]).isSome = true := by
    decide
  obtain ⟨⟨groups, stats⟩, hg⟩ := Option.isSome_iff_exists.1 h
  exact ⟨groups, stats, hg,
    (Aggregate_count_is_group_size reduceFail [0, 1, 2, 3] [grouper.intComparable [1, 2, 3, 1]]
      scenarioGrouper).1 groups stats hg⟩

/-! ### C23: no group is empty, for an index of any length -/

/-- C23: for every row index `ix` and comparables, whenever `GroupBy` returns,
none of its groups is empty, and there is no group at all when `ix` is empty
(for which `GroupBy` does return); hence the first loop of `Aggregate`, which
reads `ix[0]` of every group, stays in range on every Grouper whose groups are
those returned by `GroupBy`: it yields the first row of each group.  `GroupBy`
does return for every index of at most `2 ^ 30` rows. -/
theorem GroupBy_returns_nonempty_groups (ix : List Nat)
    (comparables : List column.Comparable) :
    (∀ (groups : List (List Nat)) (stats : grouper.GroupStats),
      grouper.GroupBy ix comparables = some (groups, stats) →
      (∀ g ∈ groups, g ≠ []) ∧
      (ix = [] → groups = []) ∧
      ∀ g : Grouper, g.indices = groups →
        ∃ firstElementIx, firstElements g.indices = some firstElementIx ∧
          List.Forall₂ (fun ix first => ix.head? = some first) g.indices firstElementIx) ∧
    (grouper.GroupBy [] comparables).map Prod.fst = some [] ∧
    (ix.length ≤ 2 ^ 30 →
      ∃ groups stats, grouper.GroupBy ix comparables = some (groups, stats)) := by
  refine ⟨?_, ?_, grouper.GroupBy_returns_of_length ix comparables⟩
  · intro groups stats hgb
    rcases grouper.GroupBy_weak_run comparables ix groups stats hgb grouper.HeadFirst
        (grouper.headFirst_init comparables true _) (grouper.headFirst_weak true)
      with ⟨t, h1, hgr, _, _, hh⟩
    subst hgr
    have hne : ∀ g ∈ grouper.groupsOf t.entries, g ≠ [] := by
      intro g hg
      rcases List.mem_map.1 hg with ⟨e, he, rfl⟩
      rcases grouper.members_eq_cons e (hh e he) with ⟨rest, hr⟩
      rw [hr]
      simp
    refine ⟨hne, ?_, ?_⟩
    · intro hix
      subst hix
      simp only [grouper.insertAll, Option.some.injEq] at h1
      rw [← h1]
      simp [grouper.newTable, grouper.groupsOf_replicate_zero]
    · intro g hg
      rcases firstElements_isSome g.indices (by rw [hg]; exact hne) with ⟨fe, hfe⟩
      exact ⟨fe, hfe, firstElements_spec _ _ hfe⟩
  · unfold grouper.GroupBy grouper.groupIndex
    simp [grouper.insertAll, grouper.collectGroups_eq, grouper.newTable,
      grouper.groupsOf_replicate_zero]

theorem GroupBy_returns_nonempty_groups_witness :
    (grouper.GroupBy [0, 1, 2, 3] [grouper.intComparable [1, 2, 3, 1]]).map Prod.fst
      = some scenarioGrouper.indices ∧
    firstElements scenarioGrouper.indices = some [0, 1, 2] ∧
    ∃ (groups : List (List Nat)) (stats : grouper.GroupStats),
      grouper.GroupBy [0, 1, 2, 3] [grouper.intComparable [1, 2, 3, 1]]
        = some (groups, stats) ∧
      (∀ g ∈ groups, g ≠ []) ∧
      (([0, 1, 2, 3] : List Nat) = [] → groups = []) ∧
      ∀ g : Grouper, g.indices = groups →
        ∃ firstElementIx, firstElements g.indices = some firstElementIx ∧
          List.Forall₂ (fun ix first => ix.head? = some first) g.indices firstElementIx := by
  refine ⟨by decide, by decide, ?_⟩
  have h : (grouper.GroupBy [0, 1, 2, 3] [grouper.intComparable [1, 2, 3, 1]]).isSome = true := by
    decide
  obtain ⟨⟨groups, stats⟩, hg⟩ := Option.isSome_iff_exists.1 h
  exact ⟨groups, stats, hg,
    (GroupBy_returns_nonempty_groups [0, 1, 2, 3] [grouper.intComparable [1, 2, 3, 1]]).1
      groups stats hg⟩

end qframe

namespace grouper

open column

/-! ### A permutation on which `GroupBy` returns while the original fails -/

/-- Inserting a row whose key is already in the table keeps the invariant with
the same bound on the number of groups. -/
theorem insertEntry_known_key (cs : List Comparable) (hk : KeyLaws cs) (b : Bool) (n : Nat)
    (t : table) (i : Nat) (hinv : Inv cs b n t) (hn : n ≤ 2 ^ 30)
    (hK1 : ∀ e ∈ occ t.entries, e.hash = hashOf cs e.firstPos)
    (hex : ∃ e ∈ occ t.entries, equals cs i e.firstPos = true) :
    ∃ t2, t.insertEntry i = some t2 ∧ Inv cs b n t2 := by
  rcases insertEntry_spec_le cs b n t i hinv hn with
    ⟨t1, t2, _, _, hie, hinv1, hperm, hst, hinv2⟩
  refine ⟨t2, hie, ?_⟩
  rcases hst with ⟨l1, l2, d, he1, _, _, hl1, hpath, _⟩ | ⟨_, _, _, _, _, _, _, _, _, hgc, _, _⟩
  · exfalso
    rcases hinv1.len with ⟨k, _, _, hlen⟩
    have hL : 0 < t1.entries.length := by rw [hlen]; exact Nat.two_pow_pos k
    have hfresh := new_key_fresh cs hk t1.entries l1 l2 i d hL he1 hl1 hpath hinv1.chain
      (fun e he => hK1 e (hperm.mem_iff.1 he))
    rcases hex with ⟨e, he, hie1⟩
    rw [hfresh e (hperm.mem_iff.2 he)] at hie1
    cases hie1
  · exact ⟨hinv2.comparables, hinv2.collectIx, hinv2.len, hinv2.count, hinv2.load, hinv2.den,
      hinv2.half, by rw [hgc]; exact hinv1.rows, hinv2.chain, hinv2.freeZero⟩

theorem groupIndex_none_of_insertAll (ix : List Nat) (cs : List Comparable) (b : Bool)
    (k : Nat) (hexp : calculateInitialSizeExp ix.length = k)
    (h : insertAll (newTable k cs b) ix = none) : groupIndex ix cs b = none := by
  unfold groupIndex
  simp only [hexp]
  rw [h]

theorem groupIndex_some_of_insertAll (ix : List Nat) (cs : List Comparable) (b : Bool)
    (k : Nat) (t : table) (hexp : calculateInitialSizeExp ix.length = k)
    (h : insertAll (newTable k cs b) ix = some t) : ∃ r, groupIndex ix cs b = some r := by
  unfold groupIndex
  simp only [hexp]
  rw [h]
  exact ⟨_, rfl⟩

/-- The rows seen so far are covered by the occupied entries of the table. -/
theorem covered_preserved (cs : List Comparable) (hk : KeyLaws cs) (b : Bool) :
    Preserved cs b (fun q t => ∀ a ∈ q, ∃ e ∈ occ t.entries, equals cs a e.firstPos = true) := by
  intro q i n t t1 t2 hinv hn hq hg hinv1 hperm hins hst hinv2
  intro a ha
  have hq1 : ∀ a ∈ q, ∃ e ∈ occ t1.entries, equals cs a e.firstPos = true := by
    intro a ha
    rcases hq a ha with ⟨e, he, hae⟩
    exact ⟨e, hperm.mem_iff.2 he, hae⟩
  rcases hst with ⟨l1, l2, d, he1, he2, _⟩ |
    ⟨l1, l2, old, d, he1, hocc, _, heq, he2, _⟩
  · rcases List.mem_append.1 ha with h | h
    · rcases hq1 a h with ⟨e, he, hae⟩
      refine ⟨e, ?_, hae⟩
      rw [he1, occ_append, occ_cons_free _ _ (by simp [tableEntry.zero])] at he
      rw [he2, occ_append, occ_cons_occupied _ _ (by simp)]
      rcases List.mem_append.1 he with h1 | h1
      · exact List.mem_append_left _ h1
      · exact List.mem_append_right _ (List.mem_cons_of_mem _ h1)
    · simp only [List.mem_singleton] at h
      subst h
      refine ⟨⟨none, hashOf cs a, a, true⟩, ?_, hk.refl a⟩
      rw [he2, occ_append, occ_cons_occupied _ _ (by simp)]
      simp
  · have hkeep : ∀ e ∈ occ t1.entries, ∃ e1 ∈ occ t2.entries,
        e1.firstPos = e.firstPos := by
      intro e he
      rw [he1, occ_append, occ_cons_occupied _ _ hocc] at he
      rw [he2, occ_append, occ_cons_occupied _ _ (by cases b <;> simp [hocc])]
      rcases List.mem_append.1 he with h | h
      · exact ⟨e, List.mem_append_left _ h, rfl⟩
      · rcases List.mem_cons.1 h with h | h
        · subst h
          exact ⟨_, List.mem_append_right _ (List.mem_cons_self _ _), by cases b <;> rfl⟩
        · exact ⟨e, List.mem_append_right _ (List.mem_cons_of_mem _ h), rfl⟩
    rcases List.mem_append.1 ha with h | h
    · rcases hq1 a h with ⟨e, he, hae⟩
      rcases hkeep e he with ⟨e1, he1', hfp⟩
      exact ⟨e1, he1', by rw [hfp]; exact hae⟩
    · simp only [List.mem_singleton] at h
      subst h
      have hold : old ∈ occ t1.entries := by
        rw [he1, occ_append, occ_cons_occupied _ _ hocc]; simp
      rcases hkeep old hold with ⟨e1, he1', hfp⟩
      exact ⟨e1, he1', by rw [hfp]; exact heq⟩

/-- Grouping `a, a2, r₁, ..., rₙ` with `n = 2 ^ 30` rows, where `a2` has the
key of `a`, returns: the table never holds more than `2 ^ 30` groups before a
row is inserted, half of `2 ^ 31` entries, so that a table of `2 ^ 31` entries
does not grow. -/
theorem groupIndex_repeated_second (cs : List Comparable) (hk : KeyLaws cs) (b : Bool)
    (a a2 : Nat) (heq : equals cs a2 a = true) (R : List Nat) (hlen : R.length = 2 ^ 30) :
    ∃ r, groupIndex (a :: a2 :: R) cs b = some r := by
  have hinv0 := newTable_inv_sized cs b 29 (by decide) (by decide)
  -- the first row
  rcases insertAll_invariant_le cs b
      (fun q t => Keyed cs q t ∧
        ∀ a ∈ q, ∃ e ∈ occ t.entries, equals cs a e.firstPos = true)
      (by
        intro q i n t t1 t2 hinv hn hq hg hinv1 hperm hins hst hinv2
        exact ⟨keyed_preserved cs b hk q i n t t1 t2 hinv hn
            hq.1 hg hinv1 hperm hins hst hinv2,
          covered_preserved cs hk b q i n t t1 t2 hinv hn
            hq.2 hg hinv1 hperm hins hst hinv2⟩)
      [a] [] 0 (newTable 29 cs b) hinv0 rfl (by simp)
      ⟨keyed_init cs b 29, by intro a ha; simp at ha⟩ with
    ⟨ta, hrun1, hinv1, hkey1, hcov1⟩
  simp only [List.nil_append, List.length_singleton, Nat.zero_add] at hinv1 hkey1 hcov1
  -- the row with the key of the first
  rcases hcov1 a (by simp) with ⟨e, he, hae⟩
  rcases insertEntry_known_key cs hk b 1 ta a2 hinv1
      (by decide) hkey1.1 ⟨e, he, hk.trans _ _ _ heq hae⟩ with ⟨tb, hie2, hinv2⟩
  -- the remaining rows
  rcases insertAll_invariant_le cs b (fun _ _ => True)
      (fun _ _ _ _ _ _ _ _ _ _ _ _ _ _ _ => trivial)
      R [a] 1 tb hinv2 rfl (by rw [hlen]; omega) trivial with ⟨t3, hrun3, _, _⟩
  have hall : insertAll (newTable 29 cs b) (a :: a2 :: R) = some t3 := by
    have h1 : a :: a2 :: R = [a] ++ (a2 :: R) := rfl
    rw [h1, insertAll_append, hrun1]
    show insertAll ta (a2 :: R) = some t3
    simp only [insertAll, hie2]
    exact hrun3
  have hl : (a :: a2 :: R).length = 2 ^ 30 + 2 := by
    rw [List.length_cons, List.length_cons, hlen]
  have hexp : calculateInitialSizeExp (a :: a2 :: R).length = 29 := by
    rw [hl]; exact calculateInitialSizeExp_overflow
  exact groupIndex_some_of_insertAll _ _ b 29 t3 hexp hall

theorem equals_cyclicComparable (i j : Nat) :
    equals [cyclicComparable] i j = decide (i % (2 ^ 30 + 1) = j % (2 ^ 30 + 1)) := by
  simp only [equals, cyclicComparable]
  generalize i % (2 ^ 30 + 1) = x
  generalize j % (2 ^ 30 + 1) = y
  by_cases h : x = y
  · simp [h]
  · by_cases h1 : x < y <;> simp [h, h1]

theorem cyclicComparable_keyLaws : KeyLaws [cyclicComparable] := by
  refine ⟨?_, ?_, ?_, ?_⟩
  · intro a; simp [equals_cyclicComparable]
  · intro a b h
    simp only [equals_cyclicComparable, decide_eq_true_eq] at h ⊢
    exact h.symm
  · intro a b c h1 h2
    simp only [equals_cyclicComparable, decide_eq_true_eq] at h1 h2 ⊢
    exact h1.trans h2
  · intro a b h
    simp only [equals_cyclicComparable, decide_eq_true_eq] at h
    simp only [hashOf, cyclicComparable, List.foldl_cons, List.foldl_nil]
    rw [h]

theorem range_perm_last_second (N : Nat) :
    List.Perm (List.range (N + 2)) (0 :: (N + 1) :: List.range' 1 N) := by
  show List.Perm (List.range (N + 1 + 1)) _
  rw [List.range_succ, List.range_eq_range', List.range'_succ]
  have h : (0 :: List.range' (0 + 1) N) ++ [N + 1] = 0 :: (List.range' 1 N ++ [N + 1]) := by
    simp
  rw [h]
  exact List.Perm.cons 0 List.perm_append_comm

theorem overflowIndex_perm : List.Perm overflowIndex permutedIndex := by
  unfold overflowIndex permutedIndex
  exact range_perm_last_second (2 ^ 30)

theorem range_pairwise_cyclic (M : Nat) (c : Comparable)
    (hc : ∀ i j, i < M → j < M → i ≠ j → equals [c] i j = false) :
    (List.range M).Pairwise (fun a b => equals [c] a b = false) := by
  refine List.Pairwise.imp_of_mem ?_ (List.pairwise_lt_range M)
  intro a b ha hb hab
  exact hc a b (List.mem_range.1 ha) (List.mem_range.1 hb) (Nat.ne_of_lt hab)

/-- Grouping `0, 1, ..., 2 ^ 30 + 1` by the value `i % (2 ^ 30 + 1)` fails: when
the last row arrives the table of `2 ^ 31` entries holds `2 ^ 30 + 1` groups and
must grow. -/
theorem groupIndex_overflowIndex_cyclic (b : Bool) :
    groupIndex overflowIndex [cyclicComparable] b = none := by
  have hpw : (List.range (2 ^ 30 + 1)).Pairwise
      (fun a c => equals [cyclicComparable] a c = false) := by
    refine range_pairwise_cyclic _ _ ?_
    intro i j hi hj hij
    rw [equals_cyclicComparable, Nat.mod_eq_of_lt hi, Nat.mod_eq_of_lt hj]
    simpa using hij
  rcases insertAll_wrap [cyclicComparable] cyclicComparable_keyLaws b 29 (by decide) (by decide)
      (List.range (2 ^ 30 + 1)) hpw (List.length_range _) with
    ⟨t, _, _, _, _, _, hall⟩
  have hnone := (hall (2 ^ 30 + 1) []).2
  rw [← List.range_succ] at hnone
  have hexp : calculateInitialSizeExp overflowIndex.length = 29 := by
    rw [overflowIndex_length]; exact calculateInitialSizeExp_overflow
  exact groupIndex_none_of_insertAll _ _ b 29 hexp hnone

/-- Grouping `0, 2 ^ 30 + 1, 1, 2, ..., 2 ^ 30` by the value `i % (2 ^ 30 + 1)`
returns. -/
theorem groupIndex_permutedIndex_cyclic (b : Bool) :
    ∃ r, groupIndex permutedIndex [cyclicComparable] b = some r := by
  unfold permutedIndex
  refine groupIndex_repeated_second [cyclicComparable] cyclicComparable_keyLaws b 0 (2 ^ 30 + 1)
    ?_ _ (List.length_range' _ _ _)
  rw [equals_cyclicComparable]
  simp

theorem GroupBy_some_of_groupIndex (ix : List Nat) (cs : List Comparable)
    (h : ∃ r, groupIndex ix cs true = some r) :
    ∃ groups stats, GroupBy ix cs = some (groups, stats) := by
  rcases h with ⟨⟨entries, stats⟩, h⟩
  unfold GroupBy
  rw [h]
  exact ⟨_, _, rfl⟩

end grouper

namespace grouper

open column

/-- C5 (the code at the failing input): the rows `0, ..., 2 ^ 30 + 1` grouped by
the value `i % (2 ^ 30 + 1)`, an equivalence consistent with the hash.  For the
index `ix = 0, 2 ^ 30 + 1, 1, 2, ..., 2 ^ 30` `GroupBy` returns groups; for its
permutation `0, 1, ..., 2 ^ 30 + 1` `GroupBy` returns no groups. -/
theorem GroupBy_permutation_fails_where_index_groups :
    KeyLaws [cyclicComparable] ∧
    List.Perm overflowIndex permutedIndex ∧ overflowIndex.Nodup ∧
    (∃ groups stats, GroupBy permutedIndex [cyclicComparable] = some (groups, stats)) ∧
    GroupBy overflowIndex [cyclicComparable] = none := by
  exact ⟨cyclicComparable_keyLaws, overflowIndex_perm, overflowIndex_nodup,
    GroupBy_some_of_groupIndex _ _ (groupIndex_permutedIndex_cyclic true),
    GroupBy_none_of_groupIndex _ _ (groupIndex_overflowIndex_cyclic true)⟩

end grouper
